import Mathlib

/-!
# Nearness: maximal-clique enumeration and neighbourhood graphs

A shallow embedding of the maximal-clique tools of the repository:

* `recursive/src/recursive.hpp`: `greatest_cand`, `remaining_v`, the recursive
  `clique_enumerate` and `clique_enumerate_iterative`;
* `src/convert_features.hpp`: `distance`, `read_features_fast`, `features_to_graph` and the
  combining overload of `features_to_graph`;
* `src/nearness.cpp`: `nearness_mce`, `nearness_task_mce`, the partial graphs of `run_mce`,
  the cost matrix of `nearness_task_sgmd`, `output_results`, the validation of the
  arguments in `main` and the assertions of `run_mce` and `run_sgmd`;
* `maximal_clique_basic_includes.hpp`: `clique_to_string`, `clique_compare`;
* `recursive/src/maximal_clique.cpp`: the cliques written by `main`;
* `graphchi/myapps/convert_features.hpp`: `distance`, `read_features`,
  `read_features_fast`;
* `graphchi/myapps/maximal_clique.cpp`: the vertex program `MaximalClique`
  (`update`, `initialize`, `get_neighbours`, `start`, `handle_messages`,
  `clique_enumerate`, `save_clique`, `after_iteration`).

Conventions.  An `IdSet` (`std::bitset<MAX_VERTICES>`) is the finite set of the
positions of its set bits.  `std::bitset::set` and `std::bitset::reset` throw
`std::out_of_range` for a position `>= MAX_VERTICES`; a thrown exception, a
failed `assert` and exhausted fuel are the result `none`.  A callback
`boost::function<void(IdSet)>` is embedded by the list of the sets it is
called with, in call order.  `float` values are rationals (exact arithmetic), and a
quotient by zero is `none`; the one quotient whose value is stored whatever
it is, `numerator / denominator` in `nearness_task_mce`, is a stored value
`none` for `denominator = 0`.  The counter `int denominator` is an integer in
`[-2^31, 2^31)`, and an addition to it wraps modulo `2^32` (`int_wrap`).  The
reads `graph_b[i]`, `objects[i]`, `partial_graphs[i]`, `subset_sizes[i][k]` and
the writes `tmp[i]`, `ptrs[i]` past the end of their vector are `none`.
A text file is the list of the lines that `fgets` returns, `atof` is a parameter, and
a line of the nearness output is the triple of the values it holds.  The calls
of the recursive enumerator are the argument triples `(clique, cands, nots)` in
call order (`clique_enumerate_calls`); the cliques emitted are read off them.
The events of the recursive enumerator (`clique_enumerate_events`) list the
recursive calls and the ends of the passes of its loop in execution order, for a
recursion cut at a given depth, with the reason for which the run stopped early.
The graph engine that drives `MaximalClique` is not part of the repository: a
`World` holds the globals and members of the program together with the vertex
values, edge values and scheduler of the engine, and a run is a sequence of
vertex updates, one at a time.
-/

namespace Nearness

/-! ## Data model (`maximal_clique_basic_includes.hpp`) -/

/-- The constant `MAX_VERTICES`, the width of the fixed bitset. -/
def MAX_VERTICES : Nat := 512

/-- The type `IdSet = std::bitset<MAX_VERTICES>`, as the set of set positions. -/
abbrev IdSet := Finset Nat

/-- The type `std::vector<IdSet>`: row `i` holds the neighbours of vertex `i`. -/
abbrev Graph := List IdSet

/-- The row `graph[i]`. -/
def row (graph : Graph) (i : Nat) : IdSet := graph.getD i ∅

/-- The call `s.set(pos)` of `std::bitset`: out of range positions throw. -/
def bitset_set (s : IdSet) (pos : Nat) : Option IdSet :=
  if pos < MAX_VERTICES then some (insert pos s) else none

/-- The call `s.reset(pos)` of `std::bitset`: out of range positions throw. -/
def bitset_reset (s : IdSet) (pos : Nat) : Option IdSet :=
  if pos < MAX_VERTICES then some (s.erase pos) else none

/-! ## The recursive enumerator (`recursive/src/recursive.hpp`) -/

/-- The body of the `for` loop of `greatest_cand` on the state
`(fixp, num_neighbours)`: a candidate replaces the pivot only on a strictly
greater count. -/
def greatest_step (cands : IdSet) (graph : Graph) (st : Option Nat × Int) (i : Nat) :
    Option Nat × Int :=
  if i ∈ cands then
    if ((cands ∩ row graph i).card : Int) > st.2 then
      (some i, ((cands ∩ row graph i).card : Int)) else st
  else st

/-- The function `greatest_cand`: the loop runs over `i < graph.size()` from the state
`(NONE, -1)` and returns `fixp`. -/
def greatest_cand (cands : IdSet) (graph : Graph) : Option Nat :=
  ((List.range graph.length).foldl (greatest_step cands graph) (none, -1)).1

/-- The function `remaining_v`: the first `i < graph.size()` with `cands[i]` and
`!graph[fixp][i]`, or `NONE`. -/
def remaining_v (cands : IdSet) (fixp : Nat) (graph : Graph) : Option Nat :=
  if cands.Nonempty then
    (List.range graph.length).find? (fun i => decide (i ∈ cands ∧ i ∉ row graph fixp))
  else none

/-- The `do ... while (cur_v != NONE)` loop of `clique_enumerate`; `recurse` is the
recursive call, the result is the list of emitted cliques.  The first argument
bounds the number of passes. -/
def clique_loop (graph : Graph) (recurse : IdSet → IdSet → IdSet → Option (List IdSet))
    (fixp : Nat) : Nat → Nat → IdSet → IdSet → IdSet → Option (List IdSet)
  | 0, _, _, _, _ => none
  | fuel + 1, cur_v, clique, cands, nots => do
    let new_clique ← bitset_set clique cur_v
    let new_nots := row graph cur_v ∩ nots
    let new_cands := row graph cur_v ∩ cands
    let out ← recurse new_clique new_cands new_nots
    let nots ← bitset_set nots cur_v
    let cands ← bitset_reset cands cur_v
    match remaining_v cands fixp graph with
    | none => some out
    | some next_v => do
      let rest ← clique_loop graph recurse fixp fuel next_v clique cands nots
      some (out ++ rest)

/-- The five-argument `clique_enumerate(clique, cands, nots, graph, callback)`.  The
fuel bounds the recursion depth; the loop is given `|cands|` passes, since every
pass resets one set bit of `cands`. -/
def clique_enumerate_rec (graph : Graph) : Nat → IdSet → IdSet → IdSet → Option (List IdSet)
  | 0, _, _, _ => none
  | fuel + 1, clique, cands, nots =>
    if cands = ∅ then
      (if nots = ∅ then some [clique] else some [])
    else
      match greatest_cand cands graph with
      | none => none
      | some fixp =>
        clique_loop graph (clique_enumerate_rec graph fuel) fixp cands.card fixp clique cands
          nots

/-- The loop `for (i = 0; i < graph.size(); ++i) start_cands.set(i)`. -/
def start_cands (graph : Graph) : Option IdSet :=
  (List.range graph.length).foldlM (fun s i => bitset_set s i) ∅

/-- The entry point `clique_enumerate(graph, callback)`, and with it
`clique_enumerate(graph, results)` on an empty `results`.  The fuel
`graph.size() + 1` is never exhausted on an irreflexive graph
(`clique_enumerate_rec_spec`). -/
def clique_enumerate (graph : Graph) : Option (List IdSet) := do
  let cands ← start_cands graph
  clique_enumerate_rec graph (graph.length + 1) ∅ cands ∅

/-- The `struct State` of the iterative enumerator. -/
structure State where
  /-- The clique built so far. -/
  clique : IdSet
  /-- The candidates. -/
  cands : IdSet
  /-- The excluded vertices. -/
  nots : IdSet

/-- The `do ... while (cur_v != NONE)` loop of `clique_enumerate_iterative`: every pass
pushes one state.  The stack `states` has its back at the head of the list. -/
def iterative_loop (graph : Graph) (fixp : Nat) :
    Nat → Nat → IdSet → IdSet → IdSet → List State → Option (List State)
  | 0, _, _, _, _, _ => none
  | fuel + 1, cur_v, clique, cands, nots, states => do
    let new_clique ← bitset_set clique cur_v
    let new_nots := row graph cur_v ∩ nots
    let new_cands := row graph cur_v ∩ cands
    let states := State.mk new_clique new_cands new_nots :: states
    let nots ← bitset_set nots cur_v
    let cands ← bitset_reset cands cur_v
    match remaining_v cands fixp graph with
    | none => some states
    | some next_v => iterative_loop graph fixp fuel next_v clique cands nots states

/-- The `while (!states.empty())` loop of `clique_enumerate_iterative`; the fuel bounds
the number of states popped. -/
def iterative_while (graph : Graph) : Nat → List State → List IdSet → Option (List IdSet)
  | _, [], results => some results
  | 0, _ :: _, _ => none
  | fuel + 1, state :: states, results =>
    if state.cands = ∅ then
      (if state.nots = ∅ then iterative_while graph fuel states (results ++ [state.clique])
       else iterative_while graph fuel states results)
    else
      match greatest_cand state.cands graph with
      | none => none
      | some fixp =>
        match iterative_loop graph fixp state.cands.card fixp state.clique state.cands
            state.nots states with
        | none => none
        | some states => iterative_while graph fuel states results

/-- The function `clique_enumerate_iterative(graph, results)`. -/
def clique_enumerate_iterative (graph : Graph) (fuel : Nat) (results : List IdSet) :
    Option (List IdSet) := do
  let cands ← start_cands graph
  iterative_while graph fuel [State.mk ∅ cands ∅] results

/-! ## The neighbourhood graph builder (`src/convert_features.hpp`) -/

/-- The function `distance(objects_a, objects_b, a, b, size)`: the squared Euclidean distance
of the `size` values from index `a` of `objects_a` and from index `b` of
`objects_b`. -/
def distance (objects_a objects_b : List ℚ) (a b size : Nat) : ℚ :=
  (List.range size).foldl
    (fun sum i =>
      let x := objects_a.getD (a + i) 0 - objects_b.getD (b + i) 0
      sum + x * x)
    0

/-- The call `results.resize(n)` on a vector of bitsets: new rows are empty. -/
def resize (results : Graph) (n : Nat) : Graph :=
  results.take n ++ List.replicate (n - results.length) ∅

/-- The statement `results[i].set(pos)`. -/
def set_bit (results : Graph) (i pos : Nat) : Option Graph :=
  (bitset_set (row results i) pos).map (fun r => results.set i r)

/-- The two statements `results[i].set(j); results[j].set(i);`. -/
def link (results : Graph) (i j : Nat) : Option Graph := do
  let results ← set_bit results i j
  set_bit results j i

/-- The function `features_to_graph(features, results, epsilon, num_features)` of
`src/convert_features.hpp`.  The division by `num_features = 0` and the failed
assertion are `none`; index arithmetic is exact. -/
def features_to_graph (features : List ℚ) (results : Graph) (epsilon : ℚ)
    (num_features : Nat) : Option Graph :=
  if num_features = 0 then none
  else if features.length % num_features ≠ 0 then none
  else
    let num_objects := features.length / num_features
    let results := resize results num_objects
    let sqr_epsilon := epsilon * epsilon
    (List.range num_objects).foldlM
      (fun results i =>
        (List.range' (i + 1) (num_objects - (i + 1))).foldlM
          (fun results j =>
            if distance features features (i * num_features) (j * num_features) num_features
                < sqr_epsilon then
              link results i j
            else some results)
          results)
      results

/-! ## The GraphChi-side graph builder (`graphchi/myapps/convert_features.hpp`) -/

/-- The four-argument `distance(objects, a, b, size)` of
`graphchi/myapps/convert_features.hpp`. -/
def graphchi_distance (objects : List ℚ) (a b size : Nat) : ℚ :=
  (List.range size).foldl
    (fun sum i =>
      let x := objects.getD (a + i) 0 - objects.getD (b + i) 0
      sum + x * x)
    0

/-- The reading loop of `read_features` and of `read_features_fast`: the buffer
`objects(MAX_VERTICES * num_features)` is zero-initialised and
`objects[lines] = atof(line)` stores the value of each line; a line beyond the
buffer is out of bounds (`none`). -/
def read_objects (file : List ℚ) (num_features : Nat) : Option (List ℚ) :=
  if file.length ≤ MAX_VERTICES * num_features then
    some (file ++ List.replicate (MAX_VERTICES * num_features - file.length) 0)
  else none

/-- The function `read_features(in, results, epsilon, num_features)` of
`graphchi/myapps/convert_features.hpp`; `file` holds the value of each line of
the input file.  The inner loop starts at `j = i`. -/
def read_features (file : List ℚ) (results : Graph) (epsilon : ℚ) (num_features : Nat) :
    Option Graph := do
  let objects ← read_objects file num_features
  let lines := file.length
  if num_features = 0 then none
  else if lines % num_features ≠ 0 then none
  else
    let num_objects := lines / num_features
    let results := resize results num_objects
    let sqr_epsilon := epsilon * epsilon
    (List.range num_objects).foldlM
      (fun results i =>
        (List.range' i (num_objects - i)).foldlM
          (fun results j =>
            if graphchi_distance objects (i * num_features) (j * num_features) num_features
                < sqr_epsilon then
              link results i j
            else some results)
          results)
      results

/-- The function `read_features_fast(in, results, epsilon, num_features)` of
`graphchi/myapps/convert_features.hpp`: it differs from `read_features` in how
the lines are read (`fgets` for `std::getline`), not in what is computed from
their values. -/
def read_features_fast (file : List ℚ) (results : Graph) (epsilon : ℚ) (num_features : Nat) :
    Option Graph := do
  let objects ← read_objects file num_features
  let lines := file.length
  if num_features = 0 then none
  else if lines % num_features ≠ 0 then none
  else
    let num_objects := lines / num_features
    let results := resize results num_objects
    let sqr_epsilon := epsilon * epsilon
    (List.range num_objects).foldlM
      (fun results i =>
        (List.range' i (num_objects - i)).foldlM
          (fun results j =>
            if graphchi_distance objects (i * num_features) (j * num_features) num_features
                < sqr_epsilon then
              link results i j
            else some results)
          results)
      results

/-! ## Graph predicates -/

/-- The graph is symmetric on its vertices. -/
def SymmetricGraph (graph : Graph) : Prop :=
  ∀ u, u < graph.length → ∀ v, v < graph.length → (v ∈ row graph u ↔ u ∈ row graph v)

/-- No vertex of the graph is its own neighbour. -/
def IrreflexiveGraph (graph : Graph) : Prop :=
  ∀ u, u < graph.length → u ∉ row graph u

/-- Every member of `c` is pairwise adjacent: `v ∈ graph[u]` for `u ≠ v` in `c`. -/
def PairwiseAdjacent (graph : Graph) (c : IdSet) : Prop :=
  ∀ u ∈ c, ∀ v ∈ c, u ≠ v → v ∈ row graph u

/-- No vertex `w < n` outside `c` is adjacent to every member of `c`. -/
def NotExtensible (graph : Graph) (c : IdSet) : Prop :=
  ∀ w, w < graph.length → w ∉ c → ¬ ∀ u ∈ c, w ∈ row graph u

/-- A maximal clique: a non-empty set of pairwise adjacent vertices that no
further vertex extends. -/
def IsMaximalClique (graph : Graph) (c : IdSet) : Prop :=
  c.Nonempty ∧ (∀ v ∈ c, v < graph.length) ∧ PairwiseAdjacent graph c ∧ NotExtensible graph c

/-- The set `s` of candidates is a clique that no vertex of `cands ∪ nots` extends:
the sets that a search state `(clique, cands, nots)` adds to `clique`. -/
def LocalMax (graph : Graph) (cands nots s : IdSet) : Prop :=
  s ⊆ cands ∧ PairwiseAdjacent graph s ∧
    ∀ w ∈ cands ∪ nots, w ∉ s → ¬ ∀ u ∈ s, w ∈ row graph u

instance (graph : Graph) : Decidable (SymmetricGraph graph) := by
  unfold SymmetricGraph; infer_instance

instance (graph : Graph) : Decidable (IrreflexiveGraph graph) := by
  unfold IrreflexiveGraph; infer_instance

instance (graph : Graph) (c : IdSet) : Decidable (PairwiseAdjacent graph c) := by
  unfold PairwiseAdjacent; infer_instance

instance (graph : Graph) (c : IdSet) : Decidable (NotExtensible graph c) := by
  unfold NotExtensible; infer_instance

/-! ## The distributed enumerator (`graphchi/myapps/maximal_clique.cpp`) -/

/-- The `struct Message`: a search state in transit on an edge. -/
structure Message where
  /-- The flag `_set`: the message is valid. -/
  is_set : Bool
  /-- The field `_current_clique`. -/
  current_clique : IdSet
  /-- The field `_candidates`. -/
  candidates : IdSet
  /-- The field `_not`. -/
  not_ids : IdSet

/-- The `struct EdgeData`. -/
structure EdgeData where
  /-- The field `_neighbours`: the neighbours of the target of the edge. -/
  neighbours : IdSet
  /-- The field `_message`. -/
  message : Message
  /-- The field `_block_trace`. -/
  block_trace : IdSet

/-- The `struct VertexData`. -/
structure VertexData where
  /-- The field `_neighbours`. -/
  neighbours : IdSet
  /-- The field `_neighbours_set`. -/
  neighbours_set : Bool
  /-- The field `_cycles`. -/
  cycles : Int

/-- The constructor `Message()`. -/
def Message.empty : Message := ⟨false, ∅, ∅, ∅⟩

/-- The constructor `EdgeData()`. -/
def EdgeData.empty : EdgeData := ⟨∅, Message.empty, ∅⟩

/-- The state of a run of `MaximalClique`: the globals `singletons` and `results`, the
members of the program object, and the vertex values, edge values and
scheduler of the graph engine. -/
structure World where
  /-- The global `singletons`. -/
  singletons : Bool
  /-- The global `results`. -/
  results : List IdSet
  /-- The member `start_id`; `none` is `NONE`. -/
  start_id : Option Nat
  /-- The member `start_neighbours`. -/
  start_neighbours : IdSet
  /-- The member `start_cands`. -/
  start_cands : IdSet
  /-- The member `cycle_messages`. -/
  cycle_messages : List (Nat × Message)
  /-- The value stored by the engine on each vertex. -/
  vertex_data : Nat → VertexData
  /-- The value stored by the engine on the edge from the first to the second vertex. -/
  edge_data : Nat → Nat → EdgeData
  /-- The vertices that the scheduler holds for the next iteration. -/
  tasks : IdSet

/-- The call `vertex.set_data(d)` on vertex `v`. -/
def World.set_vertex (σ : World) (v : Nat) (d : VertexData) : World :=
  { σ with vertex_data := fun a => if a = v then d else σ.vertex_data a }

/-- The call `edge->set_data(d)` on the edge from `u` to `v`. -/
def World.set_edge (σ : World) (u v : Nat) (d : EdgeData) : World :=
  { σ with edge_data := fun a b => if a = u ∧ b = v then d else σ.edge_data a b }

/-- The call `scheduler->add_task(v)`. -/
def World.add_task (σ : World) (v : Nat) : World :=
  { σ with tasks := insert v σ.tasks }

/-- The call `scheduler->remove_tasks(v, v)`. -/
def World.remove_tasks (σ : World) (v : Nat) : World :=
  { σ with tasks := σ.tasks.erase v }

/-- Modelled from the spec: the out-edges `vertex.outedge(i)` of the graph engine, which is
not part of the repository: one edge to each neighbour, by ascending id. -/
def out_edges (graph : Graph) (v : Nat) : List Nat :=
  (List.range graph.length).filter (fun w => w ∈ row graph v)

/-- Modelled from the spec: the in-edges `vertex.inedge(i)` of the graph engine, which is
not part of the repository: one edge from each vertex that has `v` as a
neighbour, by ascending id. -/
def in_edges (graph : Graph) (v : Nat) : List Nat :=
  (List.range graph.length).filter (fun u => v ∈ row graph u)

namespace MaximalClique

/-- The method `save_clique`. -/
def save_clique (σ : World) (clique : IdSet) : World :=
  { σ with results := σ.results ++ [clique] }

/-- The method `get_neighbours`. -/
def get_neighbours (graph : Graph) (σ : World) (v : Nat) : IdSet :=
  let data := σ.vertex_data v
  if data.neighbours_set then data.neighbours
  else (out_edges graph v).foldl (fun neighbours w => insert w neighbours) ∅

/-- The method `initialize` (the name is reserved in Lean). -/
def initialise (graph : Graph) (σ : World) (v : Nat) : World :=
  if (in_edges graph v).length + (out_edges graph v).length > 0 then
    let neighbours := get_neighbours graph σ v
    let data := σ.vertex_data v
    let σ := σ.set_vertex v { data with neighbours := neighbours, neighbours_set := true,
                                        cycles := 0 }
    let σ := (in_edges graph v).foldl
      (fun σ u => σ.set_edge u v { σ.edge_data u v with neighbours := neighbours }) σ
    if σ.start_id = none ∨ neighbours.card > σ.start_neighbours.card then
      { σ with start_id := some v, start_neighbours := neighbours }
    else σ
  else
    let σ := { σ with start_cands := σ.start_cands.erase v }
    if σ.singletons then save_clique σ {v} else σ

/-- The body of the loop `find first destination` of `clique_enumerate` on the state
`(fixp, fixp_num_candidates, fixp_data)`; `fixp_neighbours` is
`fixp_data._neighbours`.  A candidate replaces the pivot on a greater or equal
count. -/
def fixp_step (σ : World) (v : Nat) (cand : IdSet) (st : Option Nat × Nat × EdgeData)
    (w : Nat) : Option Nat × Nat × EdgeData :=
  if w ∈ cand then
    let data := σ.edge_data v w
    let num_candidates := (cand ∩ data.neighbours).card
    if st.1 = none ∨ num_candidates ≥ st.2.1 then (some w, num_candidates, data) else st
  else st

/-- The search for the remaining destinations in the `while (cur_v != NONE)` loop of
`clique_enumerate`, over the out-edges from index `i` on: an out-edge to a
candidate outside `fixp_neighbours` becomes `cur_v`; a valid message on it is a
collision (`Sum.inl`, with `cur_v` and `cur_v_data`), otherwise it joins
`destinations`, leaves `cand`, and the search resumes.  Without collision the
result is `destinations` (`Sum.inr`). -/
def scan_destinations (σ : World) (v : Nat) (fixp_neighbours : IdSet) :
    List Nat → IdSet → IdSet → Sum (Nat × EdgeData) IdSet
  | [], _, destinations => Sum.inr destinations
  | id :: rest, cand, destinations =>
    if id ∈ cand ∧ id ∉ fixp_neighbours then
      let data := σ.edge_data v id
      if data.message.is_set then Sum.inl (id, data)
      else scan_destinations σ v fixp_neighbours rest (cand.erase id) (insert id destinations)
    else scan_destinations σ v fixp_neighbours rest cand destinations

/-- The branch `check for collisions` of `clique_enumerate`, taken when the out-edge to
`cur_v` holds a valid message. -/
def collide (σ : World) (v : Nat) (message : Message) (block_trace : IdSet)
    (from_edge : Bool) (cur_v : Nat) (cur_v_data : EdgeData) : World × Message :=
  if from_edge then
    if v ∈ block_trace then
      let message := { message with is_set := false }
      let σ := { σ with cycle_messages := σ.cycle_messages ++ [(v, message)] }
      let data := σ.vertex_data v
      let σ := σ.set_vertex v { data with cycles := data.cycles + 1 }
      (σ.set_edge v cur_v { cur_v_data with block_trace := ∅ }, message)
    else
      (σ.set_edge v cur_v
        { cur_v_data with block_trace := insert v (cur_v_data.block_trace ∪ block_trace) },
        message)
  else (σ, message)

/-- The body of the loop `Send messages` of `clique_enumerate` on the state
`(world, cand, not_set)`. -/
def send_step (v : Nat) (clique destinations : IdSet) (st : World × IdSet × IdSet)
    (id : Nat) : World × IdSet × IdSet :=
  if id ∈ destinations then
    let σ := st.1
    let data := σ.edge_data v id
    let cur_v_neighbours := data.neighbours
    let new_not := st.2.2 ∩ cur_v_neighbours
    let new_cand := st.2.1 ∩ cur_v_neighbours
    let σ := σ.add_task id
    ((σ.set_edge v id { data with message := ⟨true, clique, new_cand, new_not⟩ }),
      st.2.1.erase id, insert id st.2.2)
  else st

/-- The method `clique_enumerate(vertex, message, block_trace, scheduler, from_edge)`: the
new world, the message (a reference in the source) and the returned
`handled`. -/
def clique_enumerate (graph : Graph) (σ : World) (v : Nat) (message : Message)
    (block_trace : IdSet) (from_edge : Bool) : World × Message × Bool :=
  let clique := insert v message.current_clique
  let cand := message.candidates
  let not_set := message.not_ids
  if cand = ∅ then
    if not_set = ∅ then (save_clique σ clique, message, true) else (σ, message, true)
  else
    let fix := (out_edges graph v).foldl (fixp_step σ v cand) (none, 0, EdgeData.empty)
    match fix.1 with
    | none => (σ, message, true)
    | some fixp =>
      let fixp_data := fix.2.2
      let fixp_neighbours := fixp_data.neighbours
      let found :=
        if fixp_data.message.is_set then Sum.inl (fixp, fixp_data)
        else scan_destinations σ v fixp_neighbours (out_edges graph v) (cand.erase fixp) {fixp}
      match found with
      | Sum.inl (cur_v, cur_v_data) =>
        let r := collide σ v message block_trace from_edge cur_v cur_v_data
        (r.1, r.2, false)
      | Sum.inr destinations =>
        (((out_edges graph v).foldl (send_step v clique destinations) (σ, cand, not_set)).1,
          message, true)

/-- The method `start`. -/
def start (graph : Graph) (σ : World) (v : Nat) : World :=
  let neighbours := get_neighbours graph σ v
  if σ.start_id = some v then
    (clique_enumerate graph σ v { Message.empty with candidates := neighbours } ∅ true).1
  else
    let msg := { Message.empty with
      candidates := neighbours ∩ σ.start_cands,
      not_ids := (Finset.range MAX_VERTICES \ σ.start_cands) ∩ neighbours }
    let σ := { σ with start_cands := σ.start_cands.erase v }
    (clique_enumerate graph σ v msg ∅ true).1

/-- The loop `read stored cycle messages` of `handle_messages`: `kept` holds the entries
before the iterator, the list argument the entries from the iterator on, and
`cycles` is `data._cycles`. -/
def replay (graph : Graph) (v : Nat) :
    List (Nat × Message) → List (Nat × Message) → World → Int → World × Int
  | [], _, σ, cycles => (σ, cycles)
  | entry :: rest, kept, σ, cycles =>
    if entry.1 = v then
      let r := clique_enumerate graph σ v entry.2 ∅ false
      if r.2.2 then
        let σ := { r.1 with cycle_messages := kept ++ rest }
        let cycles := cycles - 1
        if cycles = 0 then (σ, cycles) else replay graph v rest kept σ cycles
      else replay graph v rest (kept ++ [entry]) r.1 cycles
    else replay graph v rest (kept ++ [entry]) σ cycles

/-- The body of the loop `read the message from each in edge` of `handle_messages` on the
state `(world, collision)`. -/
def inedge_step (graph : Graph) (v : Nat) (st : World × Bool) (u : Nat) : World × Bool :=
  let data := st.1.edge_data u v
  if data.message.is_set then
    let r := clique_enumerate graph st.1 v data.message data.block_trace true
    if r.2.2 then
      (r.1.set_edge u v { data with message := { r.2.1 with is_set := false } }, st.2)
    else
      (r.1.set_edge u v { data with message := r.2.1 }, true)
  else st

/-- The method `handle_messages`. -/
def handle_messages (graph : Graph) (σ : World) (v : Nat) : World :=
  let data := σ.vertex_data v
  let r :=
    if data.cycles > 0 then replay graph v σ.cycle_messages [] σ data.cycles
    else (σ, data.cycles)
  let data := { data with cycles := r.2 }
  let σ := r.1.set_vertex v data
  let s := (in_edges graph v).foldl (inedge_step graph v) (σ, false)
  if s.2 ∨ data.cycles > 0 then s.1.add_task v else s.1.remove_tasks v

/-- The method `update`. -/
def update (graph : Graph) (iteration : Nat) (σ : World) (v : Nat) : World :=
  if iteration = 0 then initialise graph σ v
  else
    let σ := if iteration = 1 ∧ v ∉ σ.start_neighbours then start graph σ v else σ
    handle_messages graph σ v

/-- The method `after_iteration`. -/
def after_iteration (graph : Graph) (iteration : Nat) (σ : World) : World :=
  match σ.start_id with
  | none => σ
  | some start_id =>
    if iteration = 0 then
      let σ := σ.add_task start_id
      let σ := { σ with start_cands := σ.start_cands.erase start_id }
      (List.range graph.length).foldl
        (fun σ i => if i ∉ σ.start_neighbours ∧ i ∈ σ.start_cands then σ.add_task i else σ) σ
    else σ

end MaximalClique

/-- Modelled from the spec: the state in which the graph engine, which is not part of the
repository, starts a run: reset vertex values, default edge values (no valid
message), nothing saved and no task. -/
def World.init (singletons : Bool) : World :=
  { singletons := singletons, results := [], start_id := none, start_neighbours := ∅,
    start_cands := ∅, cycle_messages := [],
    vertex_data := fun _ => ⟨∅, false, 0⟩, edge_data := fun _ _ => EdgeData.empty,
    tasks := ∅ }

/-- Modelled from the spec: iteration 0 of the graph engine, which is not part of the
repository: `before_iteration` (the assertion `nvertices < MAX_VERTICES`, then
`start_cands.set()`), the update of every vertex in the order `order`, and
`after_iteration`. -/
def engine_first (graph : Graph) (singletons : Bool) (order : List Nat) : Option World :=
  if graph.length < MAX_VERTICES then
    let σ := { World.init singletons with start_cands := Finset.range MAX_VERTICES }
    let σ := order.foldl (MaximalClique.update graph 0) σ
    some (MaximalClique.after_iteration graph 0 σ)
  else none

/-- Modelled from the spec: iterations `iteration, iteration + 1, ...` of the graph
engine, which is not part of the repository.  Every iteration takes the
scheduled vertices, clears the schedule, and updates the vertices in the order
given by the next list of `schedule`. -/
def engine_iterations (graph : Graph) : Nat → List (List Nat) → World → World
  | _, [], σ => σ
  | iteration, order :: schedule, σ =>
    engine_iterations graph (iteration + 1) schedule
      (MaximalClique.after_iteration graph iteration
        (order.foldl (MaximalClique.update graph iteration) { σ with tasks := ∅ }))

/-- The lists of `schedule` are orders of the scheduled vertices: the list for an
iteration holds, once each, the vertices scheduled when the iteration
starts. -/
def ValidSchedule (graph : Graph) : Nat → List (List Nat) → World → Prop
  | _, [], _ => True
  | iteration, order :: schedule, σ =>
    order.Nodup ∧ order.toFinset = σ.tasks ∧
      ValidSchedule graph (iteration + 1) schedule
        (MaximalClique.after_iteration graph iteration
          (order.foldl (MaximalClique.update graph iteration) { σ with tasks := ∅ }))

instance (graph : Graph) : ∀ (iteration : Nat) (schedule : List (List Nat)) (σ : World),
    Decidable (ValidSchedule graph iteration schedule σ)
  | _, [], _ => isTrue trivial
  | iteration, order :: schedule, σ => by
    unfold ValidSchedule
    have := instDecidableValidSchedule graph (iteration + 1) schedule
      (MaximalClique.after_iteration graph iteration
        (order.foldl (MaximalClique.update graph iteration) { σ with tasks := ∅ }))
    infer_instance

/-- Modelled from the spec: a run of the graph engine, which is not part of the repository,
on `graph`: iteration 0 in the order `order`, then the iterations of
`schedule`. -/
def engine_run (graph : Graph) (singletons : Bool) (order : List Nat)
    (schedule : List (List Nat)) : Option World :=
  (engine_first graph singletons order).map (engine_iterations graph 1 schedule)

/-- The graphs of the distributed enumerator: symmetric, irreflexive, neighbours among
the vertices, fewer than `MAX_VERTICES` vertices. -/
structure GoodGraph (graph : Graph) : Prop where
  /-- The graph is symmetric. -/
  sym : SymmetricGraph graph
  /-- The graph is irreflexive. -/
  irr : IrreflexiveGraph graph
  /-- The rows hold vertices of the graph only. -/
  rows : ∀ u, u < graph.length → ∀ v ∈ row graph u, v < graph.length
  /-- The assertion of `before_iteration`. -/
  small : graph.length < MAX_VERTICES

/-- The sets that the search state `(clique, cands, nots)` stands for. -/
def BKset (graph : Graph) (clique cands nots : IdSet) (C : IdSet) : Prop :=
  ∃ S, LocalMax graph cands nots S ∧ C = clique ∪ S

/-- The sets that a message stands for once it is handled by the vertex `v`. -/
def MsgSet (graph : Graph) (v : Nat) (m : Message) (C : IdSet) : Prop :=
  BKset graph (insert v m.current_clique) m.candidates m.not_ids C

/-- The message `m` waits for the vertex `v`: valid on an in-edge of `v`, or stored for `v`
in the side table. -/
def Pending (σ : World) (v : Nat) (m : Message) : Prop :=
  (∃ u, (σ.edge_data u v).message.is_set = true ∧ (σ.edge_data u v).message = m) ∨
    (v, m) ∈ σ.cycle_messages

/-- The sets saved or still to be found from the messages in transit. -/
def Sem (graph : Graph) (σ : World) (C : IdSet) : Prop :=
  C ∈ σ.results ∨ ∃ v m, Pending σ v m ∧ MsgSet graph v m C

/-- The members of the program object that a vertex update outside `start` and
`initialize` leaves alone. -/
structure SameGlobals (σ τ : World) : Prop where
  /-- The flag `singletons`. -/
  singletons : τ.singletons = σ.singletons
  /-- The member `start_id`. -/
  start_id : τ.start_id = σ.start_id
  /-- The member `start_neighbours`. -/
  start_neighbours : τ.start_neighbours = σ.start_neighbours
  /-- The member `start_cands`. -/
  start_cands : τ.start_cands = σ.start_cands

/-- The values that the distributed enumerator keeps on the vertices, the edges, in the
side table and in the scheduler are consistent with the graph; `cyc v` is the
counter `_cycles` of the vertex `v`. -/
structure Consistent (graph : Graph) (σ : World) (cyc : Nat → Int) : Prop where
  /-- A vertex with a neighbour knows its neighbours. -/
  vertex_nb : ∀ v, (row graph v).Nonempty →
    (σ.vertex_data v).neighbours = row graph v ∧ (σ.vertex_data v).neighbours_set = true
  /-- The counter of a vertex is the number of its entries in the side table. -/
  cycles : ∀ v, cyc v = ((σ.cycle_messages.filter (fun e => e.1 = v)).length : Int)
  /-- An edge holds the neighbours of its target. -/
  edge_nb : ∀ u v, v ∈ row graph u → (σ.edge_data u v).neighbours = row graph v
  /-- A valid message is on an edge of the graph and its candidates are neighbours of the
  target. -/
  edge_msg : ∀ u v, (σ.edge_data u v).message.is_set = true →
    v ∈ row graph u ∧ (σ.edge_data u v).message.candidates ⊆ row graph v
  /-- A stored message is for a vertex with a neighbour and its candidates are neighbours of
  that vertex. -/
  cycle_msg : ∀ v m, (v, m) ∈ σ.cycle_messages →
    (row graph v).Nonempty ∧ m.candidates ⊆ row graph v
  /-- Only vertices with a neighbour are scheduled. -/
  tasks_ok : ∀ v ∈ σ.tasks, (row graph v).Nonempty

/-- The world is consistent, with the counters read from the vertex values. -/
def WellFormed (graph : Graph) (σ : World) : Prop :=
  Consistent graph σ (fun a => (σ.vertex_data a).cycles)

/-- What one call `clique_enumerate(vertex, message, block_trace, scheduler, from_edge)`
does to the world `σ`; `r` is the result of the call. -/
structure StepPost (graph : Graph) (σ : World) (v : Nat) (m : Message) (bt : IdSet)
    (from_edge : Bool) (r : World × Message × Bool) : Prop where
  /-- The start values are not touched. -/
  globals : SameGlobals σ r.1
  /-- Only out-edges of `v` are written. -/
  edge_other : ∀ a b, a ≠ v → r.1.edge_data a b = σ.edge_data a b
  /-- The neighbours kept on an edge are not touched. -/
  edge_nb : ∀ a b, (r.1.edge_data a b).neighbours = (σ.edge_data a b).neighbours
  /-- The message of an out-edge is kept, or the edge was free and now carries a valid
  message for a scheduled neighbour. -/
  edge_msg : ∀ b, (r.1.edge_data v b).message = (σ.edge_data v b).message ∨
    (r.2.2 = true ∧ (σ.edge_data v b).message.is_set = false ∧
      (r.1.edge_data v b).message.is_set = true ∧ b ∈ row graph v ∧
      (r.1.edge_data v b).message.candidates ⊆ row graph b ∧ b ∈ r.1.tasks)
  /-- Tasks are only added. -/
  tasks_mono : σ.tasks ⊆ r.1.tasks
  /-- Only neighbours are scheduled. -/
  tasks_sub : ∀ b ∈ r.1.tasks, b ∈ σ.tasks ∨ b ∈ row graph v
  /-- A failed call schedules nothing. -/
  fail_tasks : r.2.2 = false → r.1.tasks = σ.tasks
  /-- The cliques saved by the call, and, for a handled message, the account of the sets it
  stands for. -/
  results : ∃ new, r.1.results = σ.results ++ new ∧ (r.2.2 = false → new = []) ∧
    (r.2.2 = true → ∀ C, MsgSet graph v m C ↔
      (C ∈ new ∨ ∃ b, (σ.edge_data v b).message.is_set = false ∧
        (r.1.edge_data v b).message.is_set = true ∧
        MsgSet graph b (r.1.edge_data v b).message C))
  /-- On a cycle the message moves to the side table and the counter grows. -/
  cycle : r.2.2 = false → from_edge = true → v ∈ bt →
    r.1.cycle_messages = σ.cycle_messages ++ [(v, { m with is_set := false })] ∧
      r.2.1 = { m with is_set := false } ∧
      r.1.vertex_data = fun a =>
        if a = v then { σ.vertex_data v with cycles := (σ.vertex_data v).cycles + 1 }
        else σ.vertex_data a
  /-- Without a cycle the side table, the message and the vertex values are kept. -/
  no_cycle : (r.2.2 = true ∨ from_edge = false ∨ v ∉ bt) →
    r.1.cycle_messages = σ.cycle_messages ∧ r.2.1 = m ∧ r.1.vertex_data = σ.vertex_data
  /-- With all out-edges free the message is handled. -/
  succeeds : (∀ b, (σ.edge_data v b).message.is_set = false) → r.2.2 = true

/-- What a part of the update of the vertex `v` may do to the world. -/
structure Progress (graph : Graph) (v : Nat) (τ ρ : World) : Prop where
  /-- The start values are not touched. -/
  globals : SameGlobals τ ρ
  /-- The saved sets and the sets of the messages in transit are, together, the same. -/
  sem : ∀ C, Sem graph ρ C ↔ Sem graph τ C
  /-- Tasks are only added. -/
  tasks : τ.tasks ⊆ ρ.tasks
  /-- Only neighbours of `v` are scheduled. -/
  tasks_sub : ∀ b ∈ ρ.tasks, b ∈ τ.tasks ∨ b ∈ row graph v
  /-- No edge from another vertex gains a message. -/
  edges : ∀ a b, a ≠ v → (ρ.edge_data a b).message.is_set = true →
    (τ.edge_data a b).message.is_set = true
  /-- A vertex with a message that it did not have before is scheduled. -/
  pending : ∀ a m, Pending ρ a m → a ∈ ρ.tasks ∨ ∃ m2, Pending τ a m2
  /-- The vertex values other than the counter are kept. -/
  vertex : ∀ a, (ρ.vertex_data a).neighbours = (τ.vertex_data a).neighbours ∧
    (ρ.vertex_data a).neighbours_set = (τ.vertex_data a).neighbours_set

/-- What the loop over the in-edges of `v` has done when it has reached the state `r` from
the world `τ` and the flag `coll`. -/
structure EdgeLoop (graph : Graph) (v : Nat) (τ : World) (coll : Bool) (r : World × Bool) :
    Prop where
  /-- The world is consistent. -/
  wf : WellFormed graph r.1
  /-- The world has progressed. -/
  prog : Progress graph v τ r.1
  /-- The flag `collision` is only raised. -/
  coll_mono : coll = true → r.2 = true
  /-- The counter of `v` is kept unless the flag is raised. -/
  cyc : (r.1.vertex_data v).cycles = (τ.vertex_data v).cycles ∨ r.2 = true

/-- The counters during the replay loop of the vertex `v`: the local `data._cycles` for
`v`, the stored counter for the other vertices. -/
def cycOf (τ : World) (v : Nat) (c : Int) : Nat → Int :=
  fun a => if a = v then c else (τ.vertex_data a).cycles

/-- What `handle_messages` on the vertex `v` does to a consistent world. -/
structure HandlePost (graph : Graph) (v : Nat) (σ ρ : World) : Prop where
  /-- The world is consistent. -/
  wf : WellFormed graph ρ
  /-- The start values are not touched. -/
  globals : SameGlobals σ ρ
  /-- The saved sets and the sets of the messages in transit are, together, the same. -/
  sem : ∀ C, Sem graph ρ C ↔ Sem graph σ C
  /-- The other scheduled vertices stay scheduled. -/
  tasks_keep : ∀ a, a ≠ v → a ∈ σ.tasks → a ∈ ρ.tasks
  /-- A vertex with a message is scheduled, or it is another vertex that had a message
  before. -/
  pending : ∀ a m, Pending ρ a m → a ∈ ρ.tasks ∨ (a ≠ v ∧ ∃ m2, Pending σ a m2)
  /-- No edge from another vertex gains a message. -/
  edges : ∀ a b, a ≠ v → (ρ.edge_data a b).message.is_set = true →
    (σ.edge_data a b).message.is_set = true

/-- The invariant of the iterations after the first: the world is consistent, the saved
sets and the sets of the messages in transit are the sets of `T`, and every
vertex with a message is scheduled or still to be updated in this iteration
(the list `W`). -/
structure Settled (graph : Graph) (T : IdSet → Prop) (σ : World) (W : List Nat) : Prop where
  /-- The world is consistent. -/
  wf : WellFormed graph σ
  /-- The saved sets and the sets of the messages in transit are the sets of `T`. -/
  sem : ∀ C, Sem graph σ C ↔ T C
  /-- A vertex with a message is scheduled or still to be updated. -/
  pending : ∀ a m, Pending σ a m → a ∈ σ.tasks ∨ a ∈ W
  /-- The vertices to be updated have a neighbour. -/
  rows : ∀ w ∈ W, (row graph w).Nonempty

/-- The vertices with a neighbour. -/
def nonIsolated (graph : Graph) : IdSet :=
  (Finset.range graph.length).filter (fun x => (row graph x).Nonempty)

/-- The candidates of the searches still to be started in iteration 1: the vertices with a
neighbour, other than the start vertex `s`, that are neighbours of `s` or still
to be updated (the list `W`). -/
def startT (graph : Graph) (s : Nat) (W : List Nat) : IdSet :=
  (nonIsolated graph).filter (fun x => x ≠ s ∧ (x ∈ row graph s ∨ x ∈ W))

/-- The excluded vertices of the searches still to be started in iteration 1. -/
def startY (graph : Graph) (s : Nat) (W : List Nat) : IdSet :=
  nonIsolated graph \ startT graph s W

/-- The sets that the searches still to be started in iteration 1 stand for. -/
def StartSem (graph : Graph) (s : Nat) (W : List Nat) (C : IdSet) : Prop :=
  (s ∈ W ∧ BKset graph {s} (row graph s) ∅ C) ∨
    ∃ S, LocalMax graph (startT graph s W) (startY graph s W) S ∧
      (∃ d ∈ S, d ∈ W ∧ d ≠ s) ∧ C = S

/-- The invariant of iteration 1; `W` lists the vertices still to be updated. -/
structure Starting (graph : Graph) (T : IdSet → Prop) (s : Nat) (σ : World) (W : List Nat) :
    Prop where
  /-- The world is consistent. -/
  wf : WellFormed graph σ
  /-- The start vertex. -/
  start_id : σ.start_id = some s
  /-- The neighbours of the start vertex. -/
  start_nb : σ.start_neighbours = row graph s
  /-- The start vertex has a neighbour. -/
  s_row : (row graph s).Nonempty
  /-- Every vertex is updated once. -/
  nodup : W.Nodup
  /-- The vertices to be updated have a neighbour and are no neighbours of the start
  vertex. -/
  rows : ∀ w ∈ W, (row graph w).Nonempty ∧ w ∉ row graph s
  /-- The set `start_cands` among the vertices with a neighbour. -/
  cands : ∀ x, (row graph x).Nonempty →
    (x ∈ σ.start_cands ↔ x ≠ s ∧ (x ∈ row graph s ∨ x ∈ W))
  /-- The out-edges of the vertices to be updated are free. -/
  free : ∀ w ∈ W, ∀ b, (σ.edge_data w b).message.is_set = false
  /-- The saved sets, the sets of the messages in transit and the sets of the searches to
  be started are the sets of `T`. -/
  sem : ∀ C, (Sem graph σ C ∨ StartSem graph s W C) ↔ T C
  /-- A vertex with a message is scheduled or still to be updated. -/
  pending : ∀ a m, Pending σ a m → a ∈ σ.tasks ∨ a ∈ W

/-- The world after `start` on the vertex `v`, before `handle_messages`. -/
structure Started (graph : Graph) (T : IdSet → Prop) (s : Nat) (v : Nat) (σ : World)
    (W : List Nat) : Prop where
  /-- The world is consistent. -/
  wf : WellFormed graph σ
  /-- The start vertex. -/
  start_id : σ.start_id = some s
  /-- The neighbours of the start vertex. -/
  start_nb : σ.start_neighbours = row graph s
  /-- The set `start_cands` among the vertices with a neighbour. -/
  cands : ∀ x, (row graph x).Nonempty →
    (x ∈ σ.start_cands ↔ x ≠ s ∧ (x ∈ row graph s ∨ x ∈ W))
  /-- The out-edges of the vertices to be updated are free. -/
  free : ∀ w ∈ W, ∀ b, (σ.edge_data w b).message.is_set = false
  /-- The saved sets, the sets of the messages in transit and the sets of the searches to
  be started are the sets of `T`. -/
  sem : ∀ C, (Sem graph σ C ∨ StartSem graph s W C) ↔ T C
  /-- A vertex with a message is scheduled, still to be updated, or `v`. -/
  pending : ∀ a m, Pending σ a m → a ∈ σ.tasks ∨ a ∈ v :: W

/-- The invariant of iteration 0; `D` holds the vertices already initialised. -/
structure Initialising (graph : Graph) (flag : Bool) (σ : World) (D : Finset Nat) : Prop where
  /-- The flag `singletons`. -/
  singletons : σ.singletons = flag
  /-- Nothing is scheduled. -/
  tasks : σ.tasks = ∅
  /-- The side table is empty. -/
  cycle : σ.cycle_messages = []
  /-- No edge carries a message. -/
  msgs : ∀ u v, (σ.edge_data u v).message.is_set = false
  /-- The counters are zero. -/
  cycles : ∀ v, (σ.vertex_data v).cycles = 0
  /-- An initialised vertex with a neighbour knows its neighbours. -/
  done_nb : ∀ v ∈ D, (row graph v).Nonempty →
    (σ.vertex_data v).neighbours = row graph v ∧ (σ.vertex_data v).neighbours_set = true
  /-- The other vertices have not stored their neighbours. -/
  todo_nb : ∀ v, v ∉ D → (σ.vertex_data v).neighbours_set = false
  /-- The in-edges of an initialised vertex hold its neighbours. -/
  edge_nb : ∀ v ∈ D, ∀ u, v ∈ row graph u → (σ.edge_data u v).neighbours = row graph v
  /-- The set `start_cands`: all positions but the initialised vertices without
  neighbour. -/
  cands : ∀ x, x ∈ σ.start_cands ↔ x < MAX_VERTICES ∧ ¬ (x ∈ D ∧ row graph x = ∅)
  /-- The saved sets: the initialised vertices without neighbour, when singletons are
  admitted. -/
  results : ∀ C, C ∈ σ.results ↔ flag = true ∧ ∃ v ∈ D, row graph v = ∅ ∧ C = {v}
  /-- The start vertex is an initialised vertex with a neighbour, if there is one. -/
  start : (σ.start_id = none ∧ ∀ v ∈ D, row graph v = ∅) ∨
    ∃ s, σ.start_id = some s ∧ (row graph s).Nonempty ∧ σ.start_neighbours = row graph s

/-- The sets that a run of the distributed enumerator has to save: the vertices without
neighbour, when singletons are admitted, and the maximal cliques among the
vertices with a neighbour. -/
def Target (graph : Graph) (flag : Bool) (C : IdSet) : Prop :=
  (flag = true ∧ ∃ v, v < graph.length ∧ row graph v = ∅ ∧ C = {v}) ∨
    (LocalMax graph (nonIsolated graph) ∅ C ∧ C.Nonempty)

/-! ## The combining graph builder (`src/convert_features.hpp`) -/

/-- The operator `s << k` of `std::bitset`: every set position moves up by `k`, and the
positions moved past the width are dropped. -/
def shift_left (s : IdSet) (k : Nat) : IdSet :=
  (s.image (fun p => p + k)).filter (fun p => p < MAX_VERTICES)

/-- The loop `add shifted second graph` of the combining `features_to_graph`; the unchecked
read `graph_b[i]` past the end of `graph_b` is `none`. -/
def add_shifted (graph_b : Graph) (num_objects_a num_objects_b : Nat) (results : Graph) :
    Option Graph :=
  (List.range num_objects_b).foldlM
    (fun results i =>
      (graph_b.get? i).map
        (fun r => results.set (num_objects_a + i) (shift_left r num_objects_a)))
    results

/-- The seven-argument overload `features_to_graph(features_a, features_b, graph_a, graph_b,
results, epsilon, num_features)` of `src/convert_features.hpp`, which combines
two neighbourhood graphs: the result is the combined graph and the returned
flag `meet`.  The division by `num_features = 0` and a failed assertion are
`none`. -/
def features_to_graph_combine (features_a features_b : List ℚ) (graph_a graph_b : Graph)
    (epsilon : ℚ) (num_features : Nat) : Option (Graph × Bool) :=
  if num_features = 0 then none
  else if features_b.length % num_features ≠ 0 then none
  else if features_a.length % num_features ≠ 0 then none
  else
    let num_objects_a := features_a.length / num_features
    let num_objects_b := features_b.length / num_features
    let num_objects := num_objects_a + num_objects_b
    if ¬ num_objects ≤ MAX_VERTICES then none
    else do
      let results := resize graph_a num_objects
      let results ← add_shifted graph_b num_objects_a num_objects_b results
      let sqr_epsilon := epsilon * epsilon
      (List.range num_objects_a).foldlM
        (fun st i =>
          (List.range' num_objects_a (num_objects - num_objects_a)).foldlM
            (fun st j =>
              if distance features_a features_b (i * num_features)
                  ((j - num_objects_a) * num_features) num_features < sqr_epsilon then
                (link st.1 i j).map (fun results => (results, true))
              else some st)
            st)
        (results, false)

/-! ## The nearness measures (`src/nearness.cpp`) -/

/-- The value of type `int` (32 bits, two's complement) that stands for the integer `z`: the
member of the class of `z` modulo `2^32` that lies in `[-2^31, 2^31)`. -/
def int_wrap (z : Int) : Int := (z + 2147483648) % 4294967296 - 2147483648

/-- The function `nearness_mce(num_objects, singletons, clique, numerator, denominator)` on
the state `(numerator, denominator)`.  The two counting loops split the
positions at `num_objects / 2`.  The quotient by `max(x, y) = 0` is `none`.
The statement `denominator += count` adds the `unsigned int count` to the
`int denominator`: the sum is formed modulo `2^32` and stored as an `int`. -/
def nearness_mce (num_objects : Nat) (singletons : Bool) (clique : IdSet)
    (acc : ℚ × Int) : Option (ℚ × Int) :=
  let count := clique.card
  if singletons ∨ count > 1 then
    let x := (List.range (num_objects / 2)).foldl
      (fun x i => if i ∈ clique then x + 1 else x) 0
    let y := (List.range' (num_objects / 2) (num_objects - num_objects / 2)).foldl
      (fun y i => if i ∈ clique then y + 1 else y) 0
    if max x y = 0 then none
    else some (acc.1 + ((min x y : Nat) : ℚ) / ((max x y : Nat) : ℚ) * (count : ℚ),
      int_wrap (acc.2 + (count : Int)))
  else some acc

/-- The branch `if (meet)` of `nearness_task_mce`: the maximal cliques of `graph` are
reduced by `nearness_mce` from `numerator = 0` and `denominator = 0`, and the
value stored in `tmp[j]` is `numerator / denominator`.  The division is a
`float` division, which does not stop the program: for `denominator = 0` its
value is an infinity or a NaN, and the stored value is `none`; every other
stored value is `some` rational. -/
def nearness_value (graph : Graph) (singletons : Bool) : Option (Option ℚ) := do
  let cliques ← clique_enumerate graph
  let acc ← cliques.foldlM (fun acc clique => nearness_mce graph.length singletons clique acc)
    (0, 0)
  some (if acc.2 = 0 then none else some (acc.1 / (acc.2 : ℚ)))

/-- The body of the loop of `nearness_task_mce` for the indices `i` and `j`: the value stored
in `tmp[j]`.  An unchecked read past the end of a vector is `none`. -/
def nearness_pair_mce (i j : Nat) (objects : List (List ℚ)) (partial_graphs : List Graph)
    (epsilon : ℚ) (num_features : Nat) (singletons : Bool) : Option (Option ℚ) := do
  let object_i ← objects.get? i
  let object_j ← objects.get? j
  let graph_i ← partial_graphs.get? i
  let graph_j ← partial_graphs.get? j
  let r ← features_to_graph_combine object_i object_j graph_i graph_j epsilon num_features
  if r.2 then nearness_value r.1 singletons else some (some 0)

/-- The function `nearness_task_mce(i, objects, partial_graphs, results, ...)`: the row `tmp`
that it stores in `results[i]`, a list of stored values as in `nearness_value`.
The unchecked write `tmp[i] = 0` past the end of `tmp` is `none`. -/
def nearness_task_mce (i : Nat) (objects : List (List ℚ)) (partial_graphs : List Graph)
    (epsilon : ℚ) (num_features : Nat) (singletons : Bool) : Option (List (Option ℚ)) :=
  if i < objects.length then
    (List.range' (i + 1) (objects.length - (i + 1))).foldlM
      (fun tmp j =>
        (nearness_pair_mce i j objects partial_graphs epsilon num_features singletons).map
          (fun value => tmp.set j value))
      ((List.replicate objects.length (some (0 : ℚ))).set i (some 0))
  else none

/-- The sum of the sizes of the cliques of a list that `nearness_mce` does not skip: the
number that `denominator` stands for after these cliques. -/
def counted_sizes (singletons : Bool) (cliques : List IdSet) : Nat :=
  ((cliques.filter (fun clique => singletons || decide (clique.card > 1))).map
    Finset.card).sum

/-- The sum `counted_sizes` over the maximal cliques that `clique_enumerate` emits on a
graph; 0 when the enumeration does not return. -/
def graph_counted_sizes (graph : Graph) (singletons : Bool) : Nat :=
  match clique_enumerate graph with
  | some cliques => counted_sizes singletons cliques
  | none => 0

/-- The sum `graph_counted_sizes` for the joint graph of the pair `(i, j)` of
`nearness_task_mce`; 0 when the pair has `meet = false` or is not computed. -/
def pair_counted_sizes (i j : Nat) (objects : List (List ℚ)) (partial_graphs : List Graph)
    (epsilon : ℚ) (num_features : Nat) (singletons : Bool) : Nat :=
  match features_to_graph_combine (objects.getD i []) (objects.getD j [])
      (partial_graphs.getD i []) (partial_graphs.getD j []) epsilon num_features with
  | some (res, true) => graph_counted_sizes res singletons
  | _ => 0

/-- The loop `Calculate Partial Graphs` of `run_mce` and `run_sgmd`. -/
def partial_graphs_of : List (List ℚ) → ℚ → Nat → Option (List Graph)
  | [], _, _ => some []
  | object :: objects, epsilon, num_features => do
    let graph ← features_to_graph object [] epsilon num_features
    let graphs ← partial_graphs_of objects epsilon num_features
    some (graph :: graphs)

/-- The loop `Count Subsets Size` of `run_sgmd`. -/
def subset_sizes_of (partial_graphs : List Graph) : List (List Int) :=
  partial_graphs.map (fun graph => graph.map (fun r => (r.card : Int)))

/-- The vector `distance_matrix` that `nearness_task_sgmd` fills for the pair `(i, j)`:
`rows` rows of `cols` entries `abs(subset_sizes[i][k] - subset_sizes[j][l])`.  A
read past the end of a vector of sizes is `none`. -/
def sgmd_distance_matrix (rows cols : Nat) (sizes_i sizes_j : List Int) :
    Option (List (List Int)) :=
  (List.range rows).mapM
    (fun k => (List.range cols).mapM
      (fun l => do
        let a ← sizes_i.get? k
        let b ← sizes_j.get? l
        some |a - b|))

/-- The vector `ptrs` that `nearness_task_sgmd` fills for the pair `(i, j)`: `size` entries,
null at first, and entry `k * cols + l` is the address `&distance_matrix[k][l]`,
embedded as the pair `(k, l)`.  A write past the end of `ptrs` is `none`. -/
def sgmd_ptrs (size rows cols : Nat) : Option (List (Option (Nat × Nat))) :=
  (List.range rows).foldlM
    (fun ptrs k =>
      (List.range cols).foldlM
        (fun ptrs l =>
          if k * cols + l < ptrs.length then some (ptrs.set (k * cols + l) (some (k, l)))
          else none)
        ptrs)
    (List.replicate size none)

/-- The read `cost_matrix[k][l]` of an `int** cost_matrix = &ptrs.front()`, as the
assignment solver does it: the row pointer `ptrs[k]`, advanced by `l` inside
the row of `distance_matrix` it points into.  A null pointer and a read
outside that row are `none`. -/
def sgmd_cost_entry (distance_matrix : List (List Int)) (ptrs : List (Option (Nat × Nat)))
    (k l : Nat) : Option Int := do
  let p ← ptrs.get? k
  let a ← p
  let r ← distance_matrix.get? a.1
  r.get? (a.2 + l)

/-- The cost matrix that `nearness_task_sgmd` hands to `hungarian_init` for the pair
`(i, j)`: the entry read at row `k` and column `l`. -/
def sgmd_cost (partial_graphs : List Graph) (subset_sizes : List (List Int)) (i j k l : Nat) :
    Option Int := do
  let graph_i ← partial_graphs.get? i
  let graph_j ← partial_graphs.get? j
  let graph_0 ← partial_graphs.get? 0
  let sizes_i ← subset_sizes.get? i
  let sizes_j ← subset_sizes.get? j
  let distance_matrix ← sgmd_distance_matrix graph_i.length graph_j.length sizes_i sizes_j
  let ptrs ← sgmd_ptrs (graph_i.length * graph_0.length) graph_i.length graph_j.length
  sgmd_cost_entry distance_matrix ptrs k l

/-! ## The comparator and the single-graph tool -/

/-- The `for` loop of `clique_compare` over the positions of the list. -/
def compare_scan (a b : IdSet) : List Nat → Bool
  | [] => false
  | i :: rest =>
    if i ∈ a ∧ i ∉ b then true
    else if i ∉ a ∧ i ∈ b then false
    else compare_scan a b rest

/-- The function `clique_compare(a, b)` of `maximal_clique_basic_includes.hpp`. -/
def clique_compare (a b : IdSet) : Bool :=
  if a.card = b.card then compare_scan a b (List.range MAX_VERTICES)
  else decide (a.card < b.card)

/-- Modelled from the spec: the call `std::sort(first, last, comp)` of the C++ standard
library, which is not part of the repository: the elements in an order sorted
by the comparator `comp`. -/
def std_sort {α : Type} (comp : α → α → Bool) (l : List α) : List α :=
  l.insertionSort (fun a b => comp b a = false)

/-- The cliques that `main` of `recursive/src/maximal_clique.cpp` writes, in the order of the
lines of the output file, for the feature values `features` of the input
file. -/
def main_written (features : List ℚ) (epsilon : ℚ) (num_features : Nat)
    (sort_output singletons : Bool) : Option (List IdSet) := do
  let graph ← features_to_graph features [] epsilon num_features
  let results ← clique_enumerate graph
  let results := if sort_output then std_sort clique_compare results else results
  some (results.filter (fun c => singletons || decide (c.card ≠ 1)))

/-- A neighbourhood graph on `n` vertices: `n` rows, symmetric, irreflexive, with
neighbours among the vertices. -/
def IsNeighbourhoodGraph (g : Graph) (n : Nat) : Prop :=
  g.length = n ∧ ∀ x y, y ∈ row g x → x < n ∧ y < n ∧ x ≠ y ∧ x ∈ row g y

/-- The amounts that the specification states for the reducer on a clique that is not
skipped: with `x` the members below `na`, `y` the members from `na` on and `k`
the size of the clique, the numerator grows by `(min(x, y) / max(x, y)) * k` and
the denominator by `k`. -/
def nearness_mce_stated (na : Nat) (clique : IdSet) (acc : ℚ × Int) : ℚ × Int :=
  let x := (clique.filter (fun i => i < na)).card
  let y := (clique.filter (fun i => na ≤ i)).card
  let k := clique.card
  (acc.1 + ((min x y : Nat) : ℚ) / ((max x y : Nat) : ℚ) * (k : ℚ), acc.2 + (k : Int))

/-! ## Text output and the feature reader -/

/-- The function `clique_to_string(clique)` of `maximal_clique_basic_includes.hpp`: the loop
over the positions `i < clique.size()` on the state `(ss, first)`; `ss << i`
appends the decimal digits of `i`. -/
def clique_to_string (clique : IdSet) : String :=
  ((List.range MAX_VERTICES).foldl
    (fun st i =>
      if i ∈ clique then ((if st.2 then st.1 else st.1 ++ "\t") ++ toString i, false)
      else st)
    ("", true)).1

/-- The function `output_results(out, results)` of `src/nearness.cpp`: the lines written, in
order, each as the values `i`, `j` and `results[min(i,j)][max(i,j)]` that it
holds.  An unchecked read past the end of a vector is `none`. -/
def output_results (results : List (List ℚ)) : Option (List (Nat × Nat × ℚ)) :=
  (List.range results.length).foldlM
    (fun lines i =>
      (List.range results.length).foldlM
        (fun lines j => do
          let r ← results.get? (min i j)
          let value ← r.get? (max i j)
          some (lines ++ [(i, j, value)]))
        lines)
    []

/-- The two-argument `read_features_fast(in, results)` of `src/convert_features.hpp`.  The file
is the list of the lines that `fgets` returns, each shorter than the buffer;
`atof` is the function of the C library. -/
def read_features_fast_vector (atof : String → ℚ) (file : List String) (results : List ℚ) :
    List ℚ :=
  file.foldl (fun results buffer => results ++ [atof buffer]) results

/-! ## The calls of the recursive enumerator -/

/-- The `do ... while (cur_v != NONE)` loop of `clique_enumerate`, as `clique_loop`, with
the calls made in place of the cliques emitted: `recurse` gives the calls of
the recursive call. -/
def calls_loop (graph : Graph) (recurse : IdSet → IdSet → IdSet → Option (List State))
    (fixp : Nat) : Nat → Nat → IdSet → IdSet → IdSet → Option (List State)
  | 0, _, _, _, _ => none
  | fuel + 1, cur_v, clique, cands, nots => do
    let new_clique ← bitset_set clique cur_v
    let new_nots := row graph cur_v ∩ nots
    let new_cands := row graph cur_v ∩ cands
    let out ← recurse new_clique new_cands new_nots
    let nots ← bitset_set nots cur_v
    let cands ← bitset_reset cands cur_v
    match remaining_v cands fixp graph with
    | none => some out
    | some next_v => do
      let rest ← calls_loop graph recurse fixp fuel next_v clique cands nots
      some (out ++ rest)

/-- The five-argument `clique_enumerate(clique, cands, nots, graph, callback)`, as
`clique_enumerate_rec`, with the calls made in place of the cliques emitted:
the arguments `(clique, cands, nots)` of the call itself, then those of the
calls below it, in call order. -/
def clique_enumerate_calls (graph : Graph) :
    Nat → IdSet → IdSet → IdSet → Option (List State)
  | 0, _, _, _ => none
  | fuel + 1, clique, cands, nots =>
    if cands = ∅ then some [State.mk clique cands nots]
    else
      match greatest_cand cands graph with
      | none => none
      | some fixp =>
        (calls_loop graph (clique_enumerate_calls graph fuel) fixp cands.card fixp clique
          cands nots).map (fun rest => State.mk clique cands nots :: rest)

/-- The calls of the five-argument `clique_enumerate` made by the entry point
`clique_enumerate(graph, callback)`. -/
def clique_enumerate_trace (graph : Graph) : Option (List State) := do
  let cands ← start_cands graph
  clique_enumerate_calls graph (graph.length + 1) ∅ cands ∅

/-- The cliques that a list of calls emits: a call with no candidate and no excluded vertex
emits its clique. -/
def emitted (calls : List State) : List IdSet :=
  (calls.filter (fun s => decide (s.cands = ∅) && decide (s.nots = ∅))).map (fun s => s.clique)

/-- The invariant of the search states: the three sets are pairwise disjoint sets of vertices,
the clique is pairwise adjacent, and the candidates and the excluded vertices
together are the vertices adjacent to every member of the clique. -/
def SearchInvariant (graph : Graph) (s : State) : Prop :=
  Disjoint s.clique s.cands ∧ Disjoint s.clique s.nots ∧ Disjoint s.cands s.nots ∧
    (∀ v ∈ s.clique ∪ s.cands ∪ s.nots, v < graph.length) ∧
    PairwiseAdjacent graph s.clique ∧
    ∀ w, w ∈ s.cands ∪ s.nots ↔ w < graph.length ∧ ∀ u ∈ s.clique, w ∈ row graph u

/-! ## The steps of the distributed enumerator -/

namespace MaximalClique

/-- The choice of the destinations in `clique_enumerate`: the loop `find first destination`
and the loop `while (cur_v != NONE)`.  The result is `none` when no out-edge
leads to a candidate (`fixp` stays `NONE`), the collision
`Sum.inl (cur_v, cur_v_data)` when the out-edge to a chosen destination holds a
valid message, and the set `destinations` otherwise. -/
def select_destinations (graph : Graph) (σ : World) (v : Nat) (cand : IdSet) :
    Option (Sum (Nat × EdgeData) IdSet) :=
  let fix := (out_edges graph v).foldl (fixp_step σ v cand) (none, 0, EdgeData.empty)
  match fix.1 with
  | none => none
  | some fixp =>
    let fixp_data := fix.2.2
    let fixp_neighbours := fixp_data.neighbours
    some
      (if fixp_data.message.is_set then Sum.inl (fixp, fixp_data)
      else scan_destinations σ v fixp_neighbours (out_edges graph v) (cand.erase fixp) {fixp})

/-- The vertex `cur_v` of the collision, when the choice of the destinations ends in
one. -/
def collision_at (graph : Graph) (σ : World) (v : Nat) (cand : IdSet) : Option Nat :=
  match select_destinations graph σ v cand with
  | some (Sum.inl (cur_v, _)) => some cur_v
  | _ => none

/-- The first part of `handle_messages`, up to the statement `vertex.set_data(data)`: the
stored cycle messages of the vertex are replayed and the counter is written
back. -/
def replay_stage (graph : Graph) (σ : World) (v : Nat) : World :=
  let data := σ.vertex_data v
  let r :=
    if data.cycles > 0 then replay graph v σ.cycle_messages [] σ data.cycles
    else (σ, data.cycles)
  r.1.set_vertex v { data with cycles := r.2 }

end MaximalClique

/-- The cycle counters agree with the side table: the counter `_cycles` of every vertex is
the number of the entries of `cycle_messages` stored for the vertex. -/
def CountersMatch (σ : World) : Prop :=
  ∀ v, (σ.vertex_data v).cycles = ((σ.cycle_messages.filter (fun e => e.1 = v)).length : Int)

/-! ## The passes of the recursive enumerator -/

/-- Why a run of the recursive enumerator stops early: the fuel is used up, or an index is
out of range (`greatest_cand` returned `NONE`, or a bit is set or reset outside
the width). -/
inductive Halt where
  /-- The fuel is used up. -/
  | fuel : Halt
  /-- An index is out of range. -/
  | fault : Halt
  deriving DecidableEq

/-- What a run of the five-argument `clique_enumerate` does, in execution order. -/
inductive Event where
  /-- A pass of the `do ... while` loop reaches the recursive call: `caller` holds the
  arguments of the call that runs the loop, `fixp` its pivot, `cur_v` the vertex
  of the pass, `loop` the sets `(clique, cands, nots)` of the caller at the start
  of the pass, `callee` the arguments `(new_clique, new_cands, new_nots)`. -/
  | call (caller : State) (fixp cur_v : Nat) (loop callee : State) : Event
  /-- A pass ends with `nots.set(cur_v); cands.reset(cur_v)`: `loop` holds the sets of
  the caller before, `next` after. -/
  | reset (cur_v : Nat) (loop next : State) : Event

/-- The `do ... while (cur_v != NONE)` loop of `clique_enumerate`, as `clique_loop`, with the
events of the run in place of the cliques emitted.  A run that stops early
returns the events up to there. -/
def events_loop (graph : Graph)
    (recurse : IdSet → IdSet → IdSet → List Event × Option Halt)
    (caller : State) (fixp : Nat) :
    Nat → Nat → IdSet → IdSet → IdSet → List Event × Option Halt
  | 0, _, _, _, _ => ([], some Halt.fuel)
  | fuel + 1, cur_v, clique, cands, nots =>
    match bitset_set clique cur_v with
    | none => ([], some Halt.fault)
    | some new_clique =>
      let new_nots := row graph cur_v ∩ nots
      let new_cands := row graph cur_v ∩ cands
      let call := Event.call caller fixp cur_v (State.mk clique cands nots)
        (State.mk new_clique new_cands new_nots)
      let sub := recurse new_clique new_cands new_nots
      match sub.2 with
      | some h => (call :: sub.1, some h)
      | none =>
        match bitset_set nots cur_v with
        | none => (call :: sub.1, some Halt.fault)
        | some nots2 =>
          match bitset_reset cands cur_v with
          | none => (call :: sub.1, some Halt.fault)
          | some cands2 =>
            let done := call :: sub.1 ++
              [Event.reset cur_v (State.mk clique cands nots) (State.mk clique cands2 nots2)]
            match remaining_v cands2 fixp graph with
            | none => (done, none)
            | some next_v =>
              let rest := events_loop graph recurse caller fixp fuel next_v clique cands2 nots2
              (done ++ rest.1, rest.2)

/-- The five-argument `clique_enumerate(clique, cands, nots, graph, callback)`, as
`clique_enumerate_rec`, with the events of the run in place of the cliques
emitted.  The fuel bounds the recursion depth. -/
def clique_enumerate_events_rec (graph : Graph) :
    Nat → IdSet → IdSet → IdSet → List Event × Option Halt
  | 0, _, _, _ => ([], some Halt.fuel)
  | fuel + 1, clique, cands, nots =>
    if cands = ∅ then ([], none)
    else
      match greatest_cand cands graph with
      | none => ([], some Halt.fault)
      | some fixp =>
        events_loop graph (clique_enumerate_events_rec graph fuel) (State.mk clique cands nots)
          fixp cands.card fixp clique cands nots

/-- The events of the entry point `clique_enumerate(graph, callback)` when the recursion is
cut at the depth `fuel`. -/
def clique_enumerate_events (graph : Graph) (fuel : Nat) : List Event × Option Halt :=
  match start_cands graph with
  | none => ([], some Halt.fault)
  | some cands => clique_enumerate_events_rec graph fuel ∅ cands ∅

/-- The arguments of the recursive calls among the events, in call order. -/
def called (events : List Event) : List State :=
  events.filterMap
    (fun e => match e with
      | Event.call _ _ _ _ callee => some callee
      | Event.reset _ _ _ => none)

/-- The facts that hold of every event of a run on a graph of `n` rows: the pivot is the
result of `greatest_cand` on the candidates of the caller and is one of them,
the vertex of a pass is a candidate of the caller that is still in the loop,
the recursive call gets the sets `clique ∪ {cur_v}`, `graph[cur_v] ∩ cands` and
`graph[cur_v] ∩ nots`, and the end of a pass moves `cur_v` from the candidates
to the excluded vertices. -/
def EventOk (graph : Graph) : Event → Prop
  | Event.call caller fixp cur_v loop callee =>
    caller.cands ⊆ Finset.range graph.length ∧
      greatest_cand caller.cands graph = some fixp ∧ fixp ∈ caller.cands ∧
      loop.clique = caller.clique ∧ loop.cands ⊆ caller.cands ∧ cur_v ∈ loop.cands ∧
      callee = State.mk (insert cur_v loop.clique) (row graph cur_v ∩ loop.cands)
        (row graph cur_v ∩ loop.nots)
  | Event.reset cur_v loop next =>
    loop.cands ⊆ Finset.range graph.length ∧ cur_v ∈ loop.cands ∧
      next = State.mk loop.clique (loop.cands.erase cur_v) (insert cur_v loop.nots)

/-! ## The command line of the nearness tool (`src/nearness.cpp`) -/

/-- The number of threads after the statement `if (vm.count("serial")) num_threads = 1`
of `main`. -/
def main_threads (serial : Bool) (num_threads : Int) : Int :=
  if serial then 1 else num_threads

/-- The flag `error` of `main` of `src/nearness.cpp`, on which `main` returns 1, after the
four tests of the arguments; `input_empty` is `input.empty()`.  The test
`epsilon <= std::sqrt(num_features)` is taken between exact values: for
`0 < epsilon` it is `epsilon * epsilon <= num_features`. -/
def main_error (serial input_empty : Bool) (num_features : Int) (epsilon : ℚ)
    (num_threads : Int) : Bool :=
  let num_threads := main_threads serial num_threads
  let error := false
  let error := if input_empty then true else error
  let error := if num_features ≤ 0 then true else error
  let error :=
    if ¬ (0 < epsilon ∧ epsilon * epsilon ≤ (num_features : ℚ)) then true else error
  let error := if num_threads < 0 then true else error
  error

/-- The three assertions at the start of `run_mce` and of `run_sgmd`, on the arguments that
`main` passes: the `int` values `num_features` and `num_threads` are converted
to `unsigned int`, of 32 bits. -/
def run_asserts (epsilon : ℚ) (num_features num_threads : Int) : Bool :=
  decide (num_threads % 2 ^ 32 > 0) && decide (num_features % 2 ^ 32 > 0) &&
    decide (epsilon > 0)

/-! ## An input of the MCE nearness with many maximal cliques -/

/-- An input of the MCE nearness: the object `v` of a family of 51 objects of 51 features.
In the block of the three features `3 * (v / 3)`, `3 * (v / 3) + 1` and
`3 * (v / 3) + 2` the feature `v` is 2 and the two others are -1; every other
feature is 0.  Two objects of one block are at squared distance 18, two
objects of different blocks at squared distance 12. -/
def triple_object (v : Nat) : List ℚ :=
  (List.range 51).map (fun c => if c / 3 = v / 3 then (if c = v then 2 else -1) else 0)

/-- The feature list of the objects `first, ..., first + count - 1` of `triple_object`, one
after the other. -/
def triple_objects (first count : Nat) : List ℚ :=
  ((List.range' first count).map triple_object).flatten

/-- The square of the difference of the objects `i` and `j` of `triple_object` at the
feature `c`. -/
def triple_square (i j c : Nat) : Nat :=
  if c / 3 = i / 3 then
    if c / 3 = j / 3 then (if c = i then (if c = j then 0 else 9) else if c = j then 9 else 0)
    else if c = i then 4 else 1
  else if c / 3 = j / 3 then (if c = j then 4 else 1) else 0

/-- A set with one of the 51 objects of `triple_object` from every block of three: the object
`3 * p + τ p` of the block `p`. -/
def triple_transversal (τ : Fin 17 → Fin 3) : IdSet :=
  Finset.univ.image (fun p : Fin 17 => 3 * p.val + (τ p).val)

/-! ## Basic facts about the helpers -/

theorem bitset_set_of_lt {s : IdSet} {pos : Nat} (h : pos < MAX_VERTICES) :
    bitset_set s pos = some (insert pos s) := by
  simp [bitset_set, h]

theorem bitset_reset_of_lt {s : IdSet} {pos : Nat} (h : pos < MAX_VERTICES) :
    bitset_reset s pos = some (s.erase pos) := by
  simp [bitset_reset, h]

theorem start_cands_fold (l : List Nat) (hl : ∀ i ∈ l, i < MAX_VERTICES) (s : IdSet) :
    l.foldlM (fun s i => bitset_set s i) s = some (s ∪ l.toFinset) := by
  induction l generalizing s with
  | nil => simp
  | cons a l ih =>
    have ha : a < MAX_VERTICES := hl a (by simp)
    rw [List.foldlM_cons, bitset_set_of_lt ha]
    simp only [Option.some_bind, Option.bind_eq_bind]
    rw [ih (fun i hi => hl i (by simp [hi]))]
    congr 1
    ext x
    simp

theorem start_cands_eq (graph : Graph) (hn : graph.length ≤ MAX_VERTICES) :
    start_cands graph = some (Finset.range graph.length) := by
  unfold start_cands
  rw [start_cands_fold _ (fun i hi => by have := List.mem_range.1 hi; omega)]
  congr 1
  ext x
  simp

theorem greatest_cand_eq (cands : IdSet) (graph : Graph) :
    greatest_cand cands graph =
      ((List.range graph.length).foldl (greatest_step cands graph) (none, -1)).1 := rfl

theorem greatest_fold_mem (cands : IdSet) (graph : Graph) (l : List Nat) :
    ∀ (st : Option Nat × Int) (v : Nat), (l.foldl (greatest_step cands graph) st).1 = some v →
      st.1 = some v ∨ (v ∈ l ∧ v ∈ cands) := by
  induction l with
  | nil => intro st v h; exact Or.inl h
  | cons a l ih =>
    intro st v h
    rw [List.foldl_cons] at h
    rcases ih _ v h with h1 | ⟨h1, h2⟩
    · unfold greatest_step at h1
      split_ifs at h1 with ha hb
      · simp only [Option.some.injEq] at h1
        subst h1
        exact Or.inr ⟨by simp, ha⟩
      · exact Or.inl h1
      · exact Or.inl h1
    · exact Or.inr ⟨by simp [h1], h2⟩

theorem greatest_fold_isSome (cands : IdSet) (graph : Graph) (l : List Nat) :
    ∀ (st : Option Nat × Int), (st.1.isSome ∨ st.2 < 0) →
      (st.1.isSome ∨ ∃ i ∈ l, i ∈ cands) →
      (l.foldl (greatest_step cands graph) st).1.isSome := by
  induction l with
  | nil =>
    intro st _ h
    rcases h with h | ⟨i, hi, _⟩
    · exact h
    · simp at hi
  | cons a l ih =>
    intro st hinv h
    rw [List.foldl_cons]
    by_cases ha : a ∈ cands
    · by_cases hb : ((cands ∩ row graph a).card : Int) > st.2
      · have : greatest_step cands graph st a = (some a, ((cands ∩ row graph a).card : Int)) := by
          simp [greatest_step, ha, hb]
        rw [this]
        exact ih _ (Or.inl rfl) (Or.inl rfl)
      · have : greatest_step cands graph st a = st := by
          simp [greatest_step, ha, hb]
        rw [this]
        have hs : st.1.isSome := by
          rcases hinv with h1 | h1
          · exact h1
          · exfalso
            have : (0 : Int) ≤ ((cands ∩ row graph a).card : Int) := Int.natCast_nonneg _
            omega
        exact ih _ (Or.inl hs) (Or.inl hs)
    · have : greatest_step cands graph st a = st := by
        simp [greatest_step, ha]
      rw [this]
      refine ih _ hinv ?_
      rcases h with h | ⟨i, hi, hic⟩
      · exact Or.inl h
      · rcases List.mem_cons.1 hi with rfl | hi
        · exact absurd hic ha
        · exact Or.inr ⟨i, hi, hic⟩

/-- On a non-empty candidate set inside `[0, n)` the pivot exists and is a candidate. -/
theorem greatest_cand_mem (cands : IdSet) (graph : Graph)
    (hne : cands.Nonempty) (hsub : cands ⊆ Finset.range graph.length) :
    ∃ fixp, greatest_cand cands graph = some fixp ∧ fixp ∈ cands := by
  obtain ⟨i, hi⟩ := hne
  have hlt : i < graph.length := Finset.mem_range.1 (hsub hi)
  have h := greatest_fold_isSome cands graph (List.range graph.length) (none, -1)
    (Or.inr (by decide)) (Or.inr ⟨i, List.mem_range.2 hlt, hi⟩)
  rw [← greatest_cand_eq] at h
  obtain ⟨v, hv⟩ := Option.isSome_iff_exists.1 h
  refine ⟨v, hv, ?_⟩
  rw [greatest_cand_eq] at hv
  rcases greatest_fold_mem cands graph _ _ v hv with h1 | ⟨_, h2⟩
  · simp at h1
  · exact h2

theorem remaining_v_some {cands : IdSet} {fixp : Nat} {graph : Graph} {v : Nat}
    (h : remaining_v cands fixp graph = some v) :
    v ∈ cands ∧ v ∉ row graph fixp := by
  unfold remaining_v at h
  split_ifs at h
  have := List.find?_some h
  simpa using this

theorem remaining_v_none {cands : IdSet} {fixp : Nat} {graph : Graph}
    (hsub : cands ⊆ Finset.range graph.length)
    (h : remaining_v cands fixp graph = none) :
    ∀ v ∈ cands, v ∈ row graph fixp := by
  intro v hv
  unfold remaining_v at h
  rw [if_pos ⟨v, hv⟩, List.find?_eq_none] at h
  have := h v (List.mem_range.2 (Finset.mem_range.1 (hsub hv)))
  simpa [hv] using this

/-! ## The search states of the recursive enumerator -/

theorem localMax_insert {graph : Graph} (hsym : SymmetricGraph graph)
    {Q Y S : IdSet} {v : Nat}
    (hQ : Q ⊆ Finset.range graph.length) (hv : v ∈ Q)
    (h : LocalMax graph (row graph v ∩ Q) (row graph v ∩ Y) S) :
    LocalMax graph Q Y (insert v S) := by
  obtain ⟨hsub, hpa, hmax⟩ := h
  have hvn : v < graph.length := Finset.mem_range.1 (hQ hv)
  have hSQ : ∀ u ∈ S, u ∈ Q := fun u hu => (Finset.mem_inter.1 (hsub hu)).2
  have hSv : ∀ u ∈ S, u ∈ row graph v := fun u hu => (Finset.mem_inter.1 (hsub hu)).1
  refine ⟨?_, ?_, ?_⟩
  · intro u hu
    rcases Finset.mem_insert.1 hu with rfl | hu
    · exact hv
    · exact hSQ u hu
  · intro a ha b hb hab
    rcases Finset.mem_insert.1 ha with ha1 | ha1
    · rcases Finset.mem_insert.1 hb with hb1 | hb1
      · exact absurd (ha1.trans hb1.symm) hab
      · rw [ha1]; exact hSv b hb1
    · rcases Finset.mem_insert.1 hb with hb1 | hb1
      · rw [hb1]
        exact (hsym v hvn a (Finset.mem_range.1 (hQ (hSQ a ha1)))).1 (hSv a ha1)
      · exact hpa a ha1 b hb1 hab
  · intro w hw hwS hall
    have hwv : w ∈ row graph v := hall v (Finset.mem_insert_self v S)
    have hwS' : w ∉ S := fun h => hwS (Finset.mem_insert_of_mem h)
    refine hmax w ?_ hwS' (fun u hu => hall u (Finset.mem_insert_of_mem hu))
    rcases Finset.mem_union.1 hw with h1 | h1
    · exact Finset.mem_union_left _ (Finset.mem_inter.2 ⟨hwv, h1⟩)
    · exact Finset.mem_union_right _ (Finset.mem_inter.2 ⟨hwv, h1⟩)

theorem localMax_erase {graph : Graph} (hirr : IrreflexiveGraph graph) {Q Y S : IdSet} {v : Nat}
    (hQ : Q ⊆ Finset.range graph.length)
    (h : LocalMax graph Q Y S) (hvS : v ∈ S) :
    LocalMax graph (row graph v ∩ Q) (row graph v ∩ Y) (S.erase v) := by
  obtain ⟨hsub, hpa, hmax⟩ := h
  refine ⟨?_, ?_, ?_⟩
  · intro u hu
    obtain ⟨huv, huS⟩ := Finset.mem_erase.1 hu
    exact Finset.mem_inter.2 ⟨hpa v hvS u huS (Ne.symm huv), hsub huS⟩
  · intro a ha b hb hab
    exact hpa a (Finset.mem_of_mem_erase ha) b (Finset.mem_of_mem_erase hb) hab
  · intro w hw hwS hall
    have hwv : w ∈ row graph v ∧ (w ∈ Q ∨ w ∈ Y) := by
      rcases Finset.mem_union.1 hw with h1 | h1
      · exact ⟨(Finset.mem_inter.1 h1).1, Or.inl (Finset.mem_inter.1 h1).2⟩
      · exact ⟨(Finset.mem_inter.1 h1).1, Or.inr (Finset.mem_inter.1 h1).2⟩
    have hne : w ≠ v := by
      rintro rfl
      exact hirr w (Finset.mem_range.1 (hQ (hsub hvS))) hwv.1
    have hwS' : w ∉ S := fun h => hwS (Finset.mem_erase.2 ⟨hne, h⟩)
    refine hmax w (Finset.mem_union.2 hwv.2) hwS' ?_
    intro u hu
    by_cases huv : u = v
    · subst huv; exact hwv.1
    · exact hall u (Finset.mem_erase.2 ⟨huv, hu⟩)

theorem localMax_step {graph : Graph} {Q Y S : IdSet} {v : Nat} (hv : v ∈ Q) :
    LocalMax graph (Q.erase v) (insert v Y) S ↔ LocalMax graph Q Y S ∧ v ∉ S := by
  have hunion : Q.erase v ∪ insert v Y = Q ∪ Y := by
    ext x
    simp only [Finset.mem_union, Finset.mem_erase, Finset.mem_insert]
    constructor
    · rintro (⟨_, h⟩ | rfl | h)
      · exact Or.inl h
      · exact Or.inl hv
      · exact Or.inr h
    · rintro (h | h)
      · by_cases hx : x = v
        · exact Or.inr (Or.inl hx)
        · exact Or.inl ⟨hx, h⟩
      · exact Or.inr (Or.inr h)
  unfold LocalMax
  rw [hunion]
  constructor
  · rintro ⟨hsub, hpa, hmax⟩
    exact ⟨⟨fun u hu => Finset.mem_of_mem_erase (hsub hu), hpa, hmax⟩,
      fun h => (Finset.mem_erase.1 (hsub h)).1 rfl⟩
  · rintro ⟨⟨hsub, hpa, hmax⟩, hvS⟩
    refine ⟨fun u hu => Finset.mem_erase.2 ⟨?_, hsub hu⟩, hpa, hmax⟩
    rintro rfl
    exact hvS hu

theorem clique_loop_unfold (graph : Graph)
    (recurse : IdSet → IdSet → IdSet → Option (List IdSet)) (fixp fuel cur_v : Nat)
    (clique cands nots : IdSet) (out : List IdSet) (hlt : cur_v < MAX_VERTICES)
    (h : recurse (insert cur_v clique) (row graph cur_v ∩ cands) (row graph cur_v ∩ nots)
      = some out) :
    clique_loop graph recurse fixp (fuel + 1) cur_v clique cands nots =
      match remaining_v (cands.erase cur_v) fixp graph with
      | none => some out
      | some next_v =>
        (clique_loop graph recurse fixp fuel next_v clique (cands.erase cur_v)
          (insert cur_v nots)).bind (fun rest => some (out ++ rest)) := by
  rw [clique_loop]
  simp only [bitset_set_of_lt hlt, bitset_reset_of_lt hlt, h, Option.bind_eq_bind,
    Option.some_bind]

/-- The loop of `clique_enumerate`, started at a candidate `cur_v` outside the pivot's row,
returns and emits `clique ∪ s` exactly for the locally maximal `s` that hold a
candidate outside the pivot's row. -/
theorem clique_loop_spec {graph : Graph} (hsym : SymmetricGraph graph)
    (hirr : IrreflexiveGraph graph) (hn : graph.length ≤ MAX_VERTICES)
    (recurse : IdSet → IdSet → IdSet → Option (List IdSet)) (k : Nat)
    (hrec : ∀ R P X, P ⊆ Finset.range graph.length → P.card < k →
      ∃ out, recurse R P X = some out ∧
        (∀ C, C ∈ out ↔ ∃ S, LocalMax graph P X S ∧ C = R ∪ S) ∧
        (Disjoint R P → out.Nodup))
    (fixp : Nat) (R : IdSet) :
    ∀ (lfuel cur_v : Nat) (Q Y : IdSet), Q ⊆ Finset.range graph.length →
      Q.card ≤ lfuel → Q.card ≤ k → cur_v ∈ Q → cur_v ∉ row graph fixp →
      ∃ out, clique_loop graph recurse fixp lfuel cur_v R Q Y = some out ∧
        (∀ C, C ∈ out ↔
          ∃ S, LocalMax graph Q Y S ∧ (∃ d ∈ S, d ∉ row graph fixp) ∧ C = R ∪ S) ∧
        (Disjoint R Q → out.Nodup) := by
  intro lfuel
  induction lfuel with
  | zero =>
    intro cur_v Q Y _ hcard _ hcur _
    have : Q = ∅ := Finset.card_eq_zero.1 (Nat.le_zero.1 hcard)
    rw [this] at hcur
    exact absurd hcur (Finset.not_mem_empty _)
  | succ lfuel ih =>
    intro cur_v Q Y hQ hcard hk hcur hcurfix
    have hcn : cur_v < graph.length := Finset.mem_range.1 (hQ hcur)
    have hlt : cur_v < MAX_VERTICES := lt_of_lt_of_le hcn hn
    have hnot : cur_v ∉ row graph cur_v := hirr cur_v hcn
    have hsub : row graph cur_v ∩ Q ⊆ Q := Finset.inter_subset_right
    have hcardlt : (row graph cur_v ∩ Q).card < Q.card := by
      apply Finset.card_lt_card
      refine ⟨hsub, fun h => hnot ?_⟩
      exact (Finset.mem_inter.1 (h hcur)).1
    obtain ⟨out1, h1, hmem1, hnd1⟩ := hrec (insert cur_v R) (row graph cur_v ∩ Q)
      (row graph cur_v ∩ Y) (hsub.trans hQ) (by omega)
    have key1 : ∀ C, C ∈ out1 ↔ ∃ S, LocalMax graph Q Y S ∧ cur_v ∈ S ∧ C = R ∪ S := by
      intro C
      rw [hmem1]
      constructor
      · rintro ⟨S, hS, rfl⟩
        refine ⟨insert cur_v S, localMax_insert hsym hQ hcur hS,
          Finset.mem_insert_self _ _, ?_⟩
        ext x
        simp only [Finset.mem_union, Finset.mem_insert]
        tauto
      · rintro ⟨S, hS, hcS, rfl⟩
        refine ⟨S.erase cur_v, localMax_erase hirr hQ hS hcS, ?_⟩
        ext x
        simp only [Finset.mem_union, Finset.mem_insert, Finset.mem_erase]
        constructor
        · rintro (h | h)
          · by_cases hx : x = cur_v
            · exact Or.inl (Or.inl hx)
            · exact Or.inl (Or.inr h)
          · by_cases hx : x = cur_v
            · exact Or.inl (Or.inl hx)
            · exact Or.inr ⟨hx, h⟩
        · rintro ((h | h) | ⟨_, h⟩)
          · subst h; exact Or.inr hcS
          · exact Or.inl h
          · exact Or.inr h
    have hQ' : Q.erase cur_v ⊆ Finset.range graph.length :=
      (Finset.erase_subset _ _).trans hQ
    have hcard' : (Q.erase cur_v).card = Q.card - 1 := Finset.card_erase_of_mem hcur
    have hQpos : 0 < Q.card := Finset.card_pos.2 ⟨cur_v, hcur⟩
    rw [clique_loop_unfold graph recurse fixp lfuel cur_v R Q Y out1 hlt h1]
    cases hrem : remaining_v (Q.erase cur_v) fixp graph with
    | none =>
      refine ⟨out1, rfl, ?_, ?_⟩
      · intro C
        rw [key1]
        constructor
        · rintro ⟨S, hS, hcS, rfl⟩
          exact ⟨S, hS, ⟨cur_v, hcS, hcurfix⟩, rfl⟩
        · rintro ⟨S, hS, ⟨d, hdS, hd⟩, rfl⟩
          refine ⟨S, hS, ?_, rfl⟩
          by_cases hdc : d = cur_v
          · subst hdc; exact hdS
          · exfalso
            exact hd (remaining_v_none hQ' hrem d (Finset.mem_erase.2 ⟨hdc, hS.1 hdS⟩))
      · intro hdisj
        apply hnd1
        rw [Finset.disjoint_left]
        intro x hx hx'
        rcases Finset.mem_insert.1 hx with rfl | hxR
        · exact hnot (Finset.mem_inter.1 hx').1
        · exact (Finset.disjoint_left.1 hdisj hxR) (Finset.mem_inter.1 hx').2
    | some next_v =>
      obtain ⟨hnQ, hnfix⟩ := remaining_v_some hrem
      obtain ⟨rest, h2, hmem2, hnd2⟩ := ih next_v (Q.erase cur_v) (insert cur_v Y) hQ'
        (by omega) (by omega) hnQ hnfix
      refine ⟨out1 ++ rest, ?_, ?_, ?_⟩
      · simp only [h2, Option.some_bind]
      · intro C
        rw [List.mem_append, key1, hmem2]
        constructor
        · rintro (⟨S, hS, hcS, rfl⟩ | ⟨S, hS, hd, rfl⟩)
          · exact ⟨S, hS, ⟨cur_v, hcS, hcurfix⟩, rfl⟩
          · exact ⟨S, ((localMax_step hcur).1 hS).1, hd, rfl⟩
        · rintro ⟨S, hS, hd, rfl⟩
          by_cases hcS : cur_v ∈ S
          · exact Or.inl ⟨S, hS, hcS, rfl⟩
          · exact Or.inr ⟨S, (localMax_step hcur).2 ⟨hS, hcS⟩, hd, rfl⟩
      · intro hdisj
        have hcR : cur_v ∉ R := fun h => Finset.disjoint_left.1 hdisj h hcur
        rw [List.nodup_append]
        refine ⟨hnd1 ?_, hnd2 ?_, ?_⟩
        · rw [Finset.disjoint_left]
          intro x hx hx'
          rcases Finset.mem_insert.1 hx with rfl | hxR
          · exact hnot (Finset.mem_inter.1 hx').1
          · exact (Finset.disjoint_left.1 hdisj hxR) (Finset.mem_inter.1 hx').2
        · rw [Finset.disjoint_left]
          intro x hx hx'
          exact Finset.disjoint_left.1 hdisj hx (Finset.mem_of_mem_erase hx')
        · intro C hC1 hC2
          obtain ⟨S1, _, hc1, rfl⟩ := (key1 C).1 hC1
          obtain ⟨S2, hS2, _, hEq⟩ := (hmem2 _).1 hC2
          have hmem : cur_v ∈ R ∪ S2 := by
            rw [← hEq]; exact Finset.mem_union_right _ hc1
          rcases Finset.mem_union.1 hmem with h | h
          · exact hcR h
          · exact (Finset.mem_erase.1 (hS2.1 h)).1 rfl

/-- The recursive search on a state `(R, P, X)` returns when the fuel exceeds `|P|` and
emits, each once, the sets `R ∪ s` for the cliques `s ⊆ P` that no vertex of
`P ∪ X` extends. -/
theorem clique_enumerate_rec_spec {graph : Graph} (hsym : SymmetricGraph graph)
    (hirr : IrreflexiveGraph graph) (hn : graph.length ≤ MAX_VERTICES) :
    ∀ (fuel : Nat) (R P X : IdSet), P ⊆ Finset.range graph.length → P.card < fuel →
      ∃ out, clique_enumerate_rec graph fuel R P X = some out ∧
        (∀ C, C ∈ out ↔ ∃ S, LocalMax graph P X S ∧ C = R ∪ S) ∧
        (Disjoint R P → out.Nodup) := by
  intro fuel
  induction fuel with
  | zero => intro R P X _ h; exact absurd h (Nat.not_lt_zero _)
  | succ fuel ih =>
    intro R P X hP hcard
    rw [clique_enumerate_rec]
    by_cases hPe : P = ∅
    · subst hPe
      rw [if_pos rfl]
      by_cases hXe : X = ∅
      · subst hXe
        rw [if_pos rfl]
        refine ⟨[R], rfl, ?_, fun _ => List.nodup_singleton _⟩
        intro C
        rw [List.mem_singleton]
        constructor
        · rintro rfl
          refine ⟨∅, ⟨Finset.Subset.refl _, ?_, ?_⟩, by simp⟩
          · intro u hu; exact absurd hu (Finset.not_mem_empty _)
          · intro w hw; simp at hw
        · rintro ⟨S, ⟨hsub, _, _⟩, rfl⟩
          rw [Finset.subset_empty.1 hsub]
          simp
      · rw [if_neg hXe]
        refine ⟨[], rfl, ?_, fun _ => List.nodup_nil⟩
        intro C
        constructor
        · intro h; simp at h
        · rintro ⟨S, ⟨hsub, _, hmax⟩, rfl⟩
          exfalso
          obtain ⟨w, hw⟩ := Finset.nonempty_iff_ne_empty.2 hXe
          have hS : S = ∅ := Finset.subset_empty.1 hsub
          subst hS
          exact hmax w (Finset.mem_union_right _ hw) (Finset.not_mem_empty _)
            (fun u hu => absurd hu (Finset.not_mem_empty _))
    · rw [if_neg hPe]
      obtain ⟨fixp, hfix, hfP⟩ := greatest_cand_mem P graph
        (Finset.nonempty_iff_ne_empty.2 hPe) hP
      rw [hfix]
      have hfn : fixp < graph.length := Finset.mem_range.1 (hP hfP)
      obtain ⟨out, hout, hmem, hnd⟩ := clique_loop_spec hsym hirr hn
        (clique_enumerate_rec graph fuel) fuel (fun R P X h1 h2 => ih R P X h1 h2) fixp R
        P.card fixp P X hP le_rfl (by omega) hfP (hirr fixp hfn)
      refine ⟨out, hout, ?_, hnd⟩
      intro C
      rw [hmem]
      constructor
      · rintro ⟨S, hS, _, rfl⟩
        exact ⟨S, hS, rfl⟩
      · rintro ⟨S, hS, rfl⟩
        refine ⟨S, hS, ?_, rfl⟩
        by_contra hcon
        push_neg at hcon
        have hfS : fixp ∉ S := fun h => hirr fixp hfn (hcon fixp h)
        refine hS.2.2 fixp (Finset.mem_union_left _ hfP) hfS ?_
        intro u hu
        exact (hsym fixp hfn u (Finset.mem_range.1 (hP (hS.1 hu)))).1 (hcon u hu)

/-- On a symmetric, irreflexive graph with at most `MAX_VERTICES` rows the
enumerator returns, without repetition, exactly the sets of vertices that are
pairwise adjacent and not extensible. -/
theorem clique_enumerate_spec {graph : Graph} (hsym : SymmetricGraph graph)
    (hirr : IrreflexiveGraph graph) (hn : graph.length ≤ MAX_VERTICES) :
    ∃ out, clique_enumerate graph = some out ∧ out.Nodup ∧
      ∀ C, C ∈ out ↔
        (∀ v ∈ C, v < graph.length) ∧ PairwiseAdjacent graph C ∧ NotExtensible graph C := by
  obtain ⟨out, hout, hmem, hnd⟩ := clique_enumerate_rec_spec hsym hirr hn
    (graph.length + 1) ∅ (Finset.range graph.length) ∅ (Finset.Subset.refl _)
    (by simp)
  refine ⟨out, ?_, hnd (Finset.disjoint_empty_left _), ?_⟩
  · unfold clique_enumerate
    rw [start_cands_eq graph hn]
    exact hout
  · intro C
    rw [hmem]
    constructor
    · rintro ⟨S, ⟨hsub, hpa, hmax⟩, rfl⟩
      rw [Finset.empty_union]
      refine ⟨fun v hv => Finset.mem_range.1 (hsub hv), hpa, ?_⟩
      intro w hw hwS
      exact hmax w (Finset.mem_union_left _ (Finset.mem_range.2 hw)) hwS
    · rintro ⟨hlt, hpa, hmax⟩
      refine ⟨C, ⟨fun v hv => Finset.mem_range.2 (hlt v hv), hpa, ?_⟩, by simp⟩
      intro w hw hwS
      rw [Finset.union_empty] at hw
      exact hmax w (Finset.mem_range.1 hw) hwS

/-! ## The iterative enumerator against the recursive one -/

theorem iterative_loop_unfold (graph : Graph) (fixp fuel cur_v : Nat)
    (clique cands nots : IdSet) (states : List State) (hlt : cur_v < MAX_VERTICES) :
    iterative_loop graph fixp (fuel + 1) cur_v clique cands nots states =
      match remaining_v (cands.erase cur_v) fixp graph with
      | none => some (State.mk (insert cur_v clique) (row graph cur_v ∩ cands)
          (row graph cur_v ∩ nots) :: states)
      | some next_v =>
        iterative_loop graph fixp fuel next_v clique (cands.erase cur_v) (insert cur_v nots)
          (State.mk (insert cur_v clique) (row graph cur_v ∩ cands)
            (row graph cur_v ∩ nots) :: states) := by
  rw [iterative_loop]
  simp only [bitset_set_of_lt hlt, bitset_reset_of_lt hlt, Option.bind_eq_bind,
    Option.some_bind]

/-- One loop of the recursive enumerator and the same loop of the iterative one: the
iterative loop pushes the states on which the recursive loop recurses, and
popping them all emits a permutation of what the recursive calls emit. -/
theorem iterative_loop_spec {graph : Graph}
    (hirr : IrreflexiveGraph graph) (hn : graph.length ≤ MAX_VERTICES)
    (recurse : IdSet → IdSet → IdSet → Option (List IdSet)) (k : Nat)
    (hrec : ∀ R P X, P ⊆ Finset.range graph.length → P.card < k →
      ∃ out out2 kk, recurse R P X = some out ∧ List.Perm out2 out ∧
        ∀ m rest results, iterative_while graph (kk + m) (State.mk R P X :: rest) results =
          iterative_while graph m rest (results ++ out2))
    (fixp : Nat) (R : IdSet) :
    ∀ (lfuel cur_v : Nat) (Q Y : IdSet), Q ⊆ Finset.range graph.length →
      Q.card ≤ lfuel → Q.card ≤ k → cur_v ∈ Q →
      ∃ out out2 kk stack, clique_loop graph recurse fixp lfuel cur_v R Q Y = some out ∧
        List.Perm out2 out ∧
        (∀ states, iterative_loop graph fixp lfuel cur_v R Q Y states
          = some (stack ++ states)) ∧
        ∀ m rest results, iterative_while graph (kk + m) (stack ++ rest) results =
          iterative_while graph m rest (results ++ out2) := by
  intro lfuel
  induction lfuel with
  | zero =>
    intro cur_v Q Y _ hcard _ hcur
    have : Q = ∅ := Finset.card_eq_zero.1 (Nat.le_zero.1 hcard)
    rw [this] at hcur
    exact absurd hcur (Finset.not_mem_empty _)
  | succ lfuel ih =>
    intro cur_v Q Y hQ hcard hk hcur
    have hcn : cur_v < graph.length := Finset.mem_range.1 (hQ hcur)
    have hlt : cur_v < MAX_VERTICES := lt_of_lt_of_le hcn hn
    have hnot : cur_v ∉ row graph cur_v := hirr cur_v hcn
    have hsub : row graph cur_v ∩ Q ⊆ Q := Finset.inter_subset_right
    have hcardlt : (row graph cur_v ∩ Q).card < Q.card := by
      apply Finset.card_lt_card
      refine ⟨hsub, fun h => hnot ?_⟩
      exact (Finset.mem_inter.1 (h hcur)).1
    obtain ⟨out1, out1p, k1, h1, hperm1, hit1⟩ := hrec (insert cur_v R)
      (row graph cur_v ∩ Q) (row graph cur_v ∩ Y) (hsub.trans hQ) (by omega)
    have hQ' : Q.erase cur_v ⊆ Finset.range graph.length :=
      (Finset.erase_subset _ _).trans hQ
    have hcard' : (Q.erase cur_v).card = Q.card - 1 := Finset.card_erase_of_mem hcur
    have hQpos : 0 < Q.card := Finset.card_pos.2 ⟨cur_v, hcur⟩
    rw [clique_loop_unfold graph recurse fixp lfuel cur_v R Q Y out1 hlt h1]
    simp only [iterative_loop_unfold graph fixp lfuel cur_v R Q Y _ hlt]
    cases hrem : remaining_v (Q.erase cur_v) fixp graph with
    | none =>
      refine ⟨out1, out1p, k1, [State.mk (insert cur_v R) (row graph cur_v ∩ Q)
        (row graph cur_v ∩ Y)], rfl, hperm1, fun states => rfl, ?_⟩
      intro m rest results
      exact hit1 m rest results
    | some next_v =>
      obtain ⟨hnQ, _⟩ := remaining_v_some hrem
      obtain ⟨out2, out2p, k2, stack2, h2, hperm2, hpush2, hit2⟩ :=
        ih next_v (Q.erase cur_v) (insert cur_v Y) hQ' (by omega) (by omega) hnQ
      refine ⟨out1 ++ out2, out2p ++ out1p, k2 + k1, stack2 ++
        [State.mk (insert cur_v R) (row graph cur_v ∩ Q) (row graph cur_v ∩ Y)],
        ?_, ?_, ?_, ?_⟩
      · simp only [h2, Option.some_bind]
      · exact (List.Perm.append hperm2 hperm1).trans List.perm_append_comm
      · intro states
        simp only [hpush2, List.append_assoc, List.singleton_append]
      · intro m rest results
        rw [List.append_assoc, List.singleton_append, Nat.add_assoc, hit2, hit1,
          List.append_assoc]

/-- The recursive search on one state and the iterative loop started with that state on
top of its stack: both return, and what the iterative loop has appended when
the state and its descendants are popped is a permutation of what the
recursive search emits. -/
theorem iterative_rec_spec {graph : Graph}
    (hirr : IrreflexiveGraph graph) (hn : graph.length ≤ MAX_VERTICES) :
    ∀ (fuel : Nat) (R P X : IdSet), P ⊆ Finset.range graph.length → P.card < fuel →
      ∃ out out2 kk, clique_enumerate_rec graph fuel R P X = some out ∧ List.Perm out2 out ∧
        ∀ m rest results, iterative_while graph (kk + m) (State.mk R P X :: rest) results =
          iterative_while graph m rest (results ++ out2) := by
  intro fuel
  induction fuel with
  | zero => intro R P X _ h; exact absurd h (Nat.not_lt_zero _)
  | succ fuel ih =>
    intro R P X hP hcard
    rw [clique_enumerate_rec]
    by_cases hPe : P = ∅
    · subst hPe
      rw [if_pos rfl]
      by_cases hXe : X = ∅
      · subst hXe
        rw [if_pos rfl]
        refine ⟨[R], [R], 1, rfl, List.Perm.refl _, ?_⟩
        intro m rest results
        rw [Nat.add_comm, iterative_while]
        simp
      · rw [if_neg hXe]
        refine ⟨[], [], 1, rfl, List.Perm.refl _, ?_⟩
        intro m rest results
        rw [Nat.add_comm, iterative_while]
        simp [hXe]
    · rw [if_neg hPe]
      obtain ⟨fixp, hfix, hfP⟩ := greatest_cand_mem P graph
        (Finset.nonempty_iff_ne_empty.2 hPe) hP
      rw [hfix]
      obtain ⟨out, out2, kk, stack, hout, hperm, hpush, hit⟩ := iterative_loop_spec hirr hn
        (clique_enumerate_rec graph fuel) fuel (fun R P X h1 h2 => ih R P X h1 h2) fixp R
        P.card fixp P X hP le_rfl (by omega) hfP
      refine ⟨out, out2, kk + 1, hout, hperm, ?_⟩
      intro m rest results
      rw [show kk + 1 + m = (kk + m) + 1 by omega, iterative_while]
      simp only [hPe, if_false, hfix, hpush]
      exact hit m rest results

/-! ## The graph builders -/

theorem row_set (res : Graph) (i x : Nat) (r : IdSet) (hi : i < res.length) :
    row (res.set i r) x = if x = i then r else row res x := by
  unfold row
  rw [List.getD_eq_getElem?_getD, List.getD_eq_getElem?_getD, List.getElem?_set]
  by_cases hx : x = i
  · subst hx; simp [hi]
  · have : ¬ i = x := fun h => hx h.symm
    simp [hx, this]

theorem set_bit_spec {res : Graph} {i pos : Nat} (hi : i < res.length)
    (hp : pos < MAX_VERTICES) :
    ∃ res2, set_bit res i pos = some res2 ∧ res2.length = res.length ∧
      ∀ x y, y ∈ row res2 x ↔ y ∈ row res x ∨ (x = i ∧ y = pos) := by
  refine ⟨res.set i (insert pos (row res i)), ?_, List.length_set _ _ _, ?_⟩
  · simp [set_bit, bitset_set_of_lt hp]
  · intro x y
    rw [row_set res i x _ hi]
    by_cases hx : x = i
    · subst hx
      simp only [if_true, Finset.mem_insert, true_and]
      tauto
    · simp [hx]

theorem link_spec {res : Graph} {i j : Nat} (hi : i < res.length) (hj : j < res.length)
    (hn : res.length ≤ MAX_VERTICES) :
    ∃ res2, link res i j = some res2 ∧ res2.length = res.length ∧
      ∀ x y, y ∈ row res2 x ↔ y ∈ row res x ∨ (x = i ∧ y = j) ∨ (x = j ∧ y = i) := by
  obtain ⟨r1, h1, hl1, hm1⟩ := set_bit_spec hi (lt_of_lt_of_le hj hn)
  obtain ⟨r2, h2, hl2, hm2⟩ := @set_bit_spec r1 j i (by omega) (lt_of_lt_of_le hi hn)
  refine ⟨r2, ?_, by omega, ?_⟩
  · simp [link, h1, h2]
  · intro x y
    rw [hm2, hm1]
    tauto

/-- The inner `for` loop of a graph builder: for the `j` of the list `lj` in turn, link `i`
and `j` when `near i j`. -/
theorem link_inner_spec (near : Nat → Nat → Prop) [DecidableRel near] (i : Nat)
    (lj : List Nat) :
    ∀ (res : Graph), res.length ≤ MAX_VERTICES → i < res.length →
      (∀ j ∈ lj, j < res.length) →
      ∃ res2, lj.foldlM (fun results j => if near i j then link results i j else some results)
          res = some res2 ∧ res2.length = res.length ∧
        ∀ x y, y ∈ row res2 x ↔
          y ∈ row res x ∨ ∃ j ∈ lj, near i j ∧ ((x = i ∧ y = j) ∨ (x = j ∧ y = i)) := by
  induction lj with
  | nil =>
    intro res _ _ _
    exact ⟨res, rfl, rfl, fun x y => by simp⟩
  | cons a lj ih =>
    intro res hn hi hlj
    have ha : a < res.length := hlj a (List.mem_cons_self _ _)
    rw [List.foldlM_cons]
    by_cases hnear : near i a
    · obtain ⟨r1, h1, hl1, hm1⟩ := link_spec hi ha hn
      obtain ⟨r2, h2, hl2, hm2⟩ := ih r1 (by omega) (by omega)
        (fun j hj => by rw [hl1]; exact hlj j (List.mem_cons_of_mem _ hj))
      refine ⟨r2, ?_, by omega, ?_⟩
      · simp only [hnear, if_true, h1, Option.bind_eq_bind, Option.some_bind]
        exact h2
      · intro x y
        rw [hm2, hm1]
        constructor
        · rintro ((h | h) | ⟨j, hj, hnj, h⟩)
          · exact Or.inl h
          · exact Or.inr ⟨a, List.mem_cons_self _ _, hnear, h⟩
          · exact Or.inr ⟨j, List.mem_cons_of_mem _ hj, hnj, h⟩
        · rintro (h | ⟨j, hj, hnj, h⟩)
          · exact Or.inl (Or.inl h)
          · rcases List.mem_cons.1 hj with rfl | hj
            · exact Or.inl (Or.inr h)
            · exact Or.inr ⟨j, hj, hnj, h⟩
    · obtain ⟨r2, h2, hl2, hm2⟩ := ih res hn hi
        (fun j hj => hlj j (List.mem_cons_of_mem _ hj))
      refine ⟨r2, ?_, hl2, ?_⟩
      · simp only [hnear, if_false, Option.bind_eq_bind, Option.some_bind]
        exact h2
      · intro x y
        rw [hm2]
        constructor
        · rintro (h | ⟨j, hj, hnj, h⟩)
          · exact Or.inl h
          · exact Or.inr ⟨j, List.mem_cons_of_mem _ hj, hnj, h⟩
        · rintro (h | ⟨j, hj, hnj, h⟩)
          · exact Or.inl h
          · rcases List.mem_cons.1 hj with rfl | hj
            · exact absurd hnj hnear
            · exact Or.inr ⟨j, hj, hnj, h⟩

/-- The nested `for` loops of a graph builder: the loops return, keep the number of rows,
and add to the rows exactly the links of the near pairs they visit. -/
theorem link_outer_spec (near : Nat → Nat → Prop) [DecidableRel near]
    (inner : Nat → List Nat) (li : List Nat) :
    ∀ (res : Graph), res.length ≤ MAX_VERTICES → (∀ i ∈ li, i < res.length) →
      (∀ i ∈ li, ∀ j ∈ inner i, j < res.length) →
      ∃ res2, li.foldlM (fun results i => (inner i).foldlM
          (fun results j => if near i j then link results i j else some results) results)
          res = some res2 ∧ res2.length = res.length ∧
        ∀ x y, y ∈ row res2 x ↔
          y ∈ row res x ∨
            ∃ i ∈ li, ∃ j ∈ inner i, near i j ∧ ((x = i ∧ y = j) ∨ (x = j ∧ y = i)) := by
  induction li with
  | nil =>
    intro res _ _ _
    exact ⟨res, rfl, rfl, fun x y => by simp⟩
  | cons a li ih =>
    intro res hn hli hin
    rw [List.foldlM_cons]
    obtain ⟨r1, h1, hl1, hm1⟩ := link_inner_spec near a (inner a) res hn
      (hli a (List.mem_cons_self _ _)) (hin a (List.mem_cons_self _ _))
    obtain ⟨r2, h2, hl2, hm2⟩ := ih r1 (by omega)
      (fun i hi => by rw [hl1]; exact hli i (List.mem_cons_of_mem _ hi))
      (fun i hi j hj => by rw [hl1]; exact hin i (List.mem_cons_of_mem _ hi) j hj)
    refine ⟨r2, ?_, by omega, ?_⟩
    · simp only [h1, Option.bind_eq_bind, Option.some_bind]
      exact h2
    · intro x y
      rw [hm2, hm1]
      constructor
      · rintro ((h | ⟨j, hj, h⟩) | ⟨i, hi, j, hj, h⟩)
        · exact Or.inl h
        · exact Or.inr ⟨a, List.mem_cons_self _ _, j, hj, h⟩
        · exact Or.inr ⟨i, List.mem_cons_of_mem _ hi, j, hj, h⟩
      · rintro (h | ⟨i, hi, j, hj, h⟩)
        · exact Or.inl (Or.inl h)
        · rcases List.mem_cons.1 hi with rfl | hi
          · exact Or.inl (Or.inr ⟨j, hj, h⟩)
          · exact Or.inr ⟨i, hi, j, hj, h⟩

theorem distance_eq_sum (objects_a objects_b : List ℚ) (a b size : Nat) :
    distance objects_a objects_b a b size =
      ∑ k ∈ Finset.range size, (objects_a.getD (a + k) 0 - objects_b.getD (b + k) 0) ^ 2 := by
  unfold distance
  induction size with
  | zero => simp
  | succ size ih =>
    rw [List.range_succ, List.foldl_append, ih, Finset.sum_range_succ]
    simp only [List.foldl_cons, List.foldl_nil]
    ring

theorem graphchi_distance_eq (objects : List ℚ) (a b size : Nat) :
    graphchi_distance objects a b size = distance objects objects a b size := rfl

theorem row_resize_nil (n x : Nat) : row (resize [] n) x = ∅ := by
  unfold row resize
  rw [List.getD_eq_getElem?_getD]
  simp only [List.take_nil, List.length_nil, Nat.sub_zero, List.nil_append,
    List.getElem?_replicate]
  split_ifs <;> rfl

theorem length_resize_nil (n : Nat) : (resize [] n).length = n := by
  simp [resize]

/-- The builder of `src/convert_features.hpp` on `n` objects of `f > 0` features and an
empty result: it returns `n` rows, and `y` is in row `x` exactly when `x` and `y`
are the two ends of a pair `i < j < n` at squared distance below `epsilon²`. -/
theorem features_to_graph_spec (features : List ℚ) (epsilon : ℚ) (n f : Nat)
    (hlen : features.length = n * f) (hf : 0 < f) (hn : n ≤ MAX_VERTICES) :
    ∃ res, features_to_graph features [] epsilon f = some res ∧ res.length = n ∧
      ∀ x y, y ∈ row res x ↔
        ∃ i j, i < j ∧ j < n ∧ distance features features (i * f) (j * f) f
          < epsilon * epsilon ∧ ((x = i ∧ y = j) ∨ (x = j ∧ y = i)) := by
  have hdiv : features.length / f = n := by
    rw [hlen]; exact Nat.mul_div_cancel n hf
  have hmod : features.length % f = 0 := by
    rw [hlen]; exact Nat.mul_mod_left n f
  obtain ⟨res, hres, hl, hm⟩ := link_outer_spec
    (fun i j => distance features features (i * f) (j * f) f < epsilon * epsilon)
    (fun i => List.range' (i + 1) (n - (i + 1))) (List.range n) (resize [] n)
    (by rw [length_resize_nil]; exact hn)
    (fun i hi => by rw [length_resize_nil]; exact List.mem_range.1 hi)
    (fun i hi j hj => by
      rw [length_resize_nil]
      have := List.mem_range.1 hi
      have := List.mem_range'_1.1 hj
      omega)
  refine ⟨res, ?_, by rw [hl, length_resize_nil], ?_⟩
  · unfold features_to_graph
    rw [if_neg (by omega), if_neg (by simp [hmod])]
    simp only [hdiv]
    exact hres
  · intro x y
    rw [hm, row_resize_nil]
    constructor
    · rintro (h | ⟨i, hi, j, hj, hnear, h⟩)
      · exact absurd h (Finset.not_mem_empty _)
      · have := List.mem_range.1 hi
        have := List.mem_range'_1.1 hj
        exact ⟨i, j, by omega, by omega, hnear, h⟩
    · rintro ⟨i, j, hij, hjn, hnear, h⟩
      refine Or.inr ⟨i, List.mem_range.2 (by omega), j, List.mem_range'_1.2 (by omega),
        hnear, h⟩

/-- The builders of `graphchi/myapps/convert_features.hpp` on a file of `n` objects of
`f > 0` features and an empty result: both return the same `n` rows, and `y` is
in row `x` exactly when `x` and `y` are the two ends of a pair `i ≤ j < n` at
squared distance below `epsilon²`. -/
theorem read_features_spec (file : List ℚ) (epsilon : ℚ) (n f : Nat)
    (hlen : file.length = n * f) (hf : 0 < f) (hn : n ≤ MAX_VERTICES) :
    ∃ res objects, read_objects file f = some objects ∧
      read_features file [] epsilon f = some res ∧
      read_features_fast file [] epsilon f = some res ∧ res.length = n ∧
      ∀ x y, y ∈ row res x ↔
        ∃ i j, i ≤ j ∧ j < n ∧ graphchi_distance objects (i * f) (j * f) f
          < epsilon * epsilon ∧ ((x = i ∧ y = j) ∨ (x = j ∧ y = i)) := by
  have hdiv : file.length / f = n := by
    rw [hlen]; exact Nat.mul_div_cancel n hf
  have hmod : file.length % f = 0 := by
    rw [hlen]; exact Nat.mul_mod_left n f
  have hbuf : file.length ≤ MAX_VERTICES * f := by
    rw [hlen]; exact Nat.mul_le_mul_right f hn
  obtain ⟨res, hres, hl, hm⟩ := link_outer_spec
    (fun i j => graphchi_distance
      (file ++ List.replicate (MAX_VERTICES * f - file.length) 0) (i * f) (j * f) f
        < epsilon * epsilon)
    (fun i => List.range' i (n - i)) (List.range n) (resize [] n)
    (by rw [length_resize_nil]; exact hn)
    (fun i hi => by rw [length_resize_nil]; exact List.mem_range.1 hi)
    (fun i hi j hj => by
      rw [length_resize_nil]
      have := List.mem_range.1 hi
      have := List.mem_range'_1.1 hj
      omega)
  refine ⟨res, file ++ List.replicate (MAX_VERTICES * f - file.length) 0, ?_, ?_, ?_,
    by rw [hl, length_resize_nil], ?_⟩
  · simp [read_objects, hbuf]
  · unfold read_features
    simp only [read_objects, hbuf, if_true, Option.bind_eq_bind, Option.some_bind]
    rw [if_neg (by omega), if_neg (by simp [hmod])]
    simp only [hdiv]
    exact hres
  · unfold read_features_fast
    simp only [read_objects, hbuf, if_true, Option.bind_eq_bind, Option.some_bind]
    rw [if_neg (by omega), if_neg (by simp [hmod])]
    simp only [hdiv]
    exact hres
  · intro x y
    rw [hm, row_resize_nil]
    constructor
    · rintro (h | ⟨i, hi, j, hj, hnear, h⟩)
      · exact absurd h (Finset.not_mem_empty _)
      · have := List.mem_range.1 hi
        have := List.mem_range'_1.1 hj
        exact ⟨i, j, by omega, by omega, hnear, h⟩
    · rintro ⟨i, j, hij, hjn, hnear, h⟩
      refine Or.inr ⟨i, List.mem_range.2 (by omega), j, List.mem_range'_1.2 (by omega),
        hnear, h⟩

/-! ## The recursive enumerator: completeness, soundness, maximality, no duplicates -/

/-- C1: on a symmetric, irreflexive graph with at most 512 vertices the recursive
`clique_enumerate(graph, callback)` returns and passes to the callback every
maximal clique of the graph: every non-empty set of pairwise adjacent vertices
that no further vertex extends. -/
theorem clique_enumerate_complete (graph : Graph) (hsym : SymmetricGraph graph)
    (hirr : IrreflexiveGraph graph) (hn : graph.length ≤ MAX_VERTICES) :
    ∃ out, clique_enumerate graph = some out ∧
      ∀ C, IsMaximalClique graph C → C ∈ out := by
  obtain ⟨out, hout, _, hmem⟩ := clique_enumerate_spec hsym hirr hn
  exact ⟨out, hout, fun C hC => (hmem C).2 ⟨hC.2.1, hC.2.2.1, hC.2.2.2⟩⟩

theorem clique_enumerate_complete_witness :
    ∃ out, clique_enumerate [{1}, {0, 2}, {1}] = some out ∧
      ∀ C, IsMaximalClique [{1}, {0, 2}, {1}] C → C ∈ out :=
  clique_enumerate_complete [{1}, {0, 2}, {1}] (by decide) (by decide) (by decide)

/-- C2: on a symmetric, irreflexive graph with at most 512 vertices every set that
`clique_enumerate(graph, callback)` passes to the callback is pairwise
adjacent: `v ∈ graph[u]` for all its members `u ≠ v`. -/
theorem clique_enumerate_clique (graph : Graph) (hsym : SymmetricGraph graph)
    (hirr : IrreflexiveGraph graph) (hn : graph.length ≤ MAX_VERTICES) :
    ∃ out, clique_enumerate graph = some out ∧
      ∀ C ∈ out, ∀ u ∈ C, ∀ v ∈ C, u ≠ v → v ∈ row graph u := by
  obtain ⟨out, hout, _, hmem⟩ := clique_enumerate_spec hsym hirr hn
  exact ⟨out, hout, fun C hC => ((hmem C).1 hC).2.1⟩

theorem clique_enumerate_clique_witness :
    ∃ out, clique_enumerate [{1, 2}, {0, 2}, {0, 1}, ∅] = some out ∧
      ∀ C ∈ out, ∀ u ∈ C, ∀ v ∈ C, u ≠ v → v ∈ row [{1, 2}, {0, 2}, {0, 1}, ∅] u :=
  clique_enumerate_clique [{1, 2}, {0, 2}, {0, 1}, ∅] (by decide) (by decide) (by decide)

/-- C3: on a symmetric, irreflexive graph with at most 512 vertices, for every set `C`
that `clique_enumerate(graph, callback)` passes to the callback there is no
vertex `w < n` outside `C` that is adjacent to every member of `C`. -/
theorem clique_enumerate_maximal (graph : Graph) (hsym : SymmetricGraph graph)
    (hirr : IrreflexiveGraph graph) (hn : graph.length ≤ MAX_VERTICES) :
    ∃ out, clique_enumerate graph = some out ∧
      ∀ C ∈ out, ¬ ∃ w, w < graph.length ∧ w ∉ C ∧ ∀ u ∈ C, w ∈ row graph u := by
  obtain ⟨out, hout, _, hmem⟩ := clique_enumerate_spec hsym hirr hn
  refine ⟨out, hout, fun C hC => ?_⟩
  rintro ⟨w, hw, hwC, hall⟩
  exact ((hmem C).1 hC).2.2 w hw hwC hall

theorem clique_enumerate_maximal_witness :
    ∃ out, clique_enumerate [{1}, {0}, ∅] = some out ∧
      ∀ C ∈ out, ¬ ∃ w, w < [({1} : IdSet), {0}, ∅].length ∧ w ∉ C ∧
        ∀ u ∈ C, w ∈ row [{1}, {0}, ∅] u :=
  clique_enumerate_maximal [{1}, {0}, ∅] (by decide) (by decide) (by decide)

/-- C4: on a symmetric, irreflexive graph with at most 512 vertices the result vector
filled by `clique_enumerate(graph, results)` has no entry that is a subset of
the entry at a different position; in particular no two entries are equal. -/
theorem clique_enumerate_no_containment (graph : Graph) (hsym : SymmetricGraph graph)
    (hirr : IrreflexiveGraph graph) (hn : graph.length ≤ MAX_VERTICES) :
    ∃ out, clique_enumerate graph = some out ∧
      ∀ (i j : Nat) (hi : i < out.length) (hj : j < out.length), i ≠ j →
        ¬ (out[i] ⊆ out[j]) ∧ out[i] ≠ out[j] := by
  obtain ⟨out, hout, hnd, hmem⟩ := clique_enumerate_spec hsym hirr hn
  refine ⟨out, hout, ?_⟩
  intro i j hi hj hij
  have hne : out[i] ≠ out[j] := fun h => hij ((List.Nodup.getElem_inj_iff hnd).1 h)
  refine ⟨fun hsub => ?_, hne⟩
  obtain ⟨_, _, hmaxi⟩ := (hmem out[i]).1 (List.getElem_mem hi)
  obtain ⟨hltj, hpaj, _⟩ := (hmem out[j]).1 (List.getElem_mem hj)
  obtain ⟨w, hwj, hwi⟩ : ∃ w, w ∈ out[j] ∧ w ∉ out[i] := by
    by_contra hcon
    push_neg at hcon
    exact hne (Finset.Subset.antisymm hsub hcon)
  refine hmaxi w (hltj w hwj) hwi ?_
  intro u hu
  have hne2 : u ≠ w := fun h => hwi (h ▸ hu)
  exact hpaj u (hsub hu) w hwj hne2

theorem clique_enumerate_no_containment_witness :
    ∃ out, clique_enumerate [{1, 3}, {0, 2}, {1, 3}, {0, 2}] = some out ∧
      ∀ (i j : Nat) (hi : i < out.length) (hj : j < out.length), i ≠ j →
        ¬ (out[i] ⊆ out[j]) ∧ out[i] ≠ out[j] :=
  clique_enumerate_no_containment [{1, 3}, {0, 2}, {1, 3}, {0, 2}]
    (by decide) (by decide) (by decide)

/-- C5: on an irreflexive graph with at most 512 vertices the recursive
`clique_enumerate(graph, results)` returns, `clique_enumerate_iterative(graph,
results)` returns for every large enough bound on the number of popped states,
and the two result vectors are equal up to order. -/
theorem clique_enumerate_iterative_perm (graph : Graph)
    (hirr : IrreflexiveGraph graph) (hn : graph.length ≤ MAX_VERTICES) :
    ∃ out, clique_enumerate graph = some out ∧
      ∃ fuel0, ∀ fuel, fuel0 ≤ fuel →
        ∃ out2, clique_enumerate_iterative graph fuel [] = some out2 ∧ List.Perm out2 out := by
  obtain ⟨out, out2, kk, hout, hperm, hit⟩ := iterative_rec_spec hirr hn
    (graph.length + 1) ∅ (Finset.range graph.length) ∅ (Finset.Subset.refl _) (by simp)
  refine ⟨out, ?_, kk, ?_⟩
  · unfold clique_enumerate
    rw [start_cands_eq graph hn]
    exact hout
  · intro fuel hfuel
    refine ⟨out2, ?_, hperm⟩
    unfold clique_enumerate_iterative
    rw [start_cands_eq graph hn]
    simp only [Option.bind_eq_bind, Option.some_bind]
    rw [show fuel = kk + (fuel - kk) by omega, hit]
    simp [iterative_while]

theorem clique_enumerate_iterative_perm_witness :
    ∃ out, clique_enumerate [{1}, {2}, {0, 1}] = some out ∧
      ∃ fuel0, ∀ fuel, fuel0 ≤ fuel →
        ∃ out2, clique_enumerate_iterative [{1}, {2}, {0, 1}] fuel [] = some out2 ∧
          List.Perm out2 out :=
  clique_enumerate_iterative_perm [{1}, {2}, {0, 1}] (by decide) (by decide)

/-! ## The graph builders: adjacency rule, symmetry, the diagonal -/

/-- C7: for a feature list of `n` objects of `f > 0` features, `n ≤ 512`, any `epsilon`
and an empty result, `features_to_graph` returns `n` rows in which, for
`i < j < n`, `j` is in row `i` exactly when the sum over `k < f` of
`(features[i*f+k] - features[j*f+k])²` is strictly below `epsilon²`; a pair at
squared distance exactly `epsilon²` is not adjacent. -/
theorem features_to_graph_adjacency (features : List ℚ) (epsilon : ℚ) (n f : Nat)
    (hlen : features.length = n * f) (hf : 0 < f) (hn : n ≤ MAX_VERTICES) :
    ∃ res, features_to_graph features [] epsilon f = some res ∧ res.length = n ∧
      ∀ i j, i < j → j < n →
        (j ∈ row res i ↔
          ∑ k ∈ Finset.range f,
            (features.getD (i * f + k) 0 - features.getD (j * f + k) 0) ^ 2 < epsilon ^ 2) ∧
        (∑ k ∈ Finset.range f,
            (features.getD (i * f + k) 0 - features.getD (j * f + k) 0) ^ 2 = epsilon ^ 2 →
          j ∉ row res i) := by
  obtain ⟨res, hres, hl, hm⟩ := features_to_graph_spec features epsilon n f hlen hf hn
  refine ⟨res, hres, hl, ?_⟩
  intro i j hij hjn
  have key : j ∈ row res i ↔
      ∑ k ∈ Finset.range f,
        (features.getD (i * f + k) 0 - features.getD (j * f + k) 0) ^ 2 < epsilon ^ 2 := by
    rw [hm, ← distance_eq_sum, pow_two]
    constructor
    · rintro ⟨a, b, hab, _, hnear, (⟨rfl, rfl⟩ | ⟨rfl, rfl⟩)⟩
      · exact hnear
      · omega
    · intro hnear
      exact ⟨i, j, hij, hjn, hnear, Or.inl ⟨rfl, rfl⟩⟩
  refine ⟨key, fun heq hmem => ?_⟩
  have := key.1 hmem
  rw [heq] at this
  exact lt_irrefl _ this

theorem features_to_graph_adjacency_witness :
    ∃ res, features_to_graph [0, 1, 3] [] 2 1 = some res ∧ res.length = 3 ∧
      ∀ i j, i < j → j < 3 →
        (j ∈ row res i ↔
          ∑ k ∈ Finset.range 1,
            (([0, 1, 3] : List ℚ).getD (i * 1 + k) 0 - ([0, 1, 3] : List ℚ).getD (j * 1 + k) 0) ^ 2
              < (2 : ℚ) ^ 2) ∧
        (∑ k ∈ Finset.range 1,
            (([0, 1, 3] : List ℚ).getD (i * 1 + k) 0 - ([0, 1, 3] : List ℚ).getD (j * 1 + k) 0) ^ 2
              = (2 : ℚ) ^ 2 →
          j ∉ row res i) :=
  features_to_graph_adjacency [0, 1, 3] 2 3 1 (by decide) (by decide) (by decide)

/-- C8: for a feature list of `n` objects of `f > 0` features, `n ≤ 512`, and any
`epsilon`, the graph that `features_to_graph` builds from an empty result is
symmetric: `j ∈ results[i]` exactly when `i ∈ results[j]`, for all `i, j < n`. -/
theorem features_to_graph_symmetric (features : List ℚ) (epsilon : ℚ) (n f : Nat)
    (hlen : features.length = n * f) (hf : 0 < f) (hn : n ≤ MAX_VERTICES) :
    ∃ res, features_to_graph features [] epsilon f = some res ∧ res.length = n ∧
      ∀ i j, i < n → j < n → (j ∈ row res i ↔ i ∈ row res j) := by
  obtain ⟨res, hres, hl, hm⟩ := features_to_graph_spec features epsilon n f hlen hf hn
  refine ⟨res, hres, hl, ?_⟩
  intro i j _ _
  rw [hm, hm]
  constructor <;>
  · rintro ⟨a, b, hab, hb, hnear, h⟩
    exact ⟨a, b, hab, hb, hnear, by tauto⟩

theorem features_to_graph_symmetric_witness :
    ∃ res, features_to_graph [0, 0, 1, 0, 5, 5] [] 2 2 = some res ∧ res.length = 3 ∧
      ∀ i j, i < 3 → j < 3 → (j ∈ row res i ↔ i ∈ row res j) :=
  features_to_graph_symmetric [0, 0, 1, 0, 5, 5] 2 3 2 (by decide) (by decide) (by decide)

/-- C9: for a feature list of `n` objects of `f > 0` features, `n ≤ 512`, and any
`epsilon` (in particular any `epsilon > 0`), the graph that `features_to_graph`
builds from an empty result is irreflexive: `i ∉ results[i]` for every
`i < n`. -/
theorem features_to_graph_irreflexive (features : List ℚ) (epsilon : ℚ) (n f : Nat)
    (hlen : features.length = n * f) (hf : 0 < f) (hn : n ≤ MAX_VERTICES) :
    ∃ res, features_to_graph features [] epsilon f = some res ∧ res.length = n ∧
      ∀ i, i < n → i ∉ row res i := by
  obtain ⟨res, hres, hl, hm⟩ := features_to_graph_spec features epsilon n f hlen hf hn
  refine ⟨res, hres, hl, ?_⟩
  intro i _ hmem
  obtain ⟨a, b, hab, _, _, h⟩ := (hm i i).1 hmem
  omega

theorem features_to_graph_irreflexive_witness :
    ∃ res, features_to_graph [0, 0, 7] [] 1 1 = some res ∧ res.length = 3 ∧
      ∀ i, i < 3 → i ∉ row res i :=
  features_to_graph_irreflexive [0, 0, 7] 1 3 1 (by decide) (by decide) (by decide)

/-- C10, as stated, fails: on the file holding the single value `0`, with one feature
and `epsilon = 1`, `read_features` and `read_features_fast` return a graph
whose row `0` holds `0`. -/
theorem read_features_reflexive_counterexample :
    ∃ res, read_features [0] [] 1 1 = some res ∧ read_features_fast [0] [] 1 1 = some res ∧
      0 ∈ row res 0 := by
  obtain ⟨res, objects, _, h1, h2, _, hm⟩ :=
    read_features_spec [0] 1 1 1 (by decide) (by decide) (by decide)
  refine ⟨res, h1, h2, (hm 0 0).2 ⟨0, 0, le_rfl, by decide, ?_, Or.inl ⟨rfl, rfl⟩⟩⟩
  rw [graphchi_distance_eq, distance_eq_sum]
  simp

/-- C10, amended: for a feature file of `n` objects of `f > 0` features, `n ≤ 512`, and
`epsilon > 0`, `read_features` and `read_features_fast` return the same graph
of `n` rows, and every row holds its own index: `i ∈ results[i]` for every
`i < n`. -/
theorem read_features_reflexive (file : List ℚ) (epsilon : ℚ) (n f : Nat)
    (hlen : file.length = n * f) (hf : 0 < f) (hn : n ≤ MAX_VERTICES) (heps : 0 < epsilon) :
    ∃ res, read_features file [] epsilon f = some res ∧
      read_features_fast file [] epsilon f = some res ∧ res.length = n ∧
      ∀ i, i < n → i ∈ row res i := by
  obtain ⟨res, objects, _, h1, h2, hl, hm⟩ := read_features_spec file epsilon n f hlen hf hn
  refine ⟨res, h1, h2, hl, ?_⟩
  intro i hi
  refine (hm i i).2 ⟨i, i, le_rfl, hi, ?_, Or.inl ⟨rfl, rfl⟩⟩
  rw [graphchi_distance_eq, distance_eq_sum]
  simp only [sub_self, ne_eq, OfNat.ofNat_ne_zero, not_false_eq_true, zero_pow,
    Finset.sum_const_zero]
  exact mul_pos heps heps

theorem read_features_reflexive_witness :
    ∃ res, read_features [0, 4] [] 1 1 = some res ∧
      read_features_fast [0, 4] [] 1 1 = some res ∧ res.length = 2 ∧
      ∀ i, i < 2 → i ∈ row res i :=
  read_features_reflexive [0, 4] 1 2 1 (by decide) (by decide) (by decide) (by decide)

/-! ## The distributed enumerator: scheduling invariance -/

theorem row_eq_empty_of_ge {graph : Graph} {u : Nat} (h : graph.length ≤ u) :
    row graph u = ∅ := by
  unfold row
  rw [List.getD_eq_getElem?_getD, List.getElem?_eq_none h]
  rfl

namespace GoodGraph

theorem lt_of_mem {graph : Graph} (hg : GoodGraph graph) {u v : Nat} (h : v ∈ row graph u) : u < graph.length ∧ v < graph.length := by
  have hu : u < graph.length := by
    by_contra hcon
    rw [row_eq_empty_of_ge (not_lt.1 hcon)] at h
    exact absurd h (Finset.not_mem_empty _)
  exact ⟨hu, hg.rows u hu v h⟩

theorem mem_symm {graph : Graph} (hg : GoodGraph graph) {u v : Nat} (h : v ∈ row graph u) : u ∈ row graph v := by
  obtain ⟨hu, hv⟩ := hg.lt_of_mem h
  exact (hg.sym u hu v hv).1 h

theorem ne_of_mem {graph : Graph} (hg : GoodGraph graph) {u v : Nat} (h : v ∈ row graph u) : u ≠ v := by
  rintro rfl
  exact hg.irr u (hg.lt_of_mem h).1 h

theorem row_subset {graph : Graph} (hg : GoodGraph graph) (u : Nat) : row graph u ⊆ Finset.range graph.length :=
  fun _ h => Finset.mem_range.2 (hg.lt_of_mem h).2

theorem mem_out_edges {graph : Graph} (hg : GoodGraph graph) {v w : Nat} : w ∈ out_edges graph v ↔ w ∈ row graph v := by
  unfold out_edges
  rw [List.mem_filter, List.mem_range]
  simp only [decide_eq_true_eq]
  exact ⟨fun h => h.2, fun h => ⟨(hg.lt_of_mem h).2, h⟩⟩

theorem mem_in_edges {graph : Graph} (hg : GoodGraph graph) {v u : Nat} : u ∈ in_edges graph v ↔ u ∈ row graph v := by
  unfold in_edges
  rw [List.mem_filter, List.mem_range]
  simp only [decide_eq_true_eq]
  exact ⟨fun h => hg.mem_symm h.2, fun h => ⟨(hg.lt_of_mem h).2, hg.mem_symm h⟩⟩

theorem nodup_out_edges (graph : Graph) (v : Nat) : (out_edges graph v).Nodup :=
  List.Nodup.filter _ (List.nodup_range _)

theorem nodup_in_edges (graph : Graph) (v : Nat) : (in_edges graph v).Nodup :=
  List.Nodup.filter _ (List.nodup_range _)

theorem has_edges_iff {graph : Graph} (hg : GoodGraph graph) (v : Nat) :
    (in_edges graph v).length + (out_edges graph v).length > 0 ↔ (row graph v).Nonempty := by
  constructor
  · intro h
    by_contra hcon
    rw [Finset.not_nonempty_iff_eq_empty] at hcon
    have h1 : in_edges graph v = [] := by
      apply List.eq_nil_iff_forall_not_mem.2
      intro u hu
      have := hg.mem_in_edges.1 hu
      rw [hcon] at this
      exact absurd this (Finset.not_mem_empty _)
    have h2 : out_edges graph v = [] := by
      apply List.eq_nil_iff_forall_not_mem.2
      intro u hu
      have := hg.mem_out_edges.1 hu
      rw [hcon] at this
      exact absurd this (Finset.not_mem_empty _)
    rw [h1, h2] at h
    simp at h
  · rintro ⟨w, hw⟩
    have := List.length_pos_of_mem (hg.mem_out_edges.2 hw)
    omega

theorem out_edges_toFinset {graph : Graph} (hg : GoodGraph graph) (v : Nat) : (out_edges graph v).toFinset = row graph v := by
  ext w
  rw [List.mem_toFinset, hg.mem_out_edges]

end GoodGraph

@[simp] theorem World.set_edge_edge_data (σ : World) (u v : Nat) (d : EdgeData) (a b : Nat) :
    (σ.set_edge u v d).edge_data a b = if a = u ∧ b = v then d else σ.edge_data a b := rfl

@[simp] theorem World.set_edge_vertex_data (σ : World) (u v : Nat) (d : EdgeData) :
    (σ.set_edge u v d).vertex_data = σ.vertex_data := rfl

@[simp] theorem World.set_edge_results (σ : World) (u v : Nat) (d : EdgeData) :
    (σ.set_edge u v d).results = σ.results := rfl

@[simp] theorem World.set_edge_tasks (σ : World) (u v : Nat) (d : EdgeData) :
    (σ.set_edge u v d).tasks = σ.tasks := rfl

@[simp] theorem World.set_edge_cycle_messages (σ : World) (u v : Nat) (d : EdgeData) :
    (σ.set_edge u v d).cycle_messages = σ.cycle_messages := rfl

@[simp] theorem World.set_edge_singletons (σ : World) (u v : Nat) (d : EdgeData) :
    (σ.set_edge u v d).singletons = σ.singletons := rfl

@[simp] theorem World.set_edge_start_id (σ : World) (u v : Nat) (d : EdgeData) :
    (σ.set_edge u v d).start_id = σ.start_id := rfl

@[simp] theorem World.set_edge_start_neighbours (σ : World) (u v : Nat) (d : EdgeData) :
    (σ.set_edge u v d).start_neighbours = σ.start_neighbours := rfl

@[simp] theorem World.set_edge_start_cands (σ : World) (u v : Nat) (d : EdgeData) :
    (σ.set_edge u v d).start_cands = σ.start_cands := rfl

@[simp] theorem World.set_vertex_vertex_data (σ : World) (v : Nat) (d : VertexData) (a : Nat) :
    (σ.set_vertex v d).vertex_data a = if a = v then d else σ.vertex_data a := rfl

@[simp] theorem World.set_vertex_edge_data (σ : World) (v : Nat) (d : VertexData) :
    (σ.set_vertex v d).edge_data = σ.edge_data := rfl

@[simp] theorem World.set_vertex_results (σ : World) (v : Nat) (d : VertexData) :
    (σ.set_vertex v d).results = σ.results := rfl

@[simp] theorem World.set_vertex_tasks (σ : World) (v : Nat) (d : VertexData) :
    (σ.set_vertex v d).tasks = σ.tasks := rfl

@[simp] theorem World.set_vertex_cycle_messages (σ : World) (v : Nat) (d : VertexData) :
    (σ.set_vertex v d).cycle_messages = σ.cycle_messages := rfl

@[simp] theorem World.set_vertex_singletons (σ : World) (v : Nat) (d : VertexData) :
    (σ.set_vertex v d).singletons = σ.singletons := rfl

@[simp] theorem World.set_vertex_start_id (σ : World) (v : Nat) (d : VertexData) :
    (σ.set_vertex v d).start_id = σ.start_id := rfl

@[simp] theorem World.set_vertex_start_neighbours (σ : World) (v : Nat) (d : VertexData) :
    (σ.set_vertex v d).start_neighbours = σ.start_neighbours := rfl

@[simp] theorem World.set_vertex_start_cands (σ : World) (v : Nat) (d : VertexData) :
    (σ.set_vertex v d).start_cands = σ.start_cands := rfl

@[simp] theorem World.add_task_tasks (σ : World) (v : Nat) :
    (σ.add_task v).tasks = insert v σ.tasks := rfl

@[simp] theorem World.add_task_edge_data (σ : World) (v : Nat) :
    (σ.add_task v).edge_data = σ.edge_data := rfl

@[simp] theorem World.add_task_vertex_data (σ : World) (v : Nat) :
    (σ.add_task v).vertex_data = σ.vertex_data := rfl

@[simp] theorem World.add_task_results (σ : World) (v : Nat) :
    (σ.add_task v).results = σ.results := rfl

@[simp] theorem World.add_task_cycle_messages (σ : World) (v : Nat) :
    (σ.add_task v).cycle_messages = σ.cycle_messages := rfl

@[simp] theorem World.add_task_singletons (σ : World) (v : Nat) :
    (σ.add_task v).singletons = σ.singletons := rfl

@[simp] theorem World.add_task_start_id (σ : World) (v : Nat) :
    (σ.add_task v).start_id = σ.start_id := rfl

@[simp] theorem World.add_task_start_neighbours (σ : World) (v : Nat) :
    (σ.add_task v).start_neighbours = σ.start_neighbours := rfl

@[simp] theorem World.add_task_start_cands (σ : World) (v : Nat) :
    (σ.add_task v).start_cands = σ.start_cands := rfl

@[simp] theorem World.remove_tasks_tasks (σ : World) (v : Nat) :
    (σ.remove_tasks v).tasks = σ.tasks.erase v := rfl

@[simp] theorem World.remove_tasks_edge_data (σ : World) (v : Nat) :
    (σ.remove_tasks v).edge_data = σ.edge_data := rfl

@[simp] theorem World.remove_tasks_vertex_data (σ : World) (v : Nat) :
    (σ.remove_tasks v).vertex_data = σ.vertex_data := rfl

@[simp] theorem World.remove_tasks_results (σ : World) (v : Nat) :
    (σ.remove_tasks v).results = σ.results := rfl

@[simp] theorem World.remove_tasks_cycle_messages (σ : World) (v : Nat) :
    (σ.remove_tasks v).cycle_messages = σ.cycle_messages := rfl

@[simp] theorem World.remove_tasks_singletons (σ : World) (v : Nat) :
    (σ.remove_tasks v).singletons = σ.singletons := rfl

@[simp] theorem World.remove_tasks_start_id (σ : World) (v : Nat) :
    (σ.remove_tasks v).start_id = σ.start_id := rfl

@[simp] theorem World.remove_tasks_start_neighbours (σ : World) (v : Nat) :
    (σ.remove_tasks v).start_neighbours = σ.start_neighbours := rfl

@[simp] theorem World.remove_tasks_start_cands (σ : World) (v : Nat) :
    (σ.remove_tasks v).start_cands = σ.start_cands := rfl

/-- The state sent to the destination `v`: it stands for the sets of the sender's state
that hold `v`. -/
theorem bkset_child {graph : Graph} (hg : GoodGraph graph) {Q Y R : IdSet} {v : Nat}
    (hQ : Q ⊆ Finset.range graph.length) (hv : v ∈ Q) (C : IdSet) :
    BKset graph (insert v R) (Q ∩ row graph v) (Y ∩ row graph v) C ↔
      ∃ S, LocalMax graph Q Y S ∧ v ∈ S ∧ C = R ∪ S := by
  unfold BKset
  rw [Finset.inter_comm Q, Finset.inter_comm Y]
  constructor
  · rintro ⟨S, hS, rfl⟩
    refine ⟨insert v S, localMax_insert hg.sym hQ hv hS, Finset.mem_insert_self _ _, ?_⟩
    ext x
    simp only [Finset.mem_union, Finset.mem_insert]
    tauto
  · rintro ⟨S, hS, hcS, rfl⟩
    refine ⟨S.erase v, localMax_erase hg.irr hQ hS hcS, ?_⟩
    ext x
    simp only [Finset.mem_union, Finset.mem_insert, Finset.mem_erase]
    constructor
    · rintro (h | h)
      · by_cases hx : x = v
        · exact Or.inl (Or.inl hx)
        · exact Or.inl (Or.inr h)
      · by_cases hx : x = v
        · exact Or.inl (Or.inl hx)
        · exact Or.inr ⟨hx, h⟩
    · rintro ((h | h) | ⟨_, h⟩)
      · subst h; exact Or.inr hcS
      · exact Or.inl h
      · exact Or.inr h

/-- The pivot rule: a set of the search state `(R, P, X)` holds a candidate outside the
row of any candidate `fixp`. -/
theorem localMax_pivot {graph : Graph} (hg : GoodGraph graph) {P X S : IdSet} {fixp : Nat}
    (hf : fixp ∈ P) (hP : P ⊆ Finset.range graph.length)
    (hS : LocalMax graph P X S) : ∃ d ∈ S, d ∉ row graph fixp := by
  by_contra hcon
  push_neg at hcon
  have hfn : fixp < graph.length := Finset.mem_range.1 (hP hf)
  have hfS : fixp ∉ S := fun h => hg.irr fixp hfn (hcon fixp h)
  refine hS.2.2 fixp (Finset.mem_union_left _ hf) hfS ?_
  intro u hu
  exact hg.mem_symm (hcon u hu)

namespace MaximalClique

theorem fixp_step_cases (σ : World) (v : Nat) (cand : IdSet)
    (st : Option Nat × Nat × EdgeData) (a : Nat) :
    (fixp_step σ v cand st a = st ∧ (a ∈ cand → st.1.isSome)) ∨
      (a ∈ cand ∧ ∃ num, fixp_step σ v cand st a = (some a, num, σ.edge_data v a)) := by
  by_cases ha : a ∈ cand
  · by_cases hb : st.1 = none ∨ (cand ∩ (σ.edge_data v a).neighbours).card ≥ st.2.1
    · right
      exact ⟨ha, (cand ∩ (σ.edge_data v a).neighbours).card,
        by simp only [fixp_step, ha, hb, if_true]⟩
    · left
      refine ⟨by simp only [fixp_step, ha, hb, if_true, if_false], fun _ => ?_⟩
      push_neg at hb
      exact Option.ne_none_iff_isSome.1 hb.1
  · left
    exact ⟨by simp only [fixp_step, ha, if_false], fun h => absurd h ha⟩

theorem fixp_fold_spec (σ : World) (v : Nat) (cand : IdSet) (l : List Nat) :
    ∀ st : Option Nat × Nat × EdgeData,
      (∀ w, st.1 = some w → w ∈ cand ∧ st.2.2 = σ.edge_data v w) →
      (∀ w, (l.foldl (fixp_step σ v cand) st).1 = some w →
        (w ∈ cand ∧ (l.foldl (fixp_step σ v cand) st).2.2 = σ.edge_data v w) ∧
          (st.1 = some w ∨ w ∈ l)) ∧
      ((st.1.isSome ∨ ∃ w ∈ l, w ∈ cand) → (l.foldl (fixp_step σ v cand) st).1.isSome) := by
  induction l with
  | nil =>
    intro st hst
    refine ⟨fun w hw => ⟨hst w hw, Or.inl hw⟩, ?_⟩
    rintro (h | ⟨w, hw, _⟩)
    · exact h
    · simp at hw
  | cons a l ih =>
    intro st hst
    rw [List.foldl_cons]
    rcases fixp_step_cases σ v cand st a with ⟨heq, hsome⟩ | ⟨hac, num, heq⟩
    · rw [heq]
      obtain ⟨ih1, ih2⟩ := ih st hst
      refine ⟨?_, ?_⟩
      · intro w hw
        obtain ⟨h1, h2⟩ := ih1 w hw
        exact ⟨h1, h2.imp id (List.mem_cons_of_mem _)⟩
      · rintro (h | ⟨w, hw, hwc⟩)
        · exact ih2 (Or.inl h)
        · rcases List.mem_cons.1 hw with rfl | hw
          · exact ih2 (Or.inl (hsome hwc))
          · exact ih2 (Or.inr ⟨w, hw, hwc⟩)
    · rw [heq]
      obtain ⟨ih1, ih2⟩ := ih (some a, num, σ.edge_data v a) (fun w hw => by
        simp only [Option.some.injEq] at hw
        subst hw
        exact ⟨hac, rfl⟩)
      refine ⟨?_, fun _ => ih2 (Or.inl rfl)⟩
      intro w hw
      obtain ⟨h1, h2⟩ := ih1 w hw
      refine ⟨h1, ?_⟩
      rcases h2 with h2 | h2
      · simp only [Option.some.injEq] at h2
        subst h2
        exact Or.inr (List.mem_cons_self _ _)
      · exact Or.inr (List.mem_cons_of_mem _ h2)

/-- The pivot of the distributed step: on candidates among the out-edges there is one, it
is a candidate, and `fixp_data` is the value of the edge to it. -/
theorem fixp_exists {graph : Graph} (hg : GoodGraph graph) (σ : World) (v : Nat)
    (cand : IdSet) (hne : cand ≠ ∅) (hsub : cand ⊆ row graph v) :
    ∃ fixp num, (out_edges graph v).foldl (fixp_step σ v cand) (none, 0, EdgeData.empty)
        = (some fixp, num, σ.edge_data v fixp) ∧ fixp ∈ cand := by
  obtain ⟨h1, h2⟩ := fixp_fold_spec σ v cand (out_edges graph v) (none, 0, EdgeData.empty)
    (fun w hw => by simp at hw)
  obtain ⟨w, hw⟩ := Finset.nonempty_iff_ne_empty.2 hne
  have hsome := h2 (Or.inr ⟨w, hg.mem_out_edges.2 (hsub hw), hw⟩)
  obtain ⟨fixp, hfixp⟩ := Option.isSome_iff_exists.1 hsome
  obtain ⟨⟨hc, hd⟩, _⟩ := h1 fixp hfixp
  refine ⟨fixp, ((out_edges graph v).foldl (fixp_step σ v cand) (none, 0, EdgeData.empty)).2.1,
    ?_, hc⟩
  rw [← hd, ← hfixp]

theorem scan_spec (σ : World) (v : Nat) (fixN : IdSet) (l : List Nat) (hl : l.Nodup) :
    ∀ c d : IdSet,
      (∀ dests, scan_destinations σ v fixN l c d = Sum.inr dests →
        dests = d ∪ l.toFinset.filter (fun w => w ∈ c ∧ w ∉ fixN) ∧
          ∀ w ∈ l, w ∈ c → w ∉ fixN → (σ.edge_data v w).message.is_set = false) ∧
      (∀ cur data, scan_destinations σ v fixN l c d = Sum.inl (cur, data) →
        cur ∈ l ∧ data = σ.edge_data v cur ∧ data.message.is_set = true) ∧
      ((∀ w ∈ l, (σ.edge_data v w).message.is_set = false) →
        ∃ dests, scan_destinations σ v fixN l c d = Sum.inr dests) := by
  induction l with
  | nil =>
    intro c d
    refine ⟨?_, ?_, fun _ => ⟨d, rfl⟩⟩
    · intro dests h
      simp only [scan_destinations, Sum.inr.injEq] at h
      subst h
      simp
    · intro cur data h
      simp [scan_destinations] at h
  | cons a l ih =>
    intro c d
    have hal : a ∉ l := (List.nodup_cons.1 hl).1
    have hl' : l.Nodup := (List.nodup_cons.1 hl).2
    by_cases hcond : a ∈ c ∧ a ∉ fixN
    · by_cases hset : (σ.edge_data v a).message.is_set = true
      · have hscan : scan_destinations σ v fixN (a :: l) c d = Sum.inl (a, σ.edge_data v a) := by
          simp [scan_destinations, hcond, hset]
        rw [hscan]
        refine ⟨fun dests h => by simp at h, ?_, ?_⟩
        · intro cur data h
          simp only [Sum.inl.injEq, Prod.mk.injEq] at h
          obtain ⟨rfl, rfl⟩ := h
          exact ⟨List.mem_cons_self _ _, rfl, hset⟩
        · intro h
          have := h a (List.mem_cons_self _ _)
          rw [hset] at this
          exact absurd this (by simp)
      · have hscan : scan_destinations σ v fixN (a :: l) c d =
            scan_destinations σ v fixN l (c.erase a) (insert a d) := by
          simp [scan_destinations, hcond, hset]
        rw [hscan]
        obtain ⟨ih1, ih2, ih3⟩ := ih hl' (c.erase a) (insert a d)
        refine ⟨?_, ?_, ?_⟩
        · intro dests h
          obtain ⟨h1, h2⟩ := ih1 dests h
          refine ⟨?_, ?_⟩
          · rw [h1]
            ext x
            simp only [Finset.mem_union, Finset.mem_insert, Finset.mem_filter,
              List.mem_toFinset, Finset.mem_erase, List.mem_cons]
            constructor
            · rintro ((rfl | h) | ⟨h3, ⟨_, h4⟩, h5⟩)
              · exact Or.inr ⟨Or.inl rfl, hcond⟩
              · exact Or.inl h
              · exact Or.inr ⟨Or.inr h3, h4, h5⟩
            · rintro (h | ⟨rfl | h3, h4, h5⟩)
              · exact Or.inl (Or.inr h)
              · exact Or.inl (Or.inl rfl)
              · refine Or.inr ⟨h3, ⟨?_, h4⟩, h5⟩
                rintro rfl
                exact hal h3
          · intro w hw hwc hwf
            rcases List.mem_cons.1 hw with rfl | hw2
            · simpa using hset
            · refine h2 w hw2 (Finset.mem_erase.2 ⟨?_, hwc⟩) hwf
              rintro rfl
              exact hal hw2
        · intro cur data h
          obtain ⟨h1, h2⟩ := ih2 cur data h
          exact ⟨List.mem_cons_of_mem _ h1, h2⟩
        · intro h
          exact ih3 (fun w hw => h w (List.mem_cons_of_mem _ hw))
    · have hscan : scan_destinations σ v fixN (a :: l) c d =
          scan_destinations σ v fixN l c d := by
        simp only [scan_destinations, hcond, if_false]
      rw [hscan]
      obtain ⟨ih1, ih2, ih3⟩ := ih hl' c d
      refine ⟨?_, ?_, ?_⟩
      · intro dests h
        obtain ⟨h1, h2⟩ := ih1 dests h
        refine ⟨?_, ?_⟩
        · rw [h1]
          ext x
          simp only [Finset.mem_union, Finset.mem_filter, List.mem_toFinset, List.mem_cons]
          constructor
          · rintro (h | ⟨h3, h4⟩)
            · exact Or.inl h
            · exact Or.inr ⟨Or.inr h3, h4⟩
          · rintro (h | ⟨rfl | h3, h4⟩)
            · exact Or.inl h
            · exact absurd h4 hcond
            · exact Or.inr ⟨h3, h4⟩
        · intro w hw hwc hwf
          rcases List.mem_cons.1 hw with rfl | hw
          · exact absurd ⟨hwc, hwf⟩ hcond
          · exact h2 w hw hwc hwf
      · intro cur data h
        obtain ⟨h1, h2⟩ := ih2 cur data h
        exact ⟨List.mem_cons_of_mem _ h1, h2⟩
      · intro h
        exact ih3 (fun w hw => h w (List.mem_cons_of_mem _ hw))

theorem send_step_pos (v : Nat) (clique dests : IdSet) (σ : World) (c x : IdSet) (b : Nat)
    (h : b ∈ dests) :
    send_step v clique dests (σ, c, x) b =
      ((σ.add_task b).set_edge v b
        { σ.edge_data v b with message :=
            ⟨true, clique, c ∩ (σ.edge_data v b).neighbours, x ∩ (σ.edge_data v b).neighbours⟩ },
        c.erase b, insert b x) := by
  simp only [send_step, h, if_true]

theorem send_step_neg (v : Nat) (clique dests : IdSet) (st : World × IdSet × IdSet) (b : Nat)
    (h : b ∉ dests) : send_step v clique dests st b = st := by
  simp only [send_step, h, if_false]

end MaximalClique

theorem SameGlobals.refl (σ : World) : SameGlobals σ σ := ⟨rfl, rfl, rfl, rfl⟩

theorem SameGlobals.trans {σ τ ρ : World} (h1 : SameGlobals σ τ) (h2 : SameGlobals τ ρ) :
    SameGlobals σ ρ :=
  ⟨h2.singletons.trans h1.singletons, h2.start_id.trans h1.start_id,
    h2.start_neighbours.trans h1.start_neighbours, h2.start_cands.trans h1.start_cands⟩

namespace MaximalClique

/-- The loop `Send messages`: it writes a valid message on the out-edge to every
destination, schedules the destinations, changes nothing else, and the
messages written stand for the sets of the state `(clique, cand, nots)` that
hold a destination. -/
theorem send_spec {graph : Graph} (hg : GoodGraph graph) (v : Nat) (clique dests : IdSet)
    (l : List Nat) (hl : l.Nodup) :
    ∀ (σ : World) (cand nots : IdSet), cand ⊆ Finset.range graph.length →
      (∀ w ∈ l, w ∈ dests → w ∈ cand) →
      (∀ w ∈ l, (σ.edge_data v w).neighbours = row graph w) →
      SameGlobals σ (l.foldl (send_step v clique dests) (σ, cand, nots)).1 ∧
      (l.foldl (send_step v clique dests) (σ, cand, nots)).1.results = σ.results ∧
      (l.foldl (send_step v clique dests) (σ, cand, nots)).1.cycle_messages
        = σ.cycle_messages ∧
      (l.foldl (send_step v clique dests) (σ, cand, nots)).1.vertex_data = σ.vertex_data ∧
      (l.foldl (send_step v clique dests) (σ, cand, nots)).1.tasks
        = σ.tasks ∪ l.toFinset.filter (fun w => w ∈ dests) ∧
      (∀ a b, ¬ (a = v ∧ b ∈ l ∧ b ∈ dests) →
        (l.foldl (send_step v clique dests) (σ, cand, nots)).1.edge_data a b
          = σ.edge_data a b) ∧
      (∀ b ∈ l, b ∈ dests →
        ((l.foldl (send_step v clique dests) (σ, cand, nots)).1.edge_data v b).neighbours
          = (σ.edge_data v b).neighbours ∧
        ((l.foldl (send_step v clique dests) (σ, cand, nots)).1.edge_data v b).message.is_set
          = true ∧
        ((l.foldl (send_step v clique dests) (σ, cand, nots)).1.edge_data v b).message.candidates
          ⊆ row graph b) ∧
      (∀ C, (∃ b ∈ l, b ∈ dests ∧ MsgSet graph b
          ((l.foldl (send_step v clique dests) (σ, cand, nots)).1.edge_data v b).message C) ↔
        ∃ S, LocalMax graph cand nots S ∧ (∃ d ∈ S, d ∈ l ∧ d ∈ dests) ∧ C = clique ∪ S) := by
  induction l with
  | nil =>
    intro σ cand nots _ _ _
    refine ⟨SameGlobals.refl _, rfl, rfl, rfl, by simp, fun _ _ _ => rfl,
      fun b hb => absurd hb (List.not_mem_nil _), ?_⟩
    intro C
    constructor
    · rintro ⟨b, hb, _⟩
      exact absurd hb (List.not_mem_nil _)
    · rintro ⟨S, _, ⟨d, _, hd, _⟩, _⟩
      exact absurd hd (List.not_mem_nil _)
  | cons b l ih =>
    intro σ cand nots hcand hdest hnb
    have hbl : b ∉ l := (List.nodup_cons.1 hl).1
    have hl' : l.Nodup := (List.nodup_cons.1 hl).2
    rw [List.foldl_cons]
    by_cases hb : b ∈ dests
    · rw [send_step_pos v clique dests σ cand nots b hb]
      have hbc : b ∈ cand := hdest b (List.mem_cons_self _ _) hb
      have hNb : (σ.edge_data v b).neighbours = row graph b := hnb b (List.mem_cons_self _ _)
      rw [hNb]
      obtain ⟨g1, g2, g3, g4, g5, g6, g7, g8⟩ := ih hl'
        ((σ.add_task b).set_edge v b
          { σ.edge_data v b with message :=
              ⟨true, clique, cand ∩ row graph b, nots ∩ row graph b⟩ })
        (cand.erase b) (insert b nots)
        ((Finset.erase_subset _ _).trans hcand)
        (fun w hw hwd => Finset.mem_erase.2
          ⟨fun h => hbl (h ▸ hw), hdest w (List.mem_cons_of_mem _ hw) hwd⟩)
        (fun w hw => by
          have hne : w ≠ b := fun h => hbl (h ▸ hw)
          simp only [World.set_edge_edge_data, World.add_task_edge_data, hne, and_false,
            if_false]
          exact hnb w (List.mem_cons_of_mem _ hw))
      have hedge_b : ∀ τ : World, (∀ a c, ¬ (a = v ∧ c ∈ l ∧ c ∈ dests) →
          τ.edge_data a c = ((σ.add_task b).set_edge v b
            { σ.edge_data v b with message :=
              ⟨true, clique, cand ∩ row graph b, nots ∩ row graph b⟩ }).edge_data a c) →
          τ.edge_data v b = { σ.edge_data v b with message :=
              ⟨true, clique, cand ∩ row graph b, nots ∩ row graph b⟩ } := by
        intro τ h
        rw [h v b (fun h2 => hbl h2.2.1)]
        simp
      have hb_edge := hedge_b _ g6
      refine ⟨⟨g1.singletons, g1.start_id, g1.start_neighbours, g1.start_cands⟩, g2, g3, g4,
        ?_, ?_, ?_, ?_⟩
      · rw [g5]
        ext x
        simp only [World.set_edge_tasks, World.add_task_tasks, Finset.mem_union,
          Finset.mem_insert, Finset.mem_filter, List.mem_toFinset, List.mem_cons]
        constructor
        · rintro ((rfl | h) | ⟨h1, h2⟩)
          · exact Or.inr ⟨Or.inl rfl, hb⟩
          · exact Or.inl h
          · exact Or.inr ⟨Or.inr h1, h2⟩
        · rintro (h | ⟨rfl | h1, h2⟩)
          · exact Or.inl (Or.inr h)
          · exact Or.inl (Or.inl rfl)
          · exact Or.inr ⟨h1, h2⟩
      · intro a c hac
        rw [g6 a c (fun h => hac ⟨h.1, List.mem_cons_of_mem _ h.2.1, h.2.2⟩)]
        have : ¬ (a = v ∧ c = b) := fun h => hac ⟨h.1, h.2 ▸ List.mem_cons_self _ _, h.2 ▸ hb⟩
        simp only [World.set_edge_edge_data, World.add_task_edge_data, this, if_false]
      · intro c hc hcd
        rcases List.mem_cons.1 hc with rfl | hc
        · rw [hb_edge]
          exact ⟨rfl, rfl, Finset.inter_subset_right⟩
        · obtain ⟨h1, h2, h3⟩ := g7 c hc hcd
          have hne : c ≠ b := fun h => hbl (h ▸ hc)
          refine ⟨?_, h2, h3⟩
          rw [h1]
          simp only [World.set_edge_edge_data, World.add_task_edge_data, hne, and_false,
            if_false]
      · intro C
        have hchild : MsgSet graph b
            (⟨true, clique, cand ∩ row graph b, nots ∩ row graph b⟩ : Message) C ↔
            ∃ S, LocalMax graph cand nots S ∧ b ∈ S ∧ C = clique ∪ S :=
          bkset_child hg hcand hbc C
        constructor
        · rintro ⟨c, hc, hcd, hC⟩
          rcases List.mem_cons.1 hc with rfl | hc
          · rw [hb_edge] at hC
            obtain ⟨S, hS, hbS, rfl⟩ := hchild.1 hC
            exact ⟨S, hS, ⟨c, hbS, List.mem_cons_self _ _, hcd⟩, rfl⟩
          · obtain ⟨S, hS, ⟨d, hdS, hdl, hdd⟩, rfl⟩ := (g8 C).1 ⟨c, hc, hcd, hC⟩
            exact ⟨S, ((localMax_step hbc).1 hS).1, ⟨d, hdS, List.mem_cons_of_mem _ hdl, hdd⟩,
              rfl⟩
        · rintro ⟨S, hS, ⟨d, hdS, hdl, hdd⟩, rfl⟩
          by_cases hbS : b ∈ S
          · refine ⟨b, List.mem_cons_self _ _, hb, ?_⟩
            rw [hb_edge]
            exact hchild.2 ⟨S, hS, hbS, rfl⟩
          · have hdl' : d ∈ l := by
              rcases List.mem_cons.1 hdl with rfl | h
              · exact absurd hdS hbS
              · exact h
            obtain ⟨c, hc, hcd, hC⟩ := (g8 (clique ∪ S)).2
              ⟨S, (localMax_step hbc).2 ⟨hS, hbS⟩, ⟨d, hdS, hdl', hdd⟩, rfl⟩
            exact ⟨c, List.mem_cons_of_mem _ hc, hcd, hC⟩
    · rw [send_step_neg v clique dests _ b hb]
      obtain ⟨g1, g2, g3, g4, g5, g6, g7, g8⟩ := ih hl' σ cand nots hcand
        (fun w hw hwd => hdest w (List.mem_cons_of_mem _ hw) hwd)
        (fun w hw => hnb w (List.mem_cons_of_mem _ hw))
      refine ⟨g1, g2, g3, g4, ?_, ?_, ?_, ?_⟩
      · rw [g5]
        ext x
        simp only [Finset.mem_union, Finset.mem_filter, List.mem_toFinset, List.mem_cons]
        constructor
        · rintro (h | ⟨h1, h2⟩)
          · exact Or.inl h
          · exact Or.inr ⟨Or.inr h1, h2⟩
        · rintro (h | ⟨rfl | h1, h2⟩)
          · exact Or.inl h
          · exact absurd h2 hb
          · exact Or.inr ⟨h1, h2⟩
      · intro a c hac
        exact g6 a c (fun h => hac ⟨h.1, List.mem_cons_of_mem _ h.2.1, h.2.2⟩)
      · intro c hc hcd
        rcases List.mem_cons.1 hc with rfl | hc
        · exact absurd hcd hb
        · exact g7 c hc hcd
      · intro C
        constructor
        · rintro ⟨c, hc, hcd, hC⟩
          rcases List.mem_cons.1 hc with rfl | hc
          · exact absurd hcd hb
          · obtain ⟨S, hS, ⟨d, hdS, hdl, hdd⟩, hCe⟩ := (g8 C).1 ⟨c, hc, hcd, hC⟩
            exact ⟨S, hS, ⟨d, hdS, List.mem_cons_of_mem _ hdl, hdd⟩, hCe⟩
        · rintro ⟨S, hS, ⟨d, hdS, hdl, hdd⟩, hCe⟩
          have hdl' : d ∈ l := by
            rcases List.mem_cons.1 hdl with rfl | h
            · exact absurd hdd hb
            · exact h
          obtain ⟨c, hc, hcd, hC⟩ := (g8 C).2 ⟨S, hS, ⟨d, hdS, hdl', hdd⟩, hCe⟩
          exact ⟨c, List.mem_cons_of_mem _ hc, hcd, hC⟩

theorem collide_post {graph : Graph} (σ : World) (v : Nat) (m : Message) (bt : IdSet)
    (from_edge : Bool) (cur : Nat) (hset : (σ.edge_data v cur).message.is_set = true) :
    StepPost graph σ v m bt from_edge
      ((collide σ v m bt from_edge cur (σ.edge_data v cur)).1,
        (collide σ v m bt from_edge cur (σ.edge_data v cur)).2, false) := by
  have hfalse : ∀ P : Prop, (false = true) → P := fun _ h => absurd h (by simp)
  by_cases hfe : from_edge = true
  · by_cases hbt : v ∈ bt
    · have hc : collide σ v m bt from_edge cur (σ.edge_data v cur) =
          ((({ σ with cycle_messages := σ.cycle_messages ++ [(v, { m with is_set := false })] }
              : World).set_vertex v
              { σ.vertex_data v with cycles := (σ.vertex_data v).cycles + 1 }).set_edge v cur
              { σ.edge_data v cur with block_trace := ∅ }, { m with is_set := false }) := by
        simp only [collide, hfe, hbt, if_true]
      rw [hc]
      refine ⟨⟨rfl, rfl, rfl, rfl⟩, ?_, ?_, ?_, ?_, fun b hb => Or.inl hb, fun _ => rfl,
        ⟨[], by simp, fun _ => rfl, fun h => hfalse _ h⟩, ?_, ?_, ?_⟩
      · intro a b ha
        simp [ha]
      · intro a b
        simp only [World.set_edge_edge_data, World.set_vertex_edge_data]
        split_ifs with h
        · obtain ⟨rfl, rfl⟩ := h; rfl
        · rfl
      · intro b
        left
        simp only [World.set_edge_edge_data, World.set_vertex_edge_data]
        split_ifs with h
        · obtain ⟨_, rfl⟩ := h; rfl
        · rfl
      · intro x hx; exact hx
      · intro _ _ _
        exact ⟨rfl, rfl, rfl⟩
      · rintro (h | h | h)
        · exact hfalse _ h
        · rw [hfe] at h; exact hfalse _ h.symm
        · exact absurd hbt h
      · intro h
        rw [h cur] at hset
        exact hfalse _ hset
    · have hc : collide σ v m bt from_edge cur (σ.edge_data v cur) =
          (σ.set_edge v cur { σ.edge_data v cur with
            block_trace := insert v ((σ.edge_data v cur).block_trace ∪ bt) }, m) := by
        simp only [collide, hfe, hbt, if_true, if_false]
      rw [hc]
      refine ⟨⟨rfl, rfl, rfl, rfl⟩, ?_, ?_, ?_, ?_, fun b hb => Or.inl hb, fun _ => rfl,
        ⟨[], by simp, fun _ => rfl, fun h => hfalse _ h⟩, ?_, ?_, ?_⟩
      · intro a b ha
        simp [ha]
      · intro a b
        simp only [World.set_edge_edge_data]
        split_ifs with h
        · obtain ⟨rfl, rfl⟩ := h; rfl
        · rfl
      · intro b
        left
        simp only [World.set_edge_edge_data]
        split_ifs with h
        · obtain ⟨_, rfl⟩ := h; rfl
        · rfl
      · intro x hx; exact hx
      · intro _ _ h
        exact absurd h hbt
      · intro _
        exact ⟨rfl, rfl, rfl⟩
      · intro h
        rw [h cur] at hset
        exact hfalse _ hset
  · have hc : collide σ v m bt from_edge cur (σ.edge_data v cur) = (σ, m) := by
      simp only [collide, hfe, if_false]
      rfl
    rw [hc]
    refine ⟨⟨rfl, rfl, rfl, rfl⟩, fun _ _ _ => rfl, fun _ _ => rfl, fun _ => Or.inl rfl,
      fun x hx => hx, fun b hb => Or.inl hb, fun _ => rfl,
      ⟨[], by simp, fun _ => rfl, fun h => hfalse _ h⟩, ?_, ?_, ?_⟩
    · intro _ h _
      exact absurd h hfe
    · intro _
      exact ⟨rfl, rfl, rfl⟩
    · intro h
      rw [h cur] at hset
      exact hfalse _ hset

theorem send_post {graph : Graph} (hg : GoodGraph graph) (σ : World)
    (hnb : ∀ u w, w ∈ row graph u → (σ.edge_data u w).neighbours = row graph w) (v : Nat) (m : Message) (bt : IdSet) (from_edge : Bool)
    (hm : m.candidates ⊆ row graph v) (fixp : Nat) (hfc : fixp ∈ m.candidates)
    (dests : IdSet)
    (hd : ∀ w, w ∈ dests ↔ w ∈ m.candidates ∧ w ∉ row graph fixp)
    (hfree : ∀ w ∈ dests, (σ.edge_data v w).message.is_set = false) :
    StepPost graph σ v m bt from_edge
      (((out_edges graph v).foldl (send_step v (insert v m.current_clique) dests)
        (σ, m.candidates, m.not_ids)).1, m, true) := by
  have hcand : m.candidates ⊆ Finset.range graph.length := hm.trans (hg.row_subset v)
  obtain ⟨g1, g2, g3, g4, g5, g6, g7, g8⟩ := send_spec hg v (insert v m.current_clique)
    dests (out_edges graph v) (GoodGraph.nodup_out_edges graph v) σ m.candidates m.not_ids
    hcand (fun w _ hw => ((hd w).1 hw).1)
    (fun w hw => hnb v w (hg.mem_out_edges.1 hw))
  have hdl : ∀ w, w ∈ dests → w ∈ out_edges graph v :=
    fun w hw => hg.mem_out_edges.2 (hm ((hd w).1 hw).1)
  refine ⟨g1, ?_, ?_, ?_, ?_, ?_, fun h => absurd h (by simp), ⟨[], by simpa using g2,
    fun h => absurd h (by simp), fun _ => ?_⟩, fun h => absurd h (by simp),
    fun _ => ⟨g3, rfl, g4⟩, fun _ => rfl⟩
  · intro a b ha
    exact g6 a b (fun h => ha h.1)
  · intro a b
    by_cases h : a = v ∧ b ∈ out_edges graph v ∧ b ∈ dests
    · obtain ⟨rfl, hb1, hb2⟩ := h
      exact (g7 b hb1 hb2).1
    · rw [g6 a b h]
  · intro b
    by_cases h : b ∈ dests
    · right
      obtain ⟨_, h2, h3⟩ := g7 b (hdl b h) h
      refine ⟨rfl, hfree b h, h2, hm ((hd b).1 h).1, h3, ?_⟩
      show b ∈ ((out_edges graph v).foldl (send_step v (insert v m.current_clique) dests)
        (σ, m.candidates, m.not_ids)).1.tasks
      rw [g5]
      exact Finset.mem_union_right _
        (Finset.mem_filter.2 ⟨List.mem_toFinset.2 (hdl b h), h⟩)
    · left
      show (((out_edges graph v).foldl (send_step v (insert v m.current_clique) dests)
        (σ, m.candidates, m.not_ids)).1.edge_data v b).message = _
      rw [g6 v b (fun h2 => h h2.2.2)]
  · show σ.tasks ⊆ ((out_edges graph v).foldl (send_step v (insert v m.current_clique) dests)
        (σ, m.candidates, m.not_ids)).1.tasks
    rw [g5]
    exact Finset.subset_union_left
  · intro b hb
    change b ∈ ((out_edges graph v).foldl (send_step v (insert v m.current_clique) dests)
        (σ, m.candidates, m.not_ids)).1.tasks at hb
    rw [g5] at hb
    rcases Finset.mem_union.1 hb with h | h
    · exact Or.inl h
    · exact Or.inr (hm ((hd b).1 (Finset.mem_filter.1 h).2).1)
  · intro C
    simp only [List.not_mem_nil, false_or]
    have hlhs : MsgSet graph v m C ↔
        ∃ S, LocalMax graph m.candidates m.not_ids S ∧
          (∃ d ∈ S, d ∈ out_edges graph v ∧ d ∈ dests) ∧ C = insert v m.current_clique ∪ S := by
      unfold MsgSet BKset
      constructor
      · rintro ⟨S, hS, rfl⟩
        obtain ⟨d, hdS, hdf⟩ := localMax_pivot hg hfc hcand hS
        have hdd : d ∈ dests := (hd d).2 ⟨hS.1 hdS, hdf⟩
        exact ⟨S, hS, ⟨d, hdS, hdl d hdd, hdd⟩, rfl⟩
      · rintro ⟨S, hS, _, rfl⟩
        exact ⟨S, hS, rfl⟩
    rw [hlhs, ← g8 C]
    constructor
    · rintro ⟨b, hb1, hb2, hC⟩
      exact ⟨b, hfree b hb2, (g7 b hb1 hb2).2.1, hC⟩
    · rintro ⟨b, hb1, hb2, hC⟩
      have hbd : b ∈ dests := by
        by_contra hcon
        have := g6 v b (fun h2 => hcon h2.2.2)
        change (((out_edges graph v).foldl (send_step v (insert v m.current_clique) dests)
          (σ, m.candidates, m.not_ids)).1.edge_data v b).message.is_set = true at hb2
        rw [this, hb1] at hb2
        exact absurd hb2 (by simp)
      exact ⟨b, hdl b hbd, hbd, hC⟩

/-- One call of the distributed `clique_enumerate` on a consistent world. -/
theorem clique_enumerate_post {graph : Graph} (hg : GoodGraph graph) (σ : World)
    (hnb : ∀ u w, w ∈ row graph u → (σ.edge_data u w).neighbours = row graph w) (v : Nat) (m : Message) (bt : IdSet) (from_edge : Bool)
    (hm : m.candidates ⊆ row graph v) :
    StepPost graph σ v m bt from_edge (clique_enumerate graph σ v m bt from_edge) := by
  have hfalse : ∀ P : Prop, (false = true) → P := fun _ h => absurd h (by simp)
  unfold clique_enumerate
  by_cases hc : m.candidates = ∅
  · simp only [hc, if_true]
    by_cases hx : m.not_ids = ∅
    · simp only [hx, if_true]
      refine ⟨⟨rfl, rfl, rfl, rfl⟩, fun _ _ _ => rfl, fun _ _ => rfl, fun _ => Or.inl rfl,
        fun x hx => hx, fun b hb => Or.inl hb, fun h => absurd h (by simp),
        ⟨[insert v m.current_clique], rfl,
          fun h => absurd h (by simp), fun _ C => ?_⟩, fun h => absurd h (by simp),
        fun _ => ⟨rfl, rfl, rfl⟩, fun _ => rfl⟩
      unfold MsgSet BKset
      rw [hc, hx]
      constructor
      · rintro ⟨S, ⟨hsub, _, _⟩, rfl⟩
        rw [Finset.subset_empty.1 hsub]
        simp
      · rintro (h | ⟨b, h1, h2, _⟩)
        · rw [List.mem_singleton] at h
          subst h
          refine ⟨∅, ⟨Finset.Subset.refl _, ?_, ?_⟩, by simp⟩
          · intro u hu; exact absurd hu (Finset.not_mem_empty _)
          · intro w hw; simp at hw
        · change (σ.edge_data v b).message.is_set = true at h2
          rw [h1] at h2
          exact hfalse _ h2
    · simp only [hx, if_false]
      refine ⟨⟨rfl, rfl, rfl, rfl⟩, fun _ _ _ => rfl, fun _ _ => rfl, fun _ => Or.inl rfl,
        fun x hx => hx, fun b hb => Or.inl hb, fun h => absurd h (by simp), ⟨[], by simp,
          fun _ => rfl, fun _ C => ?_⟩, fun h => absurd h (by simp),
        fun _ => ⟨rfl, rfl, rfl⟩, fun _ => rfl⟩
      unfold MsgSet BKset
      rw [hc]
      constructor
      · rintro ⟨S, ⟨hsub, _, hmax⟩, rfl⟩
        exfalso
        obtain ⟨w, hw⟩ := Finset.nonempty_iff_ne_empty.2 hx
        have hS : S = ∅ := Finset.subset_empty.1 hsub
        subst hS
        exact hmax w (Finset.mem_union_right _ hw) (Finset.not_mem_empty _)
          (fun u hu => absurd hu (Finset.not_mem_empty _))
      · rintro (h | ⟨b, h1, h2, _⟩)
        · simp at h
        · change (σ.edge_data v b).message.is_set = true at h2
          rw [h1] at h2
          exact hfalse _ h2
  · obtain ⟨fixp, num, hfold, hfc⟩ := fixp_exists hg σ v m.candidates hc hm
    simp only [hc, if_false, hfold]
    have hfixN : (σ.edge_data v fixp).neighbours = row graph fixp :=
      hnb v fixp (hm hfc)
    by_cases hset : (σ.edge_data v fixp).message.is_set = true
    · simp only [hset, if_true]
      exact collide_post σ v m bt from_edge fixp hset
    · simp only [hset, if_false]
      obtain ⟨s1, s2, _⟩ := scan_spec σ v (σ.edge_data v fixp).neighbours (out_edges graph v)
        (GoodGraph.nodup_out_edges graph v) (m.candidates.erase fixp) {fixp}
      cases hscan : scan_destinations σ v (σ.edge_data v fixp).neighbours (out_edges graph v)
          (m.candidates.erase fixp) {fixp} with
      | inl p =>
        obtain ⟨cur, data⟩ := p
        obtain ⟨_, h2, h3⟩ := s2 cur data hscan
        subst h2
        exact collide_post σ v m bt from_edge cur h3
      | inr dests =>
        obtain ⟨h1, h2⟩ := s1 dests hscan
        have hfn : fixp ∉ row graph fixp := fun h => hg.ne_of_mem h rfl
        have hd : ∀ w, w ∈ dests ↔ w ∈ m.candidates ∧ w ∉ row graph fixp := by
          intro w
          rw [h1, hfixN]
          simp only [Finset.mem_union, Finset.mem_singleton, Finset.mem_filter,
            List.mem_toFinset, Finset.mem_erase]
          constructor
          · rintro (rfl | ⟨_, ⟨_, h4⟩, h5⟩)
            · exact ⟨hfc, hfn⟩
            · exact ⟨h4, h5⟩
          · rintro ⟨h4, h5⟩
            by_cases hwf' : w = fixp
            · exact Or.inl hwf'
            · exact Or.inr ⟨hg.mem_out_edges.2 (hm h4), ⟨hwf', h4⟩, h5⟩
        refine send_post hg σ hnb v m bt from_edge hm fixp hfc dests hd ?_
        intro w hw
        by_cases hwf' : w = fixp
        · subst hwf'
          simpa using hset
        · obtain ⟨h4, h5⟩ := (hd w).1 hw
          exact h2 w (hg.mem_out_edges.2 (hm h4)) (Finset.mem_erase.2 ⟨hwf', h4⟩)
            (by rw [hfixN]; exact h5)

end MaximalClique

theorem Progress.stay (graph : Graph) (v : Nat) (τ : World) : Progress graph v τ τ :=
  ⟨SameGlobals.refl _, fun _ => Iff.rfl, fun _ h => h, fun _ h => Or.inl h, fun _ _ _ h => h,
    fun _ m h => Or.inr ⟨m, h⟩, fun _ => ⟨rfl, rfl⟩⟩

theorem Progress.chain {graph : Graph} {v : Nat} {τ ρ π : World}
    (h1 : Progress graph v τ ρ) (h2 : Progress graph v ρ π) : Progress graph v τ π := by
  refine ⟨h1.globals.trans h2.globals, fun C => (h2.sem C).trans (h1.sem C),
    fun _ h => h2.tasks (h1.tasks h), ?_, fun a b ha h => h1.edges a b ha (h2.edges a b ha h),
    ?_, fun a => ⟨(h2.vertex a).1.trans (h1.vertex a).1, (h2.vertex a).2.trans (h1.vertex a).2⟩⟩
  · intro b hb
    rcases h2.tasks_sub b hb with h | h
    · exact h1.tasks_sub b h
    · exact Or.inr h
  · intro a m h
    rcases h2.pending a m h with h | ⟨m2, h⟩
    · exact Or.inl h
    · rcases h1.pending a m2 h with h | h
      · exact Or.inl (h2.tasks h)
      · exact Or.inr h

theorem sem_iff_of {graph : Graph} {τ ρ : World}
    (h1 : ∀ C, C ∈ ρ.results → Sem graph τ C)
    (h2 : ∀ a m C, Pending ρ a m → MsgSet graph a m C → Sem graph τ C)
    (h3 : ∀ C, C ∈ τ.results → Sem graph ρ C)
    (h4 : ∀ a m C, Pending τ a m → MsgSet graph a m C → Sem graph ρ C) :
    ∀ C, Sem graph ρ C ↔ Sem graph τ C := by
  intro C
  constructor
  · rintro (h | ⟨a, m, hp, hm⟩)
    · exact h1 C h
    · exact h2 a m C hp hm
  · rintro (h | ⟨a, m, hp, hm⟩)
    · exact h3 C h
    · exact h4 a m C hp hm

theorem StepPost.edge_kept {graph : Graph} {σ : World} {v : Nat} {m : Message} {bt : IdSet}
    {fe : Bool} {r : World × Message × Bool} (P : StepPost graph σ v m bt fe r) (x a : Nat)
    (h : (σ.edge_data x a).message.is_set = true) :
    (r.1.edge_data x a).message = (σ.edge_data x a).message := by
  by_cases hx : x = v
  · subst hx
    rcases P.edge_msg a with h1 | ⟨_, h2, _⟩
    · exact h1
    · rw [h] at h2
      exact absurd h2 (by simp)
  · rw [P.edge_other x a hx]

theorem StepPost.edge_origin {graph : Graph} {σ : World} {v : Nat} {m : Message} {bt : IdSet}
    {fe : Bool} {r : World × Message × Bool} (P : StepPost graph σ v m bt fe r) (x a : Nat) :
    (r.1.edge_data x a).message = (σ.edge_data x a).message ∨
      (x = v ∧ r.2.2 = true ∧ (σ.edge_data v a).message.is_set = false ∧
        (r.1.edge_data v a).message.is_set = true ∧ a ∈ row graph v ∧
        (r.1.edge_data v a).message.candidates ⊆ row graph a ∧ a ∈ r.1.tasks) := by
  by_cases hx : x = v
  · subst hx
    rcases P.edge_msg a with h1 | h1
    · exact Or.inl h1
    · exact Or.inr ⟨rfl, h1⟩
  · left
    rw [P.edge_other x a hx]

theorem filter_length_append_singleton (l : List (Nat × Message)) (e : Nat × Message)
    (a : Nat) :
    (((l ++ [e]).filter (fun e => e.1 = a)).length : Int) =
      ((l.filter (fun e => e.1 = a)).length : Int) + (if e.1 = a then 1 else 0) := by
  rw [List.filter_append, List.length_append]
  by_cases h : e.1 = a
  · simp [h]
  · simp [h]

namespace MaximalClique

theorem inedge_step_unset (graph : Graph) (v : Nat) (st : World × Bool) (u : Nat)
    (h : (st.1.edge_data u v).message.is_set = false) :
    inedge_step graph v st u = st := by
  simp only [inedge_step, h, Bool.false_eq_true, if_false]

theorem inedge_step_handled (graph : Graph) (v : Nat) (st : World × Bool) (u : Nat)
    (h : (st.1.edge_data u v).message.is_set = true)
    (h2 : (clique_enumerate graph st.1 v (st.1.edge_data u v).message
      (st.1.edge_data u v).block_trace true).2.2 = true) :
    inedge_step graph v st u =
      ((clique_enumerate graph st.1 v (st.1.edge_data u v).message
          (st.1.edge_data u v).block_trace true).1.set_edge u v
        { st.1.edge_data u v with message :=
          { (clique_enumerate graph st.1 v (st.1.edge_data u v).message
              (st.1.edge_data u v).block_trace true).2.1 with is_set := false } }, st.2) := by
  simp only [inedge_step, h, h2, if_true]

theorem inedge_step_failed (graph : Graph) (v : Nat) (st : World × Bool) (u : Nat)
    (h : (st.1.edge_data u v).message.is_set = true)
    (h2 : (clique_enumerate graph st.1 v (st.1.edge_data u v).message
      (st.1.edge_data u v).block_trace true).2.2 = false) :
    inedge_step graph v st u =
      ((clique_enumerate graph st.1 v (st.1.edge_data u v).message
          (st.1.edge_data u v).block_trace true).1.set_edge u v
        { st.1.edge_data u v with message :=
          (clique_enumerate graph st.1 v (st.1.edge_data u v).message
              (st.1.edge_data u v).block_trace true).2.1 }, true) := by
  simp only [inedge_step, h, h2, if_true, Bool.false_eq_true, if_false]

/-- A handled message leaves its in-edge: the world is consistent and has progressed. -/
theorem inedge_handled_spec {graph : Graph} (hg : GoodGraph graph) (v : Nat)
    (τ : World) (u : Nat) (hwf : WellFormed graph τ)
    (hset : (τ.edge_data u v).message.is_set = true)
    (r : World × Message × Bool)
    (P : StepPost graph τ v (τ.edge_data u v).message (τ.edge_data u v).block_trace true r)
    (hh : r.2.2 = true) :
    WellFormed graph (r.1.set_edge u v
        { τ.edge_data u v with message := { r.2.1 with is_set := false } }) ∧
      Progress graph v τ (r.1.set_edge u v
        { τ.edge_data u v with message := { r.2.1 with is_set := false } }) ∧
      ((r.1.set_edge u v
        { τ.edge_data u v with message := { r.2.1 with is_set := false } }).vertex_data v).cycles
        = (τ.vertex_data v).cycles := by
  obtain ⟨hvu, hm⟩ := hwf.edge_msg u v hset
  have huv : u ≠ v := hg.ne_of_mem hvu
  obtain ⟨hcyc, hmsg, hvd⟩ := P.no_cycle (Or.inl hh)
  obtain ⟨new, hres, _, hacc⟩ := P.results
  have hacc := hacc hh
  -- the edges of the new world
  have hedge : ∀ x a, ¬ (x = u ∧ a = v) →
      (r.1.set_edge u v { τ.edge_data u v with message := { r.2.1 with is_set := false } }).edge_data
        x a = r.1.edge_data x a := by
    intro x a h
    simp only [World.set_edge_edge_data, h, if_false]
  have hedge_uv :
      ((r.1.set_edge u v { τ.edge_data u v with message := { r.2.1 with is_set := false } }).edge_data
        u v).message.is_set = false := by
    simp [World.set_edge_edge_data]
  have hne_of_set : ∀ x a,
      ((r.1.set_edge u v { τ.edge_data u v with message := { r.2.1 with is_set := false } }).edge_data
        x a).message.is_set = true → ¬ (x = u ∧ a = v) := by
    rintro x a h ⟨rfl, rfl⟩
    rw [hedge_uv] at h
    exact absurd h (by simp)
  refine ⟨⟨?_, ?_, ?_, ?_, ?_, ?_⟩,
    ⟨⟨P.globals.singletons, P.globals.start_id, P.globals.start_neighbours,
      P.globals.start_cands⟩, ?_, P.tasks_mono, P.tasks_sub, ?_, ?_, ?_⟩, ?_⟩
  · intro a ha
    simp only [World.set_edge_vertex_data, hvd]
    exact hwf.vertex_nb a ha
  · intro a
    simp only [World.set_edge_vertex_data, World.set_edge_cycle_messages, hvd, hcyc]
    exact hwf.cycles a
  · intro x a hxa
    by_cases h : x = u ∧ a = v
    · obtain ⟨rfl, rfl⟩ := h
      simp only [World.set_edge_edge_data, and_self, if_true]
      exact hwf.edge_nb x a hxa
    · rw [hedge x a h, P.edge_nb]
      exact hwf.edge_nb x a hxa
  · intro x a h
    have hne := hne_of_set x a h
    rw [hedge x a hne] at h ⊢
    rcases P.edge_origin x a with h1 | ⟨rfl, _, _, _, h5, h6, _⟩
    · rw [h1] at h ⊢
      exact hwf.edge_msg x a h
    · exact ⟨h5, h6⟩
  · intro a m h
    simp only [World.set_edge_cycle_messages, hcyc] at h
    exact hwf.cycle_msg a m h
  · intro b hb
    simp only [World.set_edge_tasks] at hb
    rcases P.tasks_sub b hb with h | h
    · exact hwf.tasks_ok b h
    · exact ⟨v, hg.mem_symm h⟩
  · -- the sets
    apply sem_iff_of
    · intro C hC
      simp only [World.set_edge_results, hres, List.mem_append] at hC
      rcases hC with h | h
      · exact Or.inl h
      · exact Or.inr ⟨v, _, Or.inl ⟨u, hset, rfl⟩, (hacc C).2 (Or.inl h)⟩
    · rintro a m C (⟨x, hx1, hx2⟩ | hc) hC
      · have hne := hne_of_set x a hx1
        rw [hedge x a hne] at hx1 hx2
        rcases P.edge_origin x a with h1 | ⟨rfl, _, h3, h4, _⟩
        · rw [h1] at hx1 hx2
          exact Or.inr ⟨a, m, Or.inl ⟨x, hx1, hx2⟩, hC⟩
        · refine Or.inr ⟨x, _, Or.inl ⟨u, hset, rfl⟩, (hacc C).2 (Or.inr ⟨a, h3, h4, ?_⟩)⟩
          rw [hx2]
          exact hC
      · simp only [World.set_edge_cycle_messages, hcyc] at hc
        exact Or.inr ⟨a, m, Or.inr hc, hC⟩
    · intro C hC
      left
      simp only [World.set_edge_results, hres, List.mem_append]
      exact Or.inl hC
    · rintro a m C (⟨x, hx1, hx2⟩ | hc) hC
      · by_cases h : x = u ∧ a = v
        · obtain ⟨rfl, rfl⟩ := h
          subst hx2
          rcases (hacc C).1 hC with h | ⟨b, h1, h2, h3⟩
          · left
            simp only [World.set_edge_results, hres, List.mem_append]
            exact Or.inr h
          · refine Or.inr ⟨b, _, Or.inl ⟨a, ?_, rfl⟩, ?_⟩
            · rw [hedge a b (fun h => huv h.1.symm)]
              exact h2
            · rw [hedge a b (fun h => huv h.1.symm)]
              exact h3
        · refine Or.inr ⟨a, m, Or.inl ⟨x, ?_, ?_⟩, hC⟩
          · rw [hedge x a h, P.edge_kept x a hx1]
            exact hx1
          · rw [hedge x a h, P.edge_kept x a hx1]
            exact hx2
      · refine Or.inr ⟨a, m, Or.inr ?_, hC⟩
        simp only [World.set_edge_cycle_messages, hcyc]
        exact hc
  · intro a b ha h
    have hne := hne_of_set a b h
    rw [hedge a b hne, P.edge_other a b ha] at h
    exact h
  · rintro a m (⟨x, hx1, hx2⟩ | hc)
    · have hne := hne_of_set x a hx1
      rw [hedge x a hne] at hx1 hx2
      rcases P.edge_origin x a with h1 | ⟨_, _, _, _, _, _, h7⟩
      · rw [h1] at hx1 hx2
        exact Or.inr ⟨m, Or.inl ⟨x, hx1, hx2⟩⟩
      · exact Or.inl h7
    · simp only [World.set_edge_cycle_messages, hcyc] at hc
      exact Or.inr ⟨m, Or.inr hc⟩
  · intro a
    simp [hvd]
  · simp only [World.set_edge_vertex_data, hvd]

/-- A message that could not be forwarded stays on its in-edge, or moves to the side table
on a cycle: the world is consistent and has progressed. -/
theorem inedge_failed_spec {graph : Graph} (hg : GoodGraph graph) (v : Nat)
    (τ : World) (u : Nat) (hwf : WellFormed graph τ)
    (hset : (τ.edge_data u v).message.is_set = true)
    (r : World × Message × Bool)
    (P : StepPost graph τ v (τ.edge_data u v).message (τ.edge_data u v).block_trace true r)
    (hh : r.2.2 = false) :
    WellFormed graph (r.1.set_edge u v { τ.edge_data u v with message := r.2.1 }) ∧
      Progress graph v τ (r.1.set_edge u v { τ.edge_data u v with message := r.2.1 }) := by
  obtain ⟨hvu, hm⟩ := hwf.edge_msg u v hset
  have huv : u ≠ v := hg.ne_of_mem hvu
  have hvne : (row graph v).Nonempty := ⟨u, hg.mem_symm hvu⟩
  obtain ⟨new, hres, hnew, _⟩ := P.results
  have hres : r.1.results = τ.results := by rw [hres, hnew hh, List.append_nil]
  have htasks : r.1.tasks = τ.tasks := P.fail_tasks hh
  have hmsgs : ∀ x a, (r.1.edge_data x a).message = (τ.edge_data x a).message := by
    intro x a
    rcases P.edge_origin x a with h | ⟨_, h, _⟩
    · exact h
    · rw [hh] at h
      exact absurd h (by simp)
  have hedge : ∀ x a, ¬ (x = u ∧ a = v) →
      (r.1.set_edge u v { τ.edge_data u v with message := r.2.1 }).edge_data x a
        = r.1.edge_data x a := by
    intro x a h
    simp only [World.set_edge_edge_data, h, if_false]
  have hedge_uv : ((r.1.set_edge u v { τ.edge_data u v with message := r.2.1 }).edge_data
      u v).message = r.2.1 := by
    simp [World.set_edge_edge_data]
  have hnb : ∀ x a, ((r.1.set_edge u v { τ.edge_data u v with message := r.2.1 }).edge_data
      x a).neighbours = (τ.edge_data x a).neighbours := by
    intro x a
    by_cases h : x = u ∧ a = v
    · obtain ⟨rfl, rfl⟩ := h
      simp [World.set_edge_edge_data]
    · rw [hedge x a h, P.edge_nb]
  have hglob : SameGlobals τ (r.1.set_edge u v { τ.edge_data u v with message := r.2.1 }) :=
    ⟨P.globals.singletons, P.globals.start_id, P.globals.start_neighbours,
      P.globals.start_cands⟩
  by_cases hbt : v ∈ (τ.edge_data u v).block_trace
  · -- a cycle: the message moves to the side table
    obtain ⟨hcyc, hmsg, hvd⟩ := P.cycle hh rfl hbt
    have huv_unset : ((r.1.set_edge u v { τ.edge_data u v with message := r.2.1 }).edge_data
        u v).message.is_set = false := by
      rw [hedge_uv, hmsg]
    have hne_of_set : ∀ x a,
        ((r.1.set_edge u v { τ.edge_data u v with message := r.2.1 }).edge_data
          x a).message.is_set = true → ¬ (x = u ∧ a = v) := by
      rintro x a h ⟨rfl, rfl⟩
      rw [huv_unset] at h
      exact absurd h (by simp)
    refine ⟨⟨?_, ?_, ?_, ?_, ?_, ?_⟩, ⟨hglob, ?_, ?_, ?_, ?_, ?_, ?_⟩⟩
    · intro a ha
      simp only [World.set_edge_vertex_data, hvd]
      by_cases hav : a = v
      · subst hav
        simp only [if_true]
        exact hwf.vertex_nb a ha
      · simp only [hav, if_false]
        exact hwf.vertex_nb a ha
    · intro a
      simp only [World.set_edge_vertex_data, World.set_edge_cycle_messages, hvd, hcyc]
      rw [filter_length_append_singleton]
      by_cases hav : a = v
      · subst hav
        simp only [if_true]
        rw [hwf.cycles a]
      · have : ¬ v = a := fun h => hav h.symm
        simp only [hav, this, if_false, add_zero]
        exact hwf.cycles a
    · intro x a hxa
      rw [hnb]
      exact hwf.edge_nb x a hxa
    · intro x a h
      have hne := hne_of_set x a h
      rw [hedge x a hne, hmsgs] at h ⊢
      exact hwf.edge_msg x a h
    · intro a m h
      simp only [World.set_edge_cycle_messages, hcyc, List.mem_append,
        List.mem_singleton, Prod.mk.injEq] at h
      rcases h with h | ⟨rfl, rfl⟩
      · exact hwf.cycle_msg a m h
      · exact ⟨hvne, hm⟩
    · intro b hb
      simp only [World.set_edge_tasks, htasks] at hb
      exact hwf.tasks_ok b hb
    · apply sem_iff_of
      · intro C hC
        simp only [World.set_edge_results, hres] at hC
        exact Or.inl hC
      · rintro a m C (⟨x, hx1, hx2⟩ | hc) hC
        · have hne := hne_of_set x a hx1
          rw [hedge x a hne, hmsgs] at hx1 hx2
          exact Or.inr ⟨a, m, Or.inl ⟨x, hx1, hx2⟩, hC⟩
        · simp only [World.set_edge_cycle_messages, hcyc, List.mem_append,
            List.mem_singleton, Prod.mk.injEq] at hc
          rcases hc with h | ⟨rfl, rfl⟩
          · exact Or.inr ⟨a, m, Or.inr h, hC⟩
          · exact Or.inr ⟨a, _, Or.inl ⟨u, hset, rfl⟩, hC⟩
      · intro C hC
        left
        simp only [World.set_edge_results, hres]
        exact hC
      · rintro a m C (⟨x, hx1, hx2⟩ | hc) hC
        · by_cases h : x = u ∧ a = v
          · obtain ⟨rfl, rfl⟩ := h
            subst hx2
            refine Or.inr ⟨a, { (τ.edge_data x a).message with is_set := false },
              Or.inr ?_, hC⟩
            simp only [World.set_edge_cycle_messages, hcyc, List.mem_append,
              List.mem_singleton]
            exact Or.inr trivial
          · refine Or.inr ⟨a, m, Or.inl ⟨x, ?_, ?_⟩, hC⟩
            · rw [hedge x a h, hmsgs]
              exact hx1
            · rw [hedge x a h, hmsgs]
              exact hx2
        · refine Or.inr ⟨a, m, Or.inr ?_, hC⟩
          simp only [World.set_edge_cycle_messages, hcyc, List.mem_append]
          exact Or.inl hc
    · rw [World.set_edge_tasks, htasks]
    · intro b hb
      rw [World.set_edge_tasks, htasks] at hb
      exact Or.inl hb
    · intro a b _ h
      have hne := hne_of_set a b h
      rw [hedge a b hne, hmsgs] at h
      exact h
    · rintro a m (⟨x, hx1, hx2⟩ | hc)
      · have hne := hne_of_set x a hx1
        rw [hedge x a hne, hmsgs] at hx1 hx2
        exact Or.inr ⟨m, Or.inl ⟨x, hx1, hx2⟩⟩
      · simp only [World.set_edge_cycle_messages, hcyc, List.mem_append,
          List.mem_singleton, Prod.mk.injEq] at hc
        rcases hc with h | ⟨rfl, rfl⟩
        · exact Or.inr ⟨m, Or.inr h⟩
        · exact Or.inr ⟨_, Or.inl ⟨u, hset, rfl⟩⟩
    · intro a
      simp only [World.set_edge_vertex_data, hvd]
      by_cases hav : a = v
      · subst hav
        simp
      · simp [hav]
  · -- no cycle: every message stays
    obtain ⟨hcyc, hmsg, hvd⟩ := P.no_cycle (Or.inr (Or.inr hbt))
    have hall : ∀ x a, ((r.1.set_edge u v { τ.edge_data u v with message := r.2.1 }).edge_data
        x a).message = (τ.edge_data x a).message := by
      intro x a
      by_cases h : x = u ∧ a = v
      · obtain ⟨rfl, rfl⟩ := h
        rw [hedge_uv, hmsg]
      · rw [hedge x a h, hmsgs]
    refine ⟨⟨?_, ?_, ?_, ?_, ?_, ?_⟩, ⟨hglob, ?_, ?_, ?_, ?_, ?_, ?_⟩⟩
    · intro a ha
      simp only [World.set_edge_vertex_data, hvd]
      exact hwf.vertex_nb a ha
    · intro a
      simp only [World.set_edge_vertex_data, World.set_edge_cycle_messages, hvd, hcyc]
      exact hwf.cycles a
    · intro x a hxa
      rw [hnb]
      exact hwf.edge_nb x a hxa
    · intro x a h
      rw [hall] at h ⊢
      exact hwf.edge_msg x a h
    · intro a m h
      simp only [World.set_edge_cycle_messages, hcyc] at h
      exact hwf.cycle_msg a m h
    · intro b hb
      simp only [World.set_edge_tasks, htasks] at hb
      exact hwf.tasks_ok b hb
    · apply sem_iff_of
      · intro C hC
        simp only [World.set_edge_results, hres] at hC
        exact Or.inl hC
      · rintro a m C (⟨x, hx1, hx2⟩ | hc) hC
        · rw [hall] at hx1 hx2
          exact Or.inr ⟨a, m, Or.inl ⟨x, hx1, hx2⟩, hC⟩
        · simp only [World.set_edge_cycle_messages, hcyc] at hc
          exact Or.inr ⟨a, m, Or.inr hc, hC⟩
      · intro C hC
        left
        simp only [World.set_edge_results, hres]
        exact hC
      · rintro a m C (⟨x, hx1, hx2⟩ | hc) hC
        · refine Or.inr ⟨a, m, Or.inl ⟨x, ?_, ?_⟩, hC⟩
          · rw [hall]; exact hx1
          · rw [hall]; exact hx2
        · refine Or.inr ⟨a, m, Or.inr ?_, hC⟩
          simp only [World.set_edge_cycle_messages, hcyc]
          exact hc
    · rw [World.set_edge_tasks, htasks]
    · intro b hb
      rw [World.set_edge_tasks, htasks] at hb
      exact Or.inl hb
    · intro a b _ h
      rw [hall] at h
      exact h
    · rintro a m (⟨x, hx1, hx2⟩ | hc)
      · rw [hall] at hx1 hx2
        exact Or.inr ⟨m, Or.inl ⟨x, hx1, hx2⟩⟩
      · simp only [World.set_edge_cycle_messages, hcyc] at hc
        exact Or.inr ⟨m, Or.inr hc⟩
    · intro a
      simp [hvd]

/-- One pass of the loop over the in-edges of `v`. -/
theorem inedge_step_spec {graph : Graph} (hg : GoodGraph graph) (v : Nat)
    (τ : World) (coll : Bool) (u : Nat) (hwf : WellFormed graph τ) :
    EdgeLoop graph v τ coll (inedge_step graph v (τ, coll) u) ∧
      (((inedge_step graph v (τ, coll) u).1.edge_data u v).message.is_set = true →
        (inedge_step graph v (τ, coll) u).2 = true) := by
  by_cases hset : (τ.edge_data u v).message.is_set = true
  · have hm := (hwf.edge_msg u v hset).2
    have P := clique_enumerate_post hg τ hwf.edge_nb v (τ.edge_data u v).message
      (τ.edge_data u v).block_trace true hm
    by_cases hh : (clique_enumerate graph τ v (τ.edge_data u v).message
        (τ.edge_data u v).block_trace true).2.2 = true
    · rw [inedge_step_handled graph v (τ, coll) u hset hh]
      obtain ⟨h1, h2, h3⟩ := inedge_handled_spec hg v τ u hwf hset _ P hh
      refine ⟨⟨h1, h2, fun h => h, Or.inl h3⟩, ?_⟩
      intro h
      simp [World.set_edge_edge_data] at h
    · have hh2 : (clique_enumerate graph τ v (τ.edge_data u v).message
          (τ.edge_data u v).block_trace true).2.2 = false := by
        simpa using hh
      rw [inedge_step_failed graph v (τ, coll) u hset hh2]
      obtain ⟨h1, h2⟩ := inedge_failed_spec hg v τ u hwf hset _ P hh2
      exact ⟨⟨h1, h2, fun _ => rfl, Or.inr rfl⟩, fun _ => rfl⟩
  · have hset2 : (τ.edge_data u v).message.is_set = false := by simpa using hset
    rw [inedge_step_unset graph v (τ, coll) u hset2]
    exact ⟨⟨hwf, Progress.stay _ _ _, fun h => h, Or.inl rfl⟩, fun h => absurd h hset⟩

end MaximalClique

theorem filter_length_remove (kept rest : List (Nat × Message)) (e : Nat × Message) (a : Nat) :
    (((kept ++ rest).filter (fun e => e.1 = a)).length : Int) =
      (((kept ++ e :: rest).filter (fun e => e.1 = a)).length : Int)
        - (if e.1 = a then 1 else 0) := by
  rw [List.filter_append, List.filter_append, List.length_append, List.length_append,
    List.filter_cons]
  by_cases h : e.1 = a
  · simp [h]
    omega
  · simp [h]

namespace MaximalClique

/-- The loop over the in-edges of `v`. -/
theorem inedge_fold_spec {graph : Graph} (hg : GoodGraph graph) (v : Nat) (l : List Nat) :
    ∀ (τ : World) (coll : Bool), WellFormed graph τ →
      EdgeLoop graph v τ coll (l.foldl (inedge_step graph v) (τ, coll)) ∧
        ∀ u ∈ l, ((l.foldl (inedge_step graph v) (τ, coll)).1.edge_data u v).message.is_set
          = true → (l.foldl (inedge_step graph v) (τ, coll)).2 = true := by
  induction l with
  | nil =>
    intro τ coll hwf
    exact ⟨⟨hwf, Progress.stay _ _ _, fun h => h, Or.inl rfl⟩,
      fun u hu => absurd hu (List.not_mem_nil _)⟩
  | cons u l ih =>
    intro τ coll hwf
    rw [List.foldl_cons]
    obtain ⟨h1, h2⟩ := inedge_step_spec hg v τ coll u hwf
    obtain ⟨h3, h4⟩ := ih (inedge_step graph v (τ, coll) u).1
      (inedge_step graph v (τ, coll) u).2 h1.wf
    refine ⟨⟨h3.wf, h1.prog.chain h3.prog, fun h => h3.coll_mono (h1.coll_mono h), ?_⟩, ?_⟩
    · rcases h3.cyc with h5 | h5
      · rcases h1.cyc with h6 | h6
        · exact Or.inl (h5.trans h6)
        · exact Or.inr (h3.coll_mono h6)
      · exact Or.inr h5
    · intro a ha hset
      rcases List.mem_cons.1 ha with rfl | ha
      · have hne : a ≠ v := hg.ne_of_mem (h3.wf.edge_msg a v hset).1
        exact h3.coll_mono (h2 (h3.prog.edges a v hne hset))
      · exact h4 a ha hset

/-- A stored message that is handled leaves the side table. -/
theorem replay_handled_spec {graph : Graph} (hg : GoodGraph graph) (v : Nat)
    (τ : World) (c : Int) (kept rest : List (Nat × Message)) (m : Message)
    (hc : Consistent graph τ (cycOf τ v c))
    (hlist : τ.cycle_messages = kept ++ (v, m) :: rest)
    (r : World × Message × Bool) (P : StepPost graph τ v m ∅ false r) (hh : r.2.2 = true)
    (ρ : World) (hg1 : SameGlobals r.1 ρ) (hres : ρ.results = r.1.results)
    (htasks : ρ.tasks = r.1.tasks) (hedges : ρ.edge_data = r.1.edge_data)
    (hvert : ρ.vertex_data = r.1.vertex_data) (hcm : ρ.cycle_messages = kept ++ rest) :
    Consistent graph ρ (cycOf ρ v (c - 1)) ∧ Progress graph v τ ρ ∧
      ρ.vertex_data = τ.vertex_data := by
  obtain ⟨hcyc, _, hvd⟩ := P.no_cycle (Or.inl hh)
  obtain ⟨new, hnew, _, hacc⟩ := P.results
  have hacc := hacc hh
  have hmem : (v, m) ∈ τ.cycle_messages := by
    rw [hlist]
    exact List.mem_append_right _ (List.mem_cons_self _ _)
  have hsub : ∀ e, e ∈ kept ++ rest → e ∈ τ.cycle_messages := by
    intro e he
    rw [hlist]
    rcases List.mem_append.1 he with h | h
    · exact List.mem_append_left _ h
    · exact List.mem_append_right _ (List.mem_cons_of_mem _ h)
  have hsplit : ∀ e, e ∈ τ.cycle_messages → e = (v, m) ∨ e ∈ kept ++ rest := by
    intro e he
    rw [hlist] at he
    rcases List.mem_append.1 he with h | h
    · exact Or.inr (List.mem_append_left _ h)
    · rcases List.mem_cons.1 h with h | h
      · exact Or.inl h
      · exact Or.inr (List.mem_append_right _ h)
  refine ⟨⟨?_, ?_, ?_, ?_, ?_, ?_⟩, ⟨P.globals.trans hg1, ?_, ?_, ?_, ?_, ?_, ?_⟩, ?_⟩
  · intro a ha
    rw [hvert, hvd]
    exact hc.vertex_nb a ha
  · intro a
    rw [hcm, filter_length_remove kept rest (v, m) a]
    have := hc.cycles a
    rw [hlist] at this
    rw [← this]
    unfold cycOf
    by_cases hav : a = v
    · subst hav
      simp
    · have : ¬ v = a := fun h => hav h.symm
      simp [hav, this, hvert, hvd]
  · intro x a hxa
    rw [hedges, P.edge_nb]
    exact hc.edge_nb x a hxa
  · intro x a h
    rw [hedges] at h ⊢
    rcases P.edge_origin x a with h1 | ⟨rfl, _, _, _, h5, h6, _⟩
    · rw [h1] at h ⊢
      exact hc.edge_msg x a h
    · exact ⟨h5, h6⟩
  · intro a m2 h
    rw [hcm] at h
    exact hc.cycle_msg a m2 (hsub _ h)
  · intro b hb
    rw [htasks] at hb
    rcases P.tasks_sub b hb with h | h
    · exact hc.tasks_ok b h
    · exact ⟨v, hg.mem_symm h⟩
  · apply sem_iff_of
    · intro C hC
      rw [hres, hnew, List.mem_append] at hC
      rcases hC with h | h
      · exact Or.inl h
      · exact Or.inr ⟨v, m, Or.inr hmem, (hacc C).2 (Or.inl h)⟩
    · rintro a m2 C (⟨x, hx1, hx2⟩ | hcy) hC
      · rw [hedges] at hx1 hx2
        rcases P.edge_origin x a with h1 | ⟨rfl, _, h3, h4, _⟩
        · rw [h1] at hx1 hx2
          exact Or.inr ⟨a, m2, Or.inl ⟨x, hx1, hx2⟩, hC⟩
        · refine Or.inr ⟨x, m, Or.inr hmem, (hacc C).2 (Or.inr ⟨a, h3, h4, ?_⟩)⟩
          rw [hx2]
          exact hC
      · rw [hcm] at hcy
        exact Or.inr ⟨a, m2, Or.inr (hsub _ hcy), hC⟩
    · intro C hC
      left
      rw [hres, hnew, List.mem_append]
      exact Or.inl hC
    · rintro a m2 C (⟨x, hx1, hx2⟩ | hcy) hC
      · refine Or.inr ⟨a, m2, Or.inl ⟨x, ?_, ?_⟩, hC⟩
        · rw [hedges, P.edge_kept x a hx1]
          exact hx1
        · rw [hedges, P.edge_kept x a hx1]
          exact hx2
      · rcases hsplit _ hcy with h | h
        · simp only [Prod.mk.injEq] at h
          obtain ⟨rfl, rfl⟩ := h
          rcases (hacc C).1 hC with h | ⟨b, h1, h2, h3⟩
          · left
            rw [hres, hnew, List.mem_append]
            exact Or.inr h
          · refine Or.inr ⟨b, _, Or.inl ⟨a, ?_, rfl⟩, ?_⟩
            · rw [hedges]
              exact h2
            · rw [hedges]
              exact h3
        · refine Or.inr ⟨a, m2, Or.inr ?_, hC⟩
          rw [hcm]
          exact h
  · rw [htasks]
    exact P.tasks_mono
  · intro b hb
    rw [htasks] at hb
    exact P.tasks_sub b hb
  · intro a b ha h
    rw [hedges, P.edge_other a b ha] at h
    exact h
  · rintro a m2 (⟨x, hx1, hx2⟩ | hcy)
    · rw [hedges] at hx1 hx2
      rcases P.edge_origin x a with h1 | ⟨_, _, _, _, _, _, h7⟩
      · rw [h1] at hx1 hx2
        exact Or.inr ⟨m2, Or.inl ⟨x, hx1, hx2⟩⟩
      · left
        rw [htasks]
        exact h7
    · rw [hcm] at hcy
      exact Or.inr ⟨m2, Or.inr (hsub _ hcy)⟩
  · intro a
    rw [hvert, hvd]
    exact ⟨rfl, rfl⟩
  · rw [hvert, hvd]

/-- A stored message that cannot be forwarded stays in the side table. -/
theorem replay_failed_spec {graph : Graph} (v : Nat)
    (τ : World) (c : Int) (m : Message)
    (hc : Consistent graph τ (cycOf τ v c))
    (r : World × Message × Bool) (P : StepPost graph τ v m ∅ false r) (hh : r.2.2 = false) :
    Consistent graph r.1 (cycOf r.1 v c) ∧ Progress graph v τ r.1 ∧
      r.1.vertex_data = τ.vertex_data ∧ r.1.cycle_messages = τ.cycle_messages := by
  obtain ⟨hcyc, _, hvd⟩ := P.no_cycle (Or.inr (Or.inl rfl))
  obtain ⟨new, hres, hnew, _⟩ := P.results
  have hres : r.1.results = τ.results := by rw [hres, hnew hh, List.append_nil]
  have htasks : r.1.tasks = τ.tasks := P.fail_tasks hh
  have hmsgs : ∀ x a, (r.1.edge_data x a).message = (τ.edge_data x a).message := by
    intro x a
    rcases P.edge_origin x a with h | ⟨_, h, _⟩
    · exact h
    · rw [hh] at h
      exact absurd h (by simp)
  refine ⟨⟨?_, ?_, ?_, ?_, ?_, ?_⟩, ⟨P.globals, ?_, ?_, ?_, ?_, ?_, ?_⟩, hvd, hcyc⟩
  · intro a ha
    rw [hvd]
    exact hc.vertex_nb a ha
  · intro a
    rw [hcyc, ← hc.cycles a]
    unfold cycOf
    rw [hvd]
  · intro x a hxa
    rw [P.edge_nb]
    exact hc.edge_nb x a hxa
  · intro x a h
    rw [hmsgs] at h ⊢
    exact hc.edge_msg x a h
  · intro a m2 h
    rw [hcyc] at h
    exact hc.cycle_msg a m2 h
  · intro b hb
    rw [htasks] at hb
    exact hc.tasks_ok b hb
  · apply sem_iff_of
    · intro C hC
      rw [hres] at hC
      exact Or.inl hC
    · rintro a m2 C (⟨x, hx1, hx2⟩ | hcy) hC
      · rw [hmsgs] at hx1 hx2
        exact Or.inr ⟨a, m2, Or.inl ⟨x, hx1, hx2⟩, hC⟩
      · rw [hcyc] at hcy
        exact Or.inr ⟨a, m2, Or.inr hcy, hC⟩
    · intro C hC
      left
      rw [hres]
      exact hC
    · rintro a m2 C (⟨x, hx1, hx2⟩ | hcy) hC
      · refine Or.inr ⟨a, m2, Or.inl ⟨x, ?_, ?_⟩, hC⟩
        · rw [hmsgs]; exact hx1
        · rw [hmsgs]; exact hx2
      · refine Or.inr ⟨a, m2, Or.inr ?_, hC⟩
        rw [hcyc]
        exact hcy
  · rw [htasks]
  · intro b hb
    rw [htasks] at hb
    exact Or.inl hb
  · intro a b _ h
    rw [hmsgs] at h
    exact h
  · rintro a m2 (⟨x, hx1, hx2⟩ | hcy)
    · rw [hmsgs] at hx1 hx2
      exact Or.inr ⟨m2, Or.inl ⟨x, hx1, hx2⟩⟩
    · rw [hcyc] at hcy
      exact Or.inr ⟨m2, Or.inr hcy⟩
  · intro a
    rw [hvd]
    exact ⟨rfl, rfl⟩

theorem replay_skip (graph : Graph) (v : Nat) (entry : Nat × Message)
    (rest kept : List (Nat × Message)) (σ : World) (cycles : Int) (h : entry.1 ≠ v) :
    replay graph v (entry :: rest) kept σ cycles =
      replay graph v rest (kept ++ [entry]) σ cycles := by
  rw [replay]
  simp only [h, if_false]

theorem replay_fail (graph : Graph) (v : Nat) (entry : Nat × Message)
    (rest kept : List (Nat × Message)) (σ : World) (cycles : Int) (h : entry.1 = v)
    (h2 : (clique_enumerate graph σ v entry.2 ∅ false).2.2 = false) :
    replay graph v (entry :: rest) kept σ cycles =
      replay graph v rest (kept ++ [entry]) (clique_enumerate graph σ v entry.2 ∅ false).1
        cycles := by
  rw [replay]
  simp only [h, h2, if_true, Bool.false_eq_true, if_false]

theorem replay_done (graph : Graph) (v : Nat) (entry : Nat × Message)
    (rest kept : List (Nat × Message)) (σ : World) (cycles : Int) (h : entry.1 = v)
    (h2 : (clique_enumerate graph σ v entry.2 ∅ false).2.2 = true) (h3 : cycles - 1 = 0) :
    replay graph v (entry :: rest) kept σ cycles =
      ({ (clique_enumerate graph σ v entry.2 ∅ false).1 with
          cycle_messages := kept ++ rest }, cycles - 1) := by
  rw [replay]
  simp only [h, h2, h3, if_true]

theorem replay_next (graph : Graph) (v : Nat) (entry : Nat × Message)
    (rest kept : List (Nat × Message)) (σ : World) (cycles : Int) (h : entry.1 = v)
    (h2 : (clique_enumerate graph σ v entry.2 ∅ false).2.2 = true) (h3 : cycles - 1 ≠ 0) :
    replay graph v (entry :: rest) kept σ cycles =
      replay graph v rest kept
        { (clique_enumerate graph σ v entry.2 ∅ false).1 with cycle_messages := kept ++ rest }
        (cycles - 1) := by
  rw [replay]
  simp only [h, h2, h3, if_true, if_false]

/-- The loop `read stored cycle messages` of the vertex `v`. -/
theorem replay_spec {graph : Graph} (hg : GoodGraph graph) (v : Nat)
    (todo : List (Nat × Message)) :
    ∀ (kept : List (Nat × Message)) (τ : World) (c : Int),
      Consistent graph τ (cycOf τ v c) → τ.cycle_messages = kept ++ todo →
      Consistent graph (replay graph v todo kept τ c).1
          (cycOf (replay graph v todo kept τ c).1 v (replay graph v todo kept τ c).2) ∧
        Progress graph v τ (replay graph v todo kept τ c).1 ∧
        (replay graph v todo kept τ c).1.vertex_data = τ.vertex_data := by
  induction todo with
  | nil =>
    intro kept τ c hc _
    exact ⟨hc, Progress.stay _ _ _, rfl⟩
  | cons e rest ih =>
    intro kept τ c hc hlist
    by_cases he : e.1 = v
    · have hmem : (v, e.2) ∈ τ.cycle_messages := by
        rw [hlist, ← he]
        exact List.mem_append_right _ (List.mem_cons_self _ _)
      have hm := (hc.cycle_msg v e.2 hmem).2
      have P := clique_enumerate_post hg τ hc.edge_nb v e.2 ∅ false hm
      by_cases hh : (clique_enumerate graph τ v e.2 ∅ false).2.2 = true
      · have hlist2 : τ.cycle_messages = kept ++ (v, e.2) :: rest := by
          rw [hlist, ← he]
        obtain ⟨h1, h2, h3⟩ := replay_handled_spec hg v τ c kept rest e.2 hc hlist2 _ P hh
          { (clique_enumerate graph τ v e.2 ∅ false).1 with cycle_messages := kept ++ rest }
          ⟨rfl, rfl, rfl, rfl⟩ rfl rfl rfl rfl rfl
        by_cases h0 : c - 1 = 0
        · rw [replay_done graph v e rest kept τ c he hh h0]
          exact ⟨h1, h2, h3⟩
        · rw [replay_next graph v e rest kept τ c he hh h0]
          obtain ⟨h4, h5, h6⟩ := ih kept
            { (clique_enumerate graph τ v e.2 ∅ false).1 with cycle_messages := kept ++ rest }
            (c - 1) h1 rfl
          exact ⟨h4, h2.chain h5, h6.trans h3⟩
      · have hh2 : (clique_enumerate graph τ v e.2 ∅ false).2.2 = false := by simpa using hh
        rw [replay_fail graph v e rest kept τ c he hh2]
        obtain ⟨h1, h2, h3, h4⟩ := replay_failed_spec v τ c e.2 hc _ P hh2
        obtain ⟨h5, h6, h7⟩ := ih (kept ++ [e]) (clique_enumerate graph τ v e.2 ∅ false).1 c h1
          (by rw [h4, hlist]; simp)
        exact ⟨h5, h2.chain h6, h7.trans h3⟩
    · rw [replay_skip graph v e rest kept τ c he]
      exact ih (kept ++ [e]) τ c hc (by rw [hlist]; simp)

theorem set_cycles_spec {graph : Graph} (v : Nat) (τ : World) (c : Int)
    (hc : Consistent graph τ (cycOf τ v c)) (d : VertexData)
    (h1 : d.neighbours = (τ.vertex_data v).neighbours)
    (h2 : d.neighbours_set = (τ.vertex_data v).neighbours_set) (h3 : d.cycles = c) :
    WellFormed graph (τ.set_vertex v d) ∧ Progress graph v τ (τ.set_vertex v d) := by
  refine ⟨⟨?_, ?_, hc.edge_nb, hc.edge_msg, hc.cycle_msg, hc.tasks_ok⟩,
    ⟨⟨rfl, rfl, rfl, rfl⟩, fun _ => Iff.rfl, fun _ h => h, fun _ h => Or.inl h,
      fun _ _ _ h => h, fun a m h => Or.inr ⟨m, h⟩, ?_⟩⟩
  · intro a ha
    simp only [World.set_vertex_vertex_data]
    by_cases hav : a = v
    · subst hav
      simp only [if_true, h1, h2]
      exact hc.vertex_nb a ha
    · simp only [hav, if_false]
      exact hc.vertex_nb a ha
  · intro a
    rw [World.set_vertex_cycle_messages, ← hc.cycles a]
    simp only [World.set_vertex_vertex_data, cycOf]
    by_cases hav : a = v
    · simp [hav, h3]
    · simp [hav]
  · intro a
    simp only [World.set_vertex_vertex_data]
    by_cases hav : a = v
    · subst hav
      simp [h1, h2]
    · simp [hav]

/-- The method `handle_messages` on a consistent world and a vertex with a neighbour. -/
theorem handle_messages_spec {graph : Graph} (hg : GoodGraph graph) (v : Nat)
    (hv : (row graph v).Nonempty) (σ : World) (hwf : WellFormed graph σ) :
    HandlePost graph v σ (handle_messages graph σ v) := by
  have hc0 : Consistent graph σ (cycOf σ v (σ.vertex_data v).cycles) := by
    have : cycOf σ v (σ.vertex_data v).cycles = fun a => (σ.vertex_data a).cycles := by
      funext a
      unfold cycOf
      by_cases hav : a = v
      · simp [hav]
      · simp [hav]
    rw [this]
    exact hwf
  -- the replay loop
  obtain ⟨r, hr, hr1, hr2, hr3⟩ : ∃ r : World × Int,
      r = (if (σ.vertex_data v).cycles > 0 then
        replay graph v σ.cycle_messages [] σ (σ.vertex_data v).cycles
        else (σ, (σ.vertex_data v).cycles)) ∧
      Consistent graph r.1 (cycOf r.1 v r.2) ∧ Progress graph v σ r.1 ∧
      r.1.vertex_data = σ.vertex_data := by
    refine ⟨_, rfl, ?_⟩
    by_cases hpos : (σ.vertex_data v).cycles > 0
    · rw [if_pos hpos]
      exact replay_spec hg v σ.cycle_messages [] σ _ hc0 rfl
    · rw [if_neg hpos]
      exact ⟨hc0, Progress.stay _ _ _, rfl⟩
  -- the counter is stored
  obtain ⟨hs1, hs2⟩ := set_cycles_spec v r.1 r.2 hr1
    { σ.vertex_data v with cycles := r.2 } (by rw [hr3]) (by rw [hr3]) rfl
  -- the loop over the in-edges
  obtain ⟨hl, hl2⟩ := inedge_fold_spec hg v (in_edges graph v)
    (r.1.set_vertex v { σ.vertex_data v with cycles := r.2 }) false hs1
  have hprog : Progress graph v σ ((in_edges graph v).foldl (inedge_step graph v)
      (r.1.set_vertex v { σ.vertex_data v with cycles := r.2 }, false)).1 :=
    (hr2.chain hs2).chain hl.prog
  have hhm : handle_messages graph σ v =
      if ((in_edges graph v).foldl (inedge_step graph v)
          (r.1.set_vertex v { σ.vertex_data v with cycles := r.2 }, false)).2 = true
          ∨ r.2 > 0 then
        ((in_edges graph v).foldl (inedge_step graph v)
          (r.1.set_vertex v { σ.vertex_data v with cycles := r.2 }, false)).1.add_task v
      else
        ((in_edges graph v).foldl (inedge_step graph v)
          (r.1.set_vertex v { σ.vertex_data v with cycles := r.2 }, false)).1.remove_tasks v := by
    rw [hr]
    rfl
  -- a message for `v` at the end of the loop raises the flag or the counter
  have hkey : ∀ m, Pending ((in_edges graph v).foldl (inedge_step graph v)
      (r.1.set_vertex v { σ.vertex_data v with cycles := r.2 }, false)).1 v m →
      ((in_edges graph v).foldl (inedge_step graph v)
          (r.1.set_vertex v { σ.vertex_data v with cycles := r.2 }, false)).2 = true
        ∨ r.2 > 0 := by
    rintro m (⟨x, hx1, _⟩ | hcy)
    · left
      have hvx := (hl.wf.edge_msg x v hx1).1
      exact hl2 x (hg.mem_in_edges.2 (hg.mem_symm hvx)) hx1
    · rcases hl.cyc with h | h
      · right
        have hcount := hl.wf.cycles v
        simp only at hcount
        rw [h] at hcount
        simp only [World.set_vertex_vertex_data, if_true] at hcount
        rw [hcount]
        have : 0 < (List.filter (fun e => decide (e.1 = v))
            ((in_edges graph v).foldl (inedge_step graph v)
              (r.1.set_vertex v { σ.vertex_data v with cycles := r.2 },
                false)).1.cycle_messages).length :=
          List.length_pos_of_mem (List.mem_filter.2 ⟨hcy, by simp⟩)
        exact_mod_cast this
      · exact Or.inl h
  rw [hhm]
  by_cases hcond : ((in_edges graph v).foldl (inedge_step graph v)
          (r.1.set_vertex v { σ.vertex_data v with cycles := r.2 }, false)).2 = true
          ∨ r.2 > 0
  · rw [if_pos hcond]
    refine ⟨⟨hl.wf.vertex_nb, hl.wf.cycles, hl.wf.edge_nb, hl.wf.edge_msg, hl.wf.cycle_msg, ?_⟩,
      ⟨hprog.globals.singletons, hprog.globals.start_id, hprog.globals.start_neighbours,
        hprog.globals.start_cands⟩, hprog.sem, ?_, ?_, hprog.edges⟩
    · intro b hb
      rcases Finset.mem_insert.1 hb with rfl | h
      · exact hv
      · exact hl.wf.tasks_ok b h
    · intro a _ ha
      exact Finset.mem_insert_of_mem (hprog.tasks ha)
    · intro a m hp
      by_cases hav : a = v
      · left
        rw [hav]
        exact Finset.mem_insert_self _ _
      · rcases hprog.pending a m hp with h | h
        · exact Or.inl (Finset.mem_insert_of_mem h)
        · exact Or.inr ⟨hav, h⟩
  · rw [if_neg hcond]
    refine ⟨⟨hl.wf.vertex_nb, hl.wf.cycles, hl.wf.edge_nb, hl.wf.edge_msg, hl.wf.cycle_msg, ?_⟩,
      ⟨hprog.globals.singletons, hprog.globals.start_id, hprog.globals.start_neighbours,
        hprog.globals.start_cands⟩, hprog.sem, ?_, ?_, hprog.edges⟩
    · intro b hb
      exact hl.wf.tasks_ok b (Finset.mem_of_mem_erase hb)
    · intro a hav ha
      exact Finset.mem_erase.2 ⟨hav, hprog.tasks ha⟩
    · intro a m hp
      by_cases hav : a = v
      · subst hav
        exact absurd (hkey m hp) hcond
      · rcases hprog.pending a m hp with h | h
        · exact Or.inl (Finset.mem_erase.2 ⟨hav, h⟩)
        · exact Or.inr ⟨hav, h⟩

theorem update_later (graph : Graph) (k : Nat) (σ : World) (v : Nat) (hk : 2 ≤ k) :
    update graph k σ v = handle_messages graph σ v := by
  unfold update
  have h0 : ¬ k = 0 := by omega
  have h1 : ¬ k = 1 := by omega
  simp only [h0, h1, if_false, false_and]

theorem after_iteration_later (graph : Graph) (k : Nat) (σ : World) (hk : k ≠ 0) :
    after_iteration graph k σ = σ := by
  unfold after_iteration
  cases σ.start_id with
  | none => rfl
  | some s => simp only [hk, if_false]

theorem settled_step {graph : Graph} (hg : GoodGraph graph) (T : IdSet → Prop)
    (σ : World) (v : Nat) (W : List Nat) (h : Settled graph T σ (v :: W)) :
    Settled graph T (handle_messages graph σ v) W := by
  have hv := h.rows v (List.mem_cons_self _ _)
  have H := handle_messages_spec hg v hv σ h.wf
  refine ⟨H.wf, fun C => (H.sem C).trans (h.sem C), ?_,
    fun w hw => h.rows w (List.mem_cons_of_mem _ hw)⟩
  intro a m hp
  rcases H.pending a m hp with h1 | ⟨hav, m2, h2⟩
  · exact Or.inl h1
  · rcases h.pending a m2 h2 with h3 | h3
    · exact Or.inl (H.tasks_keep a hav h3)
    · rcases List.mem_cons.1 h3 with h4 | h4
      · exact absurd h4 hav
      · exact Or.inr h4

theorem settled_fold {graph : Graph} (hg : GoodGraph graph) (T : IdSet → Prop) (k : Nat)
    (hk : 2 ≤ k) (W : List Nat) :
    ∀ σ, Settled graph T σ W → Settled graph T (W.foldl (update graph k) σ) [] := by
  induction W with
  | nil => intro σ h; exact h
  | cons v W ih =>
    intro σ h
    rw [List.foldl_cons, update_later graph k σ v hk]
    exact ih _ (settled_step hg T σ v W h)

theorem settled_clear {graph : Graph} (T : IdSet → Prop) (σ : World) (order : List Nat)
    (h : Settled graph T σ []) (ho : order.toFinset = σ.tasks) :
    Settled graph T { σ with tasks := ∅ } order := by
  refine ⟨⟨h.wf.vertex_nb, h.wf.cycles, h.wf.edge_nb, h.wf.edge_msg, h.wf.cycle_msg, ?_⟩,
    h.sem, ?_, ?_⟩
  · intro b hb
    exact absurd hb (Finset.not_mem_empty _)
  · intro a m hp
    rcases h.pending a m hp with h1 | h1
    · right
      rw [← ho] at h1
      exact List.mem_toFinset.1 h1
    · exact absurd h1 (List.not_mem_nil _)
  · intro w hw
    apply h.wf.tasks_ok
    rw [← ho]
    exact List.mem_toFinset.2 hw

/-- The iterations after the first keep the invariant. -/
theorem settled_iterations {graph : Graph} (hg : GoodGraph graph) (T : IdSet → Prop)
    (schedule : List (List Nat)) :
    ∀ (k : Nat) (σ : World), 2 ≤ k → Settled graph T σ [] →
      ValidSchedule graph k schedule σ →
      Settled graph T (engine_iterations graph k schedule σ) [] := by
  induction schedule with
  | nil => intro k σ _ h _; exact h
  | cons order schedule ih =>
    intro k σ hk h hv
    obtain ⟨_, ho, hrest⟩ := hv
    rw [engine_iterations]
    rw [after_iteration_later graph k _ (by omega)] at hrest ⊢
    exact ih (k + 1) _ (by omega)
      (settled_fold hg T k hk order _ (settled_clear T σ order h ho)) hrest

/-- When no vertex is scheduled, the saved sets are the sets of `T`. -/
theorem settled_final {graph : Graph} (T : IdSet → Prop) (σ : World)
    (h : Settled graph T σ []) (ht : σ.tasks = ∅) : ∀ C, C ∈ σ.results ↔ T C := by
  intro C
  rw [← h.sem C]
  constructor
  · intro hC
    exact Or.inl hC
  · rintro (hC | ⟨a, m, hp, _⟩)
    · exact hC
    · rcases h.pending a m hp with h1 | h1
      · rw [ht] at h1
        exact absurd h1 (Finset.not_mem_empty _)
      · exact absurd h1 (List.not_mem_nil _)

end MaximalClique

theorem mem_nonIsolated {graph : Graph} (hg : GoodGraph graph) (x : Nat) :
    x ∈ nonIsolated graph ↔ (row graph x).Nonempty := by
  unfold nonIsolated
  rw [Finset.mem_filter, Finset.mem_range]
  constructor
  · exact fun h => h.2
  · rintro ⟨w, hw⟩
    exact ⟨(hg.lt_of_mem hw).1, ⟨w, hw⟩⟩

theorem mem_startT {graph : Graph} (hg : GoodGraph graph) (s : Nat) (W : List Nat) (x : Nat) :
    x ∈ startT graph s W ↔
      (row graph x).Nonempty ∧ x ≠ s ∧ (x ∈ row graph s ∨ x ∈ W) := by
  unfold startT
  rw [Finset.mem_filter, mem_nonIsolated hg]

theorem mem_startY {graph : Graph} (hg : GoodGraph graph) (s : Nat) (W : List Nat) (x : Nat) :
    x ∈ startY graph s W ↔
      (row graph x).Nonempty ∧ ¬ (x ≠ s ∧ (x ∈ row graph s ∨ x ∈ W)) := by
  unfold startY
  rw [Finset.mem_sdiff, mem_startT hg, mem_nonIsolated hg]
  tauto

theorem startT_subset {graph : Graph} (hg : GoodGraph graph) (s : Nat) (W : List Nat) :
    startT graph s W ⊆ Finset.range graph.length := by
  intro x hx
  obtain ⟨⟨w, hw⟩, _⟩ := (mem_startT hg s W x).1 hx
  exact Finset.mem_range.2 (hg.lt_of_mem hw).1

theorem startT_cons_self {graph : Graph} (hg : GoodGraph graph) (s : Nat) (W : List Nat) :
    startT graph s (s :: W) = startT graph s W := by
  ext x
  rw [mem_startT hg, mem_startT hg, List.mem_cons]
  constructor
  · rintro ⟨h1, h2, h3 | h3 | h3⟩
    · exact ⟨h1, h2, Or.inl h3⟩
    · exact absurd h3 h2
    · exact ⟨h1, h2, Or.inr h3⟩
  · rintro ⟨h1, h2, h3 | h3⟩
    · exact ⟨h1, h2, Or.inl h3⟩
    · exact ⟨h1, h2, Or.inr (Or.inr h3)⟩

theorem startY_cons_self {graph : Graph} (hg : GoodGraph graph) (s : Nat) (W : List Nat) :
    startY graph s (s :: W) = startY graph s W := by
  unfold startY
  rw [startT_cons_self hg]

theorem startT_cons {graph : Graph} (hg : GoodGraph graph) (s v : Nat) (W : List Nat)
    (hvW : v ∉ W) (hvs : v ∉ row graph s) :
    startT graph s W = (startT graph s (v :: W)).erase v := by
  ext x
  rw [Finset.mem_erase, mem_startT hg, mem_startT hg, List.mem_cons]
  constructor
  · rintro ⟨h1, h2, h3⟩
    refine ⟨?_, h1, h2, h3.imp id Or.inr⟩
    rintro rfl
    rcases h3 with h3 | h3
    · exact hvs h3
    · exact hvW h3
  · rintro ⟨h0, h1, h2, h3 | h3 | h3⟩
    · exact ⟨h1, h2, Or.inl h3⟩
    · exact absurd h3 h0
    · exact ⟨h1, h2, Or.inr h3⟩

theorem startY_cons {graph : Graph} (hg : GoodGraph graph) (s v : Nat) (W : List Nat)
    (hvW : v ∉ W) (hvs : v ∉ row graph s) (hv : (row graph v).Nonempty) :
    startY graph s W = insert v (startY graph s (v :: W)) := by
  ext x
  rw [Finset.mem_insert, mem_startY hg, mem_startY hg, List.mem_cons]
  constructor
  · rintro ⟨h1, h2⟩
    by_cases hx : x = v
    · exact Or.inl hx
    · right
      refine ⟨h1, ?_⟩
      rintro ⟨h3, h4 | h4 | h4⟩
      · exact h2 ⟨h3, Or.inl h4⟩
      · exact hx h4
      · exact h2 ⟨h3, Or.inr h4⟩
  · rintro (rfl | ⟨h1, h2⟩)
    · refine ⟨hv, ?_⟩
      rintro ⟨_, h4 | h4⟩
      · exact hvs h4
      · exact hvW h4
    · refine ⟨h1, ?_⟩
      rintro ⟨h3, h4 | h4⟩
      · exact h2 ⟨h3, Or.inl h4⟩
      · exact h2 ⟨h3, Or.inr (Or.inr h4)⟩

namespace MaximalClique

/-- A handled message that was not in transit before adds its sets. -/
theorem fresh_step_spec {graph : Graph} (hg : GoodGraph graph) (v : Nat) (τ : World)
    (hwf : WellFormed graph τ) (m : Message) (bt : IdSet) (fe : Bool)
    (r : World × Message × Bool) (P : StepPost graph τ v m bt fe r) (hh : r.2.2 = true) :
    WellFormed graph r.1 ∧ (∀ C, Sem graph r.1 C ↔ Sem graph τ C ∨ MsgSet graph v m C) ∧
      (∀ a m2, Pending r.1 a m2 → a ∈ r.1.tasks ∨ Pending τ a m2) := by
  obtain ⟨hcyc, _, hvd⟩ := P.no_cycle (Or.inl hh)
  obtain ⟨new, hres, _, hacc⟩ := P.results
  have hacc := hacc hh
  refine ⟨⟨?_, ?_, ?_, ?_, ?_, ?_⟩, ?_, ?_⟩
  · intro a ha
    rw [hvd]
    exact hwf.vertex_nb a ha
  · intro a
    simp only [hvd, hcyc]
    exact hwf.cycles a
  · intro x a hxa
    rw [P.edge_nb]
    exact hwf.edge_nb x a hxa
  · intro x a h
    rcases P.edge_origin x a with h1 | ⟨rfl, _, _, _, h5, h6, _⟩
    · rw [h1] at h ⊢
      exact hwf.edge_msg x a h
    · exact ⟨h5, h6⟩
  · intro a m2 h
    rw [hcyc] at h
    exact hwf.cycle_msg a m2 h
  · intro b hb
    rcases P.tasks_sub b hb with h | h
    · exact hwf.tasks_ok b h
    · exact ⟨v, hg.mem_symm h⟩
  · intro C
    constructor
    · rintro (hC | ⟨a, m2, (⟨x, hx1, hx2⟩ | hcy), hC⟩)
      · rw [hres, List.mem_append] at hC
        rcases hC with h | h
        · exact Or.inl (Or.inl h)
        · exact Or.inr ((hacc C).2 (Or.inl h))
      · rcases P.edge_origin x a with h1 | ⟨rfl, _, h3, h4, _⟩
        · rw [h1] at hx1 hx2
          exact Or.inl (Or.inr ⟨a, m2, Or.inl ⟨x, hx1, hx2⟩, hC⟩)
        · refine Or.inr ((hacc C).2 (Or.inr ⟨a, h3, h4, ?_⟩))
          rw [hx2]
          exact hC
      · rw [hcyc] at hcy
        exact Or.inl (Or.inr ⟨a, m2, Or.inr hcy, hC⟩)
    · rintro ((hC | ⟨a, m2, (⟨x, hx1, hx2⟩ | hcy), hC⟩) | hC)
      · left
        rw [hres, List.mem_append]
        exact Or.inl hC
      · refine Or.inr ⟨a, m2, Or.inl ⟨x, ?_, ?_⟩, hC⟩
        · rw [P.edge_kept x a hx1]
          exact hx1
        · rw [P.edge_kept x a hx1]
          exact hx2
      · refine Or.inr ⟨a, m2, Or.inr ?_, hC⟩
        rw [hcyc]
        exact hcy
      · rcases (hacc C).1 hC with h | ⟨b, _, h2, h3⟩
        · left
          rw [hres, List.mem_append]
          exact Or.inr h
        · exact Or.inr ⟨b, _, Or.inl ⟨v, h2, rfl⟩, h3⟩
  · rintro a m2 (⟨x, hx1, hx2⟩ | hcy)
    · rcases P.edge_origin x a with h1 | ⟨_, _, _, _, _, _, h7⟩
      · rw [h1] at hx1 hx2
        exact Or.inr (Or.inl ⟨x, hx1, hx2⟩)
      · exact Or.inl h7
    · rw [hcyc] at hcy
      exact Or.inr (Or.inr hcy)

theorem get_neighbours_eq {graph : Graph} (σ : World) (hwf : WellFormed graph σ) (v : Nat)
    (hv : (row graph v).Nonempty) : get_neighbours graph σ v = row graph v := by
  obtain ⟨h1, h2⟩ := hwf.vertex_nb v hv
  unfold get_neighbours
  simp only [h2, if_true, h1]

theorem start_first {graph : Graph} (hg : GoodGraph graph) (T : IdSet → Prop) (s : Nat)
    (σ : World) (W : List Nat) (h : Starting graph T s σ (s :: W)) :
    Started graph T s s (start graph σ s) W := by
  have hsW : s ∉ W := (List.nodup_cons.1 h.nodup).1
  have hst : start graph σ s =
      (clique_enumerate graph σ s { Message.empty with candidates := row graph s } ∅ true).1 := by
    unfold start
    rw [get_neighbours_eq σ h.wf s h.s_row]
    simp only [h.start_id, if_true]
  rw [hst]
  have P := clique_enumerate_post hg σ h.wf.edge_nb s
    { Message.empty with candidates := row graph s } ∅ true (Finset.Subset.refl _)
  have hh := P.succeeds (h.free s (List.mem_cons_self _ _))
  obtain ⟨f1, f2, f3⟩ := fresh_step_spec hg s σ h.wf _ ∅ true _ P hh
  have hmsg : ∀ C, MsgSet graph s { Message.empty with candidates := row graph s } C ↔
      BKset graph {s} (row graph s) ∅ C := by
    intro C
    unfold MsgSet
    simp only [Message.empty]
    rfl
  refine ⟨f1, P.globals.start_id.trans h.start_id,
    P.globals.start_neighbours.trans h.start_nb, ?_, ?_, ?_, ?_⟩
  · intro x hx
    rw [P.globals.start_cands, h.cands x hx, List.mem_cons]
    constructor
    · rintro ⟨h2, h3 | h3 | h3⟩
      · exact ⟨h2, Or.inl h3⟩
      · exact absurd h3 h2
      · exact ⟨h2, Or.inr h3⟩
    · rintro ⟨h2, h3 | h3⟩
      · exact ⟨h2, Or.inl h3⟩
      · exact ⟨h2, Or.inr (Or.inr h3)⟩
  · intro w hw b
    have hws : w ≠ s := fun h2 => hsW (h2 ▸ hw)
    rw [P.edge_other w b hws]
    exact h.free w (List.mem_cons_of_mem _ hw) b
  · intro C
    rw [← h.sem C, f2 C, hmsg C]
    unfold StartSem
    rw [startT_cons_self hg, startY_cons_self hg]
    constructor
    · rintro ((h1 | h1) | h1 | ⟨S, hS, ⟨d, hd1, hd2, hd3⟩, hC⟩)
      · exact Or.inl h1
      · exact Or.inr (Or.inl ⟨List.mem_cons_self _ _, h1⟩)
      · exact absurd h1.1 hsW
      · exact Or.inr (Or.inr ⟨S, hS, ⟨d, hd1, List.mem_cons_of_mem _ hd2, hd3⟩, hC⟩)
    · rintro (h1 | ⟨_, h1⟩ | ⟨S, hS, ⟨d, hd1, hd2, hd3⟩, hC⟩)
      · exact Or.inl (Or.inl h1)
      · exact Or.inl (Or.inr h1)
      · refine Or.inr (Or.inr ⟨S, hS, ⟨d, hd1, ?_, hd3⟩, hC⟩)
        rcases List.mem_cons.1 hd2 with h2 | h2
        · exact absurd h2 hd3
        · exact h2
  · intro a m hp
    rcases f3 a m hp with h1 | h1
    · exact Or.inl h1
    · rcases h.pending a m h1 with h2 | h2
      · exact Or.inl (P.tasks_mono h2)
      · exact Or.inr h2

theorem start_other {graph : Graph} (hg : GoodGraph graph) (T : IdSet → Prop) (s v : Nat)
    (σ : World) (W : List Nat) (h : Starting graph T s σ (v :: W)) (hvs : v ≠ s) :
    Started graph T s v (start graph σ v) W := by
  have hvW : v ∉ W := (List.nodup_cons.1 h.nodup).1
  obtain ⟨hv, hvns⟩ := h.rows v (List.mem_cons_self _ _)
  have hst : start graph σ v =
      (clique_enumerate graph { σ with start_cands := σ.start_cands.erase v } v
        { Message.empty with
          candidates := row graph v ∩ σ.start_cands,
          not_ids := (Finset.range MAX_VERTICES \ σ.start_cands) ∩ row graph v } ∅ true).1 := by
    unfold start
    rw [get_neighbours_eq σ h.wf v hv]
    have : ¬ σ.start_id = some v := by
      rw [h.start_id]
      intro h2
      exact hvs (Option.some.inj h2).symm
    simp only [this, if_false]
  rw [hst]
  have hwf0 : WellFormed graph { σ with start_cands := σ.start_cands.erase v } :=
    ⟨h.wf.vertex_nb, h.wf.cycles, h.wf.edge_nb, h.wf.edge_msg, h.wf.cycle_msg, h.wf.tasks_ok⟩
  have P := clique_enumerate_post hg { σ with start_cands := σ.start_cands.erase v }
    hwf0.edge_nb v
    { Message.empty with
        candidates := row graph v ∩ σ.start_cands,
        not_ids := (Finset.range MAX_VERTICES \ σ.start_cands) ∩ row graph v } ∅ true
    Finset.inter_subset_left
  have hh := P.succeeds (h.free v (List.mem_cons_self _ _))
  obtain ⟨f1, f2, f3⟩ := fresh_step_spec hg v _ hwf0 _ ∅ true _ P hh
  have hvT : v ∈ startT graph s (v :: W) :=
    (mem_startT hg s (v :: W) v).2 ⟨hv, hvs, Or.inr (List.mem_cons_self _ _)⟩
  have hTeq : row graph v ∩ σ.start_cands = startT graph s (v :: W) ∩ row graph v := by
    ext x
    rw [Finset.mem_inter, Finset.mem_inter, mem_startT hg]
    constructor
    · rintro ⟨h1, h2⟩
      have hx : (row graph x).Nonempty := ⟨v, hg.mem_symm h1⟩
      exact ⟨⟨hx, (h.cands x hx).1 h2⟩, h1⟩
    · rintro ⟨⟨hx, h2⟩, h1⟩
      exact ⟨h1, (h.cands x hx).2 h2⟩
  have hYeq : (Finset.range MAX_VERTICES \ σ.start_cands) ∩ row graph v =
      startY graph s (v :: W) ∩ row graph v := by
    ext x
    rw [Finset.mem_inter, Finset.mem_inter, mem_startY hg, Finset.mem_sdiff, Finset.mem_range]
    constructor
    · rintro ⟨⟨_, h2⟩, h1⟩
      have hx : (row graph x).Nonempty := ⟨v, hg.mem_symm h1⟩
      exact ⟨⟨hx, fun h3 => h2 ((h.cands x hx).2 h3)⟩, h1⟩
    · rintro ⟨⟨hx, h2⟩, h1⟩
      refine ⟨⟨?_, fun h3 => h2 ((h.cands x hx).1 h3)⟩, h1⟩
      exact lt_trans (hg.lt_of_mem h1).2 hg.small
  have hmsg : ∀ C, MsgSet graph v
      { Message.empty with
        candidates := row graph v ∩ σ.start_cands,
        not_ids := (Finset.range MAX_VERTICES \ σ.start_cands) ∩ row graph v } C ↔
      ∃ S, LocalMax graph (startT graph s (v :: W)) (startY graph s (v :: W)) S ∧ v ∈ S ∧
        C = S := by
    intro C
    have := @bkset_child graph hg (startT graph s (v :: W)) (startY graph s (v :: W)) ∅ v
      (startT_subset hg s (v :: W)) hvT C
    rw [← hTeq, ← hYeq] at this
    simp only [Finset.empty_union] at this
    rw [← this]
    unfold MsgSet
    simp only [Message.empty]
  refine ⟨f1, P.globals.start_id.trans h.start_id,
    P.globals.start_neighbours.trans h.start_nb, ?_, ?_, ?_, ?_⟩
  · intro x hx
    rw [P.globals.start_cands]
    show x ∈ σ.start_cands.erase v ↔ _
    rw [Finset.mem_erase, h.cands x hx, List.mem_cons]
    constructor
    · rintro ⟨h0, h2, h3 | h3 | h3⟩
      · exact ⟨h2, Or.inl h3⟩
      · exact absurd h3 h0
      · exact ⟨h2, Or.inr h3⟩
    · rintro ⟨h2, h3⟩
      refine ⟨?_, h2, h3.imp id Or.inr⟩
      rintro rfl
      rcases h3 with h3 | h3
      · exact hvns h3
      · exact hvW h3
  · intro w hw b
    have hwv : w ≠ v := fun h2 => hvW (h2 ▸ hw)
    rw [P.edge_other w b hwv]
    exact h.free w (List.mem_cons_of_mem _ hw) b
  · intro C
    rw [← h.sem C, f2 C, hmsg C]
    have hsem0 : Sem graph { σ with start_cands := σ.start_cands.erase v } C ↔ Sem graph σ C :=
      Iff.rfl
    rw [hsem0]
    unfold StartSem
    rw [startT_cons hg s v W hvW hvns, startY_cons hg s v W hvW hvns hv]
    have hstep := fun S => @localMax_step graph (startT graph s (v :: W))
      (startY graph s (v :: W)) S v hvT
    constructor
    · rintro ((h1 | ⟨S, hS, hvS, hC⟩) | ⟨h1, h2⟩ | ⟨S, hS, ⟨d, hd1, hd2, hd3⟩, hC⟩)
      · exact Or.inl h1
      · exact Or.inr (Or.inr ⟨S, hS, ⟨v, hvS, List.mem_cons_self _ _, hvs⟩, hC⟩)
      · exact Or.inr (Or.inl ⟨List.mem_cons_of_mem _ h1, h2⟩)
      · exact Or.inr (Or.inr ⟨S, ((hstep S).1 hS).1,
          ⟨d, hd1, List.mem_cons_of_mem _ hd2, hd3⟩, hC⟩)
    · rintro (h1 | ⟨h1, h2⟩ | ⟨S, hS, ⟨d, hd1, hd2, hd3⟩, hC⟩)
      · exact Or.inl (Or.inl h1)
      · refine Or.inr (Or.inl ⟨?_, h2⟩)
        rcases List.mem_cons.1 h1 with h3 | h3
        · exact absurd h3.symm hvs
        · exact h3
      · by_cases hvS : v ∈ S
        · exact Or.inl (Or.inr ⟨S, hS, hvS, hC⟩)
        · refine Or.inr (Or.inr ⟨S, (hstep S).2 ⟨hS, hvS⟩, ⟨d, hd1, ?_, hd3⟩, hC⟩)
          rcases List.mem_cons.1 hd2 with h3 | h3
          · exact absurd (h3 ▸ hd1) hvS
          · exact h3
  · intro a m hp
    rcases f3 a m hp with h1 | h1
    · exact Or.inl h1
    · rcases h.pending a m h1 with h2 | h2
      · exact Or.inl (P.tasks_mono h2)
      · exact Or.inr h2

theorem update_first (graph : Graph) (σ : World) (v : Nat) (hv : v ∉ σ.start_neighbours) :
    update graph 1 σ v = handle_messages graph (start graph σ v) v := by
  unfold update
  simp only [hv, one_ne_zero, if_false, not_false_eq_true, and_self, if_true]

theorem starting_step {graph : Graph} (hg : GoodGraph graph) (T : IdSet → Prop) (s : Nat)
    (σ : World) (v : Nat) (W : List Nat) (h : Starting graph T s σ (v :: W)) :
    Starting graph T s (update graph 1 σ v) W := by
  obtain ⟨hv, hvns⟩ := h.rows v (List.mem_cons_self _ _)
  have hvW : v ∉ W := (List.nodup_cons.1 h.nodup).1
  rw [update_first graph σ v (by rw [h.start_nb]; exact hvns)]
  have S : Started graph T s v (start graph σ v) W := by
    by_cases hvs : v = s
    · subst hvs
      exact start_first hg T v σ W h
    · exact start_other hg T s v σ W h hvs
  have H := handle_messages_spec hg v hv (start graph σ v) S.wf
  refine ⟨H.wf, H.globals.start_id.trans S.start_id,
    H.globals.start_neighbours.trans S.start_nb, h.s_row, (List.nodup_cons.1 h.nodup).2,
    fun w hw => h.rows w (List.mem_cons_of_mem _ hw), ?_, ?_, ?_, ?_⟩
  · intro x hx
    rw [H.globals.start_cands]
    exact S.cands x hx
  · intro w hw b
    have hwv : w ≠ v := fun h2 => hvW (h2 ▸ hw)
    by_contra hcon
    have hset : ((handle_messages graph (start graph σ v) v).edge_data w b).message.is_set
        = true := by simpa using hcon
    have := H.edges w b hwv hset
    rw [S.free w hw b] at this
    exact absurd this (by simp)
  · intro C
    rw [H.sem C]
    exact S.sem C
  · intro a m hp
    rcases H.pending a m hp with h1 | ⟨hav, m2, h2⟩
    · exact Or.inl h1
    · rcases S.pending a m2 h2 with h3 | h3
      · exact Or.inl (H.tasks_keep a hav h3)
      · rcases List.mem_cons.1 h3 with h4 | h4
        · exact absurd h4 hav
        · exact Or.inr h4

theorem starting_fold {graph : Graph} (hg : GoodGraph graph) (T : IdSet → Prop) (s : Nat)
    (W : List Nat) :
    ∀ σ, Starting graph T s σ W → Starting graph T s (W.foldl (update graph 1) σ) [] := by
  induction W with
  | nil => intro σ h; exact h
  | cons v W ih =>
    intro σ h
    rw [List.foldl_cons]
    exact ih _ (starting_step hg T s σ v W h)

/-- At the end of iteration 1 the invariant of the later iterations holds. -/
theorem starting_settled {graph : Graph} (T : IdSet → Prop) (s : Nat) (σ : World)
    (h : Starting graph T s σ []) : Settled graph T σ [] := by
  refine ⟨h.wf, ?_, h.pending, fun w hw => absurd hw (List.not_mem_nil _)⟩
  intro C
  rw [← h.sem C]
  constructor
  · exact fun h1 => Or.inl h1
  · rintro (h1 | ⟨h1, _⟩ | ⟨S, _, ⟨d, _, hd, _⟩, _⟩)
    · exact h1
    · exact absurd h1 (List.not_mem_nil _)
    · exact absurd hd (List.not_mem_nil _)

theorem neighbours_fold (v : Nat) (N : IdSet) (l : List Nat) :
    ∀ τ : World,
      (l.foldl (fun σ u => σ.set_edge u v { σ.edge_data u v with neighbours := N }) τ).edge_data
        = (fun a b => if b = v ∧ a ∈ l then { τ.edge_data a b with neighbours := N }
            else τ.edge_data a b) ∧
      (l.foldl (fun σ u => σ.set_edge u v { σ.edge_data u v with neighbours := N }) τ).vertex_data
        = τ.vertex_data ∧
      (l.foldl (fun σ u => σ.set_edge u v { σ.edge_data u v with neighbours := N }) τ).results
        = τ.results ∧
      (l.foldl (fun σ u => σ.set_edge u v { σ.edge_data u v with neighbours := N }) τ).tasks
        = τ.tasks ∧
      (l.foldl (fun σ u => σ.set_edge u v { σ.edge_data u v with neighbours := N }) τ).cycle_messages
        = τ.cycle_messages ∧
      SameGlobals τ
        (l.foldl (fun σ u => σ.set_edge u v { σ.edge_data u v with neighbours := N }) τ) := by
  induction l with
  | nil =>
    intro τ
    refine ⟨?_, rfl, rfl, rfl, rfl, SameGlobals.refl _⟩
    funext a b
    simp
  | cons u l ih =>
    intro τ
    rw [List.foldl_cons]
    obtain ⟨h1, h2, h3, h4, h5, h6⟩ := ih
      (τ.set_edge u v { τ.edge_data u v with neighbours := N })
    refine ⟨?_, h2, h3, h4, h5, ⟨h6.singletons, h6.start_id, h6.start_neighbours,
      h6.start_cands⟩⟩
    rw [h1]
    funext a b
    simp only [World.set_edge_edge_data, List.mem_cons]
    by_cases hb : b = v
    · by_cases ha : a ∈ l
      · by_cases hau : a = u
        · simp [hb, ha, hau]
        · simp [hb, ha, hau]
      · by_cases hau : a = u
        · simp [hb, ha, hau]
        · simp [hb, ha, hau]
    · simp [hb]

theorem foldl_insert_toFinset (l : List Nat) :
    ∀ s : IdSet, l.foldl (fun neighbours w => insert w neighbours) s = s ∪ l.toFinset := by
  induction l with
  | nil => intro s; simp
  | cons a l ih =>
    intro s
    rw [List.foldl_cons, ih]
    ext x
    simp only [Finset.mem_union, Finset.mem_insert, List.toFinset_cons]
    tauto

/-- The method `initialize` on a vertex with a neighbour that has not stored its
neighbours. -/
theorem initialise_pos {graph : Graph} (hg : GoodGraph graph) (σ : World) (v : Nat)
    (hrow : (row graph v).Nonempty) (hset : (σ.vertex_data v).neighbours_set = false) :
    (initialise graph σ v).edge_data
        = (fun a b => if b = v ∧ a ∈ in_edges graph v then
            { σ.edge_data a b with neighbours := row graph v } else σ.edge_data a b) ∧
      (initialise graph σ v).vertex_data
        = (fun a => if a = v then
            { σ.vertex_data v with neighbours := row graph v, neighbours_set := true,
                                   cycles := 0 }
            else σ.vertex_data a) ∧
      (initialise graph σ v).results = σ.results ∧
      (initialise graph σ v).tasks = σ.tasks ∧
      (initialise graph σ v).cycle_messages = σ.cycle_messages ∧
      (initialise graph σ v).singletons = σ.singletons ∧
      (initialise graph σ v).start_cands = σ.start_cands ∧
      (((initialise graph σ v).start_id = some v ∧
          (initialise graph σ v).start_neighbours = row graph v) ∨
        ((initialise graph σ v).start_id = σ.start_id ∧
          (initialise graph σ v).start_neighbours = σ.start_neighbours ∧
          σ.start_id ≠ none)) := by
  have hN : get_neighbours graph σ v = row graph v := by
    unfold get_neighbours
    simp only [hset, Bool.false_eq_true, if_false]
    rw [foldl_insert_toFinset, hg.out_edges_toFinset]
    simp
  obtain ⟨h1, h2, h3, h4, h5, h6⟩ := neighbours_fold v (row graph v) (in_edges graph v)
    (σ.set_vertex v { σ.vertex_data v with neighbours := row graph v, neighbours_set := true,
                                           cycles := 0 })
  unfold initialise
  rw [if_pos ((hg.has_edges_iff v).2 hrow)]
  simp only [hN]
  split_ifs with hc
  · refine ⟨?_, ?_, ?_, ?_, ?_, ?_, ?_, Or.inl ⟨rfl, rfl⟩⟩
    · simpa using h1
    · simpa using h2
    · simpa using h3
    · simpa using h4
    · simpa using h5
    · simpa using h6.singletons
    · simpa using h6.start_cands
  · push_neg at hc
    refine ⟨?_, ?_, ?_, ?_, ?_, ?_, ?_, Or.inr ⟨?_, ?_, ?_⟩⟩
    · simpa using h1
    · simpa using h2
    · simpa using h3
    · simpa using h4
    · simpa using h5
    · simpa using h6.singletons
    · simpa using h6.start_cands
    · simpa using h6.start_id
    · simpa using h6.start_neighbours
    · have h7 := hc.1
      rw [h6.start_id] at h7
      simpa using h7

/-- The method `initialize` on a vertex without neighbour. -/
theorem initialise_neg {graph : Graph} (hg : GoodGraph graph) (σ : World) (v : Nat)
    (hrow : row graph v = ∅) :
    initialise graph σ v =
      if σ.singletons then
        { σ with start_cands := σ.start_cands.erase v, results := σ.results ++ [{v}] }
      else { σ with start_cands := σ.start_cands.erase v } := by
  unfold initialise
  rw [if_neg]
  · rfl
  · rw [hg.has_edges_iff v, hrow]
    simp

/-- The update of iteration 0 keeps the invariant. -/
theorem initialising_step {graph : Graph} (hg : GoodGraph graph) (flag : Bool) (σ : World)
    (D : Finset Nat) (v : Nat) (h : Initialising graph flag σ D) (hv : v ∉ D) :
    Initialising graph flag (initialise graph σ v) (insert v D) := by
  by_cases hrow : row graph v = ∅
  · have hcands : ∀ x, x ∈ σ.start_cands.erase v ↔
        x < MAX_VERTICES ∧ ¬ (x ∈ insert v D ∧ row graph x = ∅) := by
      intro x
      rw [Finset.mem_erase, h.cands x, Finset.mem_insert]
      constructor
      · rintro ⟨h1, h2, h3⟩
        refine ⟨h2, ?_⟩
        rintro ⟨h4 | h4, h5⟩
        · exact h1 h4
        · exact h3 ⟨h4, h5⟩
      · rintro ⟨h2, h3⟩
        refine ⟨?_, h2, fun h4 => h3 ⟨Or.inr h4.1, h4.2⟩⟩
        intro h4
        subst h4
        exact h3 ⟨Or.inl rfl, hrow⟩
    have hdone : ∀ a ∈ insert v D, (row graph a).Nonempty →
        (σ.vertex_data a).neighbours = row graph a ∧
          (σ.vertex_data a).neighbours_set = true := by
      intro a ha hne
      rcases Finset.mem_insert.1 ha with ha1 | ha1
      · subst ha1
        rw [hrow] at hne
        exact absurd hne (by simp)
      · exact h.done_nb a ha1 hne
    have htodo : ∀ a, a ∉ insert v D → (σ.vertex_data a).neighbours_set = false := by
      intro a ha
      exact h.todo_nb a (fun h1 => ha (Finset.mem_insert_of_mem h1))
    have hedge : ∀ a ∈ insert v D, ∀ u, a ∈ row graph u →
        (σ.edge_data u a).neighbours = row graph a := by
      intro a ha u hu
      rcases Finset.mem_insert.1 ha with ha1 | ha1
      · subst ha1
        have := hg.mem_symm hu
        rw [hrow] at this
        exact absurd this (Finset.not_mem_empty _)
      · exact h.edge_nb a ha1 u hu
    have hstart : (σ.start_id = none ∧ ∀ a ∈ insert v D, row graph a = ∅) ∨
        ∃ s, σ.start_id = some s ∧ (row graph s).Nonempty ∧
          σ.start_neighbours = row graph s := by
      rcases h.start with ⟨h1, h2⟩ | h1
      · left
        refine ⟨h1, ?_⟩
        intro a ha
        rcases Finset.mem_insert.1 ha with ha1 | ha1
        · subst ha1
          exact hrow
        · exact h2 a ha1
      · exact Or.inr h1
    rw [initialise_neg hg σ v hrow]
    have hflag := h.singletons
    cases hs : σ.singletons
    · rw [hs] at hflag
      simp only [Bool.false_eq_true, if_false]
      refine ⟨hflag, h.tasks, h.cycle, h.msgs, h.cycles, hdone, htodo, hedge,
        hcands, ?_, hstart⟩
      intro C
      show C ∈ σ.results ↔ _
      rw [h.results C, ← hflag]
      simp
    · rw [hs] at hflag
      simp only [if_true]
      refine ⟨hflag, h.tasks, h.cycle, h.msgs, h.cycles, hdone, htodo, hedge,
        hcands, ?_, hstart⟩
      intro C
      show C ∈ σ.results ++ [{v}] ↔ _
      rw [List.mem_append, h.results C, List.mem_singleton]
      constructor
      · rintro (⟨h1, a, ha, h2, h3⟩ | h1)
        · exact ⟨h1, a, Finset.mem_insert_of_mem ha, h2, h3⟩
        · exact ⟨hflag.symm, v, Finset.mem_insert_self _ _, hrow, h1⟩
      · rintro ⟨h1, a, ha, h2, h3⟩
        rcases Finset.mem_insert.1 ha with ha1 | ha1
        · subst ha1
          exact Or.inr h3
        · exact Or.inl ⟨h1, a, ha1, h2, h3⟩
  · have hne : (row graph v).Nonempty := Finset.nonempty_iff_ne_empty.2 hrow
    obtain ⟨e1, e2, e3, e4, e5, e6, e7, e8⟩ :=
      initialise_pos hg σ v hne (h.todo_nb v hv)
    refine ⟨e6.trans h.singletons, e4.trans h.tasks, e5.trans h.cycle, ?_, ?_, ?_, ?_, ?_,
      ?_, ?_, ?_⟩
    · intro a b
      rw [e1]
      dsimp only
      split_ifs
      · exact h.msgs a b
      · exact h.msgs a b
    · intro a
      rw [e2]
      dsimp only
      split_ifs
      · rfl
      · exact h.cycles a
    · intro a ha _
      rw [e2]
      dsimp only
      by_cases hav : a = v
      · rw [if_pos hav, hav]
        exact ⟨rfl, rfl⟩
      · rw [if_neg hav]
        rcases Finset.mem_insert.1 ha with ha1 | ha1
        · exact absurd ha1 hav
        · exact h.done_nb a ha1 (by assumption)
    · intro a ha
      rw [e2]
      dsimp only
      have hav : a ≠ v := fun h1 => ha (h1 ▸ Finset.mem_insert_self _ _)
      rw [if_neg hav]
      exact h.todo_nb a (fun h1 => ha (Finset.mem_insert_of_mem h1))
    · intro a ha u hu
      rw [e1]
      dsimp only
      by_cases hav : a = v
      · subst hav
        have hin : u ∈ in_edges graph a := hg.mem_in_edges.2 (hg.mem_symm hu)
        rw [if_pos ⟨rfl, hin⟩]
      · rw [if_neg (fun h1 => hav h1.1)]
        rcases Finset.mem_insert.1 ha with ha1 | ha1
        · exact absurd ha1 hav
        · exact h.edge_nb a ha1 u hu
    · intro x
      rw [e7, h.cands x, Finset.mem_insert]
      constructor
      · rintro ⟨h2, h3⟩
        refine ⟨h2, ?_⟩
        rintro ⟨h4 | h4, h5⟩
        · subst h4
          exact hrow h5
        · exact h3 ⟨h4, h5⟩
      · rintro ⟨h2, h3⟩
        exact ⟨h2, fun h4 => h3 ⟨Or.inr h4.1, h4.2⟩⟩
    · intro C
      rw [e3, h.results C]
      constructor
      · rintro ⟨h1, a, ha, h2, h3⟩
        exact ⟨h1, a, Finset.mem_insert_of_mem ha, h2, h3⟩
      · rintro ⟨h1, a, ha, h2, h3⟩
        rcases Finset.mem_insert.1 ha with ha1 | ha1
        · subst ha1
          exact absurd h2 hrow
        · exact ⟨h1, a, ha1, h2, h3⟩
    · right
      rcases e8 with ⟨h1, h2⟩ | ⟨h1, h2, h3⟩
      · exact ⟨v, h1, hne, h2⟩
      · rcases h.start with ⟨h4, _⟩ | ⟨s, h4, h5, h6⟩
        · exact absurd h4 h3
        · exact ⟨s, h1.trans h4, h5, h2.trans h6⟩

/-- Iteration 0 keeps the invariant. -/
theorem initialising_fold {graph : Graph} (hg : GoodGraph graph) (flag : Bool)
    (l : List Nat) :
    ∀ (σ : World) (D : Finset Nat), l.Nodup → (∀ x ∈ l, x ∉ D) →
      Initialising graph flag σ D →
      Initialising graph flag (l.foldl (update graph 0) σ) (D ∪ l.toFinset) := by
  induction l with
  | nil =>
    intro σ D _ _ h
    simpa using h
  | cons v l ih =>
    intro σ D hnd hdis h
    rw [List.foldl_cons]
    have h1 : update graph 0 σ v = initialise graph σ v := by
      unfold update
      rw [if_pos rfl]
    rw [h1]
    have h2 := initialising_step hg flag σ D v h (hdis v (List.mem_cons_self _ _))
    have h3 := ih _ (insert v D) (List.nodup_cons.1 hnd).2 (by
      intro x hx hxD
      rcases Finset.mem_insert.1 hxD with h4 | h4
      · subst h4
        exact (List.nodup_cons.1 hnd).1 hx
      · exact hdis x (List.mem_cons_of_mem _ hx) h4) h2
    have h5 : D ∪ (v :: l).toFinset = insert v D ∪ l.toFinset := by
      ext x
      simp only [Finset.mem_union, Finset.mem_insert, List.toFinset_cons]
      tauto
    rw [h5]
    exact h3

/-- The invariant holds when iteration 0 starts. -/
theorem initialising_init (graph : Graph) (flag : Bool) :
    Initialising graph flag
      { World.init flag with start_cands := Finset.range MAX_VERTICES } ∅ := by
  refine ⟨rfl, rfl, rfl, fun _ _ => rfl, fun _ => rfl, ?_, fun _ _ => rfl, ?_, ?_, ?_,
    Or.inl ⟨rfl, ?_⟩⟩
  · intro v hv
    exact absurd hv (Finset.not_mem_empty _)
  · intro v hv
    exact absurd hv (Finset.not_mem_empty _)
  · intro x
    show x ∈ Finset.range MAX_VERTICES ↔ _
    simp
  · intro C
    show C ∈ ([] : List IdSet) ↔ _
    simp
  · intro v hv
    exact absurd hv (Finset.not_mem_empty _)

theorem tasks_fold (l : List Nat) :
    ∀ τ : World,
      l.foldl (fun σ i => if i ∉ σ.start_neighbours ∧ i ∈ σ.start_cands then σ.add_task i
        else σ) τ =
        { τ with tasks := (l.foldl (fun σ i =>
            if i ∉ σ.start_neighbours ∧ i ∈ σ.start_cands then σ.add_task i else σ) τ).tasks } ∧
      ∀ x, x ∈ (l.foldl (fun σ i =>
            if i ∉ σ.start_neighbours ∧ i ∈ σ.start_cands then σ.add_task i else σ) τ).tasks ↔
          x ∈ τ.tasks ∨ (x ∈ l ∧ x ∉ τ.start_neighbours ∧ x ∈ τ.start_cands) := by
  induction l with
  | nil =>
    intro τ
    refine ⟨rfl, ?_⟩
    intro x
    simp
  | cons i l ih =>
    intro τ
    rw [List.foldl_cons]
    by_cases hc : i ∉ τ.start_neighbours ∧ i ∈ τ.start_cands
    · rw [if_pos hc]
      obtain ⟨h1, h2⟩ := ih (τ.add_task i)
      refine ⟨?_, ?_⟩
      · rw [h1]
        rfl
      · intro x
        rw [h2 x]
        simp only [World.add_task_tasks, World.add_task_start_neighbours,
          World.add_task_start_cands, Finset.mem_insert, List.mem_cons]
        constructor
        · rintro ((h3 | h3) | ⟨h3, h4⟩)
          · subst h3
            exact Or.inr ⟨Or.inl rfl, hc⟩
          · exact Or.inl h3
          · exact Or.inr ⟨Or.inr h3, h4⟩
        · rintro (h3 | ⟨h3 | h3, h4⟩)
          · exact Or.inl (Or.inr h3)
          · exact Or.inl (Or.inl h3)
          · exact Or.inr ⟨h3, h4⟩
    · rw [if_neg hc]
      obtain ⟨h1, h2⟩ := ih τ
      refine ⟨h1, ?_⟩
      intro x
      rw [h2 x]
      simp only [List.mem_cons]
      constructor
      · rintro (h3 | ⟨h3, h4⟩)
        · exact Or.inl h3
        · exact Or.inr ⟨Or.inr h3, h4⟩
      · rintro (h3 | ⟨h3 | h3, h4⟩)
        · exact Or.inl h3
        · subst h3
          exact absurd h4 hc
        · exact Or.inr ⟨h3, h4⟩

/-- The method `after_iteration` at the end of iteration 0, with a start vertex. -/
theorem after_iteration_first (graph : Graph) (σ : World) (s : Nat)
    (hs : σ.start_id = some s) :
    after_iteration graph 0 σ =
        { σ with start_cands := σ.start_cands.erase s,
                 tasks := (after_iteration graph 0 σ).tasks } ∧
      ∀ x, x ∈ (after_iteration graph 0 σ).tasks ↔
        x = s ∨ x ∈ σ.tasks ∨
          (x < graph.length ∧ x ∉ σ.start_neighbours ∧ x ∈ σ.start_cands.erase s) := by
  have h0 : after_iteration graph 0 σ =
      (List.range graph.length).foldl
        (fun σ i => if i ∉ σ.start_neighbours ∧ i ∈ σ.start_cands then σ.add_task i else σ)
        { σ.add_task s with start_cands := (σ.add_task s).start_cands.erase s } := by
    unfold after_iteration
    rw [hs]
    simp
  obtain ⟨h1, h2⟩ := tasks_fold (List.range graph.length)
    { σ.add_task s with start_cands := (σ.add_task s).start_cands.erase s }
  rw [← h0] at h1 h2
  refine ⟨?_, ?_⟩
  · rw [h1]
    rfl
  · intro x
    rw [h2 x]
    simp only [World.add_task_tasks, World.add_task_start_neighbours,
      World.add_task_start_cands, Finset.mem_insert, List.mem_range]
    tauto

/-- The method `after_iteration` without start vertex. -/
theorem after_iteration_none (graph : Graph) (k : Nat) (σ : World)
    (hs : σ.start_id = none) : after_iteration graph k σ = σ := by
  unfold after_iteration
  rw [hs]

/-- The invariant of iteration 1 holds when iteration 0 has ended with a start vertex. -/
theorem starting_init {graph : Graph} (hg : GoodGraph graph) (flag : Bool) (σ : World)
    (s : Nat) (order : List Nat)
    (h : Initialising graph flag σ (Finset.range graph.length))
    (hs : σ.start_id = some s) (hnd : order.Nodup)
    (ho : order.toFinset = (after_iteration graph 0 σ).tasks) :
    Starting graph (Target graph flag) s
      { after_iteration graph 0 σ with tasks := ∅ } order := by
  obtain ⟨e1, e2⟩ := after_iteration_first graph σ s hs
  have hvd : (after_iteration graph 0 σ).vertex_data = σ.vertex_data := by
    have e3 := congrArg World.vertex_data e1
    exact e3
  have hed : (after_iteration graph 0 σ).edge_data = σ.edge_data := by
    have e3 := congrArg World.edge_data e1
    exact e3
  have hcm : (after_iteration graph 0 σ).cycle_messages = [] := by
    have e3 := congrArg World.cycle_messages e1
    exact e3.trans h.cycle
  have hres : (after_iteration graph 0 σ).results = σ.results := by
    have e3 := congrArg World.results e1
    exact e3
  have hsi : (after_iteration graph 0 σ).start_id = some s := by
    have e3 := congrArg World.start_id e1
    exact e3.trans hs
  have hsc : (after_iteration graph 0 σ).start_cands = σ.start_cands.erase s := by
    have e3 := congrArg World.start_cands e1
    exact e3
  have hsn0 : (after_iteration graph 0 σ).start_neighbours = σ.start_neighbours := by
    have e3 := congrArg World.start_neighbours e1
    exact e3
  obtain ⟨hsrow, hsn⟩ : (row graph s).Nonempty ∧ σ.start_neighbours = row graph s := by
    rcases h.start with ⟨h1, _⟩ | ⟨s1, h1, h2, h3⟩
    · rw [hs] at h1
      exact absurd h1 (by simp)
    · rw [hs] at h1
      cases h1
      exact ⟨h2, h3⟩
  have hlt : ∀ x, (row graph x).Nonempty → x < graph.length := by
    rintro x ⟨w, hw⟩
    exact (hg.lt_of_mem hw).1
  have hmem : ∀ x, x ∈ order ↔
      x = s ∨ (x < graph.length ∧ x ∉ row graph s ∧ x ∈ σ.start_cands.erase s) := by
    intro x
    rw [← List.mem_toFinset, ho, e2 x, h.tasks, hsn]
    simp
  have hcand : ∀ x, (row graph x).Nonempty → x ∈ σ.start_cands := by
    intro x hx
    rw [h.cands x]
    refine ⟨lt_trans (hlt x hx) hg.small, ?_⟩
    rintro ⟨_, h2⟩
    rw [h2] at hx
    exact absurd hx (by simp)
  have hcover : ∀ x, (row graph x).Nonempty → x ≠ s → x ∈ row graph s ∨ x ∈ order := by
    intro x hx hxs
    by_cases hxr : x ∈ row graph s
    · exact Or.inl hxr
    · right
      rw [hmem x]
      exact Or.inr ⟨hlt x hx, hxr, Finset.mem_erase.2 ⟨hxs, hcand x hx⟩⟩
  have hnopend : ∀ a m, ¬ Pending { after_iteration graph 0 σ with tasks := ∅ } a m := by
    rintro a m (⟨u, h1, _⟩ | h1)
    · have h2 : ((after_iteration graph 0 σ).edge_data u a).message.is_set = true := h1
      rw [hed, h.msgs u a] at h2
      exact absurd h2 (by simp)
    · have h2 : (a, m) ∈ (after_iteration graph 0 σ).cycle_messages := h1
      rw [hcm] at h2
      exact absurd h2 (List.not_mem_nil _)
  have hsV : s ∈ nonIsolated graph := (mem_nonIsolated hg s).2 hsrow
  have hVsub : nonIsolated graph ⊆ Finset.range graph.length := by
    intro x hx
    exact Finset.mem_range.2 (hlt x ((mem_nonIsolated hg x).1 hx))
  have hT : startT graph s order = (nonIsolated graph).erase s := by
    ext x
    rw [mem_startT hg, Finset.mem_erase, mem_nonIsolated hg]
    constructor
    · rintro ⟨h1, h2, _⟩
      exact ⟨h2, h1⟩
    · rintro ⟨h1, h2⟩
      exact ⟨h2, h1, hcover x h2 h1⟩
  have hY : startY graph s order = insert s ∅ := by
    unfold startY
    rw [hT]
    ext x
    simp only [Finset.mem_sdiff, Finset.mem_erase, Finset.mem_insert, Finset.not_mem_empty,
      or_false, not_and, not_not]
    constructor
    · rintro ⟨h1, h2⟩
      by_contra h3
      exact h3 (h2 h3 |> fun h4 => absurd h1 h4)
    · intro h1
      subst h1
      exact ⟨hsV, fun h2 => absurd rfl h2⟩
  have hrowV : nonIsolated graph ∩ row graph s = row graph s := by
    apply Finset.inter_eq_right.2
    intro x hx
    exact (mem_nonIsolated hg x).2 ⟨s, hg.mem_symm hx⟩
  have hfirst : ∀ C, BKset graph {s} (row graph s) ∅ C ↔
      ∃ S, LocalMax graph (nonIsolated graph) ∅ S ∧ s ∈ S ∧ C = ∅ ∪ S := by
    intro C
    have := @bkset_child graph hg (nonIsolated graph) ∅ ∅ s hVsub hsV C
    rw [hrowV, Finset.empty_inter] at this
    simpa using this
  refine ⟨⟨?_, ?_, ?_, ?_, ?_, ?_⟩, hsi, hsn0.trans hsn, hsrow, hnd, ?_, ?_, ?_, ?_, ?_⟩
  · intro v hv
    show ((after_iteration graph 0 σ).vertex_data v).neighbours = _ ∧
      ((after_iteration graph 0 σ).vertex_data v).neighbours_set = true
    rw [hvd]
    exact h.done_nb v (Finset.mem_range.2 (hlt v hv)) hv
  · intro v
    show ((after_iteration graph 0 σ).vertex_data v).cycles =
      ((((after_iteration graph 0 σ).cycle_messages).filter (fun e => e.1 = v)).length : Int)
    rw [hvd, hcm, h.cycles v]
    simp
  · intro u v hv
    show ((after_iteration graph 0 σ).edge_data u v).neighbours = _
    rw [hed]
    exact h.edge_nb v (Finset.mem_range.2 (hg.lt_of_mem hv).2) u hv
  · intro u v hv
    have h2 : ((after_iteration graph 0 σ).edge_data u v).message.is_set = true := hv
    rw [hed, h.msgs u v] at h2
    exact absurd h2 (by simp)
  · intro v m hv
    have h2 : (v, m) ∈ (after_iteration graph 0 σ).cycle_messages := hv
    rw [hcm] at h2
    exact absurd h2 (List.not_mem_nil _)
  · intro v hv
    exact absurd hv (Finset.not_mem_empty _)
  · intro w hw
    rcases (hmem w).1 hw with h1 | ⟨h1, h2, h3⟩
    · subst h1
      exact ⟨hsrow, hg.irr w (hlt w hsrow)⟩
    · refine ⟨?_, h2⟩
      have h4 := ((h.cands w).1 (Finset.mem_erase.1 h3).2).2
      apply Finset.nonempty_iff_ne_empty.2
      intro h5
      exact h4 ⟨Finset.mem_range.2 h1, h5⟩
  · intro x hx
    show x ∈ (after_iteration graph 0 σ).start_cands ↔ _
    rw [hsc, Finset.mem_erase]
    constructor
    · rintro ⟨h1, _⟩
      exact ⟨h1, hcover x hx h1⟩
    · rintro ⟨h1, _⟩
      exact ⟨h1, hcand x hx⟩
  · intro w _ b
    show ((after_iteration graph 0 σ).edge_data w b).message.is_set = false
    rw [hed]
    exact h.msgs w b
  · intro C
    have hsem : Sem graph { after_iteration graph 0 σ with tasks := ∅ } C ↔
        flag = true ∧ ∃ v, v < graph.length ∧ row graph v = ∅ ∧ C = {v} := by
      unfold Sem
      constructor
      · rintro (h1 | ⟨a, m, h1, _⟩)
        · have h2 : C ∈ (after_iteration graph 0 σ).results := h1
          rw [hres, h.results C] at h2
          obtain ⟨h3, v, h4, h5⟩ := h2
          exact ⟨h3, v, Finset.mem_range.1 h4, h5⟩
        · exact absurd h1 (hnopend a m)
      · rintro ⟨h3, v, h4, h5⟩
        left
        show C ∈ (after_iteration graph 0 σ).results
        rw [hres, h.results C]
        exact ⟨h3, v, Finset.mem_range.2 h4, h5⟩
    have hstart : StartSem graph s order C ↔
        LocalMax graph (nonIsolated graph) ∅ C ∧ C.Nonempty := by
      unfold StartSem
      rw [hT, hY]
      constructor
      · rintro (⟨_, h1⟩ | ⟨S, h1, ⟨d, hd, _⟩, h2⟩)
        · obtain ⟨S, h2, h3, h4⟩ := (hfirst C).1 h1
          rw [Finset.empty_union] at h4
          subst h4
          exact ⟨h2, ⟨s, h3⟩⟩
        · subst h2
          exact ⟨((localMax_step hsV).1 h1).1, ⟨d, hd⟩⟩
      · rintro ⟨h1, _⟩
        by_cases hsC : s ∈ C
        · left
          refine ⟨(hmem s).2 (Or.inl rfl), (hfirst C).2 ⟨C, h1, hsC, ?_⟩⟩
          rw [Finset.empty_union]
        · right
          refine ⟨C, (localMax_step hsV).2 ⟨h1, hsC⟩, ?_, rfl⟩
          obtain ⟨d, hd, hdr⟩ := localMax_pivot hg hsV hVsub h1
          have hds : d ≠ s := fun h2 => hsC (h2 ▸ hd)
          refine ⟨d, hd, ?_, hds⟩
          rcases hcover d ((mem_nonIsolated hg d).1 (h1.1 hd)) hds with h2 | h2
          · exact absurd h2 hdr
          · exact h2
    unfold Target
    rw [hsem, hstart]
  · intro a m hp
    exact absurd hp (hnopend a m)

end MaximalClique

/-- The sets to be saved are the maximal cliques of the graph, with two members at least
when singletons are not admitted. -/
theorem target_iff {graph : Graph} (hg : GoodGraph graph) (hpos : 0 < graph.length)
    (flag : Bool) (C : IdSet) :
    Target graph flag C ↔
      ((∀ v ∈ C, v < graph.length) ∧ PairwiseAdjacent graph C ∧ NotExtensible graph C) ∧
        (flag = true ∨ 2 ≤ C.card) := by
  constructor
  · rintro (⟨hf, v, hv, hrow, rfl⟩ | ⟨hloc, hne⟩)
    · refine ⟨⟨?_, ?_, ?_⟩, Or.inl hf⟩
      · intro x hx
        rw [Finset.mem_singleton.1 hx]
        exact hv
      · intro a ha b hb hab
        rw [Finset.mem_singleton.1 ha, Finset.mem_singleton.1 hb] at hab
        exact absurd rfl hab
      · intro w _ _ hall
        have := hall v (Finset.mem_singleton_self v)
        rw [hrow] at this
        exact absurd this (Finset.not_mem_empty _)
    · have hsub : ∀ x ∈ C, (row graph x).Nonempty :=
        fun x hx => (mem_nonIsolated hg x).1 (hloc.1 hx)
      refine ⟨⟨?_, hloc.2.1, ?_⟩, Or.inr ?_⟩
      · intro x hx
        obtain ⟨w, hw⟩ := hsub x hx
        exact (hg.lt_of_mem hw).1
      · intro w _ hwC hall
        obtain ⟨u0, hu0⟩ := hne
        have hwV : w ∈ nonIsolated graph :=
          (mem_nonIsolated hg w).2 ⟨u0, hg.mem_symm (hall u0 hu0)⟩
        exact hloc.2.2 w (Finset.mem_union_left _ hwV) hwC hall
      · by_contra hcard
        have h1 : C.card = 1 := by
          have := Finset.card_pos.2 hne
          omega
        obtain ⟨v, hv⟩ := Finset.card_eq_one.1 h1
        subst hv
        obtain ⟨w, hw⟩ := hsub v (Finset.mem_singleton_self v)
        have hwv : w ≠ v := fun h2 => hg.ne_of_mem hw h2.symm
        have hwV : w ∈ nonIsolated graph :=
          (mem_nonIsolated hg w).2 ⟨v, hg.mem_symm hw⟩
        refine hloc.2.2 w (Finset.mem_union_left _ hwV) ?_ ?_
        · rw [Finset.mem_singleton]
          exact hwv
        · intro u hu
          rw [Finset.mem_singleton.1 hu]
          exact hw
  · rintro ⟨⟨hlt, hadj, hext⟩, hsize⟩
    have hne : C.Nonempty := by
      by_contra hcon
      rw [Finset.not_nonempty_iff_eq_empty] at hcon
      subst hcon
      exact hext 0 hpos (Finset.not_mem_empty _)
        (fun u hu => absurd hu (Finset.not_mem_empty _))
    by_cases hiso : ∃ v ∈ C, row graph v = ∅
    · obtain ⟨v, hvC, hrow⟩ := hiso
      have hC : C = {v} := by
        rw [Finset.eq_singleton_iff_unique_mem]
        refine ⟨hvC, ?_⟩
        intro u hu
        by_contra huv
        have := hadj v hvC u hu (fun h1 => huv h1.symm)
        rw [hrow] at this
        exact absurd this (Finset.not_mem_empty _)
      left
      refine ⟨?_, v, hlt v hvC, hrow, hC⟩
      rcases hsize with h1 | h1
      · exact h1
      · rw [hC] at h1
        simp at h1
    · right
      push_neg at hiso
      refine ⟨⟨?_, hadj, ?_⟩, hne⟩
      · intro x hx
        exact (mem_nonIsolated hg x).2 (Finset.nonempty_iff_ne_empty.2 (hiso x hx))
      · intro w hw hwC hall
        rw [Finset.union_empty] at hw
        obtain ⟨u, hu⟩ := (mem_nonIsolated hg w).1 hw
        exact hext w (hg.lt_of_mem hu).1 hwC hall

namespace MaximalClique

/-- Without start vertex and without scheduled vertex the iterations do nothing. -/
theorem idle_iterations (graph : Graph) (schedule : List (List Nat)) :
    ∀ (k : Nat) (σ : World), σ.tasks = ∅ → σ.start_id = none →
      ValidSchedule graph k schedule σ → engine_iterations graph k schedule σ = σ := by
  induction schedule with
  | nil => intro k σ _ _ _; rfl
  | cons order schedule ih =>
    intro k σ ht hs hv
    obtain ⟨_, ho, hrest⟩ := hv
    rw [ht] at ho
    have hord : order = [] := (List.toFinset_eq_empty_iff order).1 ho
    subst hord
    have hσ : ({ σ with tasks := ∅ } : World) = σ := by
      cases σ
      simp only [World.mk.injEq, true_and]
      simp only at ht
      exact ht.symm
    rw [engine_iterations]
    simp only [List.foldl_nil] at hrest ⊢
    rw [hσ, after_iteration_none graph k σ hs] at hrest ⊢
    exact ih (k + 1) σ ht hs hrest

/-- Iteration 0 of the engine returns, with every vertex initialised. -/
theorem engine_first_spec {graph : Graph} (hg : GoodGraph graph) (flag : Bool)
    (order : List Nat) (horder : order.Perm (List.range graph.length)) :
    ∃ σ, Initialising graph flag σ (Finset.range graph.length) ∧
      engine_first graph flag order = some (after_iteration graph 0 σ) := by
  refine ⟨order.foldl (update graph 0)
    { World.init flag with start_cands := Finset.range MAX_VERTICES }, ?_, ?_⟩
  · have h1 := initialising_fold hg flag order _ ∅
      (horder.nodup_iff.2 (List.nodup_range _))
      (fun x _ => Finset.not_mem_empty x) (initialising_init graph flag)
    have h2 : ∅ ∪ order.toFinset = Finset.range graph.length := by
      rw [Finset.empty_union, List.toFinset_eq_of_perm _ _ horder]
      ext x
      simp
    rw [h2] at h1
    exact h1
  · unfold engine_first
    rw [if_pos hg.small]

/-- The sets saved by a run on a graph with a vertex, when no vertex remains scheduled. -/
theorem engine_results {graph : Graph} (hg : GoodGraph graph) (flag : Bool)
    (order : List Nat) (schedule : List (List Nat)) (σ0 : World)
    (horder : order.Perm (List.range graph.length))
    (hfirst : engine_first graph flag order = some σ0)
    (hvalid : ValidSchedule graph 1 schedule σ0)
    (hidle : (engine_iterations graph 1 schedule σ0).tasks = ∅) :
    ∀ C, C ∈ (engine_iterations graph 1 schedule σ0).results ↔ Target graph flag C := by
  obtain ⟨σ, hinit, hσ⟩ := engine_first_spec hg flag order horder
  rw [hσ] at hfirst
  cases hfirst
  cases hstart : σ.start_id with
  | none =>
    have h0 : after_iteration graph 0 σ = σ := after_iteration_none graph 0 σ hstart
    rw [h0] at hvalid hidle ⊢
    rw [idle_iterations graph schedule 1 σ hinit.tasks hstart hvalid]
    intro C
    rw [hinit.results C]
    have hall : ∀ v, v < graph.length → row graph v = ∅ := by
      rcases hinit.start with ⟨_, h1⟩ | ⟨s, h1, _⟩
      · exact fun v hv => h1 v (Finset.mem_range.2 hv)
      · rw [hstart] at h1
        exact absurd h1 (by simp)
    unfold Target
    constructor
    · rintro ⟨h1, v, h2, h3⟩
      exact Or.inl ⟨h1, v, Finset.mem_range.1 h2, h3⟩
    · rintro (⟨h1, v, h2, h3⟩ | ⟨h1, x, hx⟩)
      · exact ⟨h1, v, Finset.mem_range.2 h2, h3⟩
      · have h2 := (mem_nonIsolated hg x).1 (h1.1 hx)
        obtain ⟨w, hw⟩ := h2
        rw [hall x (hg.lt_of_mem hw).1] at hw
        exact absurd hw (Finset.not_mem_empty _)
  | some s =>
    cases schedule with
    | nil =>
      have h1 : s ∈ (after_iteration graph 0 σ).tasks :=
        ((after_iteration_first graph σ s hstart).2 s).2 (Or.inl rfl)
      have h2 : (after_iteration graph 0 σ).tasks = ∅ := hidle
      rw [h2] at h1
      exact absurd h1 (Finset.not_mem_empty _)
    | cons order1 rest =>
      obtain ⟨hnd, ho, hrest⟩ := hvalid
      rw [engine_iterations] at hidle ⊢
      rw [after_iteration_later graph 1 _ (by omega)] at hrest hidle ⊢
      have h1 := starting_init hg flag σ s order1 hinit hstart hnd ho
      have h2 := starting_settled (Target graph flag) s _
        (starting_fold hg (Target graph flag) s order1 _ h1)
      have h3 := settled_iterations hg (Target graph flag) rest 2 _ (le_refl 2) h2 hrest
      exact settled_final (Target graph flag) _ h3 hidle

end MaximalClique

/-- C6 as stated fails on the graph without vertex when singletons are admitted: the
recursive `clique_enumerate` emits the empty set, and the run of the distributed
enumerator, which updates no vertex, ends with no vertex scheduled and nothing
saved. -/
theorem distributed_agrees_counterexample :
    ∃ σ0 out, engine_first [] true [] = some σ0 ∧ ValidSchedule [] 1 [] σ0 ∧
      (engine_iterations [] 1 [] σ0).tasks = ∅ ∧
      clique_enumerate [] = some out ∧
      ¬ ∀ C, C ∈ (engine_iterations [] 1 [] σ0).results ↔
        C ∈ out ∧ (true = true ∨ 2 ≤ C.card) := by
  refine ⟨_, _, rfl, trivial, rfl, rfl, ?_⟩
  intro h
  have h1 := (h ∅).2 ⟨by decide, Or.inl rfl⟩
  exact absurd h1 (List.not_mem_nil _)

/-- C6 (amended): scheduling invariance.  For every symmetric, irreflexive graph with at
least one and fewer than 512 vertices (the assertion of `before_iteration`,
here the success of `engine_first`), whose rows hold vertices of the graph
only, every order of the updates of iteration 0 and every order of the
scheduled updates of the later iterations: when no vertex remains scheduled,
the sets saved by `MaximalClique` are the sets emitted by the recursive
`clique_enumerate`, restricted to the sets with two members at least when
singletons are not admitted. -/
theorem distributed_agrees (graph : Graph) (singletons : Bool) (order : List Nat)
    (schedule : List (List Nat)) (σ0 : World)
    (hsym : SymmetricGraph graph) (hirr : IrreflexiveGraph graph)
    (hrows : ∀ u, u < graph.length → ∀ v ∈ row graph u, v < graph.length)
    (hpos : 0 < graph.length)
    (horder : order.Perm (List.range graph.length))
    (hfirst : engine_first graph singletons order = some σ0)
    (hvalid : ValidSchedule graph 1 schedule σ0)
    (hidle : (engine_iterations graph 1 schedule σ0).tasks = ∅) :
    ∃ out, clique_enumerate graph = some out ∧
      ∀ C, C ∈ (engine_iterations graph 1 schedule σ0).results ↔
        C ∈ out ∧ (singletons = true ∨ 2 ≤ C.card) := by
  have hsmall : graph.length < MAX_VERTICES := by
    by_contra hcon
    unfold engine_first at hfirst
    rw [if_neg hcon] at hfirst
    cases hfirst
  have hg : GoodGraph graph := ⟨hsym, hirr, hrows, hsmall⟩
  obtain ⟨out, hout, _, hmem⟩ := clique_enumerate_spec hsym hirr (le_of_lt hsmall)
  refine ⟨out, hout, ?_⟩
  intro C
  rw [MaximalClique.engine_results hg singletons order schedule σ0 horder hfirst hvalid hidle C,
    target_iff hg hpos singletons C, hmem C]

set_option maxRecDepth 100000 in
theorem distributed_agrees_witness :
    ∃ σ0, engine_first [{1, 2}, {0, 2}, {0, 1, 3}, {2}, ∅] true [4, 2, 0, 3, 1] = some σ0 ∧
      ∃ out, clique_enumerate [{1, 2}, {0, 2}, {0, 1, 3}, {2}, ∅] = some out ∧
        ∀ C, C ∈ (engine_iterations [{1, 2}, {0, 2}, {0, 1, 3}, {2}, ∅] 1
              [[2], [3, 1], [0]] σ0).results ↔
          C ∈ out ∧ (true = true ∨ 2 ≤ C.card) :=
  ⟨_, rfl, distributed_agrees [{1, 2}, {0, 2}, {0, 1, 3}, {2}, ∅] true [4, 2, 0, 3, 1]
    [[2], [3, 1], [0]] _ (by decide) (by decide) (by decide) (by decide) (by decide) rfl
    (by decide) (by decide)⟩

/-! ## The combining graph builder: layout and `meet` -/

theorem mem_shift_left (s : IdSet) (k y : Nat) :
    y ∈ shift_left s k ↔ y < MAX_VERTICES ∧ k ≤ y ∧ y - k ∈ s := by
  unfold shift_left
  rw [Finset.mem_filter, Finset.mem_image]
  constructor
  · rintro ⟨⟨p, hp, rfl⟩, h2⟩
    refine ⟨h2, Nat.le_add_left _ _, ?_⟩
    rw [Nat.add_sub_cancel]
    exact hp
  · rintro ⟨h1, h2, h3⟩
    exact ⟨⟨y - k, h3, Nat.sub_add_cancel h2⟩, h1⟩

theorem row_resize (g : Graph) (n x : Nat) :
    row (resize g n) x = if x < n then row g x else ∅ := by
  unfold row resize
  rw [List.getD_eq_getElem?_getD, List.getD_eq_getElem?_getD, List.getElem?_append]
  by_cases hx : x < n
  · rw [if_pos hx]
    by_cases hg : x < g.length
    · rw [if_pos (by rw [List.length_take]; omega), List.getElem?_take_of_lt hx]
    · rw [if_neg (by rw [List.length_take]; omega), List.getElem?_replicate]
      have h1 : g[x]? = none := List.getElem?_eq_none (by omega)
      rw [h1]
      split_ifs <;> rfl
  · rw [if_neg hx]
    by_cases hg : x < (List.take n g).length
    · rw [List.length_take] at hg
      omega
    · rw [if_neg hg, List.getElem?_replicate]
      rw [List.length_take] at hg ⊢
      rw [if_neg (by omega)]
      rfl

theorem length_resize (g : Graph) (n : Nat) : (resize g n).length = n := by
  unfold resize
  rw [List.length_append, List.length_take, List.length_replicate]
  omega

/-- The loop `add shifted second graph` over the indices of `l`: the rows `num_objects_a + i`
become the shifted rows of `graph_b`. -/
theorem add_shifted_fold (graph_b : Graph) (na : Nat) (l : List Nat)
    (hl : ∀ i ∈ l, i < graph_b.length) :
    ∀ results : Graph, (∀ i ∈ l, na + i < results.length) →
      ∃ res, l.foldlM
          (fun results i => (graph_b.get? i).map
            (fun r => results.set (na + i) (shift_left r na))) results = some res ∧
        res.length = results.length ∧
        ∀ x, row res x =
          if ∃ i ∈ l, x = na + i then shift_left (row graph_b (x - na)) na
          else row results x := by
  induction l with
  | nil =>
    intro results _
    exact ⟨results, rfl, rfl, fun x => by simp⟩
  | cons a l ih =>
    intro results hres
    have ha : a < graph_b.length := hl a (List.mem_cons_self _ _)
    have hget : graph_b.get? a = some (row graph_b a) := by
      unfold row
      rw [List.get?_eq_getElem?, List.getD_eq_getElem?_getD, List.getElem?_eq_getElem ha]
      rfl
    obtain ⟨res, h1, h2, h3⟩ := ih (fun i hi => hl i (List.mem_cons_of_mem _ hi))
      (results.set (na + a) (shift_left (row graph_b a) na))
      (fun i hi => by
        rw [List.length_set]
        exact hres i (List.mem_cons_of_mem _ hi))
    refine ⟨res, ?_, by rw [h2, List.length_set], ?_⟩
    · rw [List.foldlM_cons, hget]
      exact h1
    · intro x
      rw [h3 x]
      by_cases hx : ∃ i ∈ l, x = na + i
      · obtain ⟨i, hi, hxi⟩ := hx
        rw [if_pos ⟨i, hi, hxi⟩, if_pos ⟨i, List.mem_cons_of_mem _ hi, hxi⟩]
      · rw [if_neg hx, row_set _ _ _ _ (hres a (List.mem_cons_self _ _))]
        by_cases hxa : x = na + a
        · rw [if_pos hxa, if_pos ⟨a, List.mem_cons_self _ _, hxa⟩, hxa, Nat.add_sub_cancel_left]
        · rw [if_neg hxa, if_neg]
          rintro ⟨i, hi, hxi⟩
          rcases List.mem_cons.1 hi with h4 | h4
          · exact hxa (h4 ▸ hxi)
          · exact hx ⟨i, h4, hxi⟩

theorem add_shifted_spec (graph_b : Graph) (na nb : Nat) (results : Graph)
    (hb : nb ≤ graph_b.length) (hres : results.length = na + nb) :
    ∃ res, add_shifted graph_b na nb results = some res ∧ res.length = na + nb ∧
      ∀ x, row res x =
        if na ≤ x ∧ x < na + nb then shift_left (row graph_b (x - na)) na
        else row results x := by
  obtain ⟨res, h1, h2, h3⟩ := add_shifted_fold graph_b na (List.range nb)
    (fun i hi => lt_of_lt_of_le (List.mem_range.1 hi) hb) results
    (fun i hi => by
      have := List.mem_range.1 hi
      omega)
  refine ⟨res, h1, by rw [h2, hres], ?_⟩
  intro x
  rw [h3 x]
  have hiff : (∃ i ∈ List.range nb, x = na + i) ↔ (na ≤ x ∧ x < na + nb) := by
    constructor
    · rintro ⟨i, hi, rfl⟩
      have := List.mem_range.1 hi
      omega
    · rintro ⟨h4, h5⟩
      exact ⟨x - na, List.mem_range.2 (by omega), by omega⟩
  by_cases hx : na ≤ x ∧ x < na + nb
  · rw [if_pos hx, if_pos (hiff.2 hx)]
  · rw [if_neg hx, if_neg (fun h => hx (hiff.1 h))]

/-- The inner loop `compare between the two graphs` on the state `(results, meet)`. -/
theorem meet_inner_spec (near : Nat → Nat → Prop) [DecidableRel near] (i : Nat)
    (lj : List Nat) :
    ∀ (st : Graph × Bool), st.1.length ≤ MAX_VERTICES → i < st.1.length →
      (∀ j ∈ lj, j < st.1.length) →
      ∃ res2 m2, lj.foldlM (fun st j =>
            if near i j then (link st.1 i j).map (fun results => (results, true))
            else some st) st = some (res2, m2) ∧
        res2.length = st.1.length ∧
        (∀ x y, y ∈ row res2 x ↔
          y ∈ row st.1 x ∨ ∃ j ∈ lj, near i j ∧ ((x = i ∧ y = j) ∨ (x = j ∧ y = i))) ∧
        (m2 = true ↔ st.2 = true ∨ ∃ j ∈ lj, near i j) := by
  induction lj with
  | nil =>
    intro st _ _ _
    exact ⟨st.1, st.2, rfl, rfl, fun x y => by simp, by simp⟩
  | cons a lj ih =>
    intro st hn hi hlj
    have ha : a < st.1.length := hlj a (List.mem_cons_self _ _)
    by_cases hnear : near i a
    · obtain ⟨r1, h1, hl1, hm1⟩ := link_spec hi ha hn
      obtain ⟨res2, m2, h2, hl2, hm2, hb2⟩ := ih (r1, true) (by rw [hl1]; exact hn)
        (by rw [hl1]; exact hi)
        (fun j hj => by rw [hl1]; exact hlj j (List.mem_cons_of_mem _ hj))
      refine ⟨res2, m2, ?_, by rw [hl2, hl1], ?_, ?_⟩
      · rw [List.foldlM_cons, if_pos hnear, h1]
        exact h2
      · intro x y
        rw [hm2, hm1]
        constructor
        · rintro ((h | h) | ⟨j, hj, h3, h4⟩)
          · exact Or.inl h
          · exact Or.inr ⟨a, List.mem_cons_self _ _, hnear, h⟩
          · exact Or.inr ⟨j, List.mem_cons_of_mem _ hj, h3, h4⟩
        · rintro (h | ⟨j, hj, h3, h4⟩)
          · exact Or.inl (Or.inl h)
          · rcases List.mem_cons.1 hj with h5 | h5
            · subst h5
              exact Or.inl (Or.inr h4)
            · exact Or.inr ⟨j, h5, h3, h4⟩
      · rw [hb2]
        constructor
        · intro _
          exact Or.inr ⟨a, List.mem_cons_self _ _, hnear⟩
        · intro _
          exact Or.inl rfl
    · obtain ⟨res2, m2, h2, hl2, hm2, hb2⟩ := ih st hn hi
        (fun j hj => hlj j (List.mem_cons_of_mem _ hj))
      refine ⟨res2, m2, ?_, hl2, ?_, ?_⟩
      · rw [List.foldlM_cons, if_neg hnear]
        exact h2
      · intro x y
        rw [hm2]
        constructor
        · rintro (h | ⟨j, hj, h3, h4⟩)
          · exact Or.inl h
          · exact Or.inr ⟨j, List.mem_cons_of_mem _ hj, h3, h4⟩
        · rintro (h | ⟨j, hj, h3, h4⟩)
          · exact Or.inl h
          · rcases List.mem_cons.1 hj with h5 | h5
            · subst h5
              exact absurd h3 hnear
            · exact Or.inr ⟨j, h5, h3, h4⟩
      · rw [hb2]
        constructor
        · rintro (h | ⟨j, hj, h3⟩)
          · exact Or.inl h
          · exact Or.inr ⟨j, List.mem_cons_of_mem _ hj, h3⟩
        · rintro (h | ⟨j, hj, h3⟩)
          · exact Or.inl h
          · rcases List.mem_cons.1 hj with h5 | h5
            · subst h5
              exact absurd h3 hnear
            · exact Or.inr ⟨j, h5, h3⟩

/-- The two nested loops `compare between the two graphs` on the state `(results, meet)`. -/
theorem meet_outer_spec (near : Nat → Nat → Prop) [DecidableRel near] (lj : List Nat)
    (li : List Nat) :
    ∀ (st : Graph × Bool), st.1.length ≤ MAX_VERTICES → (∀ i ∈ li, i < st.1.length) →
      (∀ j ∈ lj, j < st.1.length) →
      ∃ res2 m2, li.foldlM (fun st i => lj.foldlM (fun st j =>
            if near i j then (link st.1 i j).map (fun results => (results, true))
            else some st) st) st = some (res2, m2) ∧
        res2.length = st.1.length ∧
        (∀ x y, y ∈ row res2 x ↔
          y ∈ row st.1 x ∨
            ∃ i ∈ li, ∃ j ∈ lj, near i j ∧ ((x = i ∧ y = j) ∨ (x = j ∧ y = i))) ∧
        (m2 = true ↔ st.2 = true ∨ ∃ i ∈ li, ∃ j ∈ lj, near i j) := by
  induction li with
  | nil =>
    intro st _ _ _
    exact ⟨st.1, st.2, rfl, rfl, fun x y => by simp, by simp⟩
  | cons a li ih =>
    intro st hn hli hlj
    obtain ⟨r1, m1, h1, hl1, hm1, hb1⟩ := meet_inner_spec near a lj st hn
      (hli a (List.mem_cons_self _ _)) hlj
    obtain ⟨res2, m2, h2, hl2, hm2, hb2⟩ := ih (r1, m1) (by rw [hl1]; exact hn)
      (fun i hi => by rw [hl1]; exact hli i (List.mem_cons_of_mem _ hi))
      (fun j hj => by rw [hl1]; exact hlj j hj)
    refine ⟨res2, m2, ?_, by rw [hl2, hl1], ?_, ?_⟩
    · rw [List.foldlM_cons, h1]
      exact h2
    · intro x y
      rw [hm2, hm1]
      constructor
      · rintro ((h | ⟨j, hj, h3, h4⟩) | ⟨i, hi, j, hj, h3, h4⟩)
        · exact Or.inl h
        · exact Or.inr ⟨a, List.mem_cons_self _ _, j, hj, h3, h4⟩
        · exact Or.inr ⟨i, List.mem_cons_of_mem _ hi, j, hj, h3, h4⟩
      · rintro (h | ⟨i, hi, j, hj, h3, h4⟩)
        · exact Or.inl (Or.inl h)
        · rcases List.mem_cons.1 hi with h5 | h5
          · subst h5
            exact Or.inl (Or.inr ⟨j, hj, h3, h4⟩)
          · exact Or.inr ⟨i, h5, j, hj, h3, h4⟩
    · rw [hb2, hb1]
      constructor
      · rintro ((h | ⟨j, hj, h3⟩) | ⟨i, hi, j, hj, h3⟩)
        · exact Or.inl h
        · exact Or.inr ⟨a, List.mem_cons_self _ _, j, hj, h3⟩
        · exact Or.inr ⟨i, List.mem_cons_of_mem _ hi, j, hj, h3⟩
      · rintro (h | ⟨i, hi, j, hj, h3⟩)
        · exact Or.inl (Or.inl h)
        · rcases List.mem_cons.1 hi with h5 | h5
          · subst h5
            exact Or.inl (Or.inr ⟨j, hj, h3⟩)
          · exact Or.inr ⟨i, h5, j, hj, h3⟩

/-- The combining builder on `na` and `nb` objects of `f > 0` features, `na + nb` within the
width: it returns `na + nb` rows; row `x < na` holds row `x` of `graph_a`, row
`na ≤ x` holds the shifted row `x - na` of `graph_b`, and both ends of every
pair `i < na ≤ j` at squared distance below `epsilon²` are linked; `meet` tells
whether there is such a pair. -/
theorem features_to_graph_combine_spec (features_a features_b : List ℚ)
    (graph_a graph_b : Graph) (epsilon : ℚ) (na nb f : Nat)
    (hla : features_a.length = na * f) (hlb : features_b.length = nb * f) (hf : 0 < f)
    (hn : na + nb ≤ MAX_VERTICES) (hgb : nb ≤ graph_b.length) :
    ∃ res meet,
      features_to_graph_combine features_a features_b graph_a graph_b epsilon f
        = some (res, meet) ∧
      res.length = na + nb ∧
      (∀ x y, y ∈ row res x ↔
        (x < na ∧ y ∈ row graph_a x) ∨
        (na ≤ x ∧ x < na + nb ∧ y ∈ shift_left (row graph_b (x - na)) na) ∨
        ∃ i j, i < na ∧ na ≤ j ∧ j < na + nb ∧
          distance features_a features_b (i * f) ((j - na) * f) f < epsilon * epsilon ∧
          ((x = i ∧ y = j) ∨ (x = j ∧ y = i))) ∧
      (meet = true ↔ ∃ i j, i < na ∧ na ≤ j ∧ j < na + nb ∧
          distance features_a features_b (i * f) ((j - na) * f) f < epsilon * epsilon) := by
  have hdiva : features_a.length / f = na := by
    rw [hla]; exact Nat.mul_div_cancel na hf
  have hdivb : features_b.length / f = nb := by
    rw [hlb]; exact Nat.mul_div_cancel nb hf
  have hmoda : features_a.length % f = 0 := by
    rw [hla]; exact Nat.mul_mod_left na f
  have hmodb : features_b.length % f = 0 := by
    rw [hlb]; exact Nat.mul_mod_left nb f
  obtain ⟨r0, h0, hl0, hm0⟩ := add_shifted_spec graph_b na nb (resize graph_a (na + nb)) hgb
    (length_resize _ _)
  obtain ⟨res, meet, h1, hl1, hm1, hb1⟩ := meet_outer_spec
    (fun i j => distance features_a features_b (i * f) ((j - na) * f) f < epsilon * epsilon)
    (List.range' na (na + nb - na)) (List.range na) (r0, false)
    (by rw [hl0]; exact hn)
    (fun i hi => by
      have := List.mem_range.1 hi
      show i < r0.length
      omega)
    (fun j hj => by
      have := List.mem_range'_1.1 hj
      show j < r0.length
      omega)
  refine ⟨res, meet, ?_, by rw [hl1]; exact hl0, ?_, ?_⟩
  · unfold features_to_graph_combine
    rw [if_neg (by omega), if_neg (by simp [hmodb]), if_neg (by simp [hmoda])]
    simp only [hdiva, hdivb]
    rw [if_neg (by simp [hn])]
    simp only [h0, Option.bind_eq_bind, Option.some_bind]
    exact h1
  · intro x y
    rw [hm1]
    show (y ∈ row r0 x ∨ _) ↔ _
    rw [hm0 x, row_resize]
    constructor
    · rintro (h | ⟨i, hi, j, hj, h3, h4⟩)
      · by_cases hx : na ≤ x ∧ x < na + nb
        · rw [if_pos hx] at h
          exact Or.inr (Or.inl ⟨hx.1, hx.2, h⟩)
        · rw [if_neg hx] at h
          by_cases hx2 : x < na + nb
          · rw [if_pos hx2] at h
            exact Or.inl ⟨by omega, h⟩
          · rw [if_neg hx2] at h
            exact absurd h (Finset.not_mem_empty _)
      · have h5 := List.mem_range.1 hi
        have h6 := List.mem_range'_1.1 hj
        exact Or.inr (Or.inr ⟨i, j, h5, h6.1, by omega, h3, h4⟩)
    · rintro (⟨h1, h2⟩ | ⟨h1, h2, h3⟩ | ⟨i, j, h5, h6, h7, h3, h4⟩)
      · left
        rw [if_neg (by omega), if_pos (by omega)]
        exact h2
      · left
        rw [if_pos ⟨h1, h2⟩]
        exact h3
      · right
        exact ⟨i, List.mem_range.2 h5, j, List.mem_range'_1.2 ⟨h6, by omega⟩, h3, h4⟩
  · rw [hb1]
    constructor
    · rintro (h | ⟨i, hi, j, hj, h3⟩)
      · exact absurd h (by simp)
      · have h5 := List.mem_range.1 hi
        have h6 := List.mem_range'_1.1 hj
        exact ⟨i, j, h5, h6.1, by omega, h3⟩
    · rintro ⟨i, j, h5, h6, h7, h3⟩
      exact Or.inr ⟨i, List.mem_range.2 h5, j, List.mem_range'_1.2 ⟨h6, by omega⟩, h3⟩

/-! ## The combining graph builder: the claims -/

/-- C11: layout of the combined graph.  For feature lists of `na` and `nb` objects of
`f > 0` features with `na + nb ≤ 512` and a `graph_b` of `nb` rows, the combining
`features_to_graph` returns a graph of exactly `na + nb` rows in which, for
`i, j < na`, `j` is in row `i` exactly when `j` is in `graph_a[i]`, and, for
`i, j < nb`, `na + j` is in row `na + i` exactly when `j` is in `graph_b[i]`. -/
theorem features_to_graph_combine_layout (features_a features_b : List ℚ)
    (graph_a graph_b : Graph) (epsilon : ℚ) (na nb f : Nat)
    (hla : features_a.length = na * f) (hlb : features_b.length = nb * f) (hf : 0 < f)
    (hn : na + nb ≤ MAX_VERTICES) (hgb : graph_b.length = nb) :
    ∃ res meet,
      features_to_graph_combine features_a features_b graph_a graph_b epsilon f
        = some (res, meet) ∧
      res.length = na + nb ∧
      (∀ i j, i < na → j < na → (j ∈ row res i ↔ j ∈ row graph_a i)) ∧
      (∀ i j, i < nb → j < nb → (na + j ∈ row res (na + i) ↔ j ∈ row graph_b i)) := by
  obtain ⟨res, meet, h, hl, hm, _⟩ := features_to_graph_combine_spec features_a features_b
    graph_a graph_b epsilon na nb f hla hlb hf hn (le_of_eq hgb.symm)
  refine ⟨res, meet, h, hl, ?_, ?_⟩
  · intro i j hi hj
    rw [hm]
    constructor
    · rintro (⟨_, h1⟩ | ⟨h1, _⟩ | ⟨a, b, ha, hb, _, _, (⟨rfl, rfl⟩ | ⟨rfl, rfl⟩)⟩)
      · exact h1
      · omega
      · omega
      · omega
    · intro h1
      exact Or.inl ⟨hi, h1⟩
  · intro i j hi hj
    rw [hm]
    constructor
    · rintro (⟨h1, _⟩ | ⟨_, _, h1⟩ | ⟨a, b, ha, hb, _, _, (⟨h1, h2⟩ | ⟨h1, h2⟩)⟩)
      · omega
      · have h2 := ((mem_shift_left _ _ _).1 h1).2.2
        rw [Nat.add_sub_cancel_left, Nat.add_sub_cancel_left] at h2
        exact h2
      · omega
      · omega
    · intro h1
      refine Or.inr (Or.inl ⟨Nat.le_add_right _ _, by omega, ?_⟩)
      rw [mem_shift_left, Nat.add_sub_cancel_left, Nat.add_sub_cancel_left]
      exact ⟨by omega, Nat.le_add_right _ _, h1⟩

set_option maxRecDepth 100000 in
theorem features_to_graph_combine_layout_witness :
    ∃ res meet,
      features_to_graph_combine [0, 1] [1, 5, 6] [{1}, {0}] [∅, {2}, {1}] 2 1
        = some (res, meet) ∧
      res.length = 2 + 3 ∧
      (∀ i j, i < 2 → j < 2 → (j ∈ row res i ↔ j ∈ row [{1}, {0}] i)) ∧
      (∀ i j, i < 3 → j < 3 → (2 + j ∈ row res (2 + i) ↔ j ∈ row [∅, {2}, {1}] i)) :=
  features_to_graph_combine_layout [0, 1] [1, 5, 6] [{1}, {0}] [∅, {2}, {1}] 2 2 3 1
    (by decide) (by decide) (by decide) (by decide) (by decide)

/-- C12: the flag `meet`.  For feature lists of `na` and `nb` objects of `f > 0` features
with `na + nb ≤ 512`, a `graph_a` whose first `na` rows hold ids below `na` and a
`graph_b` of `nb` rows, the combining `features_to_graph` returns `meet = true`
exactly when there are `i < na` and `j < nb` such that the squared distance of
object `i` of A and object `j` of B is strictly below `epsilon²`, and exactly
when the returned graph has an edge from an id below `na` to an id from `na`
on. -/
theorem features_to_graph_combine_meet (features_a features_b : List ℚ)
    (graph_a graph_b : Graph) (epsilon : ℚ) (na nb f : Nat)
    (hla : features_a.length = na * f) (hlb : features_b.length = nb * f) (hf : 0 < f)
    (hn : na + nb ≤ MAX_VERTICES) (hgb : graph_b.length = nb)
    (hra : ∀ x, x < na → ∀ y ∈ row graph_a x, y < na) :
    ∃ res meet,
      features_to_graph_combine features_a features_b graph_a graph_b epsilon f
        = some (res, meet) ∧
      (meet = true ↔ ∃ i j, i < na ∧ j < nb ∧
        distance features_a features_b (i * f) (j * f) f < epsilon * epsilon) ∧
      (meet = true ↔ ∃ i j, i < na ∧ na ≤ j ∧ j ∈ row res i) := by
  obtain ⟨res, meet, h, _, hm, hb⟩ := features_to_graph_combine_spec features_a features_b
    graph_a graph_b epsilon na nb f hla hlb hf hn (le_of_eq hgb.symm)
  refine ⟨res, meet, h, ?_, ?_⟩
  · rw [hb]
    constructor
    · rintro ⟨i, j, hi, hj, hjn, hnear⟩
      exact ⟨i, j - na, hi, by omega, hnear⟩
    · rintro ⟨i, j, hi, hj, hnear⟩
      refine ⟨i, na + j, hi, Nat.le_add_right _ _, by omega, ?_⟩
      rw [Nat.add_sub_cancel_left]
      exact hnear
  · rw [hb]
    constructor
    · rintro ⟨i, j, hi, hj, hjn, hnear⟩
      exact ⟨i, j, hi, hj, (hm i j).2 (Or.inr (Or.inr ⟨i, j, hi, hj, hjn, hnear,
        Or.inl ⟨rfl, rfl⟩⟩))⟩
    · rintro ⟨i, j, hi, hj, hmem⟩
      rcases (hm i j).1 hmem with ⟨_, h1⟩ | ⟨h1, _⟩ |
        ⟨a, b, ha, hb1, hb2, hnear, (⟨rfl, rfl⟩ | ⟨rfl, rfl⟩)⟩
      · have := hra i hi j h1
        omega
      · omega
      · exact ⟨i, j, ha, hb1, hb2, hnear⟩
      · omega

set_option maxRecDepth 100000 in
theorem features_to_graph_combine_meet_witness :
    ∃ res meet,
      features_to_graph_combine [0, 1] [1, 5, 6] [{1}, {0}] [∅, {2}, {1}] 2 1
        = some (res, meet) ∧
      (meet = true ↔ ∃ i j, i < 2 ∧ j < 3 ∧
        distance [0, 1] [1, 5, 6] (i * 1) (j * 1) 1 < (2 : ℚ) * 2) ∧
      (meet = true ↔ ∃ i j, i < 2 ∧ 2 ≤ j ∧ j ∈ row res i) :=
  features_to_graph_combine_meet [0, 1] [1, 5, 6] [{1}, {0}] [∅, {2}, {1}] 2 2 3 1
    (by decide) (by decide) (by decide) (by decide) (by decide) (by decide)

/-- C14: soundness of the disjoint shortcut.  For feature lists of `na` and `nb` objects of
`f > 0` features with `na + nb ≤ 512`, a `graph_a` whose first `na` rows hold ids
below `na` and a `graph_b` of `nb` rows: when the combining `features_to_graph`
returns `meet = false`, no maximal clique of the returned graph holds both a
vertex below `na` and a vertex from `na` on. -/
theorem features_to_graph_combine_disjoint (features_a features_b : List ℚ)
    (graph_a graph_b : Graph) (epsilon : ℚ) (na nb f : Nat)
    (hla : features_a.length = na * f) (hlb : features_b.length = nb * f) (hf : 0 < f)
    (hn : na + nb ≤ MAX_VERTICES) (hgb : graph_b.length = nb)
    (hra : ∀ x, x < na → ∀ y ∈ row graph_a x, y < na) :
    ∃ res meet,
      features_to_graph_combine features_a features_b graph_a graph_b epsilon f
        = some (res, meet) ∧
      (meet = false → ∀ C, IsMaximalClique res C →
        ¬ ((∃ u ∈ C, u < na) ∧ (∃ v ∈ C, na ≤ v))) := by
  obtain ⟨res, meet, h, _, hm, hb⟩ := features_to_graph_combine_spec features_a features_b
    graph_a graph_b epsilon na nb f hla hlb hf hn (le_of_eq hgb.symm)
  refine ⟨res, meet, h, ?_⟩
  rintro hmeet C hC ⟨⟨u, huC, hu⟩, ⟨v, hvC, hv⟩⟩
  have huv : u ≠ v := by omega
  have hmem := hC.2.2.1 u huC v hvC huv
  rcases (hm u v).1 hmem with ⟨_, h1⟩ | ⟨h1, _⟩ | ⟨a, b, ha, hb1, hb2, hnear, _⟩
  · have := hra u hu v h1
    omega
  · omega
  · have h2 := hb.2 ⟨a, b, ha, hb1, hb2, hnear⟩
    rw [hmeet] at h2
    exact absurd h2 (by simp)

set_option maxRecDepth 100000 in
theorem features_to_graph_combine_disjoint_witness :
    ∃ res meet,
      features_to_graph_combine [0, 1] [100, 101] [{1}, {0}] [{1}, {0}] 2 1
        = some (res, meet) ∧
      (meet = false → ∀ C, IsMaximalClique res C →
        ¬ ((∃ u ∈ C, u < 2) ∧ (∃ v ∈ C, 2 ≤ v))) :=
  features_to_graph_combine_disjoint [0, 1] [100, 101] [{1}, {0}] [{1}, {0}] 2 2 2 1
    (by decide) (by decide) (by decide) (by decide) (by decide) (by decide)

theorem IsNeighbourhoodGraph.symmetric {g : Graph} {n : Nat} (h : IsNeighbourhoodGraph g n) :
    SymmetricGraph g := by
  intro u _ v _
  exact ⟨fun h1 => (h.2 u v h1).2.2.2, fun h1 => (h.2 v u h1).2.2.2⟩

theorem IsNeighbourhoodGraph.irreflexive {g : Graph} {n : Nat}
    (h : IsNeighbourhoodGraph g n) : IrreflexiveGraph g := by
  intro u _ h1
  exact (h.2 u u h1).2.2.1 rfl

/-- The builder of `src/convert_features.hpp` returns a neighbourhood graph. -/
theorem features_to_graph_neighbourhood (features : List ℚ) (epsilon : ℚ) (f : Nat)
    (g : Graph) (h : features_to_graph features [] epsilon f = some g)
    (hn : features.length / f ≤ MAX_VERTICES) :
    0 < f ∧ features.length = features.length / f * f ∧
      IsNeighbourhoodGraph g (features.length / f) := by
  have hf : 0 < f := by
    by_contra hcon
    have h0 : f = 0 := by omega
    unfold features_to_graph at h
    rw [if_pos h0] at h
    cases h
  have hmod : features.length % f = 0 := by
    by_contra hcon
    unfold features_to_graph at h
    rw [if_neg (by omega), if_pos hcon] at h
    cases h
  have hlen : features.length = features.length / f * f := by
    have := Nat.div_add_mod features.length f
    rw [hmod, Nat.add_zero, Nat.mul_comm] at this
    exact this.symm
  obtain ⟨res, hres, hl, hm⟩ := features_to_graph_spec features epsilon
    (features.length / f) f hlen hf hn
  rw [h] at hres
  cases hres
  refine ⟨hf, hlen, hl, ?_⟩
  intro x y hxy
  obtain ⟨i, j, hij, hj, hnear, hcase⟩ := (hm x y).1 hxy
  rcases hcase with ⟨rfl, rfl⟩ | ⟨rfl, rfl⟩
  · exact ⟨by omega, hj, by omega, (hm y x).2 ⟨x, y, hij, hj, hnear, Or.inr ⟨rfl, rfl⟩⟩⟩
  · exact ⟨hj, by omega, by omega, (hm y x).2 ⟨y, x, hij, hj, hnear, Or.inl ⟨rfl, rfl⟩⟩⟩

/-- The combined graph of two neighbourhood graphs is a neighbourhood graph. -/
theorem combine_neighbourhood {graph_a graph_b res : Graph} {na nb : Nat}
    (near : Nat → Nat → Prop) (hn : na + nb ≤ MAX_VERTICES)
    (ha : IsNeighbourhoodGraph graph_a na) (hb : IsNeighbourhoodGraph graph_b nb)
    (hl : res.length = na + nb)
    (hm : ∀ x y, y ∈ row res x ↔
        (x < na ∧ y ∈ row graph_a x) ∨
        (na ≤ x ∧ x < na + nb ∧ y ∈ shift_left (row graph_b (x - na)) na) ∨
        ∃ i j, i < na ∧ na ≤ j ∧ j < na + nb ∧ near i j ∧
          ((x = i ∧ y = j) ∨ (x = j ∧ y = i))) :
    IsNeighbourhoodGraph res (na + nb) := by
  refine ⟨hl, ?_⟩
  intro x y hxy
  rcases (hm x y).1 hxy with ⟨h1, h2⟩ | ⟨h1, h2, h3⟩ |
    ⟨i, j, hi, hj, hjn, hnear, (⟨rfl, rfl⟩ | ⟨rfl, rfl⟩)⟩
  · obtain ⟨_, h4, h5, h6⟩ := ha.2 x y h2
    exact ⟨by omega, by omega, h5, (hm y x).2 (Or.inl ⟨h4, h6⟩)⟩
  · obtain ⟨h4, h5, h6⟩ := (mem_shift_left _ _ _).1 h3
    obtain ⟨_, h7, h8, h9⟩ := hb.2 _ _ h6
    refine ⟨h2, by omega, by omega, (hm y x).2 (Or.inr (Or.inl ⟨h5, by omega, ?_⟩))⟩
    rw [mem_shift_left]
    exact ⟨by omega, h1, h9⟩
  · exact ⟨by omega, hjn, by omega,
      (hm y x).2 (Or.inr (Or.inr ⟨x, y, hi, hj, hjn, hnear, Or.inr ⟨rfl, rfl⟩⟩))⟩
  · exact ⟨hjn, by omega, by omega,
      (hm y x).2 (Or.inr (Or.inr ⟨y, x, hi, hj, hjn, hnear, Or.inl ⟨rfl, rfl⟩⟩))⟩

/-- Every clique of a neighbourhood graph lies in a maximal clique. -/
theorem exists_maximal_clique {g : Graph} {n : Nat} (hg : IsNeighbourhoodGraph g n)
    (S : IdSet) (hS : ∀ v ∈ S, v < n) (hSc : PairwiseAdjacent g S) :
    ∃ C, S ⊆ C ∧ (∀ v ∈ C, v < g.length) ∧ PairwiseAdjacent g C ∧ NotExtensible g C := by
  have hne : ((Finset.range n).powerset.filter
      (fun T => S ⊆ T ∧ PairwiseAdjacent g T)).Nonempty := by
    refine ⟨S, Finset.mem_filter.2 ⟨Finset.mem_powerset.2 ?_, Finset.Subset.refl _, hSc⟩⟩
    intro v hv
    exact Finset.mem_range.2 (hS v hv)
  obtain ⟨C, hC, hmax⟩ := Finset.exists_max_image _ Finset.card hne
  obtain ⟨hC1, hC2, hC3⟩ := Finset.mem_filter.1 hC
  have hCn : ∀ v ∈ C, v < n := fun v hv => Finset.mem_range.1 (Finset.mem_powerset.1 hC1 hv)
  refine ⟨C, hC2, fun v hv => by rw [hg.1]; exact hCn v hv, hC3, ?_⟩
  intro w hw hwC hall
  rw [hg.1] at hw
  have hins : insert w C ∈ (Finset.range n).powerset.filter
      (fun T => S ⊆ T ∧ PairwiseAdjacent g T) := by
    refine Finset.mem_filter.2 ⟨Finset.mem_powerset.2 ?_,
      hC2.trans (Finset.subset_insert _ _), ?_⟩
    · intro v hv
      rcases Finset.mem_insert.1 hv with h1 | h1
      · rw [h1]
        exact Finset.mem_range.2 hw
      · exact Finset.mem_range.2 (hCn v h1)
    · intro a ha b hb hab
      rcases Finset.mem_insert.1 ha with h1 | h1
      · rcases Finset.mem_insert.1 hb with h2 | h2
        · exact absurd (h1.trans h2.symm) hab
        · rw [h1]
          exact (hg.2 b w (hall b h2)).2.2.2
      · rcases Finset.mem_insert.1 hb with h2 | h2
        · rw [h2]
          exact hall a h1
        · exact hC3 a h1 b h2 hab
  have h1 := hmax _ hins
  rw [Finset.card_insert_of_not_mem hwC] at h1
  omega

/-! ## The reducer `nearness_mce` -/

theorem count_fold (C : IdSet) (l : List Nat) :
    ∀ x0 : Nat, l.foldl (fun x i => if i ∈ C then x + 1 else x) x0
      = x0 + (l.filter (fun i => i ∈ C)).length := by
  induction l with
  | nil => intro x0; simp
  | cons a l ih =>
    intro x0
    rw [List.foldl_cons, ih]
    by_cases ha : a ∈ C
    · simp [ha]
      omega
    · simp [ha]

/-- The two counters of `nearness_mce` add up to the size of a clique of ids below
`num_objects`. -/
theorem count_split (C : IdSet) (n : Nat) (hC : ∀ v ∈ C, v < n) :
    (List.range (n / 2)).foldl (fun x i => if i ∈ C then x + 1 else x) 0 +
      (List.range' (n / 2) (n - n / 2)).foldl (fun y i => if i ∈ C then y + 1 else y) 0
      = C.card := by
  rw [count_fold, count_fold, Nat.zero_add, Nat.zero_add, ← List.length_append,
    ← List.filter_append, List.range_eq_range']
  have h0 := List.range'_append_1 0 (n / 2) (n - n / 2)
  have h1 : n - n / 2 + n / 2 = n := by omega
  rw [Nat.zero_add, h1] at h0
  rw [h0, ← List.range_eq_range']
  have h2 : ((List.range n).filter (fun i => i ∈ C)).toFinset = C := by
    ext v
    simp only [List.mem_toFinset, List.mem_filter, List.mem_range, decide_eq_true_eq]
    exact ⟨fun h => h.2, fun h => ⟨hC v h, h⟩⟩
  rw [← List.toFinset_card_of_nodup ((List.nodup_range n).filter _), h2]

theorem int_wrap_add (a b : Int) : int_wrap (int_wrap a + b) = int_wrap (a + b) := by
  unfold int_wrap
  omega

theorem int_wrap_small (z : Int) (h0 : 0 ≤ z) (h1 : z < 2147483648) : int_wrap z = z := by
  unfold int_wrap
  omega

theorem counted_sizes_nil (s : Bool) : counted_sizes s [] = 0 := rfl

theorem counted_sizes_cons (s : Bool) (C : IdSet) (l : List IdSet) :
    counted_sizes s (C :: l) =
      (if s = true ∨ C.card > 1 then C.card else 0) + counted_sizes s l := by
  unfold counted_sizes
  by_cases h : s = true ∨ C.card > 1
  · rw [List.filter_cons_of_pos (by simpa using h), if_pos h, List.map_cons, List.sum_cons]
  · rw [List.filter_cons_of_neg (by simpa using h), if_neg h, Nat.zero_add]

/-- A clique of the list that is not skipped counts with its size. -/
theorem card_le_counted_sizes (s : Bool) (l : List IdSet) (C : IdSet) (hC : C ∈ l)
    (hkeep : s = true ∨ 1 < C.card) : C.card ≤ counted_sizes s l := by
  induction l with
  | nil => exact absurd hC (List.not_mem_nil _)
  | cons a l ih =>
    rw [counted_sizes_cons]
    rcases List.mem_cons.1 hC with h | h
    · subst h
      rw [if_pos hkeep]
      omega
    · have := ih h
      omega

/-- One call of the reducer on a non-empty clique of ids below `num_objects`: the numerator
grows by at most the size of the clique, by nothing when the clique is skipped
and by a positive amount when the clique is counted with members on both sides
of `num_objects / 2`; the denominator is the wrapped sum of its old value and
the size of the clique, and is unchanged when the clique is skipped. -/
theorem nearness_mce_spec (n : Nat) (s : Bool) (C : IdSet) (acc : ℚ × Int)
    (hC : ∀ v ∈ C, v < n) (hne : C.Nonempty) :
    ∃ acc2, nearness_mce n s C acc = some acc2 ∧ acc.1 ≤ acc2.1 ∧
      acc2.1 - acc.1 ≤ ((if s = true ∨ C.card > 1 then C.card else 0 : Nat) : ℚ) ∧
      acc2.2 = (if s = true ∨ C.card > 1 then int_wrap (acc.2 + (C.card : Int)) else acc.2) ∧
      (((s = true ∨ 1 < C.card) ∧
        0 < (List.range (n / 2)).foldl (fun x i => if i ∈ C then x + 1 else x) 0 ∧
        0 < (List.range' (n / 2) (n - n / 2)).foldl
          (fun y i => if i ∈ C then y + 1 else y) 0) → acc.1 < acc2.1) := by
  have hsplit := count_split C n hC
  have hcard : 0 < C.card := Finset.card_pos.2 hne
  unfold nearness_mce
  by_cases hkeep : s = true ∨ C.card > 1
  · simp only [hkeep, if_true]
    generalize (List.range (n / 2)).foldl (fun x i => if i ∈ C then x + 1 else x) 0 = x
      at hsplit ⊢
    generalize (List.range' (n / 2) (n - n / 2)).foldl
      (fun y i => if i ∈ C then y + 1 else y) 0 = y at hsplit ⊢
    have hmax : max x y ≠ 0 := by
      have : x ≤ max x y := le_max_left _ _
      have : y ≤ max x y := le_max_right _ _
      omega
    rw [if_neg hmax]
    have hmaxq : (0 : ℚ) < ((max x y : Nat) : ℚ) := by
      exact_mod_cast Nat.pos_of_ne_zero hmax
    have hminq : ((min x y : Nat) : ℚ) ≤ ((max x y : Nat) : ℚ) := by
      exact_mod_cast le_trans (min_le_left x y) (le_max_left x y)
    have hr0 : (0 : ℚ) ≤ ((min x y : Nat) : ℚ) / ((max x y : Nat) : ℚ) :=
      div_nonneg (by exact_mod_cast Nat.zero_le _) (le_of_lt hmaxq)
    have hr1 : ((min x y : Nat) : ℚ) / ((max x y : Nat) : ℚ) ≤ 1 :=
      (div_le_one hmaxq).2 hminq
    have hk : (0 : ℚ) ≤ (C.card : ℚ) := by exact_mod_cast Nat.zero_le _
    have hkpos : (0 : ℚ) < (C.card : ℚ) := by exact_mod_cast hcard
    refine ⟨_, rfl, ?_, ?_, rfl, ?_⟩
    · have := mul_nonneg hr0 hk
      show acc.1 ≤ acc.1 + ((min x y : Nat) : ℚ) / ((max x y : Nat) : ℚ) * (C.card : ℚ)
      linarith
    · have h1 : ((min x y : Nat) : ℚ) / ((max x y : Nat) : ℚ) * (C.card : ℚ)
          ≤ 1 * (C.card : ℚ) := mul_le_mul_of_nonneg_right hr1 hk
      show acc.1 + ((min x y : Nat) : ℚ) / ((max x y : Nat) : ℚ) * (C.card : ℚ) - acc.1
        ≤ (C.card : ℚ)
      linarith
    · rintro ⟨_, hx, hy⟩
      have hmin : (0 : ℚ) < ((min x y : Nat) : ℚ) := by
        exact_mod_cast lt_min hx hy
      have := mul_pos (div_pos hmin hmaxq) hkpos
      show acc.1 < acc.1 + ((min x y : Nat) : ℚ) / ((max x y : Nat) : ℚ) * (C.card : ℚ)
      linarith
  · rw [if_neg hkeep, if_neg hkeep, if_neg hkeep]
    refine ⟨acc, rfl, le_refl _, ?_, rfl, ?_⟩
    · simp
    · rintro ⟨h, _⟩
      exact absurd h hkeep

/-- The reducer over the cliques of a list, from a denominator within the range of `int`:
the numerator grows by at most the sum of the sizes of the counted cliques,
and the denominator is the wrapped sum of its old value and these sizes. -/
theorem nearness_mce_fold (n : Nat) (s : Bool) (l : List IdSet) :
    ∀ acc : ℚ × Int, int_wrap acc.2 = acc.2 →
      (∀ C ∈ l, (∀ v ∈ C, v < n) ∧ C.Nonempty) →
      ∃ acc2, l.foldlM (fun acc clique => nearness_mce n s clique acc) acc = some acc2 ∧
        acc.1 ≤ acc2.1 ∧ acc2.1 - acc.1 ≤ (counted_sizes s l : ℚ) ∧
        acc2.2 = int_wrap (acc.2 + (counted_sizes s l : Int)) ∧
        ((∃ C ∈ l, (s = true ∨ 1 < C.card) ∧
          0 < (List.range (n / 2)).foldl (fun x i => if i ∈ C then x + 1 else x) 0 ∧
          0 < (List.range' (n / 2) (n - n / 2)).foldl
            (fun y i => if i ∈ C then y + 1 else y) 0) → acc.1 < acc2.1) := by
  induction l with
  | nil =>
    intro acc hr _
    refine ⟨acc, rfl, le_refl _, by simp [counted_sizes_nil], ?_, ?_⟩
    · rw [counted_sizes_nil]
      simpa using hr.symm
    · rintro ⟨C, hC, _⟩
      exact absurd hC (List.not_mem_nil _)
  | cons a l ih =>
    intro acc hr hl
    obtain ⟨acc1, h1, h2, h3, h4, h5⟩ := nearness_mce_spec n s a acc
      (hl a (List.mem_cons_self _ _)).1 (hl a (List.mem_cons_self _ _)).2
    have hr1 : int_wrap acc1.2 = acc1.2 := by
      rw [h4]
      split_ifs
      · unfold int_wrap
        omega
      · exact hr
    obtain ⟨acc2, g1, g2, g3, g4, g5⟩ := ih acc1 hr1
      (fun C hC => hl C (List.mem_cons_of_mem _ hC))
    refine ⟨acc2, ?_, le_trans h2 g2, ?_, ?_, ?_⟩
    · rw [List.foldlM_cons, h1]
      exact g1
    · rw [counted_sizes_cons]
      push_cast at h3 ⊢
      linarith
    · rw [g4, h4, counted_sizes_cons]
      split_ifs
      · rw [int_wrap_add]
        congr 1
        push_cast
        ring
      · congr 1
        push_cast
        ring
    · rintro ⟨C, hC, hkeep⟩
      rcases List.mem_cons.1 hC with h6 | h6
      · subst h6
        exact lt_of_lt_of_le (h5 hkeep) g2
      · exact lt_of_le_of_lt h2 (g5 ⟨C, h6, hkeep⟩)

/-- The branch `if (meet)` of `nearness_task_mce` on a neighbourhood graph with an edge: the
enumeration returns non-empty cliques of ids below `n`, the reducer accepts
every one of them, the numerator lies between 0 and the sum of the sizes of
the counted cliques, this sum is at least 2, the denominator is the wrapped
sum, and the value is stored. -/
theorem nearness_value_parts {g : Graph} {n : Nat} (hg : IsNeighbourhoodGraph g n)
    (hn : n ≤ MAX_VERTICES) (s : Bool) (u v : Nat) (huv : v ∈ row g u) :
    ∃ out acc, clique_enumerate g = some out ∧
      out.foldlM (fun acc clique => nearness_mce g.length s clique acc) (0, 0) = some acc ∧
      0 ≤ acc.1 ∧ acc.1 ≤ (counted_sizes s out : ℚ) ∧ 2 ≤ counted_sizes s out ∧
      acc.2 = int_wrap (counted_sizes s out : Int) ∧
      nearness_value g s = some (if acc.2 = 0 then none else some (acc.1 / (acc.2 : ℚ))) ∧
      ∀ C ∈ out, (∀ w ∈ C, w < g.length) ∧ C.Nonempty := by
  obtain ⟨out, hout, _, hmem⟩ := clique_enumerate_spec hg.symmetric hg.irreflexive
    (by rw [hg.1]; exact hn)
  obtain ⟨hu, hv, hne, hvu⟩ := hg.2 u v huv
  have hall : ∀ C ∈ out, (∀ w ∈ C, w < g.length) ∧ C.Nonempty := by
    intro C hC
    obtain ⟨h1, _, h3⟩ := (hmem C).1 hC
    refine ⟨h1, ?_⟩
    by_contra hcon
    rw [Finset.not_nonempty_iff_eq_empty] at hcon
    subst hcon
    exact h3 u (by rw [hg.1]; exact hu) (Finset.not_mem_empty _)
      (fun a ha => absurd ha (Finset.not_mem_empty _))
  obtain ⟨C, hSC, hC1, hC2, hC3⟩ := exists_maximal_clique hg {u, v}
    (by
      intro w hw
      rcases Finset.mem_insert.1 hw with h1 | h1
      · rw [h1]; exact hu
      · rw [Finset.mem_singleton.1 h1]; exact hv)
    (by
      intro a ha b hb hab
      rcases Finset.mem_insert.1 ha with h1 | h1
      · rcases Finset.mem_insert.1 hb with h2 | h2
        · exact absurd (h1.trans h2.symm) hab
        · rw [h1, Finset.mem_singleton.1 h2]; exact huv
      · rcases Finset.mem_insert.1 hb with h2 | h2
        · rw [Finset.mem_singleton.1 h1, h2]; exact hvu
        · exact absurd ((Finset.mem_singleton.1 h1).trans (Finset.mem_singleton.1 h2).symm) hab)
  have hCout : C ∈ out := (hmem C).2 ⟨hC1, hC2, hC3⟩
  have hCcard : 1 < C.card := by
    have h1 : ({u, v} : Finset Nat).card ≤ C.card := Finset.card_le_card hSC
    rw [Finset.card_pair hne] at h1
    omega
  obtain ⟨acc2, h1, h2, h3, h4, _⟩ := nearness_mce_fold g.length s out (0, 0) rfl hall
  have hsum := card_le_counted_sizes s out C hCout (Or.inr hCcard)
  refine ⟨out, acc2, hout, h1, h2, ?_, by omega, ?_, ?_, hall⟩
  · simpa using h3
  · rw [h4]
    congr 1
    simp
  · unfold nearness_value
    simp only [hout, h1, Option.bind_eq_bind, Option.some_bind]

/-- The branch `if (meet)` of `nearness_task_mce` on a neighbourhood graph with an edge: a
value is stored, and when the sizes of the counted cliques add up to less than
`2^31` it is a rational between 0 and 1. -/
theorem nearness_value_spec {g : Graph} {n : Nat} (hg : IsNeighbourhoodGraph g n)
    (hn : n ≤ MAX_VERTICES) (s : Bool) (u v : Nat) (huv : v ∈ row g u) :
    ∃ stored, nearness_value g s = some stored ∧
      (graph_counted_sizes g s < 2147483648 →
        ∃ value, stored = some value ∧ 0 ≤ value ∧ value ≤ 1) := by
  obtain ⟨out, acc, hout, _, h0, h1, h2, h3, h4, _⟩ := nearness_value_parts hg hn s u v huv
  refine ⟨_, h4, ?_⟩
  intro hsum
  have hsum2 : counted_sizes s out < 2147483648 := by
    unfold graph_counted_sizes at hsum
    rw [hout] at hsum
    exact hsum
  have hden : acc.2 = (counted_sizes s out : Int) := by
    rw [h3]
    exact int_wrap_small _ (by omega) (by omega)
  have hposq : (0 : ℚ) < (acc.2 : ℚ) := by
    rw [hden]
    exact_mod_cast (by omega : 0 < counted_sizes s out)
  refine ⟨acc.1 / (acc.2 : ℚ), ?_, div_nonneg h0 (le_of_lt hposq), ?_⟩
  · rw [if_neg]
    rw [hden]
    omega
  · rw [div_le_one hposq, hden]
    exact_mod_cast h1

/-! ## The task `nearness_task_mce` -/

theorem partial_graphs_of_get (epsilon : ℚ) (f : Nat) (objects : List (List ℚ)) :
    ∀ (pgs : List Graph), partial_graphs_of objects epsilon f = some pgs →
      pgs.length = objects.length ∧
      ∀ (k : Nat) (o : List ℚ), objects[k]? = some o →
        ∃ g, pgs[k]? = some g ∧ features_to_graph o [] epsilon f = some g := by
  induction objects with
  | nil =>
    intro pgs h
    unfold partial_graphs_of at h
    cases h
    exact ⟨rfl, fun k o hk => by simp at hk⟩
  | cons a objects ih =>
    intro pgs h
    unfold partial_graphs_of at h
    cases hg : features_to_graph a [] epsilon f with
    | none => simp [hg] at h
    | some g =>
      cases hgs : partial_graphs_of objects epsilon f with
      | none => simp [hg, hgs] at h
      | some gs =>
        simp only [hg, hgs, Option.bind_eq_bind, Option.some_bind, Option.some.injEq] at h
        subst h
        obtain ⟨h1, h2⟩ := ih gs hgs
        refine ⟨by simp [h1], ?_⟩
        intro k o hk
        cases k with
        | zero =>
          simp only [List.getElem?_cons_zero, Option.some.injEq] at hk
          subst hk
          exact ⟨g, by simp, hg⟩
        | succ k =>
          simp only [List.getElem?_cons_succ] at hk ⊢
          exact h2 k o hk

/-- The loop of a task that stores the value `val j` in `tmp[j]` for the `j` of a list. -/
theorem set_fold {β : Type} (val : Nat → Option β) (lj : List Nat) :
    ∀ tmp : List β, (∀ j ∈ lj, ∃ v, val j = some v) →
      ∃ tmp2, lj.foldlM (fun tmp j => (val j).map (fun value => tmp.set j value)) tmp
          = some tmp2 ∧
        tmp2.length = tmp.length ∧
        (∀ x, x ∈ lj → x < tmp.length → tmp2[x]? = val x) ∧
        (∀ x, x ∉ lj → tmp2[x]? = tmp[x]?) := by
  induction lj with
  | nil =>
    intro tmp _
    exact ⟨tmp, rfl, rfl, fun x hx => absurd hx (List.not_mem_nil _), fun _ _ => rfl⟩
  | cons a lj ih =>
    intro tmp hval
    obtain ⟨v, hv⟩ := hval a (List.mem_cons_self _ _)
    obtain ⟨tmp2, h1, h2, h3, h4⟩ := ih (tmp.set a v)
      (fun j hj => hval j (List.mem_cons_of_mem _ hj))
    rw [List.length_set] at h2 h3
    refine ⟨tmp2, ?_, h2, ?_, ?_⟩
    · rw [List.foldlM_cons, hv]
      exact h1
    · intro x hx hlt
      by_cases hxl : x ∈ lj
      · exact h3 x hxl hlt
      · rcases List.mem_cons.1 hx with h5 | h5
        · subst h5
          rw [h4 x hxl, List.getElem?_set, if_pos rfl, if_pos hlt, hv]
        · exact absurd h5 hxl
    · intro x hx
      have hxa : a ≠ x := fun h5 => hx (h5 ▸ List.mem_cons_self _ _)
      have hxl : x ∉ lj := fun h5 => hx (List.mem_cons_of_mem _ h5)
      rw [h4 x hxl, List.getElem?_set, if_neg hxa]

/-- The value that `nearness_task_mce` stores for one pair of object sets whose partial
graphs come from `features_to_graph`: it is 0 when `meet = false`, and a
rational between 0 and 1 when the sizes of the counted cliques of the joint
graph add up to less than `2^31`. -/
theorem nearness_pair_mce_spec (objects : List (List ℚ)) (pgs : List Graph) (epsilon : ℚ)
    (f : Nat) (singletons : Bool) (i j : Nat)
    (hpg : partial_graphs_of objects epsilon f = some pgs)
    (hi : i < objects.length) (hj : j < objects.length)
    (hsize : (objects.getD i []).length / f + (objects.getD j []).length / f
      ≤ MAX_VERTICES) :
    ∃ res meet stored,
      features_to_graph_combine (objects.getD i []) (objects.getD j []) (pgs.getD i [])
        (pgs.getD j []) epsilon f = some (res, meet) ∧
      nearness_pair_mce i j objects pgs epsilon f singletons = some stored ∧
      (meet = false → stored = some 0) ∧
      (pair_counted_sizes i j objects pgs epsilon f singletons < 2147483648 →
        ∃ value, stored = some value ∧ 0 ≤ value ∧ value ≤ 1) := by
  obtain ⟨hlen, hget⟩ := partial_graphs_of_get epsilon f objects pgs hpg
  have hoi : objects[i]? = some (objects.getD i []) := by
    rw [List.getD_eq_getElem?_getD, List.getElem?_eq_getElem hi]
    rfl
  have hoj : objects[j]? = some (objects.getD j []) := by
    rw [List.getD_eq_getElem?_getD, List.getElem?_eq_getElem hj]
    rfl
  obtain ⟨gi, hgi, hfi⟩ := hget i _ hoi
  obtain ⟨gj, hgj, hfj⟩ := hget j _ hoj
  have hpi : pgs.getD i [] = gi := by
    rw [List.getD_eq_getElem?_getD, hgi]
    rfl
  have hpj : pgs.getD j [] = gj := by
    rw [List.getD_eq_getElem?_getD, hgj]
    rfl
  unfold pair_counted_sizes
  rw [hpi, hpj]
  generalize objects.getD i [] = oi at *
  generalize objects.getD j [] = oj at *
  obtain ⟨hf, hli, hni⟩ := features_to_graph_neighbourhood oi epsilon f gi hfi
    (le_trans (Nat.le_add_right _ _) hsize)
  obtain ⟨_, hlj, hnj⟩ := features_to_graph_neighbourhood oj epsilon f gj hfj
    (le_trans (Nat.le_add_left _ _) hsize)
  obtain ⟨res, meet, hres, hl, hm, hb⟩ := features_to_graph_combine_spec oi oj gi gj epsilon
    (oi.length / f) (oj.length / f) f hli hlj hf hsize (le_of_eq hnj.1.symm)
  have hnb := combine_neighbourhood
    (fun a b => distance oi oj (a * f) ((b - oi.length / f) * f) f < epsilon * epsilon)
    hsize hni hnj hl hm
  have hpair : nearness_pair_mce i j objects pgs epsilon f singletons =
      if meet then nearness_value res singletons else some (some 0) := by
    unfold nearness_pair_mce
    simp only [List.get?_eq_getElem?, hoi, hoj, hgi, hgj, hres, Option.bind_eq_bind,
      Option.some_bind]
  cases hmeet : meet with
  | false =>
    refine ⟨res, false, some 0, by rw [hres, hmeet], ?_, fun _ => rfl,
      fun _ => ⟨0, rfl, le_refl _, by norm_num⟩⟩
    rw [hpair, hmeet]
    rfl
  | true =>
    obtain ⟨a, b, ha, hb1, hb2, hnear⟩ := hb.1 hmeet
    have hedge : b ∈ row res a :=
      (hm a b).2 (Or.inr (Or.inr ⟨a, b, ha, hb1, hb2, hnear, Or.inl ⟨rfl, rfl⟩⟩))
    obtain ⟨stored, hv, hv1⟩ := nearness_value_spec hnb hsize singletons a b hedge
    refine ⟨res, true, stored, by rw [hres, hmeet], ?_, (fun h => by cases h), ?_⟩
    · rw [hpair, hmeet]
      exact hv
    · rw [hres, hmeet]
      exact hv1

/-- The task `nearness_task_mce` on object sets whose partial graphs come from
`features_to_graph`, every pair within the width: it returns a row, whose entry
`j > i` is the value of the pair `(i, j)`. -/
theorem nearness_task_mce_spec (objects : List (List ℚ)) (pgs : List Graph) (epsilon : ℚ)
    (f : Nat) (singletons : Bool) (i : Nat)
    (hpg : partial_graphs_of objects epsilon f = some pgs)
    (hi : i < objects.length)
    (hsize : ∀ j, i < j → j < objects.length →
      (objects.getD i []).length / f + (objects.getD j []).length / f ≤ MAX_VERTICES) :
    ∃ tmp, nearness_task_mce i objects pgs epsilon f singletons = some tmp ∧
      tmp.length = objects.length ∧
      ∀ j, i < j → j < objects.length →
        tmp[j]? = nearness_pair_mce i j objects pgs epsilon f singletons := by
  obtain ⟨tmp, h1, h2, h3, _⟩ := set_fold
    (fun j => nearness_pair_mce i j objects pgs epsilon f singletons)
    (List.range' (i + 1) (objects.length - (i + 1)))
    ((List.replicate objects.length (some (0 : ℚ))).set i (some 0))
    (fun j hj => by
      have h4 := List.mem_range'_1.1 hj
      obtain ⟨_, _, value, _, h5, _⟩ := nearness_pair_mce_spec objects pgs epsilon f singletons
        i j hpg hi (by omega) (hsize j (by omega) (by omega))
      exact ⟨value, h5⟩)
  rw [List.length_set, List.length_replicate] at h2 h3
  refine ⟨tmp, ?_, h2, ?_⟩
  · unfold nearness_task_mce
    rw [if_pos hi]
    exact h1
  · intro j hij hj
    exact h3 j (List.mem_range'_1.2 ⟨by omega, by omega⟩) hj

/-! ## The MCE nearness: the claims -/

/-- C13: disjoint shortcut.  For object sets whose partial graphs come from
`features_to_graph`, every pair `(i, j)` with `j > i` within the width:
`nearness_task_mce` returns a row, and for every `j > i` for which the
combining `features_to_graph` reports `meet = false` the row holds 0 at `j`. -/
theorem nearness_task_mce_disjoint (objects : List (List ℚ)) (pgs : List Graph)
    (epsilon : ℚ) (f : Nat) (singletons : Bool) (i : Nat)
    (hpg : partial_graphs_of objects epsilon f = some pgs)
    (hi : i < objects.length)
    (hsize : ∀ j, j < objects.length → i < j →
      (objects.getD i []).length / f + (objects.getD j []).length / f ≤ MAX_VERTICES) :
    ∃ tmp, nearness_task_mce i objects pgs epsilon f singletons = some tmp ∧
      ∀ j, i < j → j < objects.length → ∀ res,
        features_to_graph_combine (objects.getD i []) (objects.getD j []) (pgs.getD i [])
          (pgs.getD j []) epsilon f = some (res, false) →
        tmp[j]? = some (some 0) := by
  obtain ⟨tmp, h1, _, h3⟩ := nearness_task_mce_spec objects pgs epsilon f singletons i hpg hi
    (fun j hij hj => hsize j hj hij)
  refine ⟨tmp, h1, ?_⟩
  intro j hij hj res hres
  obtain ⟨res2, meet, value, h4, h5, h6, _⟩ := nearness_pair_mce_spec objects pgs epsilon f
    singletons i j hpg hi hj (hsize j hj hij)
  rw [hres] at h4
  cases h4
  rw [h3 j hij hj, h5, h6 rfl]

set_option maxRecDepth 100000 in
theorem nearness_task_mce_disjoint_witness :
    ∃ pgs, partial_graphs_of [[0], [100]] 1 1 = some pgs ∧
      ∃ tmp, nearness_task_mce 0 [[0], [100]] pgs 1 1 false = some tmp ∧
        ∀ j, 0 < j → j < ([[0], [100]] : List (List ℚ)).length → ∀ res,
          features_to_graph_combine (([[0], [100]] : List (List ℚ)).getD 0 [])
            (([[0], [100]] : List (List ℚ)).getD j []) (pgs.getD 0 []) (pgs.getD j []) 1 1
            = some (res, false) →
          tmp[j]? = some (some 0) :=
  ⟨_, rfl, nearness_task_mce_disjoint [[0], [100]] _ 1 1 false 0 rfl (by decide)
    (by decide)⟩

/-- C16 (amended): nearness bounds below the range of `int`.  For object sets whose partial
graphs come from `features_to_graph`, every pair `(i, j)` with `j > i` within
the width, and either value of `singletons`: `nearness_task_mce` returns a row,
and its entry at every `j > i` for which the sizes of the counted maximal
cliques of the joint graph add up to less than `2^31` is a rational between 0
and 1. -/
theorem nearness_task_mce_bounds (objects : List (List ℚ)) (pgs : List Graph)
    (epsilon : ℚ) (f : Nat) (singletons : Bool) (i : Nat)
    (hpg : partial_graphs_of objects epsilon f = some pgs)
    (hi : i < objects.length)
    (hsize : ∀ j, j < objects.length → i < j →
      (objects.getD i []).length / f + (objects.getD j []).length / f ≤ MAX_VERTICES) :
    ∃ tmp, nearness_task_mce i objects pgs epsilon f singletons = some tmp ∧
      ∀ j, i < j → j < objects.length →
        pair_counted_sizes i j objects pgs epsilon f singletons < 2147483648 →
        ∃ value, tmp[j]? = some (some value) ∧ 0 ≤ value ∧ value ≤ 1 := by
  obtain ⟨tmp, h1, _, h3⟩ := nearness_task_mce_spec objects pgs epsilon f singletons i hpg hi
    (fun j hij hj => hsize j hj hij)
  refine ⟨tmp, h1, ?_⟩
  intro j hij hj hsum
  obtain ⟨_, _, stored, _, h5, _, h7⟩ := nearness_pair_mce_spec objects pgs epsilon f
    singletons i j hpg hi hj (hsize j hj hij)
  obtain ⟨value, h8, h9, h10⟩ := h7 hsum
  exact ⟨value, by rw [h3 j hij hj, h5, h8], h9, h10⟩

set_option maxRecDepth 100000 in
theorem nearness_task_mce_bounds_witness :
    ∃ pgs, partial_graphs_of [[0], [1], [5]] 2 1 = some pgs ∧
      (∀ j, j < 3 → 0 < j →
        pair_counted_sizes 0 j [[0], [1], [5]] pgs 2 1 true < 2147483648) ∧
      ∃ tmp, nearness_task_mce 0 [[0], [1], [5]] pgs 2 1 true = some tmp ∧
        ∀ j, 0 < j → j < ([[0], [1], [5]] : List (List ℚ)).length →
          pair_counted_sizes 0 j [[0], [1], [5]] pgs 2 1 true < 2147483648 →
          ∃ value, tmp[j]? = some (some value) ∧ 0 ≤ value ∧ value ≤ 1 :=
  ⟨_, rfl, by decide!, nearness_task_mce_bounds [[0], [1], [5]] _ 2 1 true 0 rfl
    (by decide) (by decide)⟩

/-- C15: the reducer splits a clique at `num_objects / 2`, not at `na`.  For A of one object
and B of three objects, all at the same point, the joint graph is complete, its
only maximal clique is `{0, 1, 2, 3}`, and `nearness_mce` adds
`(min(2, 2) / max(2, 2)) * 4 = 4` to the numerator, where the stated amounts,
with `x = 1` and `y = 3`, are `(1 / 3) * 4 = 4 / 3`. -/
theorem nearness_mce_split :
    (features_to_graph_combine [0] [0, 0, 0] [∅] [{1, 2}, {0, 2}, {0, 1}] 1 1).map
        (fun r => decide (r.1 = [{1, 2, 3}, {0, 2, 3}, {0, 1, 3}, {0, 1, 2}] ∧ r.2 = true))
        = some true ∧
      (clique_enumerate [{1, 2, 3}, {0, 2, 3}, {0, 1, 3}, {0, 1, 2}]).map
        (fun out => decide (out = [{0, 1, 2, 3}])) = some true ∧
      nearness_mce 4 false {0, 1, 2, 3} (0, 0) = some (4, 4) ∧
      nearness_mce_stated 1 {0, 1, 2, 3} (0, 0) = (4 / 3, 4) := by
  decide!

/-- C17: the value of the pair is not symmetric when the two object sets differ in size.  For
A = `[0]` and B = `[0, 10, 10]` with one feature and `epsilon = 1`, the partial
graphs are those of `features_to_graph`, the value computed for `(A, B)` is 0
and the value computed for `(B, A)` is 1. -/
theorem nearness_pair_mce_asymmetric :
    partial_graphs_of [[0], [0, 10, 10]] 1 1 = some [[∅], [∅, {2}, {1}]] ∧
      partial_graphs_of [[0, 10, 10], [0]] 1 1 = some [[∅, {2}, {1}], [∅]] ∧
      nearness_pair_mce 0 1 [[0], [0, 10, 10]] [[∅], [∅, {2}, {1}]] 1 1 false = some (some 0) ∧
      nearness_pair_mce 0 1 [[0, 10, 10], [0]] [[∅, {2}, {1}], [∅]] 1 1 false = some (some 1) := by
  decide!

/-- C18: the cost matrix handed to the assignment solver is not the distance matrix.  For
the object sets `[0, 3/5, 6/5]` and `[0, 10, 20]` with one feature and
`epsilon = 1` the partial graphs are a path and an empty graph on three
vertices; the entry read through row pointer 1 at column offset 0 is
`distance_matrix[0][1] = 1`, where `|popcount(partial_graphs[0][1]) -
popcount(partial_graphs[1][0])| = 2`, and the read through row pointer 1 at
column offset 2 leaves the row of `distance_matrix` it points into. -/
theorem sgmd_cost_flat_pointers :
    (partial_graphs_of [[0, 3 / 5, 6 / 5], [0, 10, 20]] 1 1).map
        (fun pgs => decide (pgs = [[{1}, {0, 2}, {1}], [∅, ∅, ∅]])) = some true ∧
      sgmd_cost [[{1}, {0, 2}, {1}], [∅, ∅, ∅]]
        (subset_sizes_of [[{1}, {0, 2}, {1}], [∅, ∅, ∅]]) 0 1 1 0 = some 1 ∧
      |((({0, 2} : IdSet).card : Int)) - (((∅ : IdSet).card : Int))| = 2 ∧
      sgmd_cost [[{1}, {0, 2}, {1}], [∅, ∅, ∅]]
        (subset_sizes_of [[{1}, {0, 2}, {1}], [∅, ∅, ∅]]) 0 1 1 2 = none := by
  decide!

/-! ## The comparator `clique_compare` -/

/-- The loop of `clique_compare` over the positions from `s` on: it returns `true` exactly
when the first position at which `a` and `b` differ is set in `a`. -/
theorem compare_scan_spec (a b : IdSet) (len : Nat) :
    ∀ s, compare_scan a b (List.range' s len) = true ↔
      ∃ p, s ≤ p ∧ p < s + len ∧ p ∈ a ∧ p ∉ b ∧ ∀ q, s ≤ q → q < p → (q ∈ a ↔ q ∈ b) := by
  induction len with
  | zero =>
    intro s
    simp only [List.range'_zero, compare_scan, Bool.false_eq_true, false_iff]
    rintro ⟨p, h1, h2, _⟩
    omega
  | succ len ih =>
    intro s
    rw [List.range'_succ, compare_scan]
    by_cases h1 : s ∈ a ∧ s ∉ b
    · rw [if_pos h1]
      simp only [true_iff]
      exact ⟨s, le_refl _, by omega, h1.1, h1.2, fun q hq1 hq2 => by omega⟩
    · rw [if_neg h1]
      by_cases h2 : s ∉ a ∧ s ∈ b
      · rw [if_pos h2]
        simp only [Bool.false_eq_true, false_iff]
        rintro ⟨p, hp1, _, hp3, hp4, hp5⟩
        rcases Nat.eq_or_lt_of_le hp1 with h3 | h3
        · subst h3
          exact h2.1 hp3
        · have := hp5 s (le_refl _) h3
          exact h2.1 (this.2 h2.2)
      · rw [if_neg h2, ih (s + 1)]
        have hs : s ∈ a ↔ s ∈ b := by tauto
        constructor
        · rintro ⟨p, hp1, hp2, hp3, hp4, hp5⟩
          refine ⟨p, by omega, by omega, hp3, hp4, ?_⟩
          intro q hq1 hq2
          rcases Nat.eq_or_lt_of_le hq1 with h3 | h3
          · subst h3
            exact hs
          · exact hp5 q h3 hq2
        · rintro ⟨p, hp1, hp2, hp3, hp4, hp5⟩
          rcases Nat.eq_or_lt_of_le hp1 with h3 | h3
          · subst h3
            exact absurd (hs.1 hp3) hp4
          · exact ⟨p, h3, by omega, hp3, hp4, fun q hq1 hq2 => hp5 q (by omega) hq2⟩

/-- The comparator by sizes and by the first position, below the width, at which the two
sets differ. -/
theorem clique_compare_iff (a b : IdSet) :
    clique_compare a b = true ↔
      a.card < b.card ∨
        (a.card = b.card ∧
          ∃ p, p < MAX_VERTICES ∧ p ∈ a ∧ p ∉ b ∧ ∀ q, q < p → (q ∈ a ↔ q ∈ b)) := by
  unfold clique_compare
  by_cases h : a.card = b.card
  · rw [if_pos h, List.range_eq_range', compare_scan_spec]
    constructor
    · rintro ⟨p, _, hp2, hp3, hp4, hp5⟩
      exact Or.inr ⟨h, p, by omega, hp3, hp4, fun q hq => hp5 q (Nat.zero_le _) hq⟩
    · rintro (h1 | ⟨_, p, hp2, hp3, hp4, hp5⟩)
      · omega
      · exact ⟨p, Nat.zero_le _, by omega, hp3, hp4, fun q _ hq => hp5 q hq⟩
  · rw [if_neg h, decide_eq_true_eq]
    constructor
    · exact fun h1 => Or.inl h1
    · rintro (h1 | ⟨h1, _⟩)
      · exact h1
      · exact absurd h1 h

/-- The lexicographic order of two ascending sequences of the same length: the first is
smaller exactly when the smallest member of one that is not in the other is a
member of the first. -/
theorem lex_sorted_iff (l1 : List Nat) :
    ∀ l2 : List Nat, l1.Sorted (· < ·) → l2.Sorted (· < ·) → l1.length = l2.length →
      (List.Lex (· < ·) l1 l2 ↔
        ∃ p, p ∈ l1 ∧ p ∉ l2 ∧ ∀ q, q < p → (q ∈ l1 ↔ q ∈ l2)) := by
  induction l1 with
  | nil =>
    intro l2 _ _ hlen
    have : l2 = [] := List.length_eq_zero.1 hlen.symm
    subst this
    constructor
    · intro h
      cases h
    · rintro ⟨p, hp, _⟩
      exact absurd hp (List.not_mem_nil _)
  | cons x t1 ih =>
    intro l2 hs1 hs2 hlen
    cases l2 with
    | nil => simp at hlen
    | cons y t2 =>
      have hx : ∀ z ∈ t1, x < z := (List.sorted_cons.1 hs1).1
      have hy : ∀ z ∈ t2, y < z := (List.sorted_cons.1 hs2).1
      have ht1 := (List.sorted_cons.1 hs1).2
      have ht2 := (List.sorted_cons.1 hs2).2
      have hxt : x ∉ t1 := fun h => lt_irrefl _ (hx x h)
      have hyt : y ∉ t2 := fun h => lt_irrefl _ (hy y h)
      rcases lt_trichotomy x y with hxy | hxy | hxy
      · constructor
        · intro _
          refine ⟨x, List.mem_cons_self _ _, ?_, ?_⟩
          · intro h
            rcases List.mem_cons.1 h with h1 | h1
            · omega
            · have := hy x h1
              omega
          · intro q hq
            constructor
            · intro h
              rcases List.mem_cons.1 h with h1 | h1
              · omega
              · have := hx q h1
                omega
            · intro h
              rcases List.mem_cons.1 h with h1 | h1
              · omega
              · have := hy q h1
                omega
        · intro _
          exact List.Lex.rel hxy
      · subst hxy
        have hlen2 : t1.length = t2.length := by simpa using hlen
        rw [List.Lex.cons_iff, ih t2 ht1 ht2 hlen2]
        constructor
        · rintro ⟨p, hp1, hp2, hp3⟩
          have hpx : p ≠ x := fun h => hxt (h ▸ hp1)
          refine ⟨p, List.mem_cons_of_mem _ hp1, ?_, ?_⟩
          · intro h
            rcases List.mem_cons.1 h with h1 | h1
            · exact hpx h1
            · exact hp2 h1
          · intro q hq
            simp only [List.mem_cons]
            rw [hp3 q hq]
        · rintro ⟨p, hp1, hp2, hp3⟩
          have hpx : p ≠ x := fun h => hp2 (h ▸ List.mem_cons_self _ _)
          have hp1t : p ∈ t1 := by
            rcases List.mem_cons.1 hp1 with h1 | h1
            · exact absurd h1 hpx
            · exact h1
          refine ⟨p, hp1t, fun h => hp2 (List.mem_cons_of_mem _ h), ?_⟩
          intro q hq
          have h4 := hp3 q hq
          simp only [List.mem_cons] at h4
          by_cases hqx : q = x
          · subst hqx
            exact ⟨fun h => absurd h hxt, fun h => absurd h hyt⟩
          · constructor
            · intro h
              rcases h4.1 (Or.inr h) with h5 | h5
              · exact absurd h5 hqx
              · exact h5
            · intro h
              rcases h4.2 (Or.inr h) with h5 | h5
              · exact absurd h5 hqx
              · exact h5
      · constructor
        · intro h
          cases h with
          | cons h1 => exact absurd rfl (ne_of_gt hxy)
          | rel h1 => omega
        · rintro ⟨p, hp1, _, hp3⟩
          have hpx : x ≤ p := by
            rcases List.mem_cons.1 hp1 with h1 | h1
            · omega
            · exact le_of_lt (hx p h1)
          have h4 := (hp3 y (by omega)).2 (List.mem_cons_self _ _)
          rcases List.mem_cons.1 h4 with h5 | h5
          · omega
          · have := hx y h5
            omega

/-- The comparator is asymmetric. -/
theorem clique_compare_asymm (a b : IdSet) (h : clique_compare a b = true) :
    clique_compare b a = false := by
  by_contra hcon
  rw [Bool.not_eq_false] at hcon
  rcases (clique_compare_iff a b).1 h with h1 | ⟨h1, p, _, hp2, hp3, hp4⟩
  · rcases (clique_compare_iff b a).1 hcon with h2 | ⟨h2, _⟩
    · omega
    · omega
  · rcases (clique_compare_iff b a).1 hcon with h2 | ⟨_, q, _, hq2, hq3, hq4⟩
    · omega
    · rcases lt_trichotomy p q with h5 | h5 | h5
      · exact hp3 ((hq4 p h5).2 hp2)
      · subst h5
        exact hp3 hq2
      · exact hq3 ((hp4 q h5).2 hq2)

/-- The comparator is negatively transitive: it is a strict weak order. -/
theorem clique_compare_negtrans (a b c : IdSet) (h : clique_compare c a = true) :
    clique_compare b a = true ∨ clique_compare c b = true := by
  rw [clique_compare_iff b a, clique_compare_iff c b]
  rcases (clique_compare_iff c a).1 h with h1 | ⟨h1, p, hp1, hp2, hp3, hp4⟩
  · by_cases h2 : b.card < a.card
    · exact Or.inl (Or.inl h2)
    · exact Or.inr (Or.inl (by omega))
  · by_cases h2 : b.card < a.card
    · exact Or.inl (Or.inl h2)
    · by_cases h3 : c.card < b.card
      · exact Or.inr (Or.inl h3)
      · have hba : b.card = a.card := by omega
        have hcb : c.card = b.card := by omega
        by_cases hagree : ∀ q, q < p → (q ∈ b ↔ q ∈ c)
        · by_cases hpb : p ∈ b
          · left
            right
            exact ⟨hba, p, hp1, hpb, hp3, fun q hq => (hagree q hq).trans (hp4 q hq)⟩
          · right
            right
            exact ⟨hcb, p, hp1, hp2, hpb, fun q hq => (hagree q hq).symm⟩
        · push_neg at hagree
          have hex : ∃ q, q < p ∧ ¬ (q ∈ b ↔ q ∈ c) := by
            obtain ⟨q, hq1, hq2⟩ := hagree
            refine ⟨q, hq1, ?_⟩
            intro h4
            rcases hq2 with ⟨h5, h6⟩ | ⟨h5, h6⟩
            · exact h6 (h4.1 h5)
            · exact h5 (h4.2 h6)
          have hq0 := Nat.find_spec hex
          have hmin : ∀ q, q < Nat.find hex → (q ∈ b ↔ q ∈ c) := by
            intro q hq
            by_contra h4
            exact Nat.find_min hex hq ⟨by omega, h4⟩
          by_cases hqb : Nat.find hex ∈ b
          · have hqc : Nat.find hex ∉ c := fun h4 => hq0.2 ⟨fun _ => h4, fun _ => hqb⟩
            left
            right
            refine ⟨hba, Nat.find hex, by omega, hqb, ?_, ?_⟩
            · exact fun h4 => hqc ((hp4 _ hq0.1).2 h4)
            · intro q hq
              exact (hmin q hq).trans (hp4 q (by omega))
          · have hqc : Nat.find hex ∈ c := by
              by_contra h4
              exact hq0.2 ⟨fun h5 => absurd h5 hqb, fun h5 => absurd h5 h4⟩
            right
            right
            exact ⟨hcb, Nat.find hex, by omega, hqc, hqb, fun q hq => (hmin q hq).symm⟩

/-- C19: the comparator.  For every set `a` of positions below the width and every set `b`,
`clique_compare(a, b)` holds exactly when `a` has fewer members than `b`, or as
many and the ascending sequence of the members of `a` is lexicographically
smaller than that of `b`; and, in the second case, exactly when `a` and `b`
differ and the smallest position at which they differ is set in `a`. -/
theorem clique_compare_lex (a b : IdSet) (ha : a ⊆ Finset.range MAX_VERTICES) :
    (clique_compare a b = true ↔
      a.card < b.card ∨
        (a.card = b.card ∧ List.Lex (· < ·) (a.sort (· ≤ ·)) (b.sort (· ≤ ·)))) ∧
    (clique_compare a b = true ↔
      a.card < b.card ∨
        (a.card = b.card ∧ a ≠ b ∧
          ∃ p, p ∈ a ∧ p ∉ b ∧ ∀ q, q < p → (q ∈ a ↔ q ∈ b))) := by
  have hfirst : (∃ p, p < MAX_VERTICES ∧ p ∈ a ∧ p ∉ b ∧ ∀ q, q < p → (q ∈ a ↔ q ∈ b)) ↔
      ∃ p, p ∈ a ∧ p ∉ b ∧ ∀ q, q < p → (q ∈ a ↔ q ∈ b) := by
    constructor
    · rintro ⟨p, _, h⟩
      exact ⟨p, h⟩
    · rintro ⟨p, h1, h2⟩
      exact ⟨p, Finset.mem_range.1 (ha h1), h1, h2⟩
  constructor
  · rw [clique_compare_iff, hfirst]
    constructor
    · rintro (h | ⟨h1, h2⟩)
      · exact Or.inl h
      · refine Or.inr ⟨h1, ?_⟩
        rw [lex_sorted_iff _ _ (Finset.sort_sorted_lt a) (Finset.sort_sorted_lt b)
          (by rw [Finset.length_sort, Finset.length_sort, h1])]
        simpa only [Finset.mem_sort] using h2
    · rintro (h | ⟨h1, h2⟩)
      · exact Or.inl h
      · refine Or.inr ⟨h1, ?_⟩
        rw [lex_sorted_iff _ _ (Finset.sort_sorted_lt a) (Finset.sort_sorted_lt b)
          (by rw [Finset.length_sort, Finset.length_sort, h1])] at h2
        simpa only [Finset.mem_sort] using h2
  · rw [clique_compare_iff, hfirst]
    constructor
    · rintro (h | ⟨h1, p, hp⟩)
      · exact Or.inl h
      · refine Or.inr ⟨h1, ?_, p, hp⟩
        intro hab
        subst hab
        exact hp.2.1 hp.1
    · rintro (h | ⟨h1, _, h2⟩)
      · exact Or.inl h
      · exact Or.inr ⟨h1, h2⟩

set_option maxRecDepth 100000 in
theorem clique_compare_lex_witness :
    (clique_compare {0, 5} {1, 2} = true ↔
      ({0, 5} : IdSet).card < ({1, 2} : IdSet).card ∨
        (({0, 5} : IdSet).card = ({1, 2} : IdSet).card ∧
          List.Lex (· < ·) (({0, 5} : IdSet).sort (· ≤ ·)) (({1, 2} : IdSet).sort (· ≤ ·)))) ∧
    (clique_compare {0, 5} {1, 2} = true ↔
      ({0, 5} : IdSet).card < ({1, 2} : IdSet).card ∨
        (({0, 5} : IdSet).card = ({1, 2} : IdSet).card ∧ ({0, 5} : IdSet) ≠ {1, 2} ∧
          ∃ p, p ∈ ({0, 5} : IdSet) ∧ p ∉ ({1, 2} : IdSet) ∧
            ∀ q, q < p → (q ∈ ({0, 5} : IdSet) ↔ q ∈ ({1, 2} : IdSet)))) :=
  clique_compare_lex {0, 5} {1, 2} (by decide)

/-- The loop of `greatest_cand` over a list of positions: the state holds the first candidate
of the greatest count seen so far. -/
theorem greatest_fold_max (cands : IdSet) (graph : Graph) (l : List Nat) :
    ∀ (seen : List Nat) (st : Option Nat × Int),
      ((st.1 = none ∧ st.2 = -1 ∧ ∀ u ∈ seen, u ∉ cands) ∨
        ∃ v, st.1 = some v ∧ st.2 = ((cands ∩ row graph v).card : Int) ∧ v ∈ cands ∧
          ∃ s1 s2, seen = s1 ++ v :: s2 ∧
            (∀ u ∈ s1, u ∈ cands → (cands ∩ row graph u).card < (cands ∩ row graph v).card) ∧
            (∀ u ∈ s2, u ∈ cands → (cands ∩ row graph u).card ≤ (cands ∩ row graph v).card)) →
      ((l.foldl (greatest_step cands graph) st).1 = none ∧ ∀ u ∈ seen ++ l, u ∉ cands) ∨
        ∃ v, (l.foldl (greatest_step cands graph) st).1 = some v ∧ v ∈ cands ∧
          ∃ s1 s2, seen ++ l = s1 ++ v :: s2 ∧
            (∀ u ∈ s1, u ∈ cands → (cands ∩ row graph u).card < (cands ∩ row graph v).card) ∧
            (∀ u ∈ s2, u ∈ cands → (cands ∩ row graph u).card ≤ (cands ∩ row graph v).card) := by
  induction l with
  | nil =>
    intro seen st h
    rw [List.append_nil, List.foldl_nil]
    rcases h with ⟨h1, _, h3⟩ | ⟨v, h1, _, h3, h4⟩
    · exact Or.inl ⟨h1, h3⟩
    · exact Or.inr ⟨v, h1, h3, h4⟩
  | cons a l ih =>
    intro seen st h
    rw [List.foldl_cons]
    have hseen : seen ++ a :: l = (seen ++ [a]) ++ l := by simp
    rw [hseen]
    apply ih (seen ++ [a])
    unfold greatest_step
    by_cases ha : a ∈ cands
    · rw [if_pos ha]
      rcases h with ⟨h1, h2, h3⟩ | ⟨v, h1, h2, h3, s1, s2, h4, h5, h6⟩
      · right
        have hgt : ((cands ∩ row graph a).card : Int) > st.2 := by
          rw [h2]
          omega
        rw [if_pos hgt]
        refine ⟨a, rfl, rfl, ha, seen, [], rfl, ?_, ?_⟩
        · intro u hu huc
          exact absurd huc (h3 u hu)
        · intro u hu
          exact absurd hu (List.not_mem_nil _)
      · right
        by_cases hgt : ((cands ∩ row graph a).card : Int) > st.2
        · rw [if_pos hgt]
          rw [h2] at hgt
          have hgt2 : (cands ∩ row graph v).card < (cands ∩ row graph a).card := by
            exact_mod_cast hgt
          refine ⟨a, rfl, rfl, ha, seen, [], rfl, ?_, ?_⟩
          · intro u hu huc
            rw [h4] at hu
            rcases List.mem_append.1 hu with h7 | h7
            · exact lt_trans (h5 u h7 huc) hgt2
            · rcases List.mem_cons.1 h7 with h8 | h8
              · rw [h8]
                exact hgt2
              · exact lt_of_le_of_lt (h6 u h8 huc) hgt2
          · intro u hu
            exact absurd hu (List.not_mem_nil _)
        · rw [if_neg hgt]
          rw [h2] at hgt
          have hle : (cands ∩ row graph a).card ≤ (cands ∩ row graph v).card := by
            have : ¬ ((cands ∩ row graph v).card < (cands ∩ row graph a).card) := by
              intro h7
              exact hgt (by exact_mod_cast h7)
            omega
          refine ⟨v, h1, h2, h3, s1, s2 ++ [a], by rw [h4]; simp, h5, ?_⟩
          intro u hu huc
          rcases List.mem_append.1 hu with h7 | h7
          · exact h6 u h7 huc
          · rw [List.mem_singleton.1 h7]
            exact hle
    · rw [if_neg ha]
      rcases h with ⟨h1, h2, h3⟩ | ⟨v, h1, h2, h3, s1, s2, h4, h5, h6⟩
      · left
        refine ⟨h1, h2, ?_⟩
        intro u hu
        rcases List.mem_append.1 hu with h7 | h7
        · exact h3 u h7
        · rw [List.mem_singleton.1 h7]
          exact ha
      · right
        refine ⟨v, h1, h2, h3, s1, s2 ++ [a], by rw [h4]; simp, h5, ?_⟩
        intro u hu huc
        rcases List.mem_append.1 hu with h7 | h7
        · exact h6 u h7 huc
        · rw [List.mem_singleton.1 h7] at huc
          exact absurd huc ha

/-- The pivot: a candidate of the greatest count, and the first of them. -/
theorem greatest_cand_spec (cands : IdSet) (graph : Graph)
    (hne : cands.Nonempty) (hsub : cands ⊆ Finset.range graph.length) :
    ∃ fixp, greatest_cand cands graph = some fixp ∧ fixp ∈ cands ∧
      (∀ v ∈ cands, (cands ∩ row graph v).card ≤ (cands ∩ row graph fixp).card) ∧
      (∀ v ∈ cands, v < fixp → (cands ∩ row graph v).card < (cands ∩ row graph fixp).card) := by
  have h := greatest_fold_max cands graph (List.range graph.length) [] (none, -1)
    (Or.inl ⟨rfl, rfl, fun u hu => absurd hu (List.not_mem_nil _)⟩)
  rw [List.nil_append, ← greatest_cand_eq] at h
  rcases h with ⟨_, h2⟩ | ⟨v, h1, h2, s1, s2, h3, h4, h5⟩
  · obtain ⟨i, hi⟩ := hne
    exact absurd hi (h2 i (List.mem_range.2 (Finset.mem_range.1 (hsub hi))))
  · refine ⟨v, h1, h2, ?_, ?_⟩
    · intro u hu
      have hmem : u ∈ List.range graph.length :=
        List.mem_range.2 (Finset.mem_range.1 (hsub hu))
      rw [h3] at hmem
      rcases List.mem_append.1 hmem with h6 | h6
      · exact le_of_lt (h4 u h6 hu)
      · rcases List.mem_cons.1 h6 with h7 | h7
        · rw [h7]
        · exact h5 u h7 hu
    · intro u hu huv
      have hmem : u ∈ List.range graph.length :=
        List.mem_range.2 (Finset.mem_range.1 (hsub hu))
      have hsorted : (s1 ++ v :: s2).Sorted (· < ·) := by
        rw [← h3]
        exact List.sorted_lt_range _
      rw [h3] at hmem
      rcases List.mem_append.1 hmem with h6 | h6
      · exact h4 u h6 hu
      · rcases List.mem_cons.1 h6 with h7 | h7
        · omega
        · have h9 : (v :: s2).Sorted (· < ·) :=
            List.Pairwise.sublist (List.sublist_append_right s1 _) hsorted
          have h8 := (List.sorted_cons.1 h9).1 u h7
          omega

/-! ## The calls of the recursive enumerator -/

theorem bitset_set_some {s r : IdSet} {pos : Nat} (h : bitset_set s pos = some r) :
    pos < MAX_VERTICES ∧ r = insert pos s := by
  unfold bitset_set at h
  split_ifs at h with hp
  simp only [Option.some.injEq] at h
  exact ⟨hp, h.symm⟩

theorem bitset_reset_some {s r : IdSet} {pos : Nat} (h : bitset_reset s pos = some r) :
    pos < MAX_VERTICES ∧ r = s.erase pos := by
  unfold bitset_reset at h
  split_ifs at h with hp
  simp only [Option.some.injEq] at h
  exact ⟨hp, h.symm⟩

theorem start_cands_some_fold (l : List Nat) :
    ∀ s r : IdSet, l.foldlM (fun s i => bitset_set s i) s = some r → r = s ∪ l.toFinset := by
  induction l with
  | nil =>
    intro s r h
    simp only [List.foldlM_nil, Option.pure_def, Option.some.injEq] at h
    simp [h]
  | cons a l ih =>
    intro s r h
    rw [List.foldlM_cons] at h
    cases h1 : bitset_set s a with
    | none => simp [h1] at h
    | some s1 =>
      simp only [h1, Option.bind_eq_bind, Option.some_bind] at h
      rw [ih s1 r h, (bitset_set_some h1).2]
      ext x
      simp only [Finset.mem_union, Finset.mem_insert, List.toFinset_cons]
      tauto

theorem start_cands_some {graph : Graph} {cands : IdSet} (h : start_cands graph = some cands) :
    cands = Finset.range graph.length := by
  unfold start_cands at h
  rw [start_cands_some_fold _ _ _ h]
  ext x
  simp

theorem emitted_append (l1 l2 : List State) : emitted (l1 ++ l2) = emitted l1 ++ emitted l2 := by
  unfold emitted
  rw [List.filter_append, List.map_append]

theorem mem_emitted (calls : List State) (C : IdSet) :
    C ∈ emitted calls ↔ ∃ s ∈ calls, s.cands = ∅ ∧ s.nots = ∅ ∧ s.clique = C := by
  unfold emitted
  simp only [List.mem_map, List.mem_filter, Bool.and_eq_true, decide_eq_true_eq]
  constructor
  · rintro ⟨s, ⟨h1, h2, h3⟩, h4⟩
    exact ⟨s, h1, h2, h3, h4⟩
  · rintro ⟨s, h1, h2, h3, h4⟩
    exact ⟨s, ⟨h1, h2, h3⟩, h4⟩

/-- The loop emits the cliques of the calls it makes. -/
theorem calls_loop_emitted (graph : Graph)
    (recurse : IdSet → IdSet → IdSet → Option (List IdSet))
    (recurseT : IdSet → IdSet → IdSet → Option (List State))
    (h : ∀ R P X, recurse R P X = (recurseT R P X).map emitted) (fixp : Nat) :
    ∀ (fuel cur_v : Nat) (R P X : IdSet),
      clique_loop graph recurse fixp fuel cur_v R P X =
        (calls_loop graph recurseT fixp fuel cur_v R P X).map emitted := by
  intro fuel
  induction fuel with
  | zero =>
    intro cur_v R P X
    rw [clique_loop, calls_loop]
    rfl
  | succ fuel ih =>
    intro cur_v R P X
    rw [clique_loop, calls_loop]
    cases h1 : bitset_set R cur_v with
    | none => rfl
    | some nc =>
      simp only [Option.bind_eq_bind, Option.some_bind, h]
      cases h2 : recurseT nc (row graph cur_v ∩ P) (row graph cur_v ∩ X) with
      | none => rfl
      | some c =>
        simp only [Option.map_some', Option.some_bind]
        cases h3 : bitset_set X cur_v with
        | none => rfl
        | some nx =>
          simp only [Option.some_bind]
          cases h4 : bitset_reset P cur_v with
          | none => rfl
          | some np =>
            simp only [Option.some_bind]
            cases h5 : remaining_v np fixp graph with
            | none => rfl
            | some next_v =>
              simp only [ih]
              cases h6 : calls_loop graph recurseT fixp fuel next_v R np nx with
              | none => rfl
              | some rest =>
                simp only [Option.map_some', Option.some_bind, emitted_append]

/-- The five-argument `clique_enumerate` emits the cliques of the calls it makes. -/
theorem clique_enumerate_rec_emitted (graph : Graph) :
    ∀ (fuel : Nat) (R P X : IdSet),
      clique_enumerate_rec graph fuel R P X =
        (clique_enumerate_calls graph fuel R P X).map emitted := by
  intro fuel
  induction fuel with
  | zero =>
    intro R P X
    rw [clique_enumerate_rec, clique_enumerate_calls]
    rfl
  | succ fuel ih =>
    intro R P X
    rw [clique_enumerate_rec, clique_enumerate_calls]
    by_cases hP : P = ∅
    · rw [if_pos hP, if_pos hP]
      by_cases hX : X = ∅
      · rw [if_pos hX]
        simp [emitted, hP, hX]
      · rw [if_neg hX]
        simp [emitted, hP, hX]
    · rw [if_neg hP, if_neg hP]
      cases h1 : greatest_cand P graph with
      | none => rfl
      | some fixp =>
        simp only [calls_loop_emitted graph _ _ ih]
        cases h2 : calls_loop graph (clique_enumerate_calls graph fuel) fixp P.card fixp R P X with
        | none => rfl
        | some rest =>
          simp only [Option.map_some', Option.some.injEq]
          unfold emitted
          rw [List.filter_cons]
          simp [hP]

/-- The entry point emits the cliques of the calls it makes. -/
theorem clique_enumerate_emitted (graph : Graph) :
    clique_enumerate graph = (clique_enumerate_trace graph).map emitted := by
  unfold clique_enumerate clique_enumerate_trace
  cases h : start_cands graph with
  | none => rfl
  | some cands =>
    simp only [Option.bind_eq_bind, Option.some_bind]
    exact clique_enumerate_rec_emitted graph _ _ _ _

/-- A property `Q` of the calls and a property `L` of the states of the loop: `Q` holds for
every call below a call with `Q`, when a call with candidates starts the loop
in `L`, every pass of the loop calls with `Q` and leaves the loop in `L`. -/
theorem calls_loop_induction (graph : Graph) (Q L : State → Prop)
    (hchild : ∀ R P X v, L (State.mk R P X) → v ∈ P →
      Q (State.mk (insert v R) (row graph v ∩ P) (row graph v ∩ X)))
    (hnext : ∀ R P X v, L (State.mk R P X) → v ∈ P →
      L (State.mk R (P.erase v) (insert v X)))
    (recurseT : IdSet → IdSet → IdSet → Option (List State))
    (hrec : ∀ R P X c, recurseT R P X = some c → Q (State.mk R P X) → ∀ s ∈ c, Q s)
    (fixp : Nat) (R : IdSet) :
    ∀ (fuel cur_v : Nat) (P X : IdSet) (calls : List State),
      calls_loop graph recurseT fixp fuel cur_v R P X = some calls →
      L (State.mk R P X) → cur_v ∈ P → ∀ s ∈ calls, Q s := by
  intro fuel
  induction fuel with
  | zero =>
    intro cur_v P X calls h
    rw [calls_loop] at h
    cases h
  | succ fuel ih =>
    intro cur_v P X calls h hL hv
    rw [calls_loop] at h
    cases h1 : bitset_set R cur_v with
    | none => simp [h1] at h
    | some nc =>
      simp only [h1, Option.bind_eq_bind, Option.some_bind] at h
      cases h2 : recurseT nc (row graph cur_v ∩ P) (row graph cur_v ∩ X) with
      | none => simp [h2] at h
      | some c =>
        simp only [h2, Option.some_bind] at h
        cases h3 : bitset_set X cur_v with
        | none => simp [h3] at h
        | some nx =>
          simp only [h3, Option.some_bind] at h
          cases h4 : bitset_reset P cur_v with
          | none => simp [h4] at h
          | some np =>
            simp only [h4, Option.some_bind] at h
            have hnc := (bitset_set_some h1).2
            have hnx := (bitset_set_some h3).2
            have hnp := (bitset_reset_some h4).2
            subst hnc hnx hnp
            have hQc : ∀ s ∈ c, Q s := hrec _ _ _ c h2 (hchild R P X cur_v hL hv)
            cases h5 : remaining_v (P.erase cur_v) fixp graph with
            | none =>
              simp only [h5, Option.some.injEq] at h
              subst h
              exact hQc
            | some next_v =>
              simp only [h5] at h
              cases h6 : calls_loop graph recurseT fixp fuel next_v R (P.erase cur_v)
                  (insert cur_v X) with
              | none => simp [h6] at h
              | some rest =>
                simp only [h6, Option.some_bind, Option.some.injEq] at h
                subst h
                intro s hs
                rcases List.mem_append.1 hs with h7 | h7
                · exact hQc s h7
                · exact ih next_v _ _ rest h6 (hnext R P X cur_v hL hv)
                    (remaining_v_some h5).1 s h7

theorem calls_induction (graph : Graph) (Q L : State → Prop)
    (hroot : ∀ s, Q s → s.cands ≠ ∅ → L s)
    (hchild : ∀ R P X v, L (State.mk R P X) → v ∈ P →
      Q (State.mk (insert v R) (row graph v ∩ P) (row graph v ∩ X)))
    (hnext : ∀ R P X v, L (State.mk R P X) → v ∈ P →
      L (State.mk R (P.erase v) (insert v X))) :
    ∀ (fuel : Nat) (R P X : IdSet) (calls : List State),
      clique_enumerate_calls graph fuel R P X = some calls →
      Q (State.mk R P X) → ∀ s ∈ calls, Q s := by
  intro fuel
  induction fuel with
  | zero =>
    intro R P X calls h
    rw [clique_enumerate_calls] at h
    cases h
  | succ fuel ih =>
    intro R P X calls h hQ
    rw [clique_enumerate_calls] at h
    by_cases hP : P = ∅
    · rw [if_pos hP] at h
      simp only [Option.some.injEq] at h
      subst h
      intro s hs
      rw [List.mem_singleton.1 hs]
      exact hQ
    · rw [if_neg hP] at h
      cases h1 : greatest_cand P graph with
      | none => simp [h1] at h
      | some fixp =>
        simp only [h1] at h
        cases h2 : calls_loop graph (clique_enumerate_calls graph fuel) fixp P.card fixp R P X with
        | none => simp [h2] at h
        | some rest =>
          simp only [h2, Option.map_some', Option.some.injEq] at h
          subst h
          have hfix : fixp ∈ P := by
            rw [greatest_cand_eq] at h1
            rcases greatest_fold_mem P graph _ _ fixp h1 with h3 | ⟨_, h3⟩
            · simp at h3
            · exact h3
          intro s hs
          rcases List.mem_cons.1 hs with h3 | h3
          · rw [h3]
            exact hQ
          · exact calls_loop_induction graph Q L hchild hnext _ ih fixp R P.card fixp P X rest
              h2 (hroot _ hQ hP) hfix s h3

/-! ## The search states: invariant, emit rule, pivot -/

theorem searchInvariant_root (graph : Graph) :
    SearchInvariant graph (State.mk ∅ (Finset.range graph.length) ∅) := by
  refine ⟨Finset.disjoint_empty_left _, Finset.disjoint_empty_left _,
    Finset.disjoint_empty_right _, ?_, ?_, ?_⟩
  · intro v hv
    simpa using hv
  · intro a ha
    exact absurd ha (Finset.not_mem_empty _)
  · intro w
    simp

theorem searchInvariant_child {graph : Graph} (hsym : SymmetricGraph graph)
    (hirr : IrreflexiveGraph graph) (R P X : IdSet) (v : Nat)
    (h : SearchInvariant graph (State.mk R P X)) (hv : v ∈ P) :
    SearchInvariant graph (State.mk (insert v R) (row graph v ∩ P) (row graph v ∩ X)) := by
  obtain ⟨d1, d2, d3, hb, ha, he⟩ := h
  simp only at d1 d2 d3 hb ha he
  have hvn : v < graph.length := hb v (by simp [hv])
  have hvR : ∀ u ∈ R, v ∈ row graph u := ((he v).1 (Finset.mem_union_left _ hv)).2
  have hRn : ∀ u ∈ R, u < graph.length := fun u hu => hb u (by simp [hu])
  refine ⟨?_, ?_, ?_, ?_, ?_, ?_⟩
  · rw [Finset.disjoint_left]
    intro w hw hw2
    simp only [Finset.mem_inter] at hw2
    rcases Finset.mem_insert.1 hw with h1 | h1
    · subst h1
      exact hirr w hvn hw2.1
    · exact Finset.disjoint_left.1 d1 h1 hw2.2
  · rw [Finset.disjoint_left]
    intro w hw hw2
    simp only [Finset.mem_inter] at hw2
    rcases Finset.mem_insert.1 hw with h1 | h1
    · subst h1
      exact hirr w hvn hw2.1
    · exact Finset.disjoint_left.1 d2 h1 hw2.2
  · rw [Finset.disjoint_left]
    intro w hw hw2
    simp only [Finset.mem_inter] at hw hw2
    exact Finset.disjoint_left.1 d3 hw.2 hw2.2
  · intro w hw
    simp only [Finset.mem_union, Finset.mem_insert, Finset.mem_inter] at hw
    rcases hw with ((h1 | h1) | h1) | h1
    · rw [h1]; exact hvn
    · exact hRn w h1
    · exact hb w (by simp [h1.2])
    · exact hb w (by simp [h1.2])
  · intro a ha1 b hb1 hab
    rcases Finset.mem_insert.1 ha1 with h1 | h1
    · rcases Finset.mem_insert.1 hb1 with h2 | h2
      · exact absurd (h1.trans h2.symm) hab
      · rw [h1]
        exact (hsym b (hRn b h2) v hvn).1 (hvR b h2)
    · rcases Finset.mem_insert.1 hb1 with h2 | h2
      · rw [h2]
        exact hvR a h1
      · exact ha a h1 b h2 hab
  · intro w
    simp only [Finset.mem_union, Finset.mem_inter, Finset.mem_insert]
    constructor
    · intro hw
      have hw2 : w ∈ row graph v ∧ w ∈ P ∪ X := by
        rw [Finset.mem_union]
        tauto
      obtain ⟨h1, h2⟩ := (he w).1 hw2.2
      refine ⟨h1, ?_⟩
      intro u hu
      rcases hu with h3 | h3
      · rw [h3]
        exact hw2.1
      · exact h2 u h3
    · rintro ⟨h1, h2⟩
      have h3 : w ∈ P ∪ X := (he w).2 ⟨h1, fun u hu => h2 u (Or.inr hu)⟩
      have h4 : w ∈ row graph v := h2 v (Or.inl rfl)
      rcases Finset.mem_union.1 h3 with h5 | h5
      · exact Or.inl ⟨h4, h5⟩
      · exact Or.inr ⟨h4, h5⟩

theorem searchInvariant_next {graph : Graph} (R P X : IdSet) (v : Nat)
    (h : SearchInvariant graph (State.mk R P X)) (hv : v ∈ P) :
    SearchInvariant graph (State.mk R (P.erase v) (insert v X)) := by
  obtain ⟨d1, d2, d3, hb, ha, he⟩ := h
  simp only at d1 d2 d3 hb ha he
  have hunion : ∀ w, w ∈ P.erase v ∪ insert v X ↔ w ∈ P ∪ X := by
    intro w
    simp only [Finset.mem_union, Finset.mem_erase, Finset.mem_insert]
    constructor
    · rintro (⟨_, h1⟩ | h1 | h1)
      · exact Or.inl h1
      · rw [h1]; exact Or.inl hv
      · exact Or.inr h1
    · rintro (h1 | h1)
      · by_cases hw : w = v
        · exact Or.inr (Or.inl hw)
        · exact Or.inl ⟨hw, h1⟩
      · exact Or.inr (Or.inr h1)
  refine ⟨?_, ?_, ?_, ?_, ha, ?_⟩
  · rw [Finset.disjoint_left]
    intro w hw hw2
    exact Finset.disjoint_left.1 d1 hw (Finset.mem_of_mem_erase hw2)
  · rw [Finset.disjoint_left]
    intro w hw hw2
    rcases Finset.mem_insert.1 hw2 with h1 | h1
    · rw [h1] at hw
      exact Finset.disjoint_left.1 d1 hw hv
    · exact Finset.disjoint_left.1 d2 hw h1
  · rw [Finset.disjoint_left]
    intro w hw hw2
    rcases Finset.mem_insert.1 hw2 with h1 | h1
    · exact (Finset.mem_erase.1 hw).1 h1
    · exact Finset.disjoint_left.1 d3 (Finset.mem_of_mem_erase hw) h1
  · intro w hw
    apply hb w
    simp only [Finset.mem_union] at hw ⊢
    rcases hw with (h1 | h1) | h1
    · exact Or.inl (Or.inl h1)
    · exact Or.inl (Or.inr (Finset.mem_of_mem_erase h1))
    · have := (hunion w).1 (Finset.mem_union_right _ h1)
      rcases Finset.mem_union.1 this with h2 | h2
      · exact Or.inl (Or.inr h2)
      · exact Or.inr h2
  · intro w
    show w ∈ P.erase v ∪ insert v X ↔ _
    rw [hunion w]
    exact he w

/-- C26: the emit rule.  In every call `clique_enumerate(R, P, X, graph, callback)` with an
empty `P`: when `X` is empty the callback is invoked exactly once, with `R`;
when `X` is not empty the callback is not invoked; in both cases the call
makes no further call. -/
theorem clique_enumerate_emit_rule (graph : Graph) (fuel : Nat) (R X : IdSet) :
    clique_enumerate_rec graph (fuel + 1) R ∅ ∅ = some [R] ∧
      (X ≠ ∅ → clique_enumerate_rec graph (fuel + 1) R ∅ X = some []) ∧
      clique_enumerate_calls graph (fuel + 1) R ∅ X = some [State.mk R ∅ X] := by
  refine ⟨?_, ?_, ?_⟩
  · rw [clique_enumerate_rec, if_pos rfl, if_pos rfl]
  · intro hX
    rw [clique_enumerate_rec, if_pos rfl, if_neg hX]
  · rw [clique_enumerate_calls, if_pos rfl]

/-- C27: pivot selection.  For every graph with `n` rows and every non-empty candidate set
`P` of vertices below `n`, `greatest_cand(P, graph)` returns a vertex `fixp` of
`P` with `|P ∩ graph[fixp]| ≥ |P ∩ graph[v]|` for every `v` in `P`. -/
theorem greatest_cand_max (P : IdSet) (graph : Graph)
    (hne : P.Nonempty) (hsub : P ⊆ Finset.range graph.length) :
    ∃ fixp, greatest_cand P graph = some fixp ∧ fixp ∈ P ∧
      ∀ v ∈ P, (P ∩ row graph v).card ≤ (P ∩ row graph fixp).card := by
  obtain ⟨fixp, h1, h2, h3, _⟩ := greatest_cand_spec P graph hne hsub
  exact ⟨fixp, h1, h2, h3⟩

theorem greatest_cand_max_witness :
    ∃ fixp, greatest_cand {0, 1, 3} [{1, 2}, {0, 2, 3}, {0, 1}, {1}] = some fixp ∧
      fixp ∈ ({0, 1, 3} : IdSet) ∧
      ∀ v ∈ ({0, 1, 3} : IdSet),
        (({0, 1, 3} : IdSet) ∩ row [{1, 2}, {0, 2, 3}, {0, 1}, {1}] v).card ≤
          (({0, 1, 3} : IdSet) ∩ row [{1, 2}, {0, 2, 3}, {0, 1}, {1}] fixp).card :=
  greatest_cand_max {0, 1, 3} [{1, 2}, {0, 2, 3}, {0, 1}, {1}] (by decide) (by decide)

/-- C28 as stated fails: on the graph of two vertices without edge and the candidates
`{0, 1}`, both candidates attain the maximum 0 of `|P ∩ N(v)|`, and
`greatest_cand` returns 0, not the greatest id 1. -/
theorem greatest_cand_first_counterexample :
    greatest_cand {0, 1} [∅, ∅] = some 0 ∧
      (1 ∈ ({0, 1} : IdSet) ∧
        (({0, 1} : IdSet) ∩ row [∅, ∅] 1).card = (({0, 1} : IdSet) ∩ row [∅, ∅] 0).card ∧
        0 < 1) := by
  decide

/-- C28 (amended): pivot tie-breaking.  For every graph with `n` rows and every non-empty
candidate set `P` of vertices below `n`, the pivot returned by `greatest_cand`
attains the maximum of `|P ∩ N(v)|` over `P` and has the smallest id among the
candidates that attain it: the comparison is strict, so the first one is kept. -/
theorem greatest_cand_first (P : IdSet) (graph : Graph)
    (hne : P.Nonempty) (hsub : P ⊆ Finset.range graph.length) :
    ∃ fixp, greatest_cand P graph = some fixp ∧ fixp ∈ P ∧
      (∀ v ∈ P, (P ∩ row graph v).card ≤ (P ∩ row graph fixp).card) ∧
      ∀ v ∈ P, (P ∩ row graph v).card = (P ∩ row graph fixp).card → fixp ≤ v := by
  obtain ⟨fixp, h1, h2, h3, h4⟩ := greatest_cand_spec P graph hne hsub
  refine ⟨fixp, h1, h2, h3, ?_⟩
  intro v hv heq
  by_contra hcon
  have := h4 v hv (by omega)
  omega

theorem greatest_cand_first_witness :
    ∃ fixp, greatest_cand {0, 1, 2} [{1}, {0}, ∅] = some fixp ∧
      fixp ∈ ({0, 1, 2} : IdSet) ∧
      (∀ v ∈ ({0, 1, 2} : IdSet),
        (({0, 1, 2} : IdSet) ∩ row [{1}, {0}, ∅] v).card ≤
          (({0, 1, 2} : IdSet) ∩ row [{1}, {0}, ∅] fixp).card) ∧
      ∀ v ∈ ({0, 1, 2} : IdSet),
        (({0, 1, 2} : IdSet) ∩ row [{1}, {0}, ∅] v).card =
          (({0, 1, 2} : IdSet) ∩ row [{1}, {0}, ∅] fixp).card → fixp ≤ v :=
  greatest_cand_first {0, 1, 2} [{1}, {0}, ∅] (by decide) (by decide)

/-- C29: the search-state invariant.  On a symmetric, irreflexive graph on `n ≤ 512`
vertices the entry point `clique_enumerate(graph, callback)` returns, and in
every call `clique_enumerate(R, P, X, ...)` that it makes, `R`, `P` and `X` are
pairwise disjoint sets of vertices below `n`, `R` is pairwise adjacent, and
`P ∪ X` is exactly the set of the vertices adjacent to every member of `R`. -/
theorem clique_enumerate_search_invariant (graph : Graph) (hsym : SymmetricGraph graph)
    (hirr : IrreflexiveGraph graph) (hn : graph.length ≤ MAX_VERTICES) :
    ∃ calls, clique_enumerate_trace graph = some calls ∧
      ∀ s ∈ calls,
        Disjoint s.clique s.cands ∧ Disjoint s.clique s.nots ∧ Disjoint s.cands s.nots ∧
        (∀ v ∈ s.clique ∪ s.cands ∪ s.nots, v < graph.length) ∧
        PairwiseAdjacent graph s.clique ∧
        ∀ w, w ∈ s.cands ∪ s.nots ↔ w < graph.length ∧ ∀ u ∈ s.clique, w ∈ row graph u := by
  obtain ⟨out, hout, _, _⟩ := clique_enumerate_spec hsym hirr hn
  have hco := clique_enumerate_emitted graph
  rw [hout] at hco
  cases htr : clique_enumerate_trace graph with
  | none =>
    rw [htr] at hco
    cases hco
  | some calls =>
    refine ⟨calls, rfl, ?_⟩
    unfold clique_enumerate_trace at htr
    rw [start_cands_eq graph hn] at htr
    simp only [Option.bind_eq_bind, Option.some_bind] at htr
    exact calls_induction graph (SearchInvariant graph) (SearchInvariant graph)
      (fun s hs _ => hs) (searchInvariant_child hsym hirr) searchInvariant_next _ _ _ _ calls
      htr (searchInvariant_root graph)

set_option maxRecDepth 100000 in
theorem clique_enumerate_search_invariant_witness :
    ∃ calls, clique_enumerate_trace [{1, 2}, {0, 2}, {0, 1, 3}, {2}] = some calls ∧
      ∀ s ∈ calls,
        Disjoint s.clique s.cands ∧ Disjoint s.clique s.nots ∧ Disjoint s.cands s.nots ∧
        (∀ v ∈ s.clique ∪ s.cands ∪ s.nots,
          v < ([{1, 2}, {0, 2}, {0, 1, 3}, {2}] : Graph).length) ∧
        PairwiseAdjacent [{1, 2}, {0, 2}, {0, 1, 3}, {2}] s.clique ∧
        ∀ w, w ∈ s.cands ∪ s.nots ↔
          w < ([{1, 2}, {0, 2}, {0, 1, 3}, {2}] : Graph).length ∧
            ∀ u ∈ s.clique, w ∈ row [{1, 2}, {0, 2}, {0, 1, 3}, {2}] u :=
  clique_enumerate_search_invariant [{1, 2}, {0, 2}, {0, 1, 3}, {2}] (by decide) (by decide)
    (by decide)

/-- C30 as stated fails: on the graph with zero vertices `clique_enumerate(graph, callback)`
emits the empty set. -/
theorem clique_enumerate_nonempty_counterexample :
    ∃ out, clique_enumerate [] = some out ∧ ∃ C ∈ out, ¬ C.Nonempty :=
  ⟨_, rfl, ∅, by decide, by simp⟩

/-- C30 (amended): for every graph with at least one vertex, every set emitted by
`clique_enumerate(graph, callback)` has at least one element; and on a
symmetric, irreflexive graph of at most 512 vertices the enumerator returns. -/
theorem clique_enumerate_nonempty (graph : Graph) (hpos : 0 < graph.length) :
    (∀ out, clique_enumerate graph = some out → ∀ C ∈ out, C.Nonempty) ∧
      (SymmetricGraph graph → IrreflexiveGraph graph → graph.length ≤ MAX_VERTICES →
        ∃ out, clique_enumerate graph = some out) := by
  constructor
  · intro out hout C hC
    rw [clique_enumerate_emitted] at hout
    cases htr : clique_enumerate_trace graph with
    | none =>
      rw [htr] at hout
      cases hout
    | some calls =>
      rw [htr] at hout
      simp only [Option.map_some', Option.some.injEq] at hout
      subst hout
      obtain ⟨s, hs, hs1, _, hs3⟩ := (mem_emitted calls C).1 hC
      unfold clique_enumerate_trace at htr
      cases hsc : start_cands graph with
      | none => simp [hsc] at htr
      | some cands =>
        simp only [hsc, Option.bind_eq_bind, Option.some_bind] at htr
        have hcands := start_cands_some hsc
        have hQ := calls_induction graph (fun s => s.clique.Nonempty ∨ s.cands ≠ ∅)
          (fun _ => True) (fun _ _ _ => trivial)
          (fun R P X v _ _ => Or.inl ⟨v, Finset.mem_insert_self _ _⟩)
          (fun _ _ _ _ _ _ => trivial) _ _ _ _ calls htr
          (Or.inr (by
            show cands ≠ ∅
            rw [hcands]
            intro h0
            have : (0 : Nat) ∈ Finset.range graph.length := Finset.mem_range.2 hpos
            rw [h0] at this
            exact absurd this (Finset.not_mem_empty _))) s hs
        rcases hQ with h1 | h1
        · rw [← hs3]
          exact h1
        · exact absurd hs1 h1
  · intro hsym hirr hn
    obtain ⟨out, hout, _, _⟩ := clique_enumerate_spec hsym hirr hn
    exact ⟨out, hout⟩

theorem clique_enumerate_nonempty_witness :
    (∀ out, clique_enumerate [{1}, {0}] = some out → ∀ C ∈ out, C.Nonempty) ∧
      (SymmetricGraph [{1}, {0}] → IrreflexiveGraph [{1}, {0}] →
        ([{1}, {0}] : Graph).length ≤ MAX_VERTICES →
        ∃ out, clique_enumerate [{1}, {0}] = some out) :=
  clique_enumerate_nonempty [{1}, {0}] (by decide)

/-! ## The single-graph tool, the universe cap and the feature reader -/

theorem std_sort_perm {α : Type} (comp : α → α → Bool) (l : List α) :
    (std_sort comp l).Perm l :=
  List.perm_insertionSort _ l

theorem filter_singletons_true (l : List IdSet) :
    l.filter (fun c => true || decide (c.card ≠ 1)) = l := by
  simp

theorem read_features_fast_vector_eq (atof : String → ℚ) (file : List String) :
    ∀ results, read_features_fast_vector atof file results = results ++ file.map atof := by
  induction file with
  | nil =>
    intro results
    simp [read_features_fast_vector]
  | cons a l ih =>
    intro results
    have h := ih (results ++ [atof a])
    unfold read_features_fast_vector at h ⊢
    rw [List.foldl_cons, h]
    simp

/-- C21: the singletons switch of the single-graph tool.  For a feature file of `n ≤ 512`
objects of `f > 0` features and either value of `sort_output`: with
`singletons = false` the tool returns and writes no 1-element clique, and with
`singletons = true` it returns and every vertex without neighbour in the graph
of the file is written exactly once as a 1-element clique. -/
theorem main_written_singletons (features : List ℚ) (epsilon : ℚ) (n f : Nat)
    (sort_output : Bool)
    (hlen : features.length = n * f) (hf : 0 < f) (hn : n ≤ MAX_VERTICES) :
    (∃ written, main_written features epsilon f sort_output false = some written ∧
      ∀ c ∈ written, c.card ≠ 1) ∧
    (∃ graph written, features_to_graph features [] epsilon f = some graph ∧
      main_written features epsilon f sort_output true = some written ∧
      ∀ v, v < n → row graph v = ∅ → written.count {v} = 1) := by
  obtain ⟨g, hg, hgl, _⟩ := features_to_graph_spec features epsilon n f hlen hf hn
  have hdiv : features.length / f = n := by
    rw [hlen]; exact Nat.mul_div_cancel n hf
  obtain ⟨_, _, hnb⟩ := features_to_graph_neighbourhood features epsilon f g hg
    (by rw [hdiv]; exact hn)
  obtain ⟨out, hout, hnd, hmem⟩ := clique_enumerate_spec hnb.symmetric hnb.irreflexive
    (by rw [hnb.1, hdiv]; exact hn)
  constructor
  · refine ⟨(if sort_output then std_sort clique_compare out else out).filter
      (fun c => false || decide (c.card ≠ 1)), ?_, ?_⟩
    · unfold main_written
      simp only [hg, hout, Option.bind_eq_bind, Option.some_bind]
    · intro c hc
      have := (List.mem_filter.1 hc).2
      simpa using this
  · refine ⟨g, if sort_output then std_sort clique_compare out else out, hg, ?_, ?_⟩
    · unfold main_written
      simp only [hg, hout, Option.bind_eq_bind, Option.some_bind]
      rw [filter_singletons_true]
    · intro v hv hrow
      have hperm : (if sort_output then std_sort clique_compare out else out).Perm out := by
        cases sort_output
        · exact List.Perm.refl _
        · exact std_sort_perm clique_compare out
      rw [hperm.count_eq]
      apply List.count_eq_one_of_mem hnd
      rw [hmem]
      refine ⟨?_, ?_, ?_⟩
      · intro w hw
        rw [Finset.mem_singleton] at hw
        rw [hw, hgl]
        exact hv
      · intro a ha b hb hab
        rw [Finset.mem_singleton] at ha hb
        exact absurd (ha.trans hb.symm) hab
      · intro w _ _ hall
        have := hall v (Finset.mem_singleton_self v)
        rw [hrow] at this
        exact absurd this (Finset.not_mem_empty _)

set_option maxRecDepth 100000 in
theorem main_written_singletons_witness :
    (∃ written, main_written [0, 10, 1 / 20] (1 / 10) 1 false false = some written ∧
      ∀ c ∈ written, c.card ≠ 1) ∧
    (∃ graph written, features_to_graph [0, 10, 1 / 20] [] (1 / 10) 1 = some graph ∧
      main_written [0, 10, 1 / 20] (1 / 10) 1 false true = some written ∧
      ∀ v, v < 3 → row graph v = ∅ → written.count {v} = 1) :=
  main_written_singletons [0, 10, 1 / 20] (1 / 10) 3 1 false (by decide) (by decide)
    (by decide)

/-- C24: the universe cap.  For feature lists of `na` and `nb` objects of `f > 0` features
and a `graph_b` of `nb` rows over the ids below `nb`, the combining
`features_to_graph` stops at the assertion `num_objects <= MAX_VERTICES`
exactly when `na + nb` exceeds 512; when `na + nb ≤ 512` it returns, the shift
of a row of `graph_b` by `na` drops no bit, and every bit of the result that
does not come from `graph_a` is below `na + nb`. -/
theorem features_to_graph_combine_cap (features_a features_b : List ℚ)
    (graph_a graph_b : Graph) (epsilon : ℚ) (na nb f : Nat)
    (hla : features_a.length = na * f) (hlb : features_b.length = nb * f) (hf : 0 < f)
    (hgb : graph_b.length = nb) (hrows : ∀ i, i < nb → ∀ y ∈ row graph_b i, y < nb) :
    (features_to_graph_combine features_a features_b graph_a graph_b epsilon f = none ↔
      MAX_VERTICES < na + nb) ∧
    (na + nb ≤ MAX_VERTICES →
      ∃ res meet,
        features_to_graph_combine features_a features_b graph_a graph_b epsilon f
          = some (res, meet) ∧
        res.length = na + nb ∧
        (∀ i, i < nb →
          shift_left (row graph_b i) na = (row graph_b i).image (fun p => p + na)) ∧
        ∀ x y, y ∈ row res x → y ∈ row graph_a x ∨ y < na + nb) := by
  have hdiva : features_a.length / f = na := by
    rw [hla]; exact Nat.mul_div_cancel na hf
  have hdivb : features_b.length / f = nb := by
    rw [hlb]; exact Nat.mul_div_cancel nb hf
  have hmoda : features_a.length % f = 0 := by
    rw [hla]; exact Nat.mul_mod_left na f
  have hmodb : features_b.length % f = 0 := by
    rw [hlb]; exact Nat.mul_mod_left nb f
  have hsome : na + nb ≤ MAX_VERTICES →
      ∃ res meet,
        features_to_graph_combine features_a features_b graph_a graph_b epsilon f
          = some (res, meet) ∧
        res.length = na + nb ∧
        (∀ i, i < nb →
          shift_left (row graph_b i) na = (row graph_b i).image (fun p => p + na)) ∧
        ∀ x y, y ∈ row res x → y ∈ row graph_a x ∨ y < na + nb := by
    intro hn
    obtain ⟨res, meet, h, hl, hm, _⟩ := features_to_graph_combine_spec features_a features_b
      graph_a graph_b epsilon na nb f hla hlb hf hn (le_of_eq hgb.symm)
    refine ⟨res, meet, h, hl, ?_, ?_⟩
    · intro i hi
      unfold shift_left
      rw [Finset.filter_eq_self]
      intro p hp
      obtain ⟨q, hq, rfl⟩ := Finset.mem_image.1 hp
      have := hrows i hi q hq
      omega
    · intro x y hy
      rcases (hm x y).1 hy with ⟨_, h1⟩ | ⟨h1, h2, h3⟩ | ⟨i, j, hi, hj, hj2, _, h4⟩
      · exact Or.inl h1
      · right
        obtain ⟨_, h5, h6⟩ := (mem_shift_left _ _ _).1 h3
        have := hrows (x - na) (by omega) _ h6
        omega
      · right
        rcases h4 with ⟨_, rfl⟩ | ⟨_, rfl⟩
        · exact hj2
        · omega
  refine ⟨?_, hsome⟩
  constructor
  · intro hnone
    by_contra hcon
    obtain ⟨res, meet, h, _⟩ := hsome (by omega)
    rw [hnone] at h
    cases h
  · intro hbig
    unfold features_to_graph_combine
    rw [if_neg (by omega), if_neg (by rw [hmodb]; simp), if_neg (by rw [hmoda]; simp)]
    simp only [hdiva, hdivb]
    rw [if_pos (by omega)]

set_option maxRecDepth 100000 in
theorem features_to_graph_combine_cap_witness :
    (features_to_graph_combine [0, 1] [1, 5, 6] [{1}, {0}] [∅, {2}, {1}] 2 1 = none ↔
      MAX_VERTICES < 2 + 3) ∧
    (2 + 3 ≤ MAX_VERTICES →
      ∃ res meet,
        features_to_graph_combine [0, 1] [1, 5, 6] [{1}, {0}] [∅, {2}, {1}] 2 1
          = some (res, meet) ∧
        res.length = 2 + 3 ∧
        (∀ i, i < 3 →
          shift_left (row [∅, {2}, {1}] i) 2 = (row [∅, {2}, {1}] i).image (fun p => p + 2)) ∧
        ∀ x y, y ∈ row res x → y ∈ row [{1}, {0}] x ∨ y < 2 + 3) :=
  features_to_graph_combine_cap [0, 1] [1, 5, 6] [{1}, {0}] [∅, {2}, {1}] 2 2 3 1
    (by decide) (by decide) (by decide) (by decide) (by decide)

/-- C25 as stated fails: a blank line at the end of the file is not ignored.  On the two
lines `1` and the blank line, `read_features_fast` returns two values, the
value of the line `1` and the value that `atof` gives the blank line, whatever
that value is. -/
theorem read_features_fast_blank_counterexample :
    ¬ ∀ (atof : String → ℚ) (lines : List String) (k : Nat),
        read_features_fast_vector atof (lines ++ List.replicate k "\n") [] =
          read_features_fast_vector atof lines [] := by
  intro h
  have h1 := congrArg List.length (h (fun _ => 0) ["1\n"] 1)
  rw [read_features_fast_vector_eq, read_features_fast_vector_eq] at h1
  simp at h1

/-- C25 (amended): the feature reader.  For every file given as a sequence of lines, each
shorter than the buffer, `read_features_fast` appends to `results` one value
per line, in order: the value that `atof` gives the line.  A blank line is a
line: it adds the value that `atof` gives it. -/
theorem read_features_fast_per_line (atof : String → ℚ) (file : List String)
    (results : List ℚ) :
    read_features_fast_vector atof file results = results ++ file.map atof ∧
      (read_features_fast_vector atof file results).length = results.length + file.length ∧
      ∀ (k : Nat), read_features_fast_vector atof (file ++ List.replicate k "\n") results =
        read_features_fast_vector atof file results ++ List.replicate k (atof "\n") := by
  refine ⟨read_features_fast_vector_eq atof file results, ?_, ?_⟩
  · rw [read_features_fast_vector_eq]
    simp
  · intro k
    rw [read_features_fast_vector_eq, read_features_fast_vector_eq]
    simp

/-! ## Text output: rendering and the nearness lines -/

theorem intercalate_go_append (s : String) (as : List String) (y : String) :
    ∀ acc, String.intercalate.go acc s (as ++ [y]) = String.intercalate.go acc s as ++ s ++ y := by
  induction as with
  | nil =>
    intro acc
    simp [String.intercalate.go]
  | cons a l ih =>
    intro acc
    simp only [List.cons_append, String.intercalate.go]
    exact ih _

theorem intercalate_append_singleton (s : String) (as : List String) (y : String)
    (h : as ≠ []) :
    s.intercalate (as ++ [y]) = s.intercalate as ++ s ++ y := by
  cases as with
  | nil => exact absurd rfl h
  | cons a l =>
    simp only [List.cons_append, String.intercalate]
    exact intercalate_go_append s l y a

theorem clique_to_string_fold (clique : IdSet) (l : List Nat) :
    l.foldl
      (fun (st : String × Bool) i =>
        if i ∈ clique then ((if st.2 then st.1 else st.1 ++ "\t") ++ toString i, false)
        else st)
      ("", true) =
    ("\t".intercalate ((l.filter (fun i => decide (i ∈ clique))).map toString),
      decide (l.filter (fun i => decide (i ∈ clique)) = [])) := by
  induction l using List.reverseRecOn with
  | nil => simp [String.intercalate]
  | append_singleton l a ih =>
    rw [List.foldl_append, ih, List.foldl_cons, List.foldl_nil, List.filter_append]
    by_cases ha : a ∈ clique
    · rw [if_pos ha]
      have hf : List.filter (fun i => decide (i ∈ clique)) [a] = [a] := by simp [ha]
      rw [hf]
      by_cases hnil : l.filter (fun i => decide (i ∈ clique)) = []
      · simp [hnil, String.intercalate, String.intercalate.go]
      · have hne : (l.filter (fun i => decide (i ∈ clique))).map (toString : Nat → String) ≠ [] := by
          simpa using hnil
        rw [List.map_append, List.map_singleton, intercalate_append_singleton _ _ _ hne]
        simp [hnil]
    · rw [if_neg ha]
      have hf : List.filter (fun i => decide (i ∈ clique)) [a] = [] := by simp [ha]
      rw [hf, List.append_nil]

theorem range_filter_eq_sort (c : IdSet) (n : Nat) (h : c ⊆ Finset.range n) :
    (List.range n).filter (fun i => decide (i ∈ c)) = c.sort (· ≤ ·) := by
  apply List.eq_of_perm_of_sorted (r := (· ≤ ·))
  · apply List.perm_of_nodup_nodup_toFinset_eq
    · exact (List.nodup_range n).filter _
    · exact Finset.sort_nodup _ _
    · ext x
      simp only [List.mem_toFinset, List.mem_filter, List.mem_range, decide_eq_true_eq,
        Finset.mem_sort]
      constructor
      · exact fun hx => hx.2
      · exact fun hx => ⟨Finset.mem_range.1 (h hx), hx⟩
  · have : (List.range n).Sorted (· ≤ ·) := by
      have h1 := List.pairwise_lt_range n
      exact h1.imp (fun hab => le_of_lt hab)
    exact List.Pairwise.sublist (List.filter_sublist _) this
  · exact Finset.sort_sorted _ _

/-- C22: text rendering.  For every set `c` of positions below the width,
`clique_to_string(c)` is the decimal indices of the members of `c`, in strictly
ascending order, joined by single tabs: nothing before the first index and
nothing after the last, and the empty string for the empty set. -/
theorem clique_to_string_render (c : IdSet) (hc : c ⊆ Finset.range MAX_VERTICES) :
    clique_to_string c = "\t".intercalate ((c.sort (· ≤ ·)).map (fun i => toString i)) ∧
      (c.sort (· ≤ ·)).Sorted (· < ·) ∧ (∀ i, i ∈ c.sort (· ≤ ·) ↔ i ∈ c) ∧
      clique_to_string ∅ = "" := by
  have hfold : ∀ d : IdSet, d ⊆ Finset.range MAX_VERTICES →
      clique_to_string d = "\t".intercalate ((d.sort (· ≤ ·)).map (fun i => toString i)) := by
    intro d hd
    unfold clique_to_string
    rw [clique_to_string_fold, range_filter_eq_sort d MAX_VERTICES hd]
  refine ⟨hfold c hc, Finset.sort_sorted_lt c, fun i => Finset.mem_sort _, ?_⟩
  rw [hfold ∅ (Finset.empty_subset _)]
  simp [String.intercalate]

set_option maxRecDepth 100000 in
theorem clique_to_string_render_witness :
    clique_to_string {0, 5, 17, 300} =
        "\t".intercalate ((({0, 5, 17, 300} : IdSet).sort (· ≤ ·)).map (fun i => toString i)) ∧
      (({0, 5, 17, 300} : IdSet).sort (· ≤ ·)).Sorted (· < ·) ∧
      (∀ i, i ∈ ({0, 5, 17, 300} : IdSet).sort (· ≤ ·) ↔ i ∈ ({0, 5, 17, 300} : IdSet)) ∧
      clique_to_string ∅ = "" :=
  clique_to_string_render {0, 5, 17, 300} (by decide)

/-! ### The nearness lines -/

theorem foldlM_append_singleton {α β : Type} (step : List β → α → Option (List β))
    (f : α → β) (l : List α)
    (hstep : ∀ acc, ∀ x ∈ l, step acc x = some (acc ++ [f x])) :
    ∀ acc, l.foldlM step acc = some (acc ++ l.map f) := by
  induction l with
  | nil =>
    intro acc
    simp
  | cons a l ih =>
    intro acc
    rw [List.foldlM_cons, hstep acc a (List.mem_cons_self _ _)]
    simp only [Option.bind_eq_bind, Option.some_bind]
    rw [ih (fun acc x hx => hstep acc x (List.mem_cons_of_mem _ hx))]
    simp

theorem foldlM_append_lists {α β : Type} (step : List β → α → Option (List β))
    (F : α → List β) (l : List α)
    (hstep : ∀ acc, ∀ x ∈ l, step acc x = some (acc ++ F x)) :
    ∀ acc, l.foldlM step acc = some (acc ++ (l.map F).flatten) := by
  induction l with
  | nil =>
    intro acc
    simp
  | cons a l ih =>
    intro acc
    rw [List.foldlM_cons, hstep acc a (List.mem_cons_self _ _)]
    simp only [Option.bind_eq_bind, Option.some_bind]
    rw [ih (fun acc x hx => hstep acc x (List.mem_cons_of_mem _ hx))]
    simp

theorem join_get_uniform {β : Type} (n : Nat) :
    ∀ (l : List (List β)), (∀ r ∈ l, r.length = n) →
      ∀ i j, j < n → l.flatten.get? (i * n + j) = (l.get? i).bind (fun r => r.get? j) := by
  intro l
  induction l with
  | nil =>
    intro _ i j _
    simp
  | cons r l ih =>
    intro hl i j hj
    have hr : r.length = n := hl r (List.mem_cons_self _ _)
    cases i with
    | zero =>
      simp only [List.flatten_cons, Nat.zero_mul, Nat.zero_add, List.get?_eq_getElem?,
        List.getElem?_cons_zero, Option.some_bind]
      rw [List.getElem?_append_left (by omega)]
    | succ i =>
      have h1 := ih (fun r hr => hl r (List.mem_cons_of_mem _ hr)) i j hj
      simp only [List.get?_eq_getElem?] at h1
      simp only [List.flatten_cons, List.get?_eq_getElem?, List.getElem?_cons_succ]
      rw [List.getElem?_append_right (by rw [hr, Nat.succ_mul]; omega)]
      rw [← h1]
      congr 1
      rw [hr, Nat.succ_mul]
      omega

theorem join_length_uniform {β : Type} (n : Nat) :
    ∀ (l : List (List β)), (∀ r ∈ l, r.length = n) → l.flatten.length = l.length * n := by
  intro l
  induction l with
  | nil => simp
  | cons r l ih =>
    intro hl
    rw [List.flatten_cons, List.length_append, ih (fun r hr => hl r (List.mem_cons_of_mem _ hr)),
      hl r (List.mem_cons_self _ _), List.length_cons, Nat.succ_mul]
    omega

/-- C23: the nearness output.  For a result matrix over `N` objects whose rows have `N`
entries, `output_results` writes exactly `N * N` lines, one for every `(i, j)`
in `[0, N) × [0, N)` in row-major order: line `i * N + j` carries `i`, `j` and
the value `results[min(i, j)][max(i, j)]`, and the line of `(j, i)` carries the
same value. -/
theorem output_results_lines (results : List (List ℚ))
    (hrows : ∀ r ∈ results, r.length = results.length) :
    ∃ lines, output_results results = some lines ∧
      lines.length = results.length * results.length ∧
      ∀ i j, i < results.length → j < results.length →
        ∃ value, (results.get? (min i j)).bind (fun r => r.get? (max i j)) = some value ∧
          lines.get? (i * results.length + j) = some (i, j, value) ∧
          lines.get? (j * results.length + i) = some (j, i, value) := by
  have hval : ∀ i j, i < results.length → j < results.length →
      (results.get? (min i j)).bind (fun r => r.get? (max i j)) =
        some ((results.getD (min i j) []).getD (max i j) 0) := by
    intro i j hi hj
    have h1 : min i j < results.length := lt_of_le_of_lt (min_le_left _ _) hi
    have h2 : max i j < results.length := max_lt hi hj
    have h3 : (results.get ⟨min i j, h1⟩).length = results.length :=
      hrows _ (List.get_mem _ _ _)
    rw [List.get?_eq_get h1, Option.some_bind, List.get?_eq_get (by rw [h3]; exact h2)]
    simp only [List.getD_eq_getElem?_getD, List.get_eq_getElem]
    rw [List.getElem?_eq_getElem h1]
    simp only [Option.getD_some]
    rw [List.getElem?_eq_getElem (by
      have := h3
      simp only [List.get_eq_getElem] at this
      rw [this]; exact h2)]
    simp
  have hinner : ∀ i, i ∈ List.range results.length → ∀ acc,
      (List.range results.length).foldlM
        (fun lines j => do
          let r ← results.get? (min i j)
          let value ← r.get? (max i j)
          some (lines ++ [(i, j, value)]))
        acc =
      some (acc ++ (List.range results.length).map
        (fun j => (i, j, (results.getD (min i j) []).getD (max i j) 0))) := by
    intro i hi
    apply foldlM_append_singleton
    intro acc j hj
    have := hval i j (List.mem_range.1 hi) (List.mem_range.1 hj)
    cases hr : results.get? (min i j) with
    | none =>
      rw [hr] at this
      cases this
    | some r =>
      rw [hr, Option.some_bind] at this
      simp only [Option.bind_eq_bind, Option.some_bind, this]
  have hout : output_results results =
      some ([] ++ ((List.range results.length).map
        (fun i => (List.range results.length).map
          (fun j => (i, j, (results.getD (min i j) []).getD (max i j) 0)))).flatten) := by
    unfold output_results
    exact foldlM_append_lists _ _ _ (fun acc i hi => hinner i hi acc) []
  rw [List.nil_append] at hout
  have hlen : ∀ r ∈ (List.range results.length).map
      (fun i => (List.range results.length).map
        (fun j => (i, j, (results.getD (min i j) []).getD (max i j) 0))),
      r.length = results.length := by
    intro r hr
    obtain ⟨i, _, rfl⟩ := List.mem_map.1 hr
    simp
  have hget : ∀ i j, i < results.length → j < results.length →
      (((List.range results.length).map
        (fun i => (List.range results.length).map
          (fun j => (i, j, (results.getD (min i j) []).getD (max i j) 0)))).flatten).get?
          (i * results.length + j) =
        some (i, j, (results.getD (min i j) []).getD (max i j) 0) := by
    intro i j hi hj
    rw [join_get_uniform results.length _ hlen i j hj]
    simp [List.getElem?_range, hi, hj]
  refine ⟨_, hout, ?_, ?_⟩
  · rw [join_length_uniform results.length _ hlen]
    simp
  · intro i j hi hj
    refine ⟨_, hval i j hi hj, hget i j hi hj, ?_⟩
    rw [hget j i hj hi, min_comm, max_comm]

theorem output_results_lines_witness :
    ∃ lines, output_results [[0, 1 / 2, 1 / 3], [0, 0, 1 / 4], [0, 0, 0]] = some lines ∧
      lines.length =
        ([[0, 1 / 2, 1 / 3], [0, 0, 1 / 4], [0, 0, 0]] : List (List ℚ)).length *
          ([[0, 1 / 2, 1 / 3], [0, 0, 1 / 4], [0, 0, 0]] : List (List ℚ)).length ∧
      ∀ i j, i < ([[0, 1 / 2, 1 / 3], [0, 0, 1 / 4], [0, 0, 0]] : List (List ℚ)).length →
        j < ([[0, 1 / 2, 1 / 3], [0, 0, 1 / 4], [0, 0, 0]] : List (List ℚ)).length →
        ∃ value,
          (([[0, 1 / 2, 1 / 3], [0, 0, 1 / 4], [0, 0, 0]] : List (List ℚ)).get? (min i j)).bind
              (fun r => r.get? (max i j)) = some value ∧
            lines.get?
              (i * ([[0, 1 / 2, 1 / 3], [0, 0, 1 / 4], [0, 0, 0]] : List (List ℚ)).length + j)
                = some (i, j, value) ∧
            lines.get?
              (j * ([[0, 1 / 2, 1 / 3], [0, 0, 1 / 4], [0, 0, 0]] : List (List ℚ)).length + i)
                = some (j, i, value) :=
  output_results_lines [[0, 1 / 2, 1 / 3], [0, 0, 1 / 4], [0, 0, 0]] (by decide)

/-! ## The command line and the comparator: the claims -/

/-- C39: the validated arguments do not all satisfy the assertions of the run.  With an
input file, one feature, `epsilon = 1` and `--threads=0`, none of the four tests
of `main` sets `error`, so `main` does not return 1, and the assertion
`num_threads > 0` at the start of `run_mce` and of `run_sgmd` fails. -/
theorem main_accepts_zero_threads :
    main_error false false 1 1 0 = false ∧ run_asserts 1 1 (main_threads false 0) = false := by
  decide!

/-- The arguments that `main` accepts satisfy the three assertions of the run as soon as the
number of threads is not zero; `int` values are below `2 ^ 31`. -/
theorem main_validated_asserts (serial input_empty : Bool) (num_features : Int) (epsilon : ℚ)
    (num_threads : Int) (hf : num_features < 2 ^ 31) (ht : num_threads < 2 ^ 31)
    (herr : main_error serial input_empty num_features epsilon num_threads = false)
    (h0 : main_threads serial num_threads ≠ 0) :
    run_asserts epsilon num_features (main_threads serial num_threads) = true := by
  unfold main_error at herr
  simp only at herr
  split_ifs at herr with h1 h2 h3 h4
  push_neg at h1 h2 h3 h4
  have h5 : main_threads serial num_threads < 2 ^ 31 := by
    unfold main_threads
    split_ifs
    · norm_num
    · exact ht
  unfold run_asserts
  simp only [Bool.and_eq_true, decide_eq_true_eq]
  refine ⟨⟨?_, ?_⟩, ?_⟩
  · rw [Int.emod_eq_of_lt (by omega) (by omega)]
    omega
  · rw [Int.emod_eq_of_lt (by omega) (by omega)]
    omega
  · tauto

theorem clique_compare_irrefl (a : IdSet) : clique_compare a a = false := by
  cases h : clique_compare a a with
  | false => rfl
  | true =>
    have := clique_compare_asymm a a h
    rw [h] at this
    cases this

theorem clique_compare_trans (a b c : IdSet) (hab : clique_compare a b = true)
    (hbc : clique_compare b c = true) : clique_compare a c = true := by
  rcases clique_compare_negtrans b c a hab with h | h
  · have := clique_compare_asymm b c hbc
    rw [h] at this
    cases this
  · exact h

theorem clique_compare_total (a b : IdSet) (ha : a ⊆ Finset.range MAX_VERTICES)
    (hb : b ⊆ Finset.range MAX_VERTICES) (hab : a ≠ b) :
    clique_compare a b = true ∨ clique_compare b a = true := by
  rcases Nat.lt_trichotomy a.card b.card with h | h | h
  · exact Or.inl ((clique_compare_iff a b).2 (Or.inl h))
  · have hex : ∃ p, ¬ (p ∈ a ↔ p ∈ b) := by
      by_contra hcon
      push_neg at hcon
      exact hab (Finset.ext hcon)
    classical
    have hmin : ∀ q, q < Nat.find hex → (q ∈ a ↔ q ∈ b) := by
      intro q hq
      by_contra hcon
      exact Nat.find_min hex hq hcon
    have hp := Nat.find_spec hex
    by_cases hpa : Nat.find hex ∈ a
    · have hpb : Nat.find hex ∉ b := fun hpb => hp ⟨fun _ => hpb, fun _ => hpa⟩
      exact Or.inl ((clique_compare_iff a b).2
        (Or.inr ⟨h, Nat.find hex, Finset.mem_range.1 (ha hpa), hpa, hpb, hmin⟩))
    · have hpb : Nat.find hex ∈ b := by
        by_contra hpb
        exact hp ⟨fun h1 => absurd h1 hpa, fun h1 => absurd h1 hpb⟩
      exact Or.inr ((clique_compare_iff b a).2
        (Or.inr ⟨h.symm, Nat.find hex, Finset.mem_range.1 (hb hpb), hpb, hpa,
          fun q hq => (hmin q hq).symm⟩))
  · exact Or.inr ((clique_compare_iff b a).2 (Or.inl h))

/-- C40: `clique_compare` is a strict total order on the sets of positions below the width:
it is irreflexive and transitive, and of two different sets `a` and `b` exactly
one of `clique_compare(a, b)` and `clique_compare(b, a)` holds. -/
theorem clique_compare_strict_total (a b c : IdSet) (ha : a ⊆ Finset.range MAX_VERTICES)
    (hb : b ⊆ Finset.range MAX_VERTICES) :
    clique_compare a a = false ∧
      (clique_compare a b = true → clique_compare b c = true → clique_compare a c = true) ∧
      (a ≠ b →
        (clique_compare a b = true ∨ clique_compare b a = true) ∧
          ¬ (clique_compare a b = true ∧ clique_compare b a = true)) := by
  refine ⟨clique_compare_irrefl a, clique_compare_trans a b c, ?_⟩
  intro hab
  refine ⟨clique_compare_total a b ha hb hab, ?_⟩
  rintro ⟨h1, h2⟩
  have := clique_compare_asymm a b h1
  rw [h2] at this
  cases this

set_option maxRecDepth 100000 in
theorem clique_compare_strict_total_witness :
    clique_compare {0, 5} {0, 5} = false ∧
      (clique_compare {0, 5} {1, 2} = true → clique_compare {1, 2} {0, 1, 2} = true →
        clique_compare {0, 5} {0, 1, 2} = true) ∧
      (({0, 5} : IdSet) ≠ {1, 2} →
        (clique_compare {0, 5} {1, 2} = true ∨ clique_compare {1, 2} {0, 5} = true) ∧
          ¬ (clique_compare {0, 5} {1, 2} = true ∧ clique_compare {1, 2} {0, 5} = true)) :=
  clique_compare_strict_total {0, 5} {1, 2} {0, 1, 2} (by decide) (by decide)

/-! ## The combined graph against the graph of the concatenation -/

theorem getD_append_object (A B : List ℚ) (na f : Nat) (hla : A.length = na * f)
    (i k : Nat) (hk : k < f) :
    (A ++ B).getD (i * f + k) 0 =
      if i < na then A.getD (i * f + k) 0 else B.getD ((i - na) * f + k) 0 := by
  by_cases hi : i < na
  · rw [if_pos hi]
    have hlt : i * f + k < A.length := by
      rw [hla]
      have : (i + 1) * f ≤ na * f := Nat.mul_le_mul_right f hi
      rw [Nat.succ_mul] at this
      omega
    rw [List.getD_eq_getElem?_getD, List.getD_eq_getElem?_getD,
      List.getElem?_append_left hlt]
  · rw [if_neg hi]
    have hge : A.length ≤ i * f + k := by
      rw [hla]
      have : na * f ≤ i * f := Nat.mul_le_mul_right f (by omega)
      omega
    rw [List.getD_eq_getElem?_getD, List.getD_eq_getElem?_getD,
      List.getElem?_append_right hge]
    congr 2
    rw [hla]
    have h1 : i = na + (i - na) := by omega
    conv_lhs => rw [h1, Nat.add_mul]
    omega

theorem distance_append (A B : List ℚ) (na f : Nat) (hla : A.length = na * f) (i j : Nat) :
    distance (A ++ B) (A ++ B) (i * f) (j * f) f =
      if i < na then
        if j < na then distance A A (i * f) (j * f) f
        else distance A B (i * f) ((j - na) * f) f
      else
        if j < na then distance B A ((i - na) * f) (j * f) f
        else distance B B ((i - na) * f) ((j - na) * f) f := by
  have key : ∀ (P Q : List ℚ) (a b : Nat),
      (∀ k, k < f → (A ++ B).getD (i * f + k) 0 = P.getD (a + k) 0) →
      (∀ k, k < f → (A ++ B).getD (j * f + k) 0 = Q.getD (b + k) 0) →
      distance (A ++ B) (A ++ B) (i * f) (j * f) f = distance P Q a b f := by
    intro P Q a b h1 h2
    rw [distance_eq_sum, distance_eq_sum]
    apply Finset.sum_congr rfl
    intro k hk
    rw [h1 k (Finset.mem_range.1 hk), h2 k (Finset.mem_range.1 hk)]
  by_cases hi : i < na <;> by_cases hj : j < na
  · rw [if_pos hi, if_pos hj]
    exact key A A _ _
      (fun k hk => by rw [getD_append_object A B na f hla i k hk, if_pos hi])
      (fun k hk => by rw [getD_append_object A B na f hla j k hk, if_pos hj])
  · rw [if_pos hi, if_neg hj]
    exact key A B _ _
      (fun k hk => by rw [getD_append_object A B na f hla i k hk, if_pos hi])
      (fun k hk => by rw [getD_append_object A B na f hla j k hk, if_neg hj])
  · rw [if_neg hi, if_pos hj]
    exact key B A _ _
      (fun k hk => by rw [getD_append_object A B na f hla i k hk, if_neg hi])
      (fun k hk => by rw [getD_append_object A B na f hla j k hk, if_pos hj])
  · rw [if_neg hi, if_neg hj]
    exact key B B _ _
      (fun k hk => by rw [getD_append_object A B na f hla i k hk, if_neg hi])
      (fun k hk => by rw [getD_append_object A B na f hla j k hk, if_neg hj])

theorem graph_ext (g h : Graph) (hl : g.length = h.length) (hr : ∀ x, row g x = row h x) :
    g = h := by
  apply List.ext_getElem hl
  intro x h1 h2
  have := hr x
  unfold row at this
  rw [List.getD_eq_getElem?_getD, List.getD_eq_getElem?_getD, List.getElem?_eq_getElem h1,
    List.getElem?_eq_getElem h2] at this
  simpa using this

/-- The combined graph of `A` and `B`, built from the graphs of `A` and of `B`, has the rows
that the pairs of objects of `A ++ B` at squared distance below `epsilon²` give. -/
theorem features_to_graph_combine_concat (A B : List ℚ) (epsilon : ℚ) (na nb f : Nat)
    (hla : A.length = na * f) (hlb : B.length = nb * f) (hf : 0 < f)
    (hn : na + nb ≤ MAX_VERTICES) :
    ∃ graph_a graph_b res meet,
      features_to_graph A [] epsilon f = some graph_a ∧
      features_to_graph B [] epsilon f = some graph_b ∧
      features_to_graph_combine A B graph_a graph_b epsilon f = some (res, meet) ∧
      res.length = na + nb ∧
      (∀ x y, y ∈ row res x ↔
        ∃ i j, i < j ∧ j < na + nb ∧
          distance (A ++ B) (A ++ B) (i * f) (j * f) f < epsilon * epsilon ∧
          ((x = i ∧ y = j) ∨ (x = j ∧ y = i))) ∧
      (meet = true ↔ ∃ i j, i < na ∧ na ≤ j ∧ j < na + nb ∧
        distance A B (i * f) ((j - na) * f) f < epsilon * epsilon) := by
  obtain ⟨ga, hga, hgal, hgam⟩ := features_to_graph_spec A epsilon na f hla hf (by omega)
  obtain ⟨gb, hgb, hgbl, hgbm⟩ := features_to_graph_spec B epsilon nb f hlb hf (by omega)
  obtain ⟨res, meet, hres, hresl, hresm, hmeet⟩ := features_to_graph_combine_spec A B ga gb
    epsilon na nb f hla hlb hf hn (le_of_eq hgbl.symm)
  refine ⟨ga, gb, res, meet, hga, hgb, hres, hresl, ?_, hmeet⟩
  intro x y
  rw [hresm]
  constructor
  · rintro (⟨_, h1⟩ | ⟨h1, h2, h3⟩ | ⟨i, j, hi, hj, hj2, hd1, hc⟩)
    · obtain ⟨i, j, hij, hj, hd1, hc⟩ := (hgam x y).1 h1
      refine ⟨i, j, hij, by omega, ?_, hc⟩
      rw [distance_append A B na f hla, if_pos (by omega), if_pos hj]
      exact hd1
    · obtain ⟨_, h4, h5⟩ := (mem_shift_left _ _ _).1 h3
      obtain ⟨i, j, hij, hj, hd1, hc⟩ := (hgbm (x - na) (y - na)).1 h5
      refine ⟨na + i, na + j, by omega, by omega, ?_, ?_⟩
      · rw [distance_append A B na f hla, if_neg (by omega), if_neg (by omega),
          Nat.add_sub_cancel_left, Nat.add_sub_cancel_left]
        exact hd1
      · rcases hc with ⟨h6, h7⟩ | ⟨h6, h7⟩
        · exact Or.inl ⟨by omega, by omega⟩
        · exact Or.inr ⟨by omega, by omega⟩
    · refine ⟨i, j, by omega, hj2, ?_, hc⟩
      rw [distance_append A B na f hla, if_pos hi, if_neg (by omega)]
      exact hd1
  · rintro ⟨i, j, hij, hj, hd1, hc⟩
    rw [distance_append A B na f hla] at hd1
    by_cases hi : i < na
    · by_cases hj2 : j < na
      · rw [if_pos hi, if_pos hj2] at hd1
        refine Or.inl ⟨?_, (hgam x y).2 ⟨i, j, hij, hj2, hd1, hc⟩⟩
        rcases hc with ⟨h6, _⟩ | ⟨h6, _⟩ <;> omega
      · rw [if_pos hi, if_neg hj2] at hd1
        exact Or.inr (Or.inr ⟨i, j, hi, by omega, hj, hd1, hc⟩)
    · rw [if_neg hi, if_neg (by omega)] at hd1
      refine Or.inr (Or.inl ⟨?_, ?_, ?_⟩)
      · rcases hc with ⟨h6, _⟩ | ⟨h6, _⟩ <;> omega
      · rcases hc with ⟨h6, _⟩ | ⟨h6, _⟩ <;> omega
      · rw [mem_shift_left]
        refine ⟨?_, ?_, ?_⟩
        · rcases hc with ⟨_, h6⟩ | ⟨_, h6⟩ <;> omega
        · rcases hc with ⟨_, h6⟩ | ⟨_, h6⟩ <;> omega
        · rw [hgbm]
          refine ⟨i - na, j - na, by omega, by omega, hd1, ?_⟩
          rcases hc with ⟨h6, h7⟩ | ⟨h6, h7⟩
          · exact Or.inl ⟨by omega, by omega⟩
          · exact Or.inr ⟨by omega, by omega⟩

/-- C35: the combined graph is the graph of the concatenation.  For feature lists `A` of `na`
and `B` of `nb` objects of `f > 0` features with `na + nb ≤ 512` and every
`epsilon`: the single-list `features_to_graph` builds the graphs of `A`, of `B`
and of `A ++ B`, the combining `features_to_graph` on `A`, `B` and the graphs of
`A` and `B` returns a graph, and this graph is the graph of `A ++ B`: the same
number of rows, and the same row at every index. -/
theorem features_to_graph_combine_direct (A B : List ℚ) (epsilon : ℚ) (na nb f : Nat)
    (hla : A.length = na * f) (hlb : B.length = nb * f) (hf : 0 < f)
    (hn : na + nb ≤ MAX_VERTICES) :
    ∃ graph_a graph_b res meet direct,
      features_to_graph A [] epsilon f = some graph_a ∧
      features_to_graph B [] epsilon f = some graph_b ∧
      features_to_graph_combine A B graph_a graph_b epsilon f = some (res, meet) ∧
      features_to_graph (A ++ B) [] epsilon f = some direct ∧
      res.length = direct.length ∧ (∀ x, row res x = row direct x) ∧ res = direct := by
  obtain ⟨ga, gb, res, meet, hga, hgb, hres, hresl, hresm, _⟩ :=
    features_to_graph_combine_concat A B epsilon na nb f hla hlb hf hn
  obtain ⟨direct, hd, hdl, hdm⟩ := features_to_graph_spec (A ++ B) epsilon (na + nb) f
    (by rw [List.length_append, hla, hlb, Nat.add_mul]) hf hn
  have hrows : ∀ x, row res x = row direct x := by
    intro x
    ext y
    rw [hresm, hdm]
  have hlen : res.length = direct.length := by rw [hresl, hdl]
  exact ⟨ga, gb, res, meet, direct, hga, hgb, hres, hd, hlen, hrows,
    graph_ext res direct hlen hrows⟩

set_option maxRecDepth 100000 in
theorem features_to_graph_combine_direct_witness :
    ∃ graph_a graph_b res meet direct,
      features_to_graph [0, 1] [] 2 1 = some graph_a ∧
      features_to_graph [1, 5, 6] [] 2 1 = some graph_b ∧
      features_to_graph_combine [0, 1] [1, 5, 6] graph_a graph_b 2 1 = some (res, meet) ∧
      features_to_graph ([0, 1] ++ [1, 5, 6]) [] 2 1 = some direct ∧
      res.length = direct.length ∧ (∀ x, row res x = row direct x) ∧ res = direct :=
  features_to_graph_combine_direct [0, 1] [1, 5, 6] 2 2 3 1 (by decide) (by decide)
    (by decide) (by decide)

/-! ## Division safety of the MCE task -/

theorem eq_some_of_map_decide {α : Type} [DecidableEq α] (o : Option α) (g : α)
    (h : o.map (fun r => decide (r = g)) = some true) : o = some g := by
  cases o with
  | none => cases h
  | some r =>
    simp only [Option.map_some', Option.some.injEq, decide_eq_true_eq] at h
    rw [h]

/-- C38 (amended): division safety of the MCE task below the range of `int`.  For object sets
`A` of `na` and `B` of `nb` objects of `f > 0` features with `na + nb ≤ 512`,
their graphs built by `features_to_graph`, and either value of `singletons`:
when the combining `features_to_graph` returns `meet = true`, the enumeration
on the combined graph returns, the reducer `nearness_mce` accepts every
clique, `max(x, y) > 0` for the counters `x` and `y` of every emitted clique,
and when the sizes of the counted cliques add up to less than `2^31` the
denominator accumulated is strictly positive and `numerator / denominator` is
the rational that is stored. -/
theorem nearness_mce_division_safe (A B : List ℚ) (epsilon : ℚ) (na nb f : Nat)
    (singletons : Bool) (graph_a graph_b res : Graph)
    (hla : A.length = na * f) (hlb : B.length = nb * f) (hf : 0 < f)
    (hn : na + nb ≤ MAX_VERTICES)
    (hga : features_to_graph A [] epsilon f = some graph_a)
    (hgb : features_to_graph B [] epsilon f = some graph_b)
    (hmeet : features_to_graph_combine A B graph_a graph_b epsilon f = some (res, true)) :
    ∃ cliques acc, clique_enumerate res = some cliques ∧
      cliques.foldlM (fun acc clique => nearness_mce res.length singletons clique acc) (0, 0)
        = some acc ∧
      (counted_sizes singletons cliques < 2147483648 →
        0 < acc.2 ∧ nearness_value res singletons = some (some (acc.1 / (acc.2 : ℚ)))) ∧
      ∀ C ∈ cliques,
        0 < max
          ((List.range (res.length / 2)).foldl (fun x i => if i ∈ C then x + 1 else x) 0)
          ((List.range' (res.length / 2) (res.length - res.length / 2)).foldl
            (fun y i => if i ∈ C then y + 1 else y) 0) := by
  have hdiva : A.length / f = na := by
    rw [hla]; exact Nat.mul_div_cancel na hf
  have hdivb : B.length / f = nb := by
    rw [hlb]; exact Nat.mul_div_cancel nb hf
  obtain ⟨_, _, hna⟩ := features_to_graph_neighbourhood A epsilon f graph_a hga
    (by rw [hdiva]; omega)
  obtain ⟨_, _, hnb⟩ := features_to_graph_neighbourhood B epsilon f graph_b hgb
    (by rw [hdivb]; omega)
  rw [hdiva] at hna
  rw [hdivb] at hnb
  obtain ⟨res2, meet2, hres, hresl, hresm, hmeet2⟩ := features_to_graph_combine_spec A B
    graph_a graph_b epsilon na nb f hla hlb hf hn (le_of_eq hnb.1.symm)
  rw [hmeet] at hres
  simp only [Option.some.injEq, Prod.mk.injEq] at hres
  obtain ⟨hr, hm⟩ := hres
  subst hr
  subst hm
  have hnbh : IsNeighbourhoodGraph res (na + nb) :=
    combine_neighbourhood
      (fun i j => distance A B (i * f) ((j - na) * f) f < epsilon * epsilon) hn hna hnb
      hresl hresm
  obtain ⟨i, j, hi, hj, hj2, hd⟩ := hmeet2.1 rfl
  have hedge : j ∈ row res i :=
    (hresm i j).2 (Or.inr (Or.inr ⟨i, j, hi, hj, hj2, hd, Or.inl ⟨rfl, rfl⟩⟩))
  obtain ⟨out, acc, hout, hfold, _, _, h2, h3, hval, hall⟩ :=
    nearness_value_parts hnbh hn singletons i j hedge
  refine ⟨out, acc, hout, hfold, ?_, ?_⟩
  · intro hsum
    have hden : acc.2 = (counted_sizes singletons out : Int) := by
      rw [h3]
      exact int_wrap_small _ (by omega) (by omega)
    have hSpos : 0 < counted_sizes singletons out := Nat.lt_of_lt_of_le (by decide) h2
    have hpos : 0 < acc.2 := by
      rw [hden]
      exact_mod_cast hSpos
    have hne : acc.2 ≠ 0 := ne_of_gt hpos
    refine ⟨hpos, ?_⟩
    rw [hval, if_neg hne]
  · intro C hC
    obtain ⟨hC1, hC2⟩ := hall C hC
    have hsplit := count_split C res.length hC1
    have hcard : 0 < C.card := Finset.card_pos.2 hC2
    rw [lt_max_iff]
    omega

set_option maxRecDepth 100000 in
theorem nearness_mce_division_safe_witness :
    graph_counted_sizes [{1, 2}, {0, 2}, {0, 1}, {4}, {3}] true < 2147483648 ∧
    ∃ cliques acc, clique_enumerate [{1, 2}, {0, 2}, {0, 1}, {4}, {3}] = some cliques ∧
      cliques.foldlM
        (fun acc clique => nearness_mce ([{1, 2}, {0, 2}, {0, 1}, {4}, {3}] : Graph).length true clique acc) (0, 0)
        = some acc ∧
      (counted_sizes true cliques < 2147483648 →
        0 < acc.2 ∧
        nearness_value [{1, 2}, {0, 2}, {0, 1}, {4}, {3}] true
          = some (some (acc.1 / (acc.2 : ℚ)))) ∧
      ∀ C ∈ cliques,
        0 < max
          ((List.range (([{1, 2}, {0, 2}, {0, 1}, {4}, {3}] : Graph).length / 2)).foldl
            (fun x i => if i ∈ C then x + 1 else x) 0)
          ((List.range' (([{1, 2}, {0, 2}, {0, 1}, {4}, {3}] : Graph).length / 2)
              (([{1, 2}, {0, 2}, {0, 1}, {4}, {3}] : Graph).length - ([{1, 2}, {0, 2}, {0, 1}, {4}, {3}] : Graph).length / 2)).foldl
            (fun y i => if i ∈ C then y + 1 else y) 0) :=
  ⟨by decide!,
    nearness_mce_division_safe [0, 1] [1, 5, 6] 2 2 3 1 true [{1}, {0}] [∅, {2}, {1}]
      [{1, 2}, {0, 2}, {0, 1}, {4}, {3}]
      (by decide) (by decide) (by decide) (by decide)
      (eq_some_of_map_decide _ _ (by decide!)) (eq_some_of_map_decide _ _ (by decide!))
      (eq_some_of_map_decide _ _ (by decide!))⟩

/-! ## A joint graph with more members of maximal cliques than an `int` counts -/

theorem triple_object_length (v : Nat) : (triple_object v).length = 51 := by
  simp [triple_object]

theorem triple_objects_length (first count : Nat) :
    (triple_objects first count).length = count * 51 := by
  unfold triple_objects
  rw [join_length_uniform 51]
  · simp
  · intro r hr
    obtain ⟨v, _, rfl⟩ := List.mem_map.1 hr
    exact triple_object_length v

theorem triple_objects_append (a b c : Nat) :
    triple_objects a b ++ triple_objects (a + b) c = triple_objects a (b + c) := by
  unfold triple_objects
  rw [← List.flatten_append, ← List.map_append, List.range'_append_1, Nat.add_comm c b]

/-- The distance between two objects of a list of objects of `f` features each. -/
theorem distance_flatten (l : List (List ℚ)) (f : Nat) (hl : ∀ r ∈ l, r.length = f)
    (i j : Nat) :
    distance l.flatten l.flatten (i * f) (j * f) f
      = distance (l.getD i []) (l.getD j []) 0 0 f := by
  have key : ∀ i k, k < f → l.flatten.getD (i * f + k) 0 = (l.getD i []).getD (0 + k) 0 := by
    intro i k hk
    have h := join_get_uniform f l hl i k hk
    rw [List.get?_eq_getElem?] at h
    rw [List.getD_eq_getElem?_getD, h, Nat.zero_add, List.getD_eq_getElem?_getD,
      List.getD_eq_getElem?_getD, List.get?_eq_getElem?]
    cases l[i]? with
    | none => simp
    | some r => simp
  rw [distance_eq_sum, distance_eq_sum]
  apply Finset.sum_congr rfl
  intro k hk
  rw [key i k (Finset.mem_range.1 hk), key j k (Finset.mem_range.1 hk)]

theorem triple_objects_getD (n v : Nat) (hv : v < n) :
    ((List.range' 0 n).map triple_object).getD v [] = triple_object v := by
  rw [List.getD_eq_getElem?_getD, List.getElem?_map, List.getElem?_range' _ _ hv]
  simp

theorem triple_object_getD (v c : Nat) (hc : c < 51) :
    (triple_object v).getD (0 + c) 0
      = if c / 3 = v / 3 then (if c = v then 2 else -1) else 0 := by
  unfold triple_object
  rw [Nat.zero_add, List.getD_eq_getElem?_getD, List.getElem?_map,
    List.getElem?_range hc]
  rfl

theorem triple_square_eq (i j c : Nat) :
    ((if c / 3 = i / 3 then (if c = i then 2 else -1) else 0 : ℚ)
      - (if c / 3 = j / 3 then (if c = j then 2 else -1) else 0)) ^ 2
      = (triple_square i j c : ℚ) := by
  unfold triple_square
  split_ifs <;> norm_num

theorem triple_object_distance (i j : Nat) :
    distance (triple_object i) (triple_object j) 0 0 51
      = ((∑ c ∈ Finset.range 51, triple_square i j c : Nat) : ℚ) := by
  rw [distance_eq_sum, Nat.cast_sum]
  apply Finset.sum_congr rfl
  intro c hc
  rw [triple_object_getD i c (Finset.mem_range.1 hc),
    triple_object_getD j c (Finset.mem_range.1 hc), triple_square_eq]

set_option maxRecDepth 100000 in
theorem triple_square_sum :
    ∀ j, j < 51 → ∀ i, i < j →
      (decide (∑ c ∈ Finset.range 51, triple_square i j c < 16) = decide (i / 3 ≠ j / 3)) := by
  decide!

/-- Two of the 51 objects are within `epsilon = 4` exactly when they lie in different
blocks. -/
theorem triple_objects_near (i j : Nat) (hij : i < j) (hj : j < 51) :
    distance (triple_objects 0 51) (triple_objects 0 51) (i * 51) (j * 51) 51 < 4 * 4
      ↔ i / 3 ≠ j / 3 := by
  unfold triple_objects
  rw [distance_flatten _ 51 (by
    intro r hr
    obtain ⟨v, _, rfl⟩ := List.mem_map.1 hr
    exact triple_object_length v), triple_objects_getD 51 i (by omega),
    triple_objects_getD 51 j hj, triple_object_distance]
  have h := triple_square_sum j hj i hij
  rw [decide_eq_decide] at h
  rw [← h]
  norm_num
  exact_mod_cast Iff.rfl

theorem mem_triple_transversal (τ : Fin 17 → Fin 3) (v : Nat) :
    v ∈ triple_transversal τ ↔ ∃ p : Fin 17, 3 * p.val + (τ p).val = v := by
  simp [triple_transversal]

theorem triple_transversal_card (τ : Fin 17 → Fin 3) : (triple_transversal τ).card = 17 := by
  unfold triple_transversal
  rw [Finset.card_image_of_injective]
  · simp
  · intro p q h
    have h1 := (τ p).isLt
    have h2 := (τ q).isLt
    apply Fin.ext
    simp only at h
    omega

theorem triple_transversal_injective : Function.Injective triple_transversal := by
  intro τ σ h
  funext p
  have h1 : 3 * p.val + (τ p).val ∈ triple_transversal σ := by
    rw [← h, mem_triple_transversal]
    exact ⟨p, rfl⟩
  obtain ⟨q, hq⟩ := (mem_triple_transversal σ _).1 h1
  have h2 := (τ p).isLt
  have h3 := (σ q).isLt
  have hpq : q = p := Fin.ext (by omega)
  subst hpq
  exact Fin.ext (by omega)

/-- In the graph on 51 vertices whose edges join the vertices of different blocks of three,
a set with one vertex from every block is a maximal clique. -/
theorem triple_transversal_maximal (g : Graph) (hl : g.length = 51)
    (hadj : ∀ x y, y ∈ row g x ↔ x < 51 ∧ y < 51 ∧ x / 3 ≠ y / 3) (τ : Fin 17 → Fin 3) :
    (∀ v ∈ triple_transversal τ, v < g.length) ∧ PairwiseAdjacent g (triple_transversal τ) ∧
      NotExtensible g (triple_transversal τ) := by
  refine ⟨?_, ?_, ?_⟩
  · intro v hv
    obtain ⟨p, rfl⟩ := (mem_triple_transversal τ v).1 hv
    have h1 := p.isLt
    have h2 := (τ p).isLt
    omega
  · intro u hu v hv huv
    obtain ⟨p, rfl⟩ := (mem_triple_transversal τ u).1 hu
    obtain ⟨q, rfl⟩ := (mem_triple_transversal τ v).1 hv
    have h1 := p.isLt
    have h2 := (τ p).isLt
    have h3 := q.isLt
    have h4 := (τ q).isLt
    have hpq : p.val ≠ q.val := by
      intro h
      have h5 : p = q := Fin.ext h
      subst h5
      exact huv rfl
    rw [hadj]
    omega
  · intro w hw hwC hall
    rw [hl] at hw
    have h1 := (τ ⟨w / 3, by omega⟩).isLt
    have h2 : 3 * (w / 3) + (τ ⟨w / 3, by omega⟩).val ∈ triple_transversal τ :=
      (mem_triple_transversal τ _).2 ⟨⟨w / 3, by omega⟩, rfl⟩
    have h3 := (hadj _ _).1 (hall _ h2)
    omega

/-- In the graph on 51 vertices whose edges join the vertices of different blocks of three,
every maximal clique has one vertex from every block. -/
theorem maximal_triple_transversal (g : Graph) (hl : g.length = 51)
    (hadj : ∀ x y, y ∈ row g x ↔ x < 51 ∧ y < 51 ∧ x / 3 ≠ y / 3) (C : IdSet)
    (hb : ∀ v ∈ C, v < g.length) (hpa : PairwiseAdjacent g C) (hne : NotExtensible g C) :
    ∃ τ, C = triple_transversal τ := by
  rw [hl] at hb
  have hex : ∀ p : Fin 17, ∃ v, v ∈ C ∧ v / 3 = p.val := by
    intro p
    by_contra hcon
    push_neg at hcon
    have hp := p.isLt
    refine hne (3 * p.val) (by omega) ?_ ?_
    · intro h
      exact hcon _ h (by omega)
    · intro u hu
      rw [hadj]
      have := hcon u hu
      have := hb u hu
      omega
  choose f hfC hf using hex
  refine ⟨fun p => ⟨f p % 3, Nat.mod_lt _ (by norm_num)⟩, ?_⟩
  ext v
  rw [mem_triple_transversal]
  constructor
  · intro hv
    have hv51 := hb v hv
    refine ⟨⟨v / 3, by omega⟩, ?_⟩
    have h1 := hf ⟨v / 3, by omega⟩
    have h2 : f ⟨v / 3, by omega⟩ = v := by
      by_contra h3
      have h4 := (hadj _ _).1 (hpa _ (hfC ⟨v / 3, by omega⟩) v hv h3)
      simp only at h1
      omega
    simp only [h2]
    omega
  · rintro ⟨p, rfl⟩
    have h1 := hf p
    have h2 : 3 * p.val + f p % 3 = f p := by omega
    simp only [h2]
    exact hfC p

/-- In the graph on 51 vertices whose edges join the vertices of different blocks of three,
the enumerator emits `3 ^ 17` maximal cliques of 17 vertices each, with a
vertex below 3 and a vertex from 48 on in every one of them. -/
theorem triple_cliques (g : Graph) (hl : g.length = 51)
    (hadj : ∀ x y, y ∈ row g x ↔ x < 51 ∧ y < 51 ∧ x / 3 ≠ y / 3) :
    ∃ out, clique_enumerate g = some out ∧ out.length = 129140163 ∧
      ∀ C ∈ out, C.card = 17 ∧ (∀ v ∈ C, v < 51) ∧ (∃ v ∈ C, v < 3) ∧ (∃ v ∈ C, 48 ≤ v) := by
  have hsym : SymmetricGraph g := by
    have hg : IsNeighbourhoodGraph g 51 := by
      refine ⟨hl, ?_⟩
      intro x y hxy
      have := (hadj x y).1 hxy
      refine ⟨by omega, by omega, ?_, ?_⟩
      · intro h
        subst h
        omega
      · rw [hadj]
        omega
    exact hg.symmetric
  have hirr : IrreflexiveGraph g := by
    have hg : IsNeighbourhoodGraph g 51 := by
      refine ⟨hl, ?_⟩
      intro x y hxy
      have := (hadj x y).1 hxy
      refine ⟨by omega, by omega, ?_, ?_⟩
      · intro h
        subst h
        omega
      · rw [hadj]
        omega
    exact hg.irreflexive
  obtain ⟨out, hout, hnd, hmem⟩ := clique_enumerate_spec hsym hirr
    (by rw [hl]; unfold MAX_VERTICES; omega)
  have hT : ∀ C ∈ out, ∃ τ, C = triple_transversal τ := by
    intro C hC
    obtain ⟨h1, h2, h3⟩ := (hmem C).1 hC
    exact maximal_triple_transversal g hl hadj C h1 h2 h3
  have hset : out.toFinset = Finset.univ.image triple_transversal := by
    ext C
    rw [List.mem_toFinset, Finset.mem_image]
    constructor
    · intro hC
      obtain ⟨τ, h⟩ := hT C hC
      exact ⟨τ, Finset.mem_univ _, h.symm⟩
    · rintro ⟨τ, _, rfl⟩
      exact (hmem _).2 (triple_transversal_maximal g hl hadj τ)
  refine ⟨out, hout, ?_, ?_⟩
  · rw [← List.toFinset_card_of_nodup hnd, hset,
      Finset.card_image_of_injective _ triple_transversal_injective, Finset.card_univ,
      Fintype.card_fun, Fintype.card_fin, Fintype.card_fin]
    norm_num
  · intro C hC
    have hb : ∀ v ∈ C, v < 51 := by
      intro v hv
      have := ((hmem C).1 hC).1 v hv
      omega
    obtain ⟨τ, rfl⟩ := hT C hC
    refine ⟨triple_transversal_card τ, hb, ?_, ?_⟩
    · refine ⟨3 * 0 + (τ 0).val, (mem_triple_transversal τ _).2 ⟨0, rfl⟩, ?_⟩
      have := (τ 0).isLt
      omega
    · exact ⟨3 * 16 + (τ 16).val, (mem_triple_transversal τ _).2 ⟨16, rfl⟩, by omega⟩

theorem counted_sizes_uniform (s : Bool) (k : Nat) (hk : 1 < k) (l : List IdSet)
    (h : ∀ C ∈ l, C.card = k) : counted_sizes s l = l.length * k := by
  induction l with
  | nil => simp [counted_sizes_nil]
  | cons a l ih =>
    rw [counted_sizes_cons, ih (fun C hC => h C (List.mem_cons_of_mem _ hC)),
      h a (List.mem_cons_self _ _), if_pos (Or.inr hk), List.length_cons, Nat.succ_mul]
    omega

theorem count_fold_pos (C : IdSet) (l : List Nat) (v : Nat) (hv : v ∈ l) (hC : v ∈ C) :
    0 < l.foldl (fun x i => if i ∈ C then x + 1 else x) 0 := by
  rw [count_fold, Nat.zero_add]
  exact List.length_pos_of_mem (List.mem_filter.2 ⟨hv, by simpa using hC⟩)

/-- The two neighbourhood graphs and the joint graph of the first 24 and the last 27 of the 51
objects of `triple_object`, for `epsilon = 4`: the builders return, `meet` is
true, and the edges of the joint graph join the objects of different blocks. -/
theorem triple_graph :
    ∃ graph_a graph_b res,
      features_to_graph (triple_objects 0 24) [] 4 51 = some graph_a ∧
      features_to_graph (triple_objects 24 27) [] 4 51 = some graph_b ∧
      features_to_graph_combine (triple_objects 0 24) (triple_objects 24 27) graph_a graph_b
        4 51 = some (res, true) ∧
      res.length = 51 ∧ ∀ x y, y ∈ row res x ↔ x < 51 ∧ y < 51 ∧ x / 3 ≠ y / 3 := by
  have hla := triple_objects_length 0 24
  have hlb := triple_objects_length 24 27
  have happ : triple_objects 0 24 ++ triple_objects 24 27 = triple_objects 0 51 :=
    triple_objects_append 0 24 27
  obtain ⟨ga, gb, res, meet, hga, hgb, hres, hresl, hresm, hmeet⟩ :=
    features_to_graph_combine_concat (triple_objects 0 24) (triple_objects 24 27) 4 24 27 51
      hla hlb (by norm_num) (by unfold MAX_VERTICES; omega)
  have hm : meet = true := by
    rw [hmeet]
    refine ⟨0, 24, by omega, by omega, by omega, ?_⟩
    have h1 := distance_append (triple_objects 0 24) (triple_objects 24 27) 24 51 hla 0 24
    rw [if_pos (by omega), if_neg (by omega), happ] at h1
    rw [← h1]
    exact (triple_objects_near 0 24 (by omega) (by omega)).2 (by omega)
  subst hm
  refine ⟨ga, gb, res, hga, hgb, hres, hresl, ?_⟩
  intro x y
  rw [hresm, happ]
  constructor
  · rintro ⟨i, j, hij, hj, hd, hc⟩
    have h1 := (triple_objects_near i j hij hj).1 hd
    rcases hc with ⟨rfl, rfl⟩ | ⟨rfl, rfl⟩
    · exact ⟨by omega, by omega, h1⟩
    · exact ⟨by omega, by omega, fun h => h1 h.symm⟩
  · rintro ⟨hx, hy, hxy⟩
    rcases Nat.lt_or_gt_of_ne (fun h : x = y => hxy (by rw [h])) with h | h
    · exact ⟨x, y, h, hy, (triple_objects_near x y h hy).2 hxy, Or.inl ⟨rfl, rfl⟩⟩
    · exact ⟨y, x, h, hx, (triple_objects_near y x h hx).2 (fun h2 => hxy h2.symm),
        Or.inr ⟨rfl, rfl⟩⟩

/-- The MCE nearness of the first 24 and the last 27 of the 51 objects of `triple_object`, for
`epsilon = 4` and either value of `singletons`: the joint graph has `3 ^ 17`
maximal cliques of 17 vertices, the sizes of the counted cliques add up to
`17 * 3 ^ 17 = 2195382771`, the `int` denominator is `2195382771 - 2 ^ 32`,
the numerator is positive and the value stored is their quotient. -/
theorem triple_run (s : Bool) :
    ∃ graph_a graph_b res cliques acc,
      features_to_graph (triple_objects 0 24) [] 4 51 = some graph_a ∧
      features_to_graph (triple_objects 24 27) [] 4 51 = some graph_b ∧
      features_to_graph_combine (triple_objects 0 24) (triple_objects 24 27) graph_a graph_b
        4 51 = some (res, true) ∧
      clique_enumerate res = some cliques ∧
      cliques.foldlM (fun acc clique => nearness_mce res.length s clique acc) (0, 0)
        = some acc ∧
      counted_sizes s cliques = 2195382771 ∧ acc.2 = -2099584525 ∧ 0 < acc.1 ∧
      nearness_value res s = some (some (acc.1 / (acc.2 : ℚ))) := by
  obtain ⟨ga, gb, res, hga, hgb, hres, hresl, hadj⟩ := triple_graph
  obtain ⟨out, hout, hlen, hC⟩ := triple_cliques res hresl hadj
  have hsum : counted_sizes s out = 2195382771 := by
    rw [counted_sizes_uniform s 17 (by omega) out (fun C h => (hC C h).1), hlen]
  have hall : ∀ C ∈ out, (∀ w ∈ C, w < res.length) ∧ C.Nonempty := by
    intro C h
    refine ⟨?_, Finset.card_pos.1 ?_⟩
    · rw [hresl]
      exact (hC C h).2.1
    · rw [(hC C h).1]
      omega
  obtain ⟨acc, h1, h2, _, h4, h5⟩ := nearness_mce_fold res.length s out (0, 0) rfl hall
  have hden : acc.2 = -2099584525 := by
    rw [h4, hsum]
    unfold int_wrap
    norm_num
  have hnum : 0 < acc.1 := by
    have hne : out ≠ [] := by
      intro h
      rw [h] at hlen
      simp at hlen
    obtain ⟨C, hCm⟩ := List.exists_mem_of_ne_nil out hne
    obtain ⟨hcard, hb, ⟨u, hu, hu3⟩, ⟨v, hv, hv48⟩⟩ := hC C hCm
    refine h5 ⟨C, hCm, Or.inr (by omega), ?_, ?_⟩
    · rw [hresl]
      exact count_fold_pos C _ u (List.mem_range.2 (by omega)) hu
    · rw [hresl]
      have hv51 := hb v hv
      exact count_fold_pos C _ v (List.mem_range'_1.2 ⟨by omega, by omega⟩) hv
  refine ⟨ga, gb, res, out, acc, hga, hgb, hres, hout, h1, hsum, hden, hnum, ?_⟩
  unfold nearness_value
  simp only [hout, h1, Option.bind_eq_bind, Option.some_bind]
  rw [if_neg]
  rw [hden]
  norm_num

/-- C16 as stated fails: a stored value is below 0.  The object sets are the first 24 and
the last 27 of the 51 objects of `triple_object`, with 51 features,
`epsilon = 4` and singletons off; their partial graphs are those of
`features_to_graph` and `24 + 27 ≤ 512`.  The sizes of the counted maximal
cliques of the joint graph add up to `17 * 3 ^ 17 = 2195382771`, which is not
below `2 ^ 31`, and `nearness_task_mce` stores a negative value for the pair. -/
theorem nearness_task_mce_bounds_counterexample :
    ∃ pgs tmp value,
      partial_graphs_of [triple_objects 0 24, triple_objects 24 27] 4 51 = some pgs ∧
      (triple_objects 0 24).length / 51 + (triple_objects 24 27).length / 51
        ≤ MAX_VERTICES ∧
      pair_counted_sizes 0 1 [triple_objects 0 24, triple_objects 24 27] pgs 4 51 false
        = 2195382771 ∧
      nearness_task_mce 0 [triple_objects 0 24, triple_objects 24 27] pgs 4 51 false
        = some tmp ∧
      tmp[1]? = some (some value) ∧ value < 0 := by
  obtain ⟨ga, gb, res, out, acc, hga, hgb, hres, hout, _, hsum, hden, hnum, hval⟩ :=
    triple_run false
  have hpg : partial_graphs_of [triple_objects 0 24, triple_objects 24 27] 4 51
      = some [ga, gb] := by
    simp only [partial_graphs_of, hga, hgb, Option.bind_eq_bind, Option.some_bind]
  have hsize : (triple_objects 0 24).length / 51 + (triple_objects 24 27).length / 51
      ≤ MAX_VERTICES := by
    rw [triple_objects_length, triple_objects_length]
    unfold MAX_VERTICES
    omega
  obtain ⟨tmp, h1, _, h3⟩ := nearness_task_mce_spec
    [triple_objects 0 24, triple_objects 24 27] [ga, gb] 4 51 false 0 hpg (Nat.zero_lt_succ 1)
    (by
      intro j h0 hj
      have hj1 : j = 1 := by
        simp only [List.length_cons, List.length_nil] at hj
        omega
      subst hj1
      simp only [List.getD_cons_zero, List.getD_cons_succ]
      exact hsize)
  have hpair : nearness_pair_mce 0 1 [triple_objects 0 24, triple_objects 24 27] [ga, gb]
      4 51 false = some (some (acc.1 / (acc.2 : ℚ))) := by
    unfold nearness_pair_mce
    simp only [List.get?_eq_getElem?, List.getElem?_cons_zero, List.getElem?_cons_succ,
      Option.bind_eq_bind, Option.some_bind, hres, hval, if_true]
  refine ⟨[ga, gb], tmp, acc.1 / (acc.2 : ℚ), hpg, hsize, ?_, h1, ?_, ?_⟩
  · unfold pair_counted_sizes graph_counted_sizes
    simp only [List.getD_cons_zero, List.getD_cons_succ, hres, hout, hsum]
  · rw [h3 1 (by omega) (Nat.lt_succ_self 1), hpair]
  · apply div_neg_of_pos_of_neg hnum
    rw [hden]
    norm_num

/-- C38 as stated fails: a denominator is below 0.  The object sets are the first 24 and the
last 27 of the 51 objects of `triple_object`, with 51 features, `epsilon = 4`
and singletons off; their graphs are those of `features_to_graph`,
`24 + 27 ≤ 512` and the combining `features_to_graph` returns `meet = true`.
After the enumeration the denominator accumulated by `nearness_mce` is
`17 * 3 ^ 17 - 2 ^ 32 = -2099584525`. -/
theorem nearness_mce_division_safe_counterexample :
    ∃ graph_a graph_b res cliques acc,
      (triple_objects 0 24).length = 24 * 51 ∧ (triple_objects 24 27).length = 27 * 51 ∧
      24 + 27 ≤ MAX_VERTICES ∧
      features_to_graph (triple_objects 0 24) [] 4 51 = some graph_a ∧
      features_to_graph (triple_objects 24 27) [] 4 51 = some graph_b ∧
      features_to_graph_combine (triple_objects 0 24) (triple_objects 24 27) graph_a graph_b
        4 51 = some (res, true) ∧
      clique_enumerate res = some cliques ∧
      cliques.foldlM (fun acc clique => nearness_mce res.length false clique acc) (0, 0)
        = some acc ∧
      counted_sizes false cliques = 2195382771 ∧ acc.2 = -2099584525 ∧ ¬ 0 < acc.2 := by
  obtain ⟨ga, gb, res, out, acc, hga, hgb, hres, hout, hfold, hsum, hden, _, _⟩ :=
    triple_run false
  refine ⟨ga, gb, res, out, acc, triple_objects_length 0 24, triple_objects_length 24 27,
    by unfold MAX_VERTICES; omega, hga, hgb, hres, hout, hfold, hsum, hden, ?_⟩
  rw [hden]
  norm_num

/-! ## The passes of the recursive enumerator: coherence, safety, termination -/

theorem called_append (a b : List Event) : called (a ++ b) = called a ++ called b := by
  simp [called, List.filterMap_append]

theorem called_call (caller : State) (fixp cur_v : Nat) (loop callee : State)
    (es : List Event) :
    called (Event.call caller fixp cur_v loop callee :: es) = callee :: called es := by
  simp [called]

theorem called_reset (cur_v : Nat) (loop next : State) (es : List Event) :
    called (Event.reset cur_v loop next :: es) = called es := by
  simp [called]

/-- The loop of the calls and the loop of the events make the same recursive calls. -/
theorem events_loop_calls (graph : Graph)
    (rec_ev : IdSet → IdSet → IdSet → List Event × Option Halt)
    (rec_calls : IdSet → IdSet → IdSet → Option (List State))
    (hrec : ∀ R P X, rec_calls R P X =
      if (rec_ev R P X).2 = none then some (State.mk R P X :: called (rec_ev R P X).1)
      else none)
    (caller : State) (fixp : Nat) :
    ∀ (lf cur_v : Nat) (R P X : IdSet),
      calls_loop graph rec_calls fixp lf cur_v R P X =
        if (events_loop graph rec_ev caller fixp lf cur_v R P X).2 = none then
          some (called (events_loop graph rec_ev caller fixp lf cur_v R P X).1)
        else none := by
  intro lf
  induction lf with
  | zero =>
    intro cur_v R P X
    simp [calls_loop, events_loop]
  | succ lf ih =>
    intro cur_v R P X
    rw [calls_loop, events_loop]
    cases h1 : bitset_set R cur_v with
    | none => simp
    | some new_clique =>
      simp only [Option.bind_eq_bind, Option.some_bind]
      rw [hrec]
      cases h2 : (rec_ev new_clique (row graph cur_v ∩ P) (row graph cur_v ∩ X)).2 with
      | some h => simp
      | none =>
        simp only [if_true, Option.some_bind]
        cases h3 : bitset_set X cur_v with
        | none => simp
        | some nots2 =>
          simp only [Option.some_bind]
          cases h4 : bitset_reset P cur_v with
          | none => simp
          | some cands2 =>
            simp only [Option.some_bind]
            cases h5 : remaining_v cands2 fixp graph with
            | none =>
              simp [called_append, called_call, called_reset, called]
            | some next_v =>
              simp only
              rw [ih]
              cases h6 : (events_loop graph rec_ev caller fixp lf next_v R cands2 nots2).2 with
              | some h => simp
              | none =>
                simp [called_append, called_call, called_reset, called]

/-- The enumerator of the calls and the enumerator of the events make the same calls. -/
theorem events_rec_calls (graph : Graph) :
    ∀ (fuel : Nat) (R P X : IdSet),
      clique_enumerate_calls graph fuel R P X =
        if (clique_enumerate_events_rec graph fuel R P X).2 = none then
          some (State.mk R P X :: called (clique_enumerate_events_rec graph fuel R P X).1)
        else none := by
  intro fuel
  induction fuel with
  | zero =>
    intro R P X
    simp [clique_enumerate_calls, clique_enumerate_events_rec]
  | succ fuel ih =>
    intro R P X
    rw [clique_enumerate_calls, clique_enumerate_events_rec]
    by_cases hP : P = ∅
    · simp [hP, called]
    · rw [if_neg hP, if_neg hP]
      cases h1 : greatest_cand P graph with
      | none => simp
      | some fixp =>
        simp only
        rw [events_loop_calls graph (clique_enumerate_events_rec graph fuel)
          (clique_enumerate_calls graph fuel) ih (State.mk R P X) fixp]
        cases h2 : (events_loop graph (clique_enumerate_events_rec graph fuel) (State.mk R P X)
          fixp P.card fixp R P X).2 with
        | some h => simp
        | none => simp

theorem greatest_cand_lt {cands : IdSet} {graph : Graph} {fixp : Nat}
    (h : greatest_cand cands graph = some fixp) : fixp < graph.length ∧ fixp ∈ cands := by
  rw [greatest_cand_eq] at h
  rcases greatest_fold_mem cands graph _ _ fixp h with h1 | ⟨h1, h2⟩
  · simp at h1
  · exact ⟨List.mem_range.1 h1, h2⟩

/-- The loop of the events on a graph of at most `MAX_VERTICES` rows: no index is out of
range, every event is as `EventOk` says, and on an irreflexive graph the loop
runs to its end when the fuel suffices. -/
theorem events_loop_ok (graph : Graph) (hn : graph.length ≤ MAX_VERTICES)
    (recurse : IdSet → IdSet → IdSet → List Event × Option Halt) (k : Nat)
    (hrec : ∀ R P X, P ⊆ Finset.range graph.length →
      (recurse R P X).2 ≠ some Halt.fault ∧ (∀ e ∈ (recurse R P X).1, EventOk graph e) ∧
      (IrreflexiveGraph graph → P.card < k → (recurse R P X).2 = none))
    (caller : State) (fixp : Nat) (hcaller : caller.cands ⊆ Finset.range graph.length)
    (hfix : greatest_cand caller.cands graph = some fixp) :
    ∀ (lf cur_v : Nat) (P X : IdSet), P ⊆ caller.cands → cur_v ∈ P →
      (events_loop graph recurse caller fixp lf cur_v caller.clique P X).2 ≠ some Halt.fault ∧
      (∀ e ∈ (events_loop graph recurse caller fixp lf cur_v caller.clique P X).1,
        EventOk graph e) ∧
      (IrreflexiveGraph graph → P.card ≤ lf → caller.cands.card ≤ k →
        (events_loop graph recurse caller fixp lf cur_v caller.clique P X).2 = none) := by
  intro lf
  induction lf with
  | zero =>
    intro cur_v P X _ hcur
    refine ⟨by simp [events_loop], by simp [events_loop], ?_⟩
    intro _ hcard _
    have : 0 < P.card := Finset.card_pos.2 ⟨cur_v, hcur⟩
    omega
  | succ lf ih =>
    intro cur_v P X hP hcur
    have hcurn : cur_v < graph.length := Finset.mem_range.1 (hcaller (hP hcur))
    have hcur512 : cur_v < MAX_VERTICES := by omega
    have hsub : row graph cur_v ∩ P ⊆ Finset.range graph.length :=
      fun x hx => hcaller (hP (Finset.mem_inter.1 hx).2)
    obtain ⟨hr1, hr2, hr3⟩ := hrec (insert cur_v caller.clique) (row graph cur_v ∩ P)
      (row graph cur_v ∩ X) hsub
    have hcall : EventOk graph (Event.call caller fixp cur_v (State.mk caller.clique P X)
        (State.mk (insert cur_v caller.clique) (row graph cur_v ∩ P) (row graph cur_v ∩ X))) :=
      ⟨hcaller, hfix, (greatest_cand_lt hfix).2, rfl, hP, hcur, rfl⟩
    have hreset : EventOk graph (Event.reset cur_v (State.mk caller.clique P X)
        (State.mk caller.clique (P.erase cur_v) (insert cur_v X))) :=
      ⟨fun x hx => hcaller (hP hx), hcur, rfl⟩
    rw [events_loop, bitset_set_of_lt hcur512]
    simp only
    cases h2 : (recurse (insert cur_v caller.clique) (row graph cur_v ∩ P)
        (row graph cur_v ∩ X)).2 with
    | some h =>
      simp only
      refine ⟨?_, ?_, ?_⟩
      · rw [← h2]
        exact hr1
      · intro e he
        rcases List.mem_cons.1 he with h3 | h3
        · rw [h3]
          exact hcall
        · exact hr2 e h3
      · intro hirr hcard hk
        have hlt : (row graph cur_v ∩ P).card < P.card := by
          apply Finset.card_lt_card
          refine ⟨Finset.inter_subset_right, ?_⟩
          intro hcon
          have := hcon hcur
          exact hirr cur_v hcurn (Finset.mem_inter.1 this).1
        have hPk : P.card ≤ caller.cands.card := Finset.card_le_card hP
        have := hr3 hirr (by omega)
        rw [h2] at this
        cases this
    | none =>
      simp only
      rw [bitset_set_of_lt hcur512, bitset_reset_of_lt hcur512]
      simp only
      cases h5 : remaining_v (P.erase cur_v) fixp graph with
      | none =>
        simp only
        refine ⟨by simp, ?_, (by intro _ _ _; first | rfl | trivial)⟩
        intro e he
        rcases List.mem_cons.1 he with h3 | h3
        · rw [h3]
          exact hcall
        · rcases List.mem_append.1 h3 with h4 | h4
          · exact hr2 e h4
          · rw [List.mem_singleton.1 h4]
            exact hreset
      | some next_v =>
        simp only
        have hnext : next_v ∈ P.erase cur_v := (remaining_v_some h5).1
        obtain ⟨i1, i2, i3⟩ := ih next_v (P.erase cur_v) (insert cur_v X)
          (fun x hx => hP (Finset.mem_of_mem_erase hx)) hnext
        refine ⟨i1, ?_, ?_⟩
        · intro e he
          rcases List.mem_append.1 he with h3 | h3
          · rcases List.mem_cons.1 h3 with h4 | h4
            · rw [h4]
              exact hcall
            · rcases List.mem_append.1 h4 with h6 | h6
              · exact hr2 e h6
              · rw [List.mem_singleton.1 h6]
                exact hreset
          · exact i2 e h3
        · intro hirr hcard hk
          apply i3 hirr _ hk
          rw [Finset.card_erase_of_mem hcur]
          omega

/-- The enumerator of the events on a graph of at most `MAX_VERTICES` rows and candidates
among its vertices. -/
theorem events_rec_ok (graph : Graph) (hn : graph.length ≤ MAX_VERTICES) :
    ∀ (fuel : Nat) (R P X : IdSet), P ⊆ Finset.range graph.length →
      (clique_enumerate_events_rec graph fuel R P X).2 ≠ some Halt.fault ∧
      (∀ e ∈ (clique_enumerate_events_rec graph fuel R P X).1, EventOk graph e) ∧
      (IrreflexiveGraph graph → P.card < fuel →
        (clique_enumerate_events_rec graph fuel R P X).2 = none) := by
  intro fuel
  induction fuel with
  | zero =>
    intro R P X _
    refine ⟨by simp [clique_enumerate_events_rec], by simp [clique_enumerate_events_rec], ?_⟩
    intro _ h
    omega
  | succ fuel ih =>
    intro R P X hP
    rw [clique_enumerate_events_rec]
    by_cases hP0 : P = ∅
    · rw [if_pos hP0]
      exact ⟨by simp, by simp, fun _ _ => rfl⟩
    · rw [if_neg hP0]
      obtain ⟨fixp, hfix, hmem⟩ := greatest_cand_mem P graph
        (Finset.nonempty_iff_ne_empty.2 hP0) hP
      rw [hfix]
      simp only
      obtain ⟨l1, l2, l3⟩ := events_loop_ok graph hn (clique_enumerate_events_rec graph fuel)
        fuel ih (State.mk R P X) fixp hP hfix P.card fixp P X (Finset.Subset.refl _) hmem
      refine ⟨l1, l2, ?_⟩
      intro hirr hcard
      exact l3 hirr (le_refl _) (by
        show P.card ≤ fuel
        omega)

/-- The calls listed by `clique_enumerate_trace` are the root call and the recursive calls
among the events, when the run of the events is complete. -/
theorem trace_of_events (graph : Graph) (hn : graph.length ≤ MAX_VERTICES)
    (h : (clique_enumerate_events graph (graph.length + 1)).2 = none) :
    clique_enumerate_trace graph =
      some (State.mk ∅ (Finset.range graph.length) ∅ ::
        called (clique_enumerate_events graph (graph.length + 1)).1) := by
  unfold clique_enumerate_events at h ⊢
  unfold clique_enumerate_trace
  rw [start_cands_eq graph hn] at h ⊢
  simp only [Option.bind_eq_bind, Option.some_bind] at h ⊢
  rw [events_rec_calls, if_pos h]

/-- C36: termination of the recursive enumerator.  On every irreflexive graph of `n ≤ 512`
rows the entry point `clique_enumerate(graph, callback)` returns: the run is
complete within the recursion depth `n + 1`.  Its recursive calls are the calls
listed by the events; every recursive call receives a candidate set that is a
strict subset of the candidate set of its caller, and every pass of the
`do ... while` loop removes one vertex, a candidate, from the candidate set. -/
theorem clique_enumerate_terminates (graph : Graph) (hirr : IrreflexiveGraph graph)
    (hn : graph.length ≤ MAX_VERTICES) :
    ∃ out events, clique_enumerate graph = some out ∧
      clique_enumerate_events graph (graph.length + 1) = (events, none) ∧
      clique_enumerate_trace graph =
        some (State.mk ∅ (Finset.range graph.length) ∅ :: called events) ∧
      (∀ caller fixp cur_v loop callee, Event.call caller fixp cur_v loop callee ∈ events →
        callee.cands ⊂ caller.cands) ∧
      (∀ cur_v loop next, Event.reset cur_v loop next ∈ events →
        cur_v ∈ loop.cands ∧ next.cands = loop.cands.erase cur_v ∧
          next.cands.card + 1 = loop.cands.card) := by
  have hok := events_rec_ok graph hn (graph.length + 1) ∅ (Finset.range graph.length) ∅
    (Finset.Subset.refl _)
  have hev : clique_enumerate_events graph (graph.length + 1) =
      clique_enumerate_events_rec graph (graph.length + 1) ∅ (Finset.range graph.length) ∅ := by
    unfold clique_enumerate_events
    rw [start_cands_eq graph hn]
  obtain ⟨_, h2, h3⟩ := hok
  have hnone := h3 hirr (by rw [Finset.card_range]; omega)
  rw [← hev] at h2 hnone
  have htrace := trace_of_events graph hn hnone
  have hout : clique_enumerate graph =
      some (emitted (State.mk ∅ (Finset.range graph.length) ∅ ::
        called (clique_enumerate_events graph (graph.length + 1)).1)) := by
    rw [clique_enumerate_emitted, htrace]
    rfl
  refine ⟨_, (clique_enumerate_events graph (graph.length + 1)).1, hout, ?_, htrace, ?_, ?_⟩
  · rw [← hnone]
  · intro caller fixp cur_v loop callee he
    obtain ⟨_, _, _, _, g5, g6, g7⟩ := h2 _ he
    rw [g7]
    show row graph cur_v ∩ loop.cands ⊂ caller.cands
    have hcurn : cur_v < graph.length := by
      have := (h2 _ he).1 (g5 g6)
      exact Finset.mem_range.1 this
    refine ⟨fun x hx => g5 (Finset.mem_inter.1 hx).2, ?_⟩
    intro hcon
    have := hcon (g5 g6)
    exact hirr cur_v hcurn (Finset.mem_inter.1 this).1
  · intro cur_v loop next he
    obtain ⟨_, g2, g3⟩ := h2 _ he
    rw [g3]
    refine ⟨g2, rfl, ?_⟩
    show (loop.cands.erase cur_v).card + 1 = loop.cands.card
    rw [Finset.card_erase_of_mem g2]
    have : 0 < loop.cands.card := Finset.card_pos.2 ⟨cur_v, g2⟩
    omega

set_option maxRecDepth 100000 in
theorem clique_enumerate_terminates_witness :
    ∃ out events, clique_enumerate [{1, 2}, {0, 2}, {0, 1, 3}, {2}] = some out ∧
      clique_enumerate_events [{1, 2}, {0, 2}, {0, 1, 3}, {2}]
        (([{1, 2}, {0, 2}, {0, 1, 3}, {2}] : Graph).length + 1) = (events, none) ∧
      clique_enumerate_trace [{1, 2}, {0, 2}, {0, 1, 3}, {2}] =
        some (State.mk ∅ (Finset.range ([{1, 2}, {0, 2}, {0, 1, 3}, {2}] : Graph).length) ∅ ::
          called events) ∧
      (∀ caller fixp cur_v loop callee, Event.call caller fixp cur_v loop callee ∈ events →
        callee.cands ⊂ caller.cands) ∧
      (∀ cur_v loop next, Event.reset cur_v loop next ∈ events →
        cur_v ∈ loop.cands ∧ next.cands = loop.cands.erase cur_v ∧
          next.cands.card + 1 = loop.cands.card) :=
  clique_enumerate_terminates [{1, 2}, {0, 2}, {0, 1, 3}, {2}] (by decide) (by decide)

/-- C37: index safety of the recursive enumerator.  On every graph of `n ≤ 512` rows, for
every depth at which the recursion is cut: no call stops on an index out of
range; in every pass of the loop the candidate set of the caller is not empty,
its pivot `fixp` is the result of `greatest_cand`, which is not `NONE`, lies in
`[0, n)` and is one of the candidates of the caller, and the vertex `cur_v`
lies in `[0, n)` and is a member of the current candidate set, at the recursive
call and when its bits are set and reset; `greatest_cand` is not `NONE` either
on the candidates of a recursive call or of the first call, when they are not
empty. -/
theorem clique_enumerate_index_safe (graph : Graph) (hn : graph.length ≤ MAX_VERTICES)
    (fuel : Nat) :
    (clique_enumerate_events graph fuel).2 ≠ some Halt.fault ∧
      (∀ caller fixp cur_v loop callee,
        Event.call caller fixp cur_v loop callee ∈ (clique_enumerate_events graph fuel).1 →
        caller.cands ≠ ∅ ∧ greatest_cand caller.cands graph = some fixp ∧
          fixp < graph.length ∧ fixp ∈ caller.cands ∧
          cur_v < graph.length ∧ cur_v ∈ loop.cands ∧
          (callee.cands ≠ ∅ →
            ∃ f, greatest_cand callee.cands graph = some f ∧ f < graph.length ∧
              f ∈ callee.cands)) ∧
      (∀ cur_v loop next,
        Event.reset cur_v loop next ∈ (clique_enumerate_events graph fuel).1 →
        cur_v < graph.length ∧ cur_v ∈ loop.cands) ∧
      (graph.length ≠ 0 →
        ∃ f, greatest_cand (Finset.range graph.length) graph = some f ∧
          f < graph.length) := by
  have hev : clique_enumerate_events graph fuel =
      clique_enumerate_events_rec graph fuel ∅ (Finset.range graph.length) ∅ := by
    unfold clique_enumerate_events
    rw [start_cands_eq graph hn]
  obtain ⟨h1, h2, _⟩ := events_rec_ok graph hn fuel ∅ (Finset.range graph.length) ∅
    (Finset.Subset.refl _)
  rw [← hev] at h1 h2
  refine ⟨h1, ?_, ?_, ?_⟩
  · intro caller fixp cur_v loop callee he
    obtain ⟨g1, g2, g3, _, g5, g6, g7⟩ := h2 _ he
    refine ⟨?_, g2, (greatest_cand_lt g2).1, g3, Finset.mem_range.1 (g1 (g5 g6)), g6, ?_⟩
    · intro h0
      rw [h0] at g3
      exact absurd g3 (Finset.not_mem_empty _)
    · intro hne
      have hsub : callee.cands ⊆ Finset.range graph.length := by
        rw [g7]
        exact fun x hx => g1 (g5 (Finset.mem_inter.1 hx).2)
      obtain ⟨f, hf1, hf2⟩ := greatest_cand_mem callee.cands graph
        (Finset.nonempty_iff_ne_empty.2 hne) hsub
      exact ⟨f, hf1, (greatest_cand_lt hf1).1, hf2⟩
  · intro cur_v loop next he
    obtain ⟨g1, g2, _⟩ := h2 _ he
    exact ⟨Finset.mem_range.1 (g1 g2), g2⟩
  · intro h0
    obtain ⟨f, hf1, _⟩ := greatest_cand_mem (Finset.range graph.length) graph
      ⟨0, Finset.mem_range.2 (Nat.pos_of_ne_zero h0)⟩ (Finset.Subset.refl _)
    exact ⟨f, hf1, (greatest_cand_lt hf1).1⟩

set_option maxRecDepth 100000 in
theorem clique_enumerate_index_safe_witness :
    (clique_enumerate_events [{0, 1}, {0}] 3).2 ≠ some Halt.fault ∧
      (∀ caller fixp cur_v loop callee,
        Event.call caller fixp cur_v loop callee ∈ (clique_enumerate_events [{0, 1}, {0}] 3).1 →
        caller.cands ≠ ∅ ∧ greatest_cand caller.cands [{0, 1}, {0}] = some fixp ∧
          fixp < ([{0, 1}, {0}] : Graph).length ∧ fixp ∈ caller.cands ∧
          cur_v < ([{0, 1}, {0}] : Graph).length ∧ cur_v ∈ loop.cands ∧
          (callee.cands ≠ ∅ →
            ∃ f, greatest_cand callee.cands [{0, 1}, {0}] = some f ∧ f < ([{0, 1}, {0}] : Graph).length ∧
              f ∈ callee.cands)) ∧
      (∀ cur_v loop next,
        Event.reset cur_v loop next ∈ (clique_enumerate_events [{0, 1}, {0}] 3).1 →
        cur_v < ([{0, 1}, {0}] : Graph).length ∧ cur_v ∈ loop.cands) ∧
      (([{0, 1}, {0}] : Graph).length ≠ 0 →
        ∃ f, greatest_cand (Finset.range ([{0, 1}, {0}] : Graph).length) [{0, 1}, {0}] = some f ∧
          f < ([{0, 1}, {0}] : Graph).length) :=
  clique_enumerate_index_safe [{0, 1}, {0}] (by decide) 3

/-- A run that does not end: on the graph of one vertex that is its own neighbour every call
makes a recursive call with the same candidates, and the run is cut at every
depth. -/
theorem clique_enumerate_events_loop_example :
    (clique_enumerate_events [{0}] 3).2 = some Halt.fuel ∧
      (called (clique_enumerate_events [{0}] 3).1).map (fun s => s.cands) = [{0}, {0}, {0}] := by
  decide

/-! ## The distributed step: collision, cycle, block trace -/

namespace MaximalClique

/-- The method `clique_enumerate` by the choice of its destinations. -/
theorem clique_enumerate_select (graph : Graph) (σ : World) (v : Nat) (message : Message)
    (block_trace : IdSet) (from_edge : Bool) :
    clique_enumerate graph σ v message block_trace from_edge =
      if message.candidates = ∅ then
        (if message.not_ids = ∅ then
          (save_clique σ (insert v message.current_clique), message, true)
        else (σ, message, true))
      else
        match select_destinations graph σ v message.candidates with
        | none => (σ, message, true)
        | some (Sum.inl (cur_v, cur_v_data)) =>
          ((collide σ v message block_trace from_edge cur_v cur_v_data).1,
            (collide σ v message block_trace from_edge cur_v cur_v_data).2, false)
        | some (Sum.inr destinations) =>
          (((out_edges graph v).foldl
              (send_step v (insert v message.current_clique) destinations)
              (σ, message.candidates, message.not_ids)).1, message, true) := by
  unfold clique_enumerate select_destinations
  by_cases h1 : message.candidates = ∅
  · simp only [h1, if_true]
  · simp only [h1, if_false]
    cases h2 : ((out_edges graph v).foldl (fixp_step σ v message.candidates)
        (none, 0, EdgeData.empty)).1 with
    | none => rfl
    | some fixp =>
      simp only
      by_cases h3 : ((out_edges graph v).foldl (fixp_step σ v message.candidates)
          (none, 0, EdgeData.empty)).2.2.message.is_set = true
      · simp only [h3, if_true]
      · simp only [h3, if_false]
        cases scan_destinations σ v
          ((out_edges graph v).foldl (fixp_step σ v message.candidates)
            (none, 0, EdgeData.empty)).2.2.neighbours (out_edges graph v)
          (message.candidates.erase fixp) {fixp} with
        | inl p => rfl
        | inr d => rfl

/-- A collision is met on an out-edge that holds a valid message, and only with
candidates. -/
theorem select_collision (graph : Graph) (σ : World) (v : Nat) (cand : IdSet) (w : Nat)
    (d : EdgeData) (h : select_destinations graph σ v cand = some (Sum.inl (w, d))) :
    d = σ.edge_data v w ∧ d.message.is_set = true ∧ cand ≠ ∅ := by
  unfold select_destinations at h
  simp only at h
  obtain ⟨f1, _⟩ := fixp_fold_spec σ v cand (out_edges graph v) (none, 0, EdgeData.empty)
    (fun w hw => by simp at hw)
  cases h2 : ((out_edges graph v).foldl (fixp_step σ v cand) (none, 0, EdgeData.empty)).1 with
  | none =>
    rw [h2] at h
    cases h
  | some fixp =>
    rw [h2] at h
    simp only [Option.some.injEq] at h
    obtain ⟨⟨hc, hd⟩, _⟩ := f1 fixp h2
    have hne : cand ≠ ∅ := fun h0 => by
      rw [h0] at hc
      exact absurd hc (Finset.not_mem_empty _)
    by_cases h3 : ((out_edges graph v).foldl (fixp_step σ v cand)
        (none, 0, EdgeData.empty)).2.2.message.is_set = true
    · rw [if_pos h3] at h
      simp only [Sum.inl.injEq, Prod.mk.injEq] at h
      obtain ⟨hw, hd2⟩ := h
      subst hw
      rw [← hd2]
      exact ⟨hd, h3, hne⟩
    · rw [if_neg h3] at h
      obtain ⟨_, s2, _⟩ := scan_spec σ v
        ((out_edges graph v).foldl (fixp_step σ v cand) (none, 0, EdgeData.empty)).2.2.neighbours
        (out_edges graph v) (GoodGraph.nodup_out_edges graph v) (cand.erase fixp) {fixp}
      obtain ⟨_, g2, g3⟩ := s2 w d h
      exact ⟨g2, g3, hne⟩

theorem collision_at_some (graph : Graph) (σ : World) (v : Nat) (cand : IdSet) (w : Nat)
    (h : collision_at graph σ v cand = some w) :
    select_destinations graph σ v cand = some (Sum.inl (w, σ.edge_data v w)) ∧
      (σ.edge_data v w).message.is_set = true ∧ cand ≠ ∅ := by
  unfold collision_at at h
  cases h2 : select_destinations graph σ v cand with
  | none =>
    rw [h2] at h
    cases h
  | some s =>
    rw [h2] at h
    cases s with
    | inr d => cases h
    | inl p =>
      obtain ⟨w2, d⟩ := p
      simp only [Option.some.injEq] at h
      subst h
      obtain ⟨g1, g2, g3⟩ := select_collision graph σ v cand w2 d h2
      subst g1
      exact ⟨rfl, g2, g3⟩

theorem collide_cycle (σ : World) (v : Nat) (m : Message) (bt : IdSet) (cur : Nat)
    (d : EdgeData) (hbt : v ∈ bt) :
    collide σ v m bt true cur d =
      ((({ σ with cycle_messages := σ.cycle_messages ++ [(v, { m with is_set := false })] }
          : World).set_vertex v
          { σ.vertex_data v with cycles := (σ.vertex_data v).cycles + 1 }).set_edge v cur
          { d with block_trace := ∅ }, { m with is_set := false }) := by
  simp only [collide, hbt, if_true]

theorem collide_block (σ : World) (v : Nat) (m : Message) (bt : IdSet) (cur : Nat)
    (d : EdgeData) (hbt : v ∉ bt) :
    collide σ v m bt true cur d =
      (σ.set_edge v cur { d with block_trace := insert v (d.block_trace ∪ bt) }, m) := by
  simp only [collide, hbt, if_true, if_false]

theorem collide_replay (σ : World) (v : Nat) (m : Message) (bt : IdSet) (cur : Nat)
    (d : EdgeData) : collide σ v m bt false cur d = (σ, m) := by
  simp [collide]

/-- The loop `Send messages` writes messages and tasks only: the side table, the vertex
values, the saved cliques and the block trace of every edge are as before. -/
theorem send_frame (v : Nat) (clique dests : IdSet) (l : List Nat) :
    ∀ (σ : World) (c x : IdSet),
      (l.foldl (send_step v clique dests) (σ, c, x)).1.cycle_messages = σ.cycle_messages ∧
      (l.foldl (send_step v clique dests) (σ, c, x)).1.vertex_data = σ.vertex_data ∧
      (l.foldl (send_step v clique dests) (σ, c, x)).1.results = σ.results ∧
      ∀ a b, ((l.foldl (send_step v clique dests) (σ, c, x)).1.edge_data a b).block_trace =
        (σ.edge_data a b).block_trace := by
  induction l with
  | nil =>
    intro σ c x
    exact ⟨rfl, rfl, rfl, fun _ _ => rfl⟩
  | cons b l ih =>
    intro σ c x
    rw [List.foldl_cons]
    by_cases hb : b ∈ dests
    · rw [send_step_pos v clique dests σ c x b hb]
      obtain ⟨i1, i2, i3, i4⟩ := ih
        ((σ.add_task b).set_edge v b
          { σ.edge_data v b with message :=
            ⟨true, clique, c ∩ (σ.edge_data v b).neighbours,
              x ∩ (σ.edge_data v b).neighbours⟩ })
        (c.erase b) (insert b x)
      refine ⟨i1, i2, i3, ?_⟩
      intro a b2
      rw [i4]
      simp only [World.set_edge, World.add_task]
      split_ifs with h
      · rw [h.1, h.2]
      · rfl
    · rw [send_step_neg v clique dests (σ, c, x) b hb]
      exact ih σ c x

/-- What a call of `clique_enumerate` does to the side table and to the vertex values:
nothing, unless a message from an edge meets a collision at a vertex of its
block trace; then the message, unset, is appended to the side table for the
vertex and the counter of the vertex grows by one. -/
theorem clique_enumerate_counters (graph : Graph) (σ : World) (v : Nat) (m : Message)
    (bt : IdSet) (from_edge : Bool) :
    ((clique_enumerate graph σ v m bt from_edge).1.cycle_messages = σ.cycle_messages ∧
      (clique_enumerate graph σ v m bt from_edge).1.vertex_data = σ.vertex_data ∧
      (clique_enumerate graph σ v m bt from_edge).2.1 = m) ∨
    (from_edge = true ∧ v ∈ bt ∧ (clique_enumerate graph σ v m bt from_edge).2.2 = false ∧
      (clique_enumerate graph σ v m bt from_edge).1.cycle_messages =
        σ.cycle_messages ++ [(v, { m with is_set := false })] ∧
      (clique_enumerate graph σ v m bt from_edge).2.1 = { m with is_set := false } ∧
      (clique_enumerate graph σ v m bt from_edge).1.vertex_data =
        fun a => if a = v then
          { σ.vertex_data v with cycles := (σ.vertex_data v).cycles + 1 }
        else σ.vertex_data a) := by
  rw [clique_enumerate_select]
  by_cases h1 : m.candidates = ∅
  · rw [if_pos h1]
    left
    split_ifs
    · exact ⟨rfl, rfl, rfl⟩
    · exact ⟨rfl, rfl, rfl⟩
  · rw [if_neg h1]
    cases h2 : select_destinations graph σ v m.candidates with
    | none => exact Or.inl ⟨rfl, rfl, rfl⟩
    | some s =>
      cases s with
      | inr d =>
        simp only
        obtain ⟨f1, f2, _, _⟩ := send_frame v (insert v m.current_clique) d (out_edges graph v)
          σ m.candidates m.not_ids
        exact Or.inl ⟨f1, f2, by first | rfl | trivial⟩
      | inl p =>
        obtain ⟨cur, d⟩ := p
        simp only
        cases from_edge with
        | false =>
          rw [collide_replay]
          exact Or.inl ⟨rfl, rfl, rfl⟩
        | true =>
          by_cases hbt : v ∈ bt
          · rw [collide_cycle σ v m bt cur d hbt]
            refine Or.inr ⟨?_, hbt, ?_, ?_, ?_, ?_⟩ <;> first | rfl | trivial
          · rw [collide_block σ v m bt cur d hbt]
            exact Or.inl ⟨rfl, rfl, rfl⟩

/-- A call of `clique_enumerate` that forwards, or saves, leaves the block trace of every
edge as it was. -/
theorem forward_keeps_block_trace (graph : Graph) (σ : World) (v : Nat) (m : Message)
    (bt : IdSet) (from_edge : Bool)
    (h : (clique_enumerate graph σ v m bt from_edge).2.2 = true) :
    ∀ a b, ((clique_enumerate graph σ v m bt from_edge).1.edge_data a b).block_trace =
      (σ.edge_data a b).block_trace := by
  rw [clique_enumerate_select] at h ⊢
  by_cases h1 : m.candidates = ∅
  · rw [if_pos h1]
    intro a b
    split_ifs <;> rfl
  · rw [if_neg h1] at h ⊢
    cases h2 : select_destinations graph σ v m.candidates with
    | none => exact fun _ _ => rfl
    | some s =>
      rw [h2] at h
      cases s with
      | inr d =>
        simp only
        exact (send_frame v (insert v m.current_clique) d (out_edges graph v)
          σ m.candidates m.not_ids).2.2.2
      | inl p =>
        obtain ⟨cur, d⟩ := p
        simp only at h
        cases h

theorem inedge_fold_flag (graph : Graph) (v : Nat) (l : List Nat) :
    ∀ st : World × Bool, st.2 = true → (l.foldl (inedge_step graph v) st).2 = true := by
  induction l with
  | nil => exact fun _ h => h
  | cons a l ih =>
    intro st h
    rw [List.foldl_cons]
    apply ih
    unfold inedge_step
    simp only
    split_ifs
    · exact h
    · rfl
    · exact h

/-- The method `handle_messages` after its first part. -/
theorem handle_messages_stage (graph : Graph) (σ : World) (v : Nat) :
    handle_messages graph σ v =
      if ((in_edges graph v).foldl (inedge_step graph v) (replay_stage graph σ v, false)).2
          ∨ ((replay_stage graph σ v).vertex_data v).cycles > 0 then
        ((in_edges graph v).foldl (inedge_step graph v)
          (replay_stage graph σ v, false)).1.add_task v
      else
        ((in_edges graph v).foldl (inedge_step graph v)
          (replay_stage graph σ v, false)).1.remove_tasks v := by
  unfold handle_messages replay_stage
  simp [World.set_vertex]

/-- The step of the in-edge loop on a message that meets a collision. -/
theorem inedge_step_collision (graph : Graph) (τ : World) (v u cur_v : Nat) (coll : Bool)
    (hset : (τ.edge_data u v).message.is_set = true)
    (hcol : collision_at graph τ v (τ.edge_data u v).message.candidates = some cur_v) :
    (clique_enumerate graph τ v (τ.edge_data u v).message (τ.edge_data u v).block_trace
        true).2.2 = false ∧
      (clique_enumerate graph τ v (τ.edge_data u v).message (τ.edge_data u v).block_trace
        true).1 =
        (collide τ v (τ.edge_data u v).message (τ.edge_data u v).block_trace true cur_v
          (τ.edge_data v cur_v)).1 ∧
      inedge_step graph v (τ, coll) u =
        ((collide τ v (τ.edge_data u v).message (τ.edge_data u v).block_trace true cur_v
            (τ.edge_data v cur_v)).1.set_edge u v
          { τ.edge_data u v with message :=
            (collide τ v (τ.edge_data u v).message (τ.edge_data u v).block_trace true cur_v
              (τ.edge_data v cur_v)).2 }, true) := by
  obtain ⟨hsel, _, hne⟩ := collision_at_some graph τ v _ cur_v hcol
  have hce : clique_enumerate graph τ v (τ.edge_data u v).message
      (τ.edge_data u v).block_trace true =
      ((collide τ v (τ.edge_data u v).message (τ.edge_data u v).block_trace true cur_v
          (τ.edge_data v cur_v)).1,
        (collide τ v (τ.edge_data u v).message (τ.edge_data u v).block_trace true cur_v
          (τ.edge_data v cur_v)).2, false) := by
    rw [clique_enumerate_select, if_neg hne, hsel]
  have hfail : (clique_enumerate graph τ v (τ.edge_data u v).message
      (τ.edge_data u v).block_trace true).2.2 = false := by rw [hce]
  refine ⟨hfail, by rw [hce], ?_⟩
  rw [inedge_step_failed graph v (τ, coll) u hset hfail]
  simp only
  rw [hce]

end MaximalClique

/-- C31: the collision policy of the distributed step.  The vertex `v` handles, in
`handle_messages`, the valid message of its in-edge from `u ≠ v`; the block
trace of the in-edge does not contain `v`, and the choice of the destinations
meets the out-edge to `cur_v`, which holds a valid message.  Then the call of
`clique_enumerate` returns `false`, the flag `collision` is raised, no message
of any edge is changed, so that no new message is written and the message of
the in-edge stays valid, no clique is saved, the block trace of the out-edge to
`cur_v` gains `v` and the block trace of the in-edge, and `v` is a task of the
scheduler when `handle_messages` returns. -/
theorem collision_policy (graph : Graph) (σ τ : World) (v u cur_v : Nat)
    (pre post : List Nat) (coll : Bool)
    (hin : in_edges graph v = pre ++ u :: post)
    (hτ : pre.foldl (MaximalClique.inedge_step graph v)
      (MaximalClique.replay_stage graph σ v, false) = (τ, coll))
    (hne : u ≠ v)
    (hset : (τ.edge_data u v).message.is_set = true)
    (hbt : v ∉ (τ.edge_data u v).block_trace)
    (hcol : MaximalClique.collision_at graph τ v (τ.edge_data u v).message.candidates
      = some cur_v) :
    (τ.edge_data v cur_v).message.is_set = true ∧
      (MaximalClique.clique_enumerate graph τ v (τ.edge_data u v).message
        (τ.edge_data u v).block_trace true).2.2 = false ∧
      (MaximalClique.inedge_step graph v (τ, coll) u).2 = true ∧
      (∀ a b, ((MaximalClique.inedge_step graph v (τ, coll) u).1.edge_data a b).message =
        (τ.edge_data a b).message) ∧
      (MaximalClique.inedge_step graph v (τ, coll) u).1.results = τ.results ∧
      ((MaximalClique.inedge_step graph v (τ, coll) u).1.edge_data u v).message.is_set
        = true ∧
      ((MaximalClique.inedge_step graph v (τ, coll) u).1.edge_data v cur_v).block_trace =
        insert v ((τ.edge_data v cur_v).block_trace ∪ (τ.edge_data u v).block_trace) ∧
      v ∈ (MaximalClique.handle_messages graph σ v).tasks := by
  obtain ⟨_, hvalid, _⟩ := MaximalClique.collision_at_some graph τ v _ cur_v hcol
  obtain ⟨hfail, _, hstep⟩ := MaximalClique.inedge_step_collision graph τ v u cur_v coll hset
    hcol
  rw [MaximalClique.collide_block τ v _ _ cur_v _ hbt] at hstep
  have hmsg : ∀ a b, ((MaximalClique.inedge_step graph v (τ, coll) u).1.edge_data a b).message =
      (τ.edge_data a b).message := by
    intro a b
    rw [hstep]
    simp only [World.set_edge]
    split_ifs with h1 h2
    · rw [h1.1, h1.2]
    · rw [h2.1, h2.2]
    · rfl
  refine ⟨hvalid, hfail, by rw [hstep], hmsg, by rw [hstep]; rfl, ?_, ?_, ?_⟩
  · rw [hmsg]
    exact hset
  · rw [hstep]
    simp [World.set_edge, hne.symm]
  · rw [MaximalClique.handle_messages_stage, hin, List.foldl_append, List.foldl_cons, hτ]
    have hflag := MaximalClique.inedge_fold_flag graph v post
      (MaximalClique.inedge_step graph v (τ, coll) u) (by rw [hstep])
    rw [if_pos (Or.inl hflag)]
    simp [World.add_task]

set_option maxRecDepth 100000 in
theorem collision_policy_witness :
    ∃ σ τ coll,
      engine_run [{1, 2, 4}, {0, 2, 3}, {0, 1, 3}, {1, 2}, {0}] false [0, 1, 2, 3, 4] [[0, 3]]
        = some σ ∧
      [0, 1].foldl
        (MaximalClique.inedge_step [{1, 2, 4}, {0, 2, 3}, {0, 1, 3}, {1, 2}, {0}] 2)
        (MaximalClique.replay_stage [{1, 2, 4}, {0, 2, 3}, {0, 1, 3}, {1, 2}, {0}] σ 2, false)
        = (τ, coll) ∧
      ((τ.edge_data 2 1).message.is_set = true ∧
        (MaximalClique.clique_enumerate [{1, 2, 4}, {0, 2, 3}, {0, 1, 3}, {1, 2}, {0}] τ 2
          (τ.edge_data 3 2).message (τ.edge_data 3 2).block_trace true).2.2 = false ∧
        (MaximalClique.inedge_step [{1, 2, 4}, {0, 2, 3}, {0, 1, 3}, {1, 2}, {0}] 2
          (τ, coll) 3).2 = true ∧
        (∀ a b,
          ((MaximalClique.inedge_step [{1, 2, 4}, {0, 2, 3}, {0, 1, 3}, {1, 2}, {0}] 2
            (τ, coll) 3).1.edge_data a b).message = (τ.edge_data a b).message) ∧
        (MaximalClique.inedge_step [{1, 2, 4}, {0, 2, 3}, {0, 1, 3}, {1, 2}, {0}] 2
          (τ, coll) 3).1.results = τ.results ∧
        ((MaximalClique.inedge_step [{1, 2, 4}, {0, 2, 3}, {0, 1, 3}, {1, 2}, {0}] 2
          (τ, coll) 3).1.edge_data 3 2).message.is_set = true ∧
        ((MaximalClique.inedge_step [{1, 2, 4}, {0, 2, 3}, {0, 1, 3}, {1, 2}, {0}] 2
          (τ, coll) 3).1.edge_data 2 1).block_trace =
          insert 2 ((τ.edge_data 2 1).block_trace ∪ (τ.edge_data 3 2).block_trace) ∧
        2 ∈ (MaximalClique.handle_messages [{1, 2, 4}, {0, 2, 3}, {0, 1, 3}, {1, 2}, {0}]
          σ 2).tasks) :=
  ⟨_, _, _, rfl, rfl,
    collision_policy [{1, 2, 4}, {0, 2, 3}, {0, 1, 3}, {1, 2}, {0}] _ _ 2 3 1 [0, 1] [] _
      (by decide) rfl (by decide) (by decide) (by decide) (by decide)⟩

/-- C32: cycle breaking in the distributed step.  The vertex `v` handles the valid message
of its in-edge from `u ≠ v`; the block trace of the in-edge contains `v`, and
the choice of the destinations meets the out-edge to `cur_v`, which holds a
valid message.  Then the call of `clique_enumerate` returns `false`, the
message leaves the in-edge (its flag is cleared), the message, with the same
clique, candidates and excluded vertices, is appended to the side table for
`v`, the counter of `v` grows by exactly one, and the block trace of the
out-edge to `cur_v` is empty. -/
theorem cycle_breaking (graph : Graph) (τ : World) (v u cur_v : Nat) (coll : Bool)
    (hne : u ≠ v)
    (hset : (τ.edge_data u v).message.is_set = true)
    (hbt : v ∈ (τ.edge_data u v).block_trace)
    (hcol : MaximalClique.collision_at graph τ v (τ.edge_data u v).message.candidates
      = some cur_v) :
    (τ.edge_data v cur_v).message.is_set = true ∧
      (MaximalClique.clique_enumerate graph τ v (τ.edge_data u v).message
        (τ.edge_data u v).block_trace true).2.2 = false ∧
      (MaximalClique.inedge_step graph v (τ, coll) u).2 = true ∧
      ((MaximalClique.inedge_step graph v (τ, coll) u).1.edge_data u v).message =
        { (τ.edge_data u v).message with is_set := false } ∧
      (MaximalClique.inedge_step graph v (τ, coll) u).1.cycle_messages =
        τ.cycle_messages ++ [(v, { (τ.edge_data u v).message with is_set := false })] ∧
      ((MaximalClique.inedge_step graph v (τ, coll) u).1.vertex_data v).cycles =
        (τ.vertex_data v).cycles + 1 ∧
      ((MaximalClique.inedge_step graph v (τ, coll) u).1.edge_data v cur_v).block_trace = ∅ := by
  obtain ⟨_, hvalid, _⟩ := MaximalClique.collision_at_some graph τ v _ cur_v hcol
  obtain ⟨hfail, _, hstep⟩ := MaximalClique.inedge_step_collision graph τ v u cur_v coll hset
    hcol
  rw [MaximalClique.collide_cycle τ v _ _ cur_v _ hbt] at hstep
  refine ⟨hvalid, hfail, by rw [hstep], ?_, by rw [hstep]; rfl, ?_, ?_⟩
  · rw [hstep]
    simp [World.set_edge]
  · rw [hstep]
    simp [World.set_edge, World.set_vertex]
  · rw [hstep]
    simp [World.set_edge, hne.symm]

set_option maxRecDepth 100000 in
theorem cycle_breaking_witness :
    ∃ τ : World,
      τ = ((World.init false).set_edge 3 2 ⟨∅, ⟨true, {3}, {1}, ∅⟩, {2}⟩).set_edge 2 1
        ⟨∅, ⟨true, {0, 2}, ∅, ∅⟩, ∅⟩ ∧
      ((τ.edge_data 2 1).message.is_set = true ∧
        (MaximalClique.clique_enumerate [{1, 2, 4}, {0, 2, 3}, {0, 1, 3}, {1, 2}, {0}] τ 2
          (τ.edge_data 3 2).message (τ.edge_data 3 2).block_trace true).2.2 = false ∧
        (MaximalClique.inedge_step [{1, 2, 4}, {0, 2, 3}, {0, 1, 3}, {1, 2}, {0}] 2
          (τ, false) 3).2 = true ∧
        ((MaximalClique.inedge_step [{1, 2, 4}, {0, 2, 3}, {0, 1, 3}, {1, 2}, {0}] 2
          (τ, false) 3).1.edge_data 3 2).message =
          { (τ.edge_data 3 2).message with is_set := false } ∧
        (MaximalClique.inedge_step [{1, 2, 4}, {0, 2, 3}, {0, 1, 3}, {1, 2}, {0}] 2
          (τ, false) 3).1.cycle_messages =
          τ.cycle_messages ++ [(2, { (τ.edge_data 3 2).message with is_set := false })] ∧
        ((MaximalClique.inedge_step [{1, 2, 4}, {0, 2, 3}, {0, 1, 3}, {1, 2}, {0}] 2
          (τ, false) 3).1.vertex_data 2).cycles = (τ.vertex_data 2).cycles + 1 ∧
        ((MaximalClique.inedge_step [{1, 2, 4}, {0, 2, 3}, {0, 1, 3}, {1, 2}, {0}] 2
          (τ, false) 3).1.edge_data 2 1).block_trace = ∅) :=
  ⟨_, rfl,
    cycle_breaking [{1, 2, 4}, {0, 2, 3}, {0, 1, 3}, {1, 2}, {0}] _ 2 3 1 false (by decide)
      (by decide) (by decide) (by decide)⟩

set_option maxRecDepth 100000 in
/-- C33: the block trace is not cleared on a forward.  On the graph with the edges 0-1, 0-2,
0-4, 1-2, 1-3, 2-3, initialised in the order 0, 1, 2, 3, 4, the engine runs the
iterations `[0, 3]`, `[2, 4]`, `[1, 2]`.  In iteration 2 the vertex 2 forwards a
message to 1 and meets a collision on the same edge, which leaves the block
trace `{2}` on the edge from 2 to 1.  When the vertex 2 is updated in iteration
3 that edge is free and still carries the block trace `{2}`; the vertex handles
the message of its in-edge from 3 without collision and writes a new message
on the edge from 2 to 1, and the block trace of that edge is `{2}`, not
empty. -/
theorem forward_block_trace_kept :
    ∃ σ0 σ,
      engine_first [{1, 2, 4}, {0, 2, 3}, {0, 1, 3}, {1, 2}, {0}] false [0, 1, 2, 3, 4]
        = some σ0 ∧
      ValidSchedule [{1, 2, 4}, {0, 2, 3}, {0, 1, 3}, {1, 2}, {0}] 1
        [[0, 3], [2, 4], [1, 2]] σ0 ∧
      engine_run [{1, 2, 4}, {0, 2, 3}, {0, 1, 3}, {1, 2}, {0}] false [0, 1, 2, 3, 4]
        [[0, 3], [2, 4], [1]] = some σ ∧
      (σ.edge_data 3 2).message.is_set = true ∧
      (σ.edge_data 2 1).message.is_set = false ∧
      (σ.edge_data 2 1).block_trace = {2} ∧
      (MaximalClique.clique_enumerate [{1, 2, 4}, {0, 2, 3}, {0, 1, 3}, {1, 2}, {0}] σ 2
        (σ.edge_data 3 2).message (σ.edge_data 3 2).block_trace true).2.2 = true ∧
      ((MaximalClique.update [{1, 2, 4}, {0, 2, 3}, {0, 1, 3}, {1, 2}, {0}] 3 σ 2).edge_data
        2 1).message.is_set = true ∧
      ((MaximalClique.update [{1, 2, 4}, {0, 2, 3}, {0, 1, 3}, {1, 2}, {0}] 3 σ 2).edge_data
        2 1).message.current_clique = {2, 3} ∧
      ((MaximalClique.update [{1, 2, 4}, {0, 2, 3}, {0, 1, 3}, {1, 2}, {0}] 3 σ 2).edge_data
        2 1).block_trace = {2} :=
  ⟨_, _, rfl, by decide, rfl, by decide, by decide, by decide, by decide, by decide,
    by decide, by decide⟩

/-! ## The cycle counters of the distributed enumerator -/

theorem countersMatch_of_eq {σ τ : World} (hv : τ.vertex_data = σ.vertex_data)
    (hc : τ.cycle_messages = σ.cycle_messages) (h : CountersMatch σ) : CountersMatch τ := by
  intro a
  rw [hv, hc]
  exact h a

theorem countersMatch_fresh {σ : World} (hc : σ.cycle_messages = [])
    (hz : ∀ v, (σ.vertex_data v).cycles = 0) : CountersMatch σ := by
  intro a
  rw [hc, hz a]
  rfl

namespace MaximalClique

theorem counters_step (graph : Graph) (σ : World) (v : Nat) (m : Message) (bt : IdSet)
    (from_edge : Bool) (h : CountersMatch σ) :
    CountersMatch (clique_enumerate graph σ v m bt from_edge).1 := by
  rcases clique_enumerate_counters graph σ v m bt from_edge with ⟨h1, h2, _⟩ |
    ⟨_, _, _, h4, _, h6⟩
  · exact countersMatch_of_eq h2 h1 h
  · intro a
    rw [h4, h6, filter_length_append_singleton]
    by_cases ha : a = v
    · subst ha
      simp only [if_true]
      rw [h a]
    · simp only [ha, if_false]
      rw [if_neg (fun h0 : v = a => ha h0.symm), h a]
      simp

theorem counters_inedge_step (graph : Graph) (v : Nat) (st : World × Bool) (u : Nat)
    (h : CountersMatch st.1) : CountersMatch (inedge_step graph v st u).1 := by
  unfold inedge_step
  simp only
  split_ifs
  · exact countersMatch_of_eq rfl rfl (counters_step graph st.1 v _ _ true h)
  · exact countersMatch_of_eq rfl rfl (counters_step graph st.1 v _ _ true h)
  · exact h

theorem counters_inedge_fold (graph : Graph) (v : Nat) (l : List Nat) :
    ∀ st : World × Bool, CountersMatch st.1 →
      CountersMatch (l.foldl (inedge_step graph v) st).1 := by
  induction l with
  | nil => exact fun _ h => h
  | cons a l ih =>
    intro st h
    rw [List.foldl_cons]
    exact ih _ (counters_inedge_step graph v st a h)

/-- The replay loop of the vertex `v`: the local counter follows the entries of `v` in the
side table, it never grows, and the counters of the other vertices are not
touched. -/
theorem replay_counters (graph : Graph) (v : Nat) (todo : List (Nat × Message)) :
    ∀ (kept : List (Nat × Message)) (σ : World) (c : Int),
      σ.cycle_messages = kept ++ todo →
      c = ((σ.cycle_messages.filter (fun e => e.1 = v)).length : Int) →
      (∀ a, a ≠ v →
        (σ.vertex_data a).cycles = ((σ.cycle_messages.filter (fun e => e.1 = a)).length : Int)) →
      (replay graph v todo kept σ c).2 =
          (((replay graph v todo kept σ c).1.cycle_messages.filter
            (fun e => e.1 = v)).length : Int) ∧
        (replay graph v todo kept σ c).2 ≤ c ∧
        (∀ a, a ≠ v →
          ((replay graph v todo kept σ c).1.vertex_data a).cycles =
            (((replay graph v todo kept σ c).1.cycle_messages.filter
              (fun e => e.1 = a)).length : Int)) ∧
        ∀ a, a ≠ v →
          ((replay graph v todo kept σ c).1.vertex_data a).cycles = (σ.vertex_data a).cycles := by
  induction todo with
  | nil =>
    intro kept σ c _ hc ho
    rw [replay]
    exact ⟨hc, le_refl _, ho, fun _ _ => rfl⟩
  | cons entry rest ih =>
    intro kept σ c hσ hc ho
    by_cases he : entry.1 = v
    · have hfr := clique_enumerate_counters graph σ v entry.2 ∅ false
      have hsame : (clique_enumerate graph σ v entry.2 ∅ false).1.cycle_messages
            = σ.cycle_messages ∧
          (clique_enumerate graph σ v entry.2 ∅ false).1.vertex_data = σ.vertex_data := by
        rcases hfr with ⟨h1, h2, _⟩ | ⟨h1, _⟩
        · exact ⟨h1, h2⟩
        · cases h1
      cases h2 : (clique_enumerate graph σ v entry.2 ∅ false).2.2 with
      | false =>
        rw [replay_fail graph v entry rest kept σ c he h2]
        obtain ⟨i1, i2, i3, i4⟩ := ih (kept ++ [entry])
          (clique_enumerate graph σ v entry.2 ∅ false).1 c
          (by rw [hsame.1, hσ, List.append_assoc]; rfl)
          (by rw [hsame.1]; exact hc)
          (by
            intro a ha
            rw [hsame.1, hsame.2]
            exact ho a ha)
        refine ⟨i1, i2, i3, ?_⟩
        intro a ha
        rw [i4 a ha, hsame.2]
      | true =>
        have hrem : ∀ a, (((kept ++ rest).filter (fun e => e.1 = a)).length : Int) =
            ((σ.cycle_messages.filter (fun e => e.1 = a)).length : Int)
              - (if entry.1 = a then 1 else 0) := by
          intro a
          rw [hσ]
          exact filter_length_remove kept rest entry a
        have hcv : c - 1 = (((kept ++ rest).filter (fun e => e.1 = v)).length : Int) := by
          rw [hrem v, if_pos he, hc]
        have hoth : ∀ a, a ≠ v →
            (σ.vertex_data a).cycles = (((kept ++ rest).filter (fun e => e.1 = a)).length : Int) := by
          intro a ha
          rw [hrem a, if_neg (fun h0 => ha (h0.symm.trans he)), ho a ha]
          simp
        by_cases h3 : c - 1 = 0
        · rw [replay_done graph v entry rest kept σ c he h2 h3]
          refine ⟨hcv, by omega, ?_, ?_⟩
          · intro a ha
            show ((clique_enumerate graph σ v entry.2 ∅ false).1.vertex_data a).cycles = _
            rw [hsame.2]
            exact hoth a ha
          · intro a _
            show ((clique_enumerate graph σ v entry.2 ∅ false).1.vertex_data a).cycles = _
            rw [hsame.2]
        · rw [replay_next graph v entry rest kept σ c he h2 h3]
          obtain ⟨i1, i2, i3, i4⟩ := ih kept
            { (clique_enumerate graph σ v entry.2 ∅ false).1 with
              cycle_messages := kept ++ rest } (c - 1) rfl hcv
            (by
              intro a ha
              show ((clique_enumerate graph σ v entry.2 ∅ false).1.vertex_data a).cycles = _
              rw [hsame.2]
              exact hoth a ha)
          refine ⟨i1, by omega, i3, ?_⟩
          intro a ha
          rw [i4 a ha]
          show ((clique_enumerate graph σ v entry.2 ∅ false).1.vertex_data a).cycles = _
          rw [hsame.2]
    · rw [replay_skip graph v entry rest kept σ c he]
      exact ih (kept ++ [entry]) σ c (by rw [hσ, List.append_assoc]; rfl) hc ho

/-- The first part of `handle_messages` keeps the counters in step with the side table; the
counter of the vertex does not grow and the other counters are not touched. -/
theorem counters_replay_stage (graph : Graph) (σ : World) (v : Nat) (h : CountersMatch σ) :
    CountersMatch (replay_stage graph σ v) ∧
      ((replay_stage graph σ v).vertex_data v).cycles ≤ (σ.vertex_data v).cycles ∧
      ∀ a, a ≠ v → ((replay_stage graph σ v).vertex_data a).cycles = (σ.vertex_data a).cycles := by
  unfold replay_stage
  simp only
  by_cases hpos : (σ.vertex_data v).cycles > 0
  · rw [if_pos hpos]
    obtain ⟨r1, r2, r3, r4⟩ := replay_counters graph v σ.cycle_messages [] σ
      (σ.vertex_data v).cycles rfl (h v) (fun a _ => h a)
    refine ⟨?_, ?_, ?_⟩
    · intro a
      by_cases ha : a = v
      · subst ha
        simp only [World.set_vertex, if_true]
        exact r1
      · simp only [World.set_vertex, ha, if_false]
        exact r3 a ha
    · simp only [World.set_vertex, if_true]
      exact r2
    · intro a ha
      simp only [World.set_vertex, ha, if_false]
      exact r4 a ha
  · rw [if_neg hpos]
    refine ⟨?_, ?_, ?_⟩
    · intro a
      by_cases ha : a = v
      · subst ha
        simp only [World.set_vertex, if_true]
        exact h a
      · simp only [World.set_vertex, ha, if_false]
        exact h a
    · simp only [World.set_vertex, if_true]
      exact le_refl _
    · intro a ha
      simp only [World.set_vertex, ha, if_false]

theorem counters_handle_messages (graph : Graph) (σ : World) (v : Nat)
    (h : CountersMatch σ) : CountersMatch (handle_messages graph σ v) := by
  rw [handle_messages_stage]
  have h1 := counters_inedge_fold graph v (in_edges graph v) (replay_stage graph σ v, false)
    (counters_replay_stage graph σ v h).1
  split_ifs
  · exact countersMatch_of_eq rfl rfl h1
  · exact countersMatch_of_eq rfl rfl h1

theorem counters_start (graph : Graph) (σ : World) (v : Nat) (h : CountersMatch σ) :
    CountersMatch (start graph σ v) := by
  unfold start
  simp only
  split_ifs
  · exact counters_step graph σ v _ _ true h
  · exact counters_step graph _ v _ _ true (countersMatch_of_eq rfl rfl h)

theorem counters_update (graph : Graph) (iteration : Nat) (σ : World) (v : Nat)
    (hk : 0 < iteration) (h : CountersMatch σ) :
    CountersMatch (update graph iteration σ v) := by
  unfold update
  rw [if_neg (by omega)]
  simp only
  split_ifs
  · exact counters_handle_messages graph _ v (counters_start graph σ v h)
  · exact counters_handle_messages graph σ v h

theorem counters_update_fold (graph : Graph) (iteration : Nat) (hk : 0 < iteration)
    (l : List Nat) :
    ∀ σ : World, CountersMatch σ → CountersMatch (l.foldl (update graph iteration) σ) := by
  induction l with
  | nil => exact fun _ h => h
  | cons a l ih =>
    intro σ h
    rw [List.foldl_cons]
    exact ih _ (counters_update graph iteration σ a hk h)

theorem set_edge_fold_frame (f : World → Nat → EdgeData) (v : Nat) (l : List Nat) :
    ∀ σ : World,
      (l.foldl (fun σ u => σ.set_edge u v (f σ u)) σ).vertex_data = σ.vertex_data ∧
      (l.foldl (fun σ u => σ.set_edge u v (f σ u)) σ).cycle_messages = σ.cycle_messages := by
  induction l with
  | nil => exact fun _ => ⟨rfl, rfl⟩
  | cons a l ih =>
    intro σ
    rw [List.foldl_cons]
    obtain ⟨i1, i2⟩ := ih (σ.set_edge a v (f σ a))
    exact ⟨i1, i2⟩

/-- The method `initialize` leaves the side table alone and sets no counter to a value
other than zero. -/
theorem initialise_fresh (graph : Graph) (σ : World) (v : Nat)
    (hc : σ.cycle_messages = []) (hz : ∀ a, (σ.vertex_data a).cycles = 0) :
    (initialise graph σ v).cycle_messages = [] ∧
      ∀ a, ((initialise graph σ v).vertex_data a).cycles = 0 := by
  unfold initialise
  by_cases hedges : (in_edges graph v).length + (out_edges graph v).length > 0
  · rw [if_pos hedges]
    simp only
    obtain ⟨f1, f2⟩ := set_edge_fold_frame
      (fun σ u => { σ.edge_data u v with neighbours := get_neighbours graph σ v }) v
      (in_edges graph v)
      (σ.set_vertex v { σ.vertex_data v with
        neighbours := get_neighbours graph σ v, neighbours_set := true, cycles := 0 })
    have hcm : ((in_edges graph v).foldl
        (fun τ u => τ.set_edge u v { τ.edge_data u v with neighbours := get_neighbours graph σ v })
        (σ.set_vertex v { σ.vertex_data v with
          neighbours := get_neighbours graph σ v, neighbours_set := true,
          cycles := 0 })).cycle_messages = [] := by
      have := (set_edge_fold_frame
        (fun τ u => { τ.edge_data u v with neighbours := get_neighbours graph σ v }) v
        (in_edges graph v)
        (σ.set_vertex v { σ.vertex_data v with
          neighbours := get_neighbours graph σ v, neighbours_set := true, cycles := 0 })).2
      rw [this]
      exact hc
    have hvd : ∀ a, (((in_edges graph v).foldl
        (fun τ u => τ.set_edge u v { τ.edge_data u v with neighbours := get_neighbours graph σ v })
        (σ.set_vertex v { σ.vertex_data v with
          neighbours := get_neighbours graph σ v, neighbours_set := true,
          cycles := 0 })).vertex_data a).cycles = 0 := by
      intro a
      have := (set_edge_fold_frame
        (fun τ u => { τ.edge_data u v with neighbours := get_neighbours graph σ v }) v
        (in_edges graph v)
        (σ.set_vertex v { σ.vertex_data v with
          neighbours := get_neighbours graph σ v, neighbours_set := true, cycles := 0 })).1
      rw [this]
      simp only [World.set_vertex]
      split_ifs
      · rfl
      · exact hz a
    split_ifs
    · exact ⟨hcm, hvd⟩
    · exact ⟨hcm, hvd⟩
  · rw [if_neg hedges]
    simp only
    split_ifs
    · exact ⟨hc, hz⟩
    · exact ⟨hc, hz⟩

theorem initialise_fold_fresh (graph : Graph) (l : List Nat) :
    ∀ σ : World, σ.cycle_messages = [] → (∀ a, (σ.vertex_data a).cycles = 0) →
      (l.foldl (update graph 0) σ).cycle_messages = [] ∧
        ∀ a, ((l.foldl (update graph 0) σ).vertex_data a).cycles = 0 := by
  induction l with
  | nil => exact fun _ hc hz => ⟨hc, hz⟩
  | cons a l ih =>
    intro σ hc hz
    rw [List.foldl_cons]
    have hu : update graph 0 σ a = initialise graph σ a := by
      unfold update
      rw [if_pos rfl]
    rw [hu]
    obtain ⟨h1, h2⟩ := initialise_fresh graph σ a hc hz
    exact ih _ h1 h2

theorem add_task_fold_frame (p : World → Nat → Prop) [∀ σ i, Decidable (p σ i)]
    (l : List Nat) :
    ∀ σ : World,
      (l.foldl (fun σ i => if p σ i then σ.add_task i else σ) σ).vertex_data = σ.vertex_data ∧
      (l.foldl (fun σ i => if p σ i then σ.add_task i else σ) σ).cycle_messages
        = σ.cycle_messages := by
  induction l with
  | nil => exact fun _ => ⟨rfl, rfl⟩
  | cons a l ih =>
    intro σ
    rw [List.foldl_cons]
    by_cases h : p σ a
    · rw [if_pos h]
      obtain ⟨i1, i2⟩ := ih (σ.add_task a)
      exact ⟨i1, i2⟩
    · rw [if_neg h]
      exact ih σ

theorem counters_after_iteration (graph : Graph) (iteration : Nat) (σ : World)
    (h : CountersMatch σ) : CountersMatch (after_iteration graph iteration σ) := by
  unfold after_iteration
  cases σ.start_id with
  | none => exact h
  | some s =>
    simp only
    split_ifs
    · obtain ⟨f1, f2⟩ := add_task_fold_frame
        (fun σ i => i ∉ σ.start_neighbours ∧ i ∈ σ.start_cands) (List.range graph.length)
        { σ.add_task s with start_cands := (σ.add_task s).start_cands.erase s }
      exact countersMatch_of_eq f1 f2 (countersMatch_of_eq rfl rfl h)
    · exact h

end MaximalClique

theorem counters_engine_first (graph : Graph) (singletons : Bool) (order : List Nat)
    (σ : World) (h : engine_first graph singletons order = some σ) : CountersMatch σ := by
  unfold engine_first at h
  split_ifs at h
  simp only [Option.some.injEq] at h
  subst h
  apply MaximalClique.counters_after_iteration
  obtain ⟨h1, h2⟩ := MaximalClique.initialise_fold_fresh graph order
    { World.init singletons with start_cands := Finset.range MAX_VERTICES } rfl (fun _ => rfl)
  exact countersMatch_fresh h1 h2

theorem counters_engine_iterations (graph : Graph) (schedule : List (List Nat)) :
    ∀ (iteration : Nat) (σ : World), 0 < iteration → CountersMatch σ →
      CountersMatch (engine_iterations graph iteration schedule σ) := by
  induction schedule with
  | nil =>
    intro iteration σ _ h
    rw [engine_iterations]
    exact h
  | cons order schedule ih =>
    intro iteration σ hk h
    rw [engine_iterations]
    apply ih (iteration + 1) _ (by omega)
    apply MaximalClique.counters_after_iteration
    exact MaximalClique.counters_update_fold graph iteration hk order _
      (countersMatch_of_eq rfl rfl h)

/-- C34: the cycle counters of the distributed enumerator.  The counter `_cycles` of every
vertex equals the number of the entries of the side table stored for the vertex
after the initialisation from a fresh state (empty side table, counters zero),
after every call of `handle_messages`, after every vertex update of a later
iteration, and in every world that a run of the engine reaches, where it is
therefore never negative.  A call of `clique_enumerate` changes a counter only
when it defers a message on a cycle, and then it adds one to the counter of the
vertex and one entry for the vertex to the side table; the replay of the stored
messages in `handle_messages` does not let the counter of the vertex grow and
leaves the other counters alone. -/
theorem cycle_counter_invariant (graph : Graph) :
    (∀ (σ : World) (order : List Nat), σ.cycle_messages = [] →
      (∀ v, (σ.vertex_data v).cycles = 0) →
      CountersMatch (order.foldl (MaximalClique.update graph 0) σ)) ∧
    (∀ (σ : World) (v : Nat), CountersMatch σ →
      CountersMatch (MaximalClique.handle_messages graph σ v)) ∧
    (∀ (σ : World) (v iteration : Nat), 0 < iteration → CountersMatch σ →
      CountersMatch (MaximalClique.update graph iteration σ v)) ∧
    (∀ (singletons : Bool) (order : List Nat) (schedule : List (List Nat)) (σ : World),
      engine_run graph singletons order schedule = some σ →
      CountersMatch σ ∧ ∀ v, 0 ≤ (σ.vertex_data v).cycles) ∧
    (∀ (σ : World) (v : Nat) (m : Message) (bt : IdSet) (from_edge : Bool) (a : Nat),
      ((MaximalClique.clique_enumerate graph σ v m bt from_edge).1.vertex_data a).cycles
          = (σ.vertex_data a).cycles ∨
        (a = v ∧ from_edge = true ∧ v ∈ bt ∧
          (MaximalClique.clique_enumerate graph σ v m bt from_edge).2.2 = false ∧
          ((MaximalClique.clique_enumerate graph σ v m bt from_edge).1.vertex_data a).cycles
            = (σ.vertex_data a).cycles + 1 ∧
          (MaximalClique.clique_enumerate graph σ v m bt from_edge).1.cycle_messages
            = σ.cycle_messages ++ [(v, { m with is_set := false })])) ∧
    (∀ (σ : World) (v : Nat), CountersMatch σ →
      CountersMatch (MaximalClique.replay_stage graph σ v) ∧
        ((MaximalClique.replay_stage graph σ v).vertex_data v).cycles
          ≤ (σ.vertex_data v).cycles ∧
        ∀ a, a ≠ v →
          ((MaximalClique.replay_stage graph σ v).vertex_data a).cycles
            = (σ.vertex_data a).cycles) := by
  refine ⟨?_, MaximalClique.counters_handle_messages graph, ?_, ?_, ?_,
    MaximalClique.counters_replay_stage graph⟩
  · intro σ order hc hz
    obtain ⟨h1, h2⟩ := MaximalClique.initialise_fold_fresh graph order σ hc hz
    exact countersMatch_fresh h1 h2
  · intro σ v iteration hk h
    exact MaximalClique.counters_update graph iteration σ v hk h
  · intro singletons order schedule σ h
    unfold engine_run at h
    cases h1 : engine_first graph singletons order with
    | none =>
      rw [h1] at h
      cases h
    | some σ0 =>
      rw [h1] at h
      simp only [Option.map_some', Option.some.injEq] at h
      subst h
      have hm := counters_engine_iterations graph schedule 1 σ0 (by omega)
        (counters_engine_first graph singletons order σ0 h1)
      refine ⟨hm, ?_⟩
      intro v
      rw [hm v]
      exact Int.natCast_nonneg _
  · intro σ v m bt from_edge a
    rcases MaximalClique.clique_enumerate_counters graph σ v m bt from_edge with
      ⟨_, h2, _⟩ | ⟨h1, h2, h3, h4, _, h6⟩
    · left
      rw [h2]
    · by_cases ha : a = v
      · right
        subst ha
        refine ⟨rfl, h1, h2, h3, ?_, h4⟩
        rw [h6]
        simp
      · left
        rw [h6]
        simp [ha]

end Nearness
